import Mathlib

/-! Polynomial rewriter (`poly_rewriter_def.h`): shallow embedding.

Terms of the hash-consed expression DAG are modelled by the inductive type `Expr`;
pointer equality of nodes is structural equality of terms.  Loops over argument
buffers become recursive functions over lists carrying the loop state explicitly.
Coefficients are exact rationals.
-/

set_option autoImplicit false

/-- Function symbols.  `add`, `mul`, `uminus`, `sub`, `power` and `arith k` belong to the
arithmetic family; `ite` (basic family) and `uf k` (uninterpreted) do not. -/
inductive Func
  | add
  | mul
  | uminus
  | sub
  | power
  | arith (k : Nat)
  | ite
  | uf (k : Nat)
  deriving DecidableEq, Repr

/-- Nodes of the expression DAG: numerals, (bound) variables and applications. -/
inductive Expr
  | num (q : ℚ)
  | var (idx : Nat)
  | app (f : Func) (args : List Expr)

/-- Rewrite status `br_status`. -/
inductive br_status
  | BR_DONE
  | BR_REWRITE1
  | BR_REWRITE2
  | BR_REWRITE_FULL
  | BR_FAILED
  deriving DecidableEq, Repr

namespace Expr

mutual
/-- Decision procedure for equality of terms (pointer equality of hash-consed nodes). -/
def decEqExpr : (a b : Expr) → Decidable (a = b)
  | num p, num q =>
    if h : p = q then isTrue (by rw [h]) else isFalse (by intro e; cases e; exact h rfl)
  | var i, var j =>
    if h : i = j then isTrue (by rw [h]) else isFalse (by intro e; cases e; exact h rfl)
  | app f as, app g bs =>
    if h : f = g then
      match decEqList as bs with
      | isTrue h2 => isTrue (by rw [h, h2])
      | isFalse h2 => isFalse (by intro e; cases e; exact h2 rfl)
    else isFalse (by intro e; cases e; exact h rfl)
  | num _, var _ => isFalse (by intro e; cases e)
  | num _, app _ _ => isFalse (by intro e; cases e)
  | var _, num _ => isFalse (by intro e; cases e)
  | var _, app _ _ => isFalse (by intro e; cases e)
  | app _ _, num _ => isFalse (by intro e; cases e)
  | app _ _, var _ => isFalse (by intro e; cases e)
/-- Decision procedure for equality of argument lists. -/
def decEqList : (as bs : List Expr) → Decidable (as = bs)
  | [], [] => isTrue rfl
  | [], _ :: _ => isFalse (by intro e; cases e)
  | _ :: _, [] => isFalse (by intro e; cases e)
  | a :: as, b :: bs =>
    match decEqExpr a b with
    | isTrue h1 =>
      match decEqList as bs with
      | isTrue h2 => isTrue (by rw [h1, h2])
      | isFalse h2 => isFalse (by intro e; cases e; exact h2 rfl)
    | isFalse h1 => isFalse (by intro e; cases e; exact h1 rfl)
end

instance : DecidableEq Expr := decEqExpr

/-- Combined inspector `is_numeral(e, a)`: the value of a numeral node, if `e` is one. -/
def is_numeral : Expr → Option ℚ
  | num q => some q
  | _ => none

/-- Inspector `is_var`. -/
def is_var : Expr → Bool
  | var _ => true
  | _ => false

/-- Inspector `is_add`. -/
def is_add : Expr → Bool
  | app .add _ => true
  | _ => false

/-- Inspector `is_mul`. -/
def is_mul : Expr → Bool
  | app .mul _ => true
  | _ => false

/-- Inspector `is_power`. -/
def is_power : Expr → Bool
  | app .power _ => true
  | _ => false

/-- Inspector `M().is_ite`. -/
def is_ite : Expr → Bool
  | app .ite [_, _, _] => true
  | _ => false

/-- Arguments of an application, `to_app(e)->get_args()`; numerals and variables have none. -/
def get_args : Expr → List Expr
  | app _ as => as
  | _ => []

/-- Number of arguments `to_app(e)->get_num_args()`. -/
def get_num_args (e : Expr) : Nat := e.get_args.length

/-- Argument accessor `to_app(e)->get_arg(i)`.  The factory only builds applications whose
arity matches their symbol, so the default is never observed on well-formed terms. -/
def get_arg (e : Expr) (i : Nat) : Expr := e.get_args.getD i (num 0)

end Expr

/-- Family test `f->get_family_id() == get_fid()` on function symbols. -/
def Func.is_arith : Func → Bool
  | .ite => false
  | .uf _ => false
  | _ => true

open Expr

/-- Test `is_essentially_var(n, fid)`: a variable or an application outside the arithmetic
family.  Numerals are constants of the arithmetic family. -/
def is_essentially_var : Expr → Bool
  | var _ => true
  | num _ => false
  | app f _ => !f.is_arith

/-- Constructor `mk_numeral`. -/
def mk_numeral (c : ℚ) : Expr := num c

/-- Modelled from the spec: the `Config::mk_power` hook, which builds `(^ x k)`. -/
def mk_power (x : Expr) (k : ℚ) : Expr := app .power [x, num k]

/-- Requirement of `std::sort` on its comparator: a strict weak ordering. -/
def StrictWeak (lt : Expr → Expr → Bool) : Prop :=
  (∀ a, lt a a = false) ∧
  (∀ a b c, lt a b = true → lt b c = true → lt a c = true) ∧
  (∀ a b c, lt a b = false → lt b c = false → lt a c = false)

/-- State of a `poly_rewriter<Config>` instance together with the collaborators it consumes:
the option flags, the `Config` hooks `use_power` and `normalize`, the factory's node
identifiers (`get_id`, unique per node) and `std::sort` (any function that returns a sorted
permutation when the comparator is a strict weak ordering). -/
structure poly_rewriter where
  m_flat : Bool
  m_som : Bool
  m_som_blowup : Nat
  m_hoist_mul : Bool
  m_hoist_ite : Bool
  m_sort_sums : Bool
  m_ast_order : Bool
  use_power : Bool
  normalize : ℚ → ℚ
  get_id : Expr → Nat
  get_id_inj : Function.Injective get_id
  std_sort : (Expr → Expr → Bool) → List Expr → List Expr
  std_sort_perm : ∀ lt l, List.Perm (std_sort lt l) l
  std_sort_sorted : ∀ lt l, StrictWeak lt → List.Pairwise (fun a b => lt b a = false) (std_sort lt l)

namespace poly_rewriter

/-- Constructor `mk_add_app(num_args, args)`. -/
def mk_add_app : List Expr → Expr
  | [] => mk_numeral 0
  | [a] => a
  | args => app .add args

/-- Destructor `get_power_body(t, k)`: `(^ x k)` with `k` an integer numeral greater than one
gives `(x, k)`; everything else gives `(t, 1)`. -/
def get_power_body (t : Expr) : Expr × ℚ :=
  if !t.is_power then (t, 1)
  else
    match (t.get_arg 1).is_numeral with
    | some k => if k.isInt && decide (1 < k) then (t.get_arg 0, k) else (t, 1)
    | none => (t, 1)

/-- Test `is_zero(e)`. -/
def is_zero (e : Expr) : Bool :=
  match e.is_numeral with
  | some v => decide (v = 0)
  | none => false

/-- The lambda `push_power` of `mk_mul_app`; `coerce` is the identity on a single sort. -/
def push_power (prev : Expr) (k_prev : ℚ) : Expr :=
  if k_prev = 1 then prev else mk_power prev k_prev

/-- The loop of `mk_mul_app` that folds runs of equal bases, followed by the final
`push_power()`. -/
def fold_powers (prev : Expr) (k_prev : ℚ) : List Expr → List Expr
  | [] => [push_power prev k_prev]
  | a :: rest =>
    if (get_power_body a).1 = prev then fold_powers prev (k_prev + (get_power_body a).2) rest
    else push_power prev k_prev :: fold_powers (get_power_body a).1 (get_power_body a).2 rest

mutual
/-- Constructor `mk_mul_app(num_args, args)`; the first argument bounds the recursion depth. -/
def mk_mul_app_aux (rw : poly_rewriter) : Nat → List Expr → Expr
  | _, [] => mk_numeral 1
  | _, [a] => a
  | 0, _ :: _ :: _ => mk_numeral 1
  | fuel + 1, a0 :: a1 :: rest =>
    if rw.use_power then
      match fold_powers (get_power_body a0).1 (get_power_body a0).2 (a1 :: rest) with
      | [] => mk_numeral 1
      | [x] => x
      | x :: y :: new_rest =>
        match x.is_numeral with
        | some a =>
          if 2 < (x :: y :: new_rest).length then
            mk_mul_app_num_aux rw fuel a (mk_mul_app_aux rw fuel (y :: new_rest))
          else app .mul (x :: y :: new_rest)
        | none => app .mul (x :: y :: new_rest)
    else
      match a0.is_numeral with
      | some a =>
        if 2 < (a0 :: a1 :: rest).length then
          mk_mul_app_num_aux rw fuel a (mk_mul_app_aux rw fuel (a1 :: rest))
        else app .mul (a0 :: a1 :: rest)
      | none => app .mul (a0 :: a1 :: rest)
/-- Constructor `mk_mul_app(c, arg)`. -/
def mk_mul_app_num_aux (rw : poly_rewriter) : Nat → ℚ → Expr → Expr
  | fuel, c, arg =>
    if c = 1 then arg
    else if is_zero arg then arg
    else
      match fuel with
      | 0 => mk_numeral 1
      | fuel + 1 => mk_mul_app_aux rw fuel [mk_numeral c, arg]
end

end poly_rewriter

namespace poly_rewriter

/-- Constructor `mk_mul_app(num_args, args)`. -/
def mk_mul_app (rw : poly_rewriter) (args : List Expr) : Expr :=
  mk_mul_app_aux rw (args.length + 1) args

/-- Constructor `mk_mul_app(c, arg)`. -/
def mk_mul_app_num (rw : poly_rewriter) (c : ℚ) (arg : Expr) : Expr :=
  mk_mul_app_num_aux rw 3 c arg

/-- Destructor `get_power_product(t)`. -/
def get_power_product (t : Expr) : Expr :=
  if t.is_mul && t.get_num_args == 2 && (t.get_arg 0).is_numeral.isSome then t.get_arg 1 else t

/-- Destructor `get_power_product(t, a)`: the power product together with the coefficient. -/
def get_power_product_coeff (t : Expr) : Expr × ℚ :=
  if t.is_mul && t.get_num_args == 2 then
    match (t.get_arg 0).is_numeral with
    | some a => (t.get_arg 1, a)
    | none => (t, 1)
  else (t, 1)

/-- Destructor `is_mul(t, c, pp)`. -/
def is_mul_coeff (t : Expr) : Option (ℚ × Expr) :=
  if !t.is_mul || t.get_num_args != 2 then none
  else
    match (t.get_arg 0).is_numeral with
    | some c => some (c, t.get_arg 1)
    | none => none

end poly_rewriter

/-- Position of a function symbol in the factory's symbol table. -/
def Func.code : Func → Nat
  | .add => 0
  | .mul => 1
  | .uminus => 2
  | .sub => 3
  | .power => 4
  | .ite => 5
  | .arith k => 6 + 2 * k
  | .uf k => 7 + 2 * k

/-- Lexicographic combination of two comparison results. -/
def Ordering.andThen : Ordering → Ordering → Ordering
  | .eq, o => o
  | o, _ => o

/-- Three-way comparison of two rationals. -/
def rat_cmp (p q : ℚ) : Ordering :=
  if p < q then .lt else if q < p then .gt else .eq

/-- Three-way comparison of two natural numbers. -/
def nat_cmp (m n : Nat) : Ordering :=
  if m < n then .lt else if n < m then .gt else .eq

mutual
/-- Modelled from the spec: the factory's structural comparison behind `lt` of `ast_lt.h`,
which is not part of the sources at hand.  Nodes are compared by kind tag (numeral, variable,
application), then applications by arity, by symbol, and child-wise from left to right. -/
def ast_cmp : Expr → Expr → Ordering
  | .num p, .num q => rat_cmp p q
  | .num _, .var _ => .lt
  | .num _, .app _ _ => .lt
  | .var _, .num _ => .gt
  | .var i, .var j => nat_cmp i j
  | .var _, .app _ _ => .lt
  | .app _ _, .num _ => .gt
  | .app _ _, .var _ => .gt
  | .app f as, .app g bs =>
    (nat_cmp as.length bs.length).andThen ((nat_cmp f.code g.code).andThen (ast_cmp_list as bs))
/-- Modelled from the spec: child-wise comparison of two argument lists of `ast_cmp`. -/
def ast_cmp_list : List Expr → List Expr → Ordering
  | [], [] => .eq
  | [], _ :: _ => .lt
  | _ :: _, [] => .gt
  | a :: as, b :: bs => (ast_cmp a b).andThen (ast_cmp_list as bs)
end

/-- Modelled from the spec: the AST order `lt(e1, e2)` of `ast_lt.h`, a total order derived
from the factory's structural ordering. -/
def ast_lt (e1 e2 : Expr) : Bool :=
  match ast_cmp e1 e2 with
  | .lt => true
  | _ => false

namespace poly_rewriter

/-- Ordinal `mon_lt::ordinal(e)`. -/
def ordinal (rw : poly_rewriter) (e : Expr) : Int :=
  if is_essentially_var e then (rw.get_id e : Int)
  else if e.is_mul then
    if (e.get_arg 0).is_numeral.isSome then (rw.get_id (e.get_arg 1) : Int)
    else (rw.get_id e : Int)
  else if e.is_numeral.isSome then -1
  else if rw.use_power && e.is_power &&
      (match (e.get_arg 1).is_numeral with
       | some k => decide (1 < k)
       | none => false) then (rw.get_id (e.get_arg 0) : Int)
  else (rw.get_id e : Int)

/-- Comparator `mon_lt::operator()(e1, e2)`. -/
def mon_lt (rw : poly_rewriter) (e1 e2 : Expr) : Bool :=
  if rw.m_ast_order then ast_lt e1 e2
  else decide (rw.ordinal e1 < rw.ordinal e2)

end poly_rewriter

/-- Variable assignment: values for the terms the arithmetic does not interpret and truth
values for the conditions of `ite`. -/
structure Assignment where
  val : Expr → ℚ
  cond : Expr → Bool

mutual
/-- Value of a term under an assignment.  `(^ b k)` with `k` a non-negative integer numeral
denotes `b` raised to `k`; other powers, other arithmetic operators, variables and
uninterpreted applications are atoms valued by the assignment. -/
def eval (σ : Assignment) : Expr → ℚ
  | .num q => q
  | .var i => σ.val (.var i)
  | .app .add as => eval_sum σ as
  | .app .mul as => eval_prod σ as
  | .app .uminus [a] => - eval σ a
  | .app .sub (a :: as) => eval σ a - eval_sum σ as
  | .app .power [b, .num k] =>
    if k.isInt && decide (0 ≤ k) then eval σ b ^ k.num.toNat else σ.val (.app .power [b, .num k])
  | .app .ite [c, t, e] => if σ.cond c then eval σ t else eval σ e
  | .app f as => σ.val (.app f as)
/-- Sum of the values of a list of terms. -/
def eval_sum (σ : Assignment) : List Expr → ℚ
  | [] => 0
  | a :: as => eval σ a + eval_sum σ as
/-- Product of the values of a list of terms. -/
def eval_prod (σ : Assignment) : List Expr → ℚ
  | [] => 1
  | a :: as => eval σ a * eval_prod σ as
end

mutual
/-- Number of nodes of a term. -/
def Expr.size : Expr → Nat
  | .num _ => 1
  | .var _ => 1
  | .app _ as => 1 + Expr.size_list as
/-- Number of nodes of a list of terms. -/
def Expr.size_list : List Expr → Nat
  | [] => 0
  | a :: as => Expr.size a + Expr.size_list as
end

mutual
/-- Arity contracts the factory enforces on applications: sums, products and differences have
at least one argument, `uminus` has one, `power` two and `ite` three. -/
def Expr.wf : Expr → Bool
  | .num _ => true
  | .var _ => true
  | .app f as =>
    (match f with
     | .add => decide (1 ≤ as.length)
     | .mul => decide (1 ≤ as.length)
     | .sub => decide (1 ≤ as.length)
     | .uminus => decide (as.length = 1)
     | .power => decide (as.length = 2)
     | .ite => decide (as.length = 3)
     | _ => true) && Expr.wf_list as
/-- Arity contracts on every term of a list. -/
def Expr.wf_list : List Expr → Bool
  | [] => true
  | a :: as => Expr.wf a && Expr.wf_list as
end

namespace poly_rewriter

/-- The loop of the macro `TO_BUFFER(tester, buffer, e)`: `done` entries are behind the
index, the list argument is the rest of the buffer.  An application accepted by the tester
is replaced in place by its first argument and its other arguments go to the end of the
buffer.  The first argument bounds the number of iterations. -/
def to_buffer_loop (tester : Expr → Bool) : Nat → List Expr → List Expr
  | _, [] => []
  | 0, e :: rest => e :: rest
  | fuel + 1, e :: rest =>
    if tester e then to_buffer_loop tester fuel (e.get_arg 0 :: (rest ++ e.get_args.tail))
    else e :: to_buffer_loop tester fuel rest

/-- Macro `TO_BUFFER(tester, buffer, e)` on an empty buffer. -/
def TO_BUFFER (tester : Expr → Bool) (e : Expr) : List Expr :=
  to_buffer_loop tester (2 * e.size) [e]

/-- Exchange of two buffer entries, `std::swap(m[i], m[k])`. -/
def swap_entries (m : List Expr) (i k : Nat) : List Expr :=
  (m.set i (m.getD k (num 0))).set k (m.getD i (num 0))

/-- Inner search loop of `merge_muls` over the entries from index `j` on. -/
def find_index (x : Expr) : List Expr → Nat → Option Nat
  | [], _ => none
  | y :: ys, j => if y = x then some j else find_index x ys (j + 1)

/-- Inner search of `merge_muls`: the first index `j` at or after `k` with `m2[j] == x`. -/
def find_from (m2 : List Expr) (x : Expr) (k : Nat) : Option Nat :=
  find_index x (m2.drop k) k

/-- Outer loop of `merge_muls` over the indices `i` of `m1`, given as the list of indices
still to visit; the state is `(m1, m2, k)`. -/
def merge_loop : List Nat → List Expr × List Expr × Nat → List Expr × List Expr × Nat
  | [], st => st
  | i :: is, (m1, m2, k) =>
    match find_from m2 (m1.getD i (num 0)) k with
    | some j => merge_loop is (swap_entries m1 i k, swap_entries m2 j k, k + 1)
    | none => merge_loop is (m1, m2, k)

/-- Function `merge_muls(x, y)`. -/
def merge_muls (rw : poly_rewriter) (x y : Expr) : Expr :=
  let m1 := TO_BUFFER Expr.is_mul x
  let m2 := TO_BUFFER Expr.is_mul y
  match merge_loop (List.range m1.length) (m1, m2, 0) with
  | (m1, m2, k) =>
    rw.mk_mul_app (m1.take k ++ [mk_add_app [rw.mk_mul_app (m1.drop k), rw.mk_mul_app (m2.drop k)]])

/-- Lookup `mul_map.find(e, j)` in the map from factors to summand indices. -/
def map_find (m : List (Expr × Nat)) (e : Expr) : Option Nat :=
  match m.find? (fun p => decide (p.1 = e)) with
  | some p => some p.2
  | none => none

/-- Update `mul_map.insert(e, k)`; a later insertion replaces an earlier one. -/
def map_insert (m : List (Expr × Nat)) (e : Expr) (k : Nat) : List (Expr × Nat) :=
  (e, k) :: m

/-- State of the outer loop of `hoist_multiplication`. -/
structure hoist_state where
  adds : List Expr
  valid : List Bool
  mul_map : List (Expr × Nat)
  change : Bool

/-- Inner loop of `hoist_multiplication` over the factors `muls` of summand `k`. -/
def hoist_mul_inner (rw : poly_rewriter) (k : Nat) : List Expr → hoist_state → hoist_state
  | [], st => st
  | e :: muls, st =>
    if e.is_numeral.isSome then hoist_mul_inner rw k muls st
    else
      match map_find st.mul_map e with
      | some j =>
        if st.valid.getD j false && decide (j ≠ k) then
          { adds := (st.adds.set j (rw.merge_muls (st.adds.getD j (num 0))
                      (st.adds.getD k (num 0)))).set k (mk_numeral 0)
            valid := (st.valid.set j false).set k false
            mul_map := st.mul_map
            change := true }
        else hoist_mul_inner rw k muls { st with mul_map := map_insert st.mul_map e k }
      | none => hoist_mul_inner rw k muls { st with mul_map := map_insert st.mul_map e k }

/-- Outer loop of `hoist_multiplication` over the summand indices `k`. -/
def hoist_mul_outer (rw : poly_rewriter) : List Nat → hoist_state → hoist_state
  | [], st => st
  | k :: ks, st =>
    hoist_mul_outer rw ks
      (hoist_mul_inner rw k (TO_BUFFER Expr.is_mul (st.adds.getD k (num 0))) st)

/-- Function `hoist_multiplication(som)`: the flag returned and the new value of `som`. -/
def hoist_multiplication (rw : poly_rewriter) (som : Expr) : Bool × Expr :=
  if !rw.m_hoist_mul then (false, som)
  else
    let adds := TO_BUFFER Expr.is_add som
    let st := hoist_mul_outer rw (List.range adds.length)
      { adds := adds, valid := List.replicate adds.length true, mul_map := [], change := false }
    if !st.change then (false, som)
    else (true, mk_add_app st.adds)

/-- Modelled from the spec: `is_int_numeral(a, k)` of `poly_rewriter.h`, a numeral with an
integer value. -/
def is_int_numeral (a : Expr) : Option ℚ :=
  match a.is_numeral with
  | some k => if k.isInt then some k else none
  | none => none

/-- Modelled from the spec: `is_nontrivial_gcd(g)` of `poly_rewriter.h`, a gcd of at least
two (neither zero nor one). -/
def is_nontrivial_gcd (g : ℚ) : Bool := !decide (g = 0) && !decide (g = 1)

/-- Insertion of buffer entries into the hash table `shared`; the table's iteration order is
modelled by insertion order. -/
def set_insert_all (shared : List Expr) : List Expr → List Expr
  | [] => shared
  | e :: es => set_insert_all (if e ∈ shared then shared else shared ++ [e]) es

/-- Check of `hoist_ite` that no entry of the buffer occurs twice. -/
def occurs_uniquely : List Expr → Bool
  | [] => true
  | e :: es => !decide (e ∈ es) && occurs_uniquely es

end poly_rewriter

namespace poly_rewriter

/-- Leaf case of `hoist_ite(a, shared, g)`: the flag returned and the new `shared` and `g`. -/
def hoist_ite_leaf (a : Expr) (shared : List Expr) (g : ℚ) : Bool × List Expr × ℚ :=
  if (is_int_numeral a).isSome then (false, shared, g)
  else
    let adds := TO_BUFFER Expr.is_add a
    let shared1 :=
      if g = 0 then set_insert_all shared adds else shared.filter (fun e => decide (e ∈ adds))
    if shared1.isEmpty then (false, shared1, g)
    else if !occurs_uniquely adds then (false, shared1, g)
    else (true, shared1, 1)

/-- Function `hoist_ite(a, shared, g)`, which walks the leaves of nested `ite` terms. -/
def hoist_ite_rec : Expr → List Expr → ℚ → Bool × List Expr × ℚ
  | .app .ite [_, t, e], shared, g =>
    match hoist_ite_rec t shared g with
    | (true, shared1, g1) => hoist_ite_rec e shared1 g1
    | r => r
  | a, shared, g => hoist_ite_leaf a shared g

/-- Leaf case of `apply_hoist(a, g, shared)`. -/
def apply_hoist_leaf (a : Expr) (g : ℚ) (shared : List Expr) : Expr :=
  match (if is_nontrivial_gcd g then is_int_numeral a else none) with
  | some k => mk_numeral (k / g)
  | none => mk_add_app ((TO_BUFFER Expr.is_add a).filter (fun e => !decide (e ∈ shared)))

/-- Function `apply_hoist(a, g, shared)`. -/
def apply_hoist (g : ℚ) (shared : List Expr) : Expr → Expr
  | .app .ite [c, t, e] => .app .ite [c, apply_hoist g shared t, apply_hoist g shared e]
  | a => apply_hoist_leaf a g shared

/-- Body of the loop of `hoist_ite(e)` for one summand `a`: the replacement `a2` when the
summand is rewritten. -/
def hoist_ite_summand (rw : poly_rewriter) (a : Expr) : Option Expr :=
  if a.is_ite then
    match hoist_ite_rec a [] 0 with
    | (ok, shared, g) =>
      if ok && (is_nontrivial_gcd g || !shared.isEmpty) then
        let g1 := if !shared.isEmpty then 1 else g
        let b0 := apply_hoist g1 shared a
        let bs := if is_nontrivial_gcd g1 then [rw.mk_mul_app [b0, mk_numeral g1]] else b0 :: shared
        let a2 := mk_add_app bs
        if a ≠ a2 then some a2 else none
      else none
  else none

/-- Function `hoist_ite(e)`: the flag returned and the new value of `e`. -/
def hoist_ite (rw : poly_rewriter) (e : Expr) : Bool × Expr :=
  if !rw.m_hoist_ite then (false, e)
  else
    let adds := TO_BUFFER Expr.is_add e
    let pinned := adds.filterMap rw.hoist_ite_summand
    if !pinned.isEmpty then
      (true, mk_add_app (adds.map (fun a => (rw.hoist_ite_summand a).getD a)))
    else (false, e)

/-- Loop state of the first pass of `mk_nflat_add_core`. -/
structure add_scan where
  c : ℚ
  num_coeffs : Nat
  visited : List Expr
  multiple : List Expr
  has_multiple : Bool
  prev : Option Expr
  ordered : Bool

/-- Body of the first loop of `mk_nflat_add_core` at index `i`. -/
def add_scan_step (rw : poly_rewriter) (i : Nat) (arg : Expr) (st : add_scan) : add_scan :=
  let st1 : add_scan :=
    match arg.is_numeral with
    | some a =>
      { st with num_coeffs := st.num_coeffs + 1, c := st.c + a,
                ordered := !rw.m_sort_sums || decide (i = 0) }
    | none =>
      if rw.m_sort_sums && st.ordered then
        { st with
          ordered :=
            (match st.prev with
             | some prev => if rw.mon_lt arg prev then false else st.ordered
             | none => st.ordered),
          prev := some arg }
      else st
  if get_power_product arg ∈ st1.visited then
    { st1 with multiple := get_power_product arg :: st1.multiple, has_multiple := true }
  else { st1 with visited := get_power_product arg :: st1.visited }

/-- First loop of `mk_nflat_add_core`, from index `i` on. -/
def add_scan_loop (rw : poly_rewriter) : Nat → List Expr → add_scan → add_scan
  | _, [], st => st
  | i, arg :: rest, st => add_scan_loop rw (i + 1) rest (add_scan_step rw i arg st)

/-- Update of `m_expr2pos` and `coeffs` for one monomial: `coeffs[pos] += a` when `pp` has a
position, a new position with coefficient `a` otherwise.  The pair of the position map and
the coefficient buffer is kept as one list of entries in position order. -/
def coeffs_add (pp : Expr) (a : ℚ) : List (Expr × ℚ) → List (Expr × ℚ)
  | [] => [(pp, a)]
  | (p, b) :: rest => if p = pp then (p, b + a) :: rest else (p, b) :: coeffs_add pp a rest

/-- Lookup `coeffs[m_expr2pos.find(pp)]`. -/
def coeffs_find (pp : Expr) : List (Expr × ℚ) → ℚ
  | [] => 0
  | (p, b) :: rest => if p = pp then b else coeffs_find pp rest

/-- Second loop of `mk_nflat_add_core` (and first coefficient loop of `cancel_monomials`):
the coefficients of the power products that occur more than once. -/
def collect_coeffs (multiple : List Expr) : List Expr → List (Expr × ℚ) → List (Expr × ℚ)
  | [], coeffs => coeffs
  | arg :: rest, coeffs =>
    if arg.is_numeral.isSome then collect_coeffs multiple rest coeffs
    else if (get_power_product_coeff arg).1 ∉ multiple then collect_coeffs multiple rest coeffs
    else
      collect_coeffs multiple rest
        (coeffs_add (get_power_product_coeff arg).1 (get_power_product_coeff arg).2 coeffs)

/-- Third loop of `mk_nflat_add_core`: the monomials copied to `new_args`. -/
def emit_monomials (rw : poly_rewriter) (multiple : List Expr) (coeffs : List (Expr × ℚ)) :
    List Expr → List Expr → List Expr
  | [], _ => []
  | arg :: rest, visited =>
    if arg.is_numeral.isSome then emit_monomials rw multiple coeffs rest visited
    else if get_power_product arg ∉ multiple then
      arg :: emit_monomials rw multiple coeffs rest visited
    else if get_power_product arg ∉ visited then
      if rw.normalize (coeffs_find (get_power_product arg) coeffs) ≠ 0 then
        rw.mk_mul_app_num (rw.normalize (coeffs_find (get_power_product arg) coeffs))
            (get_power_product arg) ::
          emit_monomials rw multiple coeffs rest (get_power_product arg :: visited)
      else emit_monomials rw multiple coeffs rest (get_power_product arg :: visited)
    else emit_monomials rw multiple coeffs rest visited

/-- The numeral `c` pushed in front of `new_args` unless it is zero. -/
def push_coeff (c : ℚ) : List Expr :=
  if c ≠ 0 then [mk_numeral c] else []

/-- The two trailing hoisting attempts shared by both branches of `mk_nflat_add_core`. -/
def add_finish (rw : poly_rewriter) (result : Expr) : br_status × Option Expr :=
  match rw.hoist_multiplication result with
  | (true, r) => (.BR_REWRITE_FULL, some r)
  | (false, r) =>
    match rw.hoist_ite r with
    | (true, r2) => (.BR_REWRITE_FULL, some r2)
    | (false, r2) => (.BR_DONE, some r2)

/-- Function `mk_nflat_add_core(num_args, args, result)`: the status and the value written to
`result`, if any. -/
def mk_nflat_add_core (rw : poly_rewriter) (args : List Expr) : br_status × Option Expr :=
  let st := add_scan_loop rw 0 args
    { c := 0, num_coeffs := 0, visited := [], multiple := [], has_multiple := false,
      prev := none, ordered := true }
  let c := rw.normalize st.c
  if st.has_multiple then
    let coeffs := collect_coeffs st.multiple args []
    let monomials := emit_monomials rw st.multiple coeffs args []
    let new_args :=
      push_coeff c ++ (if rw.m_sort_sums then rw.std_sort rw.mon_lt monomials else monomials)
    add_finish rw (mk_add_app new_args)
  else if st.ordered && !rw.m_hoist_mul && !rw.m_hoist_ite &&
      (decide (st.num_coeffs = 0) ||
        (decide (st.num_coeffs = 1) &&
          (match (args.getD 0 (num 0)).is_numeral with
           | some a => !decide (a = 0)
           | none => false))) then
    (.BR_FAILED, none)
  else
    let monomials := args.filter (fun arg => !arg.is_numeral.isSome)
    let new_args :=
      push_coeff c ++ (if !st.ordered then rw.std_sort rw.mon_lt monomials else monomials)
    add_finish rw (mk_add_app new_args)

/-- Flattening loop of `mk_flat_add_core`: nested sums are spliced at depth one. -/
def flatten_add : List Expr → List Expr
  | [] => []
  | arg :: rest => if arg.is_add then arg.get_args ++ flatten_add rest else arg :: flatten_add rest

/-- Function `mk_flat_add_core(num_args, args, result)`. -/
def mk_flat_add_core (rw : poly_rewriter) (args : List Expr) : br_status × Option Expr :=
  if args.any Expr.is_add then
    match rw.mk_nflat_add_core (flatten_add args) with
    | (.BR_FAILED, _) => (.BR_DONE, some (mk_add_app (flatten_add args)))
    | r => r
  else rw.mk_nflat_add_core args

end poly_rewriter

namespace poly_rewriter

/-- Loop state of the first pass of `mk_nflat_mul_core`. -/
structure mul_scan where
  c : ℚ
  num_coeffs : Nat
  num_add : Nat
  var : Option Expr

/-- First loop of `mk_nflat_mul_core`: product of the numerals, their count, the count of
sums among the other factors and the last factor that is not a numeral. -/
def mul_scan_loop : List Expr → mul_scan → mul_scan
  | [], st => st
  | arg :: rest, st =>
    match arg.is_numeral with
    | some a => mul_scan_loop rest { st with num_coeffs := st.num_coeffs + 1, c := st.c * a }
    | none =>
      mul_scan_loop rest
        { st with var := some arg, num_add := if arg.is_add then st.num_add + 1 else st.num_add }

/-- The adjacency test `ordered` of `mk_nflat_mul_core` over the factors that are not
numerals, with `prev` the last such factor seen. -/
def mul_ordered (rw : poly_rewriter) : Option Expr → List Expr → Bool
  | _, [] => true
  | prev, curr :: rest =>
    if curr.is_numeral.isSome then mul_ordered rw prev rest
    else
      (match prev with
       | some p => !rw.mon_lt curr p
       | none => true) && mul_ordered rw (some curr) rest

/-- Modelled from the spec: `product_iterator_next(n, sz, it)` of `util.h`, the odometer step
over the cartesian product; `none` stands for the return value `false`. -/
def product_iterator_next : List Nat → List Nat → Option (List Nat)
  | s :: sz, i :: it =>
    if i + 1 < s then some ((i + 1) :: it)
    else
      match product_iterator_next sz it with
      | some it1 => some (0 :: it1)
      | none => none
  | _, _ => none

/-- The rows `sums[i]` of the sum-of-monomials expansion: the arguments of a sum, or the
factor itself. -/
def som_row (arg : Expr) : List Expr :=
  if arg.is_add then arg.get_args else [arg]

/-- The inner loop of the expansion that collects `sums[i][it[i]]` into `m_args`. -/
def som_select : List (List Expr) → List Nat → List Expr
  | v :: sums, i :: it => v.getD i (num 0) :: som_select sums it
  | _, _ => []

/-- The `do ... while` loop of the sum-of-monomials expansion; `none` is the budget abort.
The first argument bounds the number of iterations. -/
def som_loop (rw : poly_rewriter) (sums : List (List Expr)) (szs : List Nat) (bound : Nat) :
    Nat → List Nat → List Expr → Option (List Expr)
  | 0, _, _ => none
  | fuel + 1, it, sum =>
    if bound < sum.length then none
    else
      match product_iterator_next szs it with
      | some it1 =>
        som_loop rw sums szs bound fuel it1 (sum ++ [rw.mk_mul_app (som_select sums it)])
      | none => some (sum ++ [rw.mk_mul_app (som_select sums it)])

/-- The budget `m_som_blowup * orig_size` of the sum-of-monomials expansion: a product of two
`unsigned` values, which wraps around modulo 2^32. -/
def som_budget (rw : poly_rewriter) (orig_size : Nat) : Nat :=
  (rw.m_som_blowup * orig_size) % 2 ^ 32

/-- Function `mk_nflat_mul_core(num_args, args, result)`: the status and the value written to
`result`, if any. -/
def mk_nflat_mul_core (rw : poly_rewriter) (args : List Expr) : br_status × Option Expr :=
  if decide (args.length = 2) &&
      (match (args.getD 0 (num 0)).is_numeral with
       | some a => !decide (a = 1) && !decide (a = 0)
       | none => false) &&
      is_essentially_var (args.getD 1 (num 0)) then (.BR_FAILED, none)
  else
    let st := mul_scan_loop args { c := 1, num_coeffs := 0, num_add := 0, var := none }
    let c := rw.normalize st.c
    if st.num_coeffs = args.length then (.BR_DONE, some (mk_numeral c))
    else if c = 0 then (.BR_DONE, some (mk_numeral c))
    else if st.num_coeffs = args.length - 1 then
      let var := st.var.getD (num 0)
      if c = 1 then (.BR_DONE, some var)
      else if var.is_mul then
        match (if var.get_num_args = 2 then (var.get_arg 0).is_numeral else none) with
        | some c_prime =>
          (.BR_REWRITE1, some (rw.mk_mul_app_num (rw.normalize (c * c_prime)) (var.get_arg 1)))
        | none => (.BR_FAILED, none)
      else if st.num_add = 0 then
        if decide (args.length = 2) && decide (args.getD 1 (num 0) = var) then (.BR_FAILED, none)
        else (.BR_DONE, some (rw.mk_mul_app_num c var))
      else
        (.BR_REWRITE2, some (mk_add_app (var.get_args.map (fun t => rw.mk_mul_app_num c t))))
    else if decide (1 < st.num_coeffs) ||
        (decide (st.num_coeffs = 1) && !(args.getD 0 (num 0)).is_numeral.isSome) then
      (.BR_REWRITE2,
        some (rw.mk_mul_app_num c
          (rw.mk_mul_app (args.filter (fun arg => !arg.is_numeral.isSome)))))
    else if !rw.m_som || decide (st.num_add = 0) then
      let new_args := args.filter (fun arg => !arg.is_numeral.isSome)
      let ordered := mul_ordered rw none args
      if ordered && decide (st.num_coeffs = 0) && !rw.use_power then (.BR_FAILED, none)
      else
        (.BR_DONE,
          some (rw.mk_mul_app_num c
            (rw.mk_mul_app (if !ordered then rw.std_sort rw.mon_lt new_args else new_args))))
    else
      match som_loop rw (args.map som_row) (args.map (fun a => (som_row a).length))
          (rw.som_budget args.length) (rw.som_budget args.length + 2)
          (args.map (fun _ => 0)) [] with
      | some sum => (.BR_REWRITE2, some (mk_add_app sum))
      | none => (.BR_FAILED, none)

/-- The `while (!todo.empty())` loop of `mk_flat_mul_core`; the stack `todo` is given top
first and the leaves are appended to `flat_args` in the order they are popped.  The first
argument bounds the number of iterations. -/
def flatten_todo : Nat → List Expr → List Expr
  | _, [] => []
  | 0, curr :: rest => curr :: rest
  | fuel + 1, curr :: rest =>
    if curr.is_mul then flatten_todo fuel (curr.get_args ++ rest)
    else curr :: flatten_todo fuel rest

/-- Flattening loop of `mk_flat_mul_core` over the arguments. -/
def flatten_mul : List Expr → List Expr
  | [] => []
  | arg :: rest =>
    if arg.is_mul then flatten_todo (2 * arg.size) [arg] ++ flatten_mul rest
    else arg :: flatten_mul rest

/-- Function `mk_flat_mul_core(num_args, args, result)`. -/
def mk_flat_mul_core (rw : poly_rewriter) (args : List Expr) : br_status × Option Expr :=
  if (decide (args.length ≠ 2) || !(args.getD 0 (num 0)).is_numeral.isSome ||
        ((args.getD 1 (num 0)).is_mul &&
          ((args.getD 1 (num 0)).get_arg 0).is_numeral.isSome)) &&
      args.any Expr.is_mul then
    match rw.mk_nflat_mul_core (flatten_mul args) with
    | (.BR_FAILED, _) => (.BR_DONE, some (rw.mk_mul_app (flatten_mul args)))
    | r => r
  else rw.mk_nflat_mul_core args

end poly_rewriter

/-- Code of an integer as a natural number. -/
def int_code : Int → Nat
  | .ofNat n => 2 * n
  | .negSucc n => 2 * n + 1

mutual
/-- A concrete numbering of nodes, used to build example factories. -/
def node_code : Expr → Nat
  | .num q => 3 * Nat.pair (int_code q.num) q.den
  | .var i => 3 * i + 1
  | .app f as => 3 * Nat.pair f.code (node_code_list as) + 2
/-- The numbering of argument lists behind `node_code`. -/
def node_code_list : List Expr → Nat
  | [] => 0
  | a :: as => Nat.pair (node_code a) (node_code_list as) + 1
end

theorem int_code_inj : Function.Injective int_code := by
  intro a b h
  cases a <;> cases b <;> simp only [int_code] at h
  · congr 1; omega
  · omega
  · omega
  · congr 1; omega

theorem Func.code_inj : Function.Injective Func.code := by
  intro a b h
  cases a <;> cases b <;> simp only [Func.code] at h <;>
    first
    | rfl
    | omega
    | (congr 1; omega)

mutual
theorem node_code_inj : ∀ a b : Expr, node_code a = node_code b → a = b
  | .num p, .num q, h => by
    simp only [node_code] at h
    have h1 := Nat.pair_eq_pair.mp (Nat.eq_of_mul_eq_mul_left (by norm_num) h)
    congr 1
    exact Rat.ext (int_code_inj h1.1) h1.2
  | .num _, .var _, h => by simp only [node_code] at h; omega
  | .num _, .app _ _, h => by simp only [node_code] at h; omega
  | .var _, .num _, h => by simp only [node_code] at h; omega
  | .var i, .var j, h => by simp only [node_code] at h; congr 1; omega
  | .var _, .app _ _, h => by simp only [node_code] at h; omega
  | .app _ _, .num _, h => by simp only [node_code] at h; omega
  | .app _ _, .var _, h => by simp only [node_code] at h; omega
  | .app f as, .app g bs, h => by
    simp only [node_code] at h
    have h0 : Nat.pair f.code (node_code_list as) = Nat.pair g.code (node_code_list bs) := by omega
    have h1 := Nat.pair_eq_pair.mp h0
    rw [Func.code_inj h1.1, node_code_list_inj as bs h1.2]
theorem node_code_list_inj : ∀ as bs : List Expr, node_code_list as = node_code_list bs → as = bs
  | [], [], _ => rfl
  | [], _ :: _, h => by simp only [node_code_list] at h; omega
  | _ :: _, [], h => by simp only [node_code_list] at h; omega
  | a :: as, b :: bs, h => by
    simp only [node_code_list] at h
    have h1 := Nat.pair_eq_pair.mp (Nat.succ_injective h)
    rw [node_code_inj a b h1.1, node_code_list_inj as bs h1.2]
end

/-- Insertion of one element into a sorted list (example `std::sort`). -/
def sort_insert (lt : Expr → Expr → Bool) (x : Expr) : List Expr → List Expr
  | [] => [x]
  | y :: ys => if lt y x then y :: sort_insert lt x ys else x :: y :: ys

/-- Insertion sort, an example of a conforming `std::sort`. -/
def insertion_sort (lt : Expr → Expr → Bool) : List Expr → List Expr
  | [] => []
  | x :: xs => sort_insert lt x (insertion_sort lt xs)

theorem sort_insert_perm (lt : Expr → Expr → Bool) (x : Expr) (l : List Expr) :
    List.Perm (sort_insert lt x l) (x :: l) := by
  induction l with
  | nil => simp [sort_insert]
  | cons y ys ih =>
    simp only [sort_insert]
    split
    · exact (List.Perm.cons y ih).trans (List.Perm.swap x y ys)
    · exact List.Perm.refl _

theorem insertion_sort_perm (lt : Expr → Expr → Bool) (l : List Expr) :
    List.Perm (insertion_sort lt l) l := by
  induction l with
  | nil => exact List.Perm.refl _
  | cons x xs ih => exact (sort_insert_perm lt x _).trans (List.Perm.cons x ih)

theorem sort_insert_sorted (lt : Expr → Expr → Bool) (h : StrictWeak lt) (x : Expr)
    (l : List Expr) (hl : List.Pairwise (fun a b => lt b a = false) l) :
    List.Pairwise (fun a b => lt b a = false) (sort_insert lt x l) := by
  induction l with
  | nil => simp [sort_insert]
  | cons y ys ih =>
    simp only [sort_insert]
    rw [List.pairwise_cons] at hl
    split
    · rename_i hyx
      rw [List.pairwise_cons]
      refine ⟨?_, ih hl.2⟩
      intro z hz
      rcases (List.mem_cons.mp ((sort_insert_perm lt x ys).subset hz)) with rfl | hz
      · cases hzy : lt z y
        · rfl
        · have := h.2.1 _ _ _ hzy hyx
          rw [h.1] at this
          exact absurd this (by simp)
      · exact hl.1 z hz
    · rename_i hyx
      have hyx : lt y x = false := by simpa using hyx
      rw [List.pairwise_cons]
      refine ⟨?_, List.pairwise_cons.mpr hl⟩
      intro z hz
      rcases List.mem_cons.mp hz with rfl | hz
      · exact hyx
      · exact h.2.2 _ _ _ (hl.1 z hz) hyx

theorem insertion_sort_sorted (lt : Expr → Expr → Bool) (l : List Expr) (h : StrictWeak lt) :
    List.Pairwise (fun a b => lt b a = false) (insertion_sort lt l) := by
  induction l with
  | nil => exact List.Pairwise.nil
  | cons x xs ih => exact sort_insert_sorted lt h x _ ih

/-- An example rewriter: the given flags, identity normalization, the concrete node
numbering and insertion sort. -/
def example_rw (flat som hoist_mul hoist_ite sort_sums ast_order use_power : Bool)
    (som_blowup : Nat) : poly_rewriter where
  m_flat := flat
  m_som := som
  m_som_blowup := som_blowup
  m_hoist_mul := hoist_mul
  m_hoist_ite := hoist_ite
  m_sort_sums := sort_sums
  m_ast_order := ast_order
  use_power := use_power
  normalize := fun q => q
  get_id := node_code
  get_id_inj := fun a b h => node_code_inj a b h
  std_sort := insertion_sort
  std_sort_perm := insertion_sort_perm
  std_sort_sorted := insertion_sort_sorted


/-! ## The AST order is a strict total order -/

theorem andThen_eq_lt (a b : Ordering) :
    a.andThen b = .lt ↔ a = .lt ∨ (a = .eq ∧ b = .lt) := by
  cases a <;> cases b <;> simp [Ordering.andThen]

theorem andThen_eq_eq (a b : Ordering) :
    a.andThen b = .eq ↔ a = .eq ∧ b = .eq := by
  cases a <;> cases b <;> simp [Ordering.andThen]

theorem andThen_eq_gt (a b : Ordering) :
    a.andThen b = .gt ↔ a = .gt ∨ (a = .eq ∧ b = .gt) := by
  cases a <;> cases b <;> simp [Ordering.andThen]

theorem rat_cmp_eq_lt (p q : ℚ) : rat_cmp p q = .lt ↔ p < q := by
  unfold rat_cmp; split_ifs <;> simp [*]

theorem rat_cmp_eq_gt (p q : ℚ) : rat_cmp p q = .gt ↔ q < p := by
  unfold rat_cmp; split_ifs with h1 h2 <;> simp [*]
  exact le_of_lt h1

theorem rat_cmp_eq_eq (p q : ℚ) : rat_cmp p q = .eq ↔ p = q := by
  unfold rat_cmp; split_ifs with h1 h2 <;> simp [*]
  · exact ne_of_lt h1
  · exact (ne_of_lt h2).symm
  · exact le_antisymm (not_lt.mp h2) (not_lt.mp h1)

theorem nat_cmp_eq_lt (p q : Nat) : nat_cmp p q = .lt ↔ p < q := by
  unfold nat_cmp; split_ifs <;> simp [*]

theorem nat_cmp_eq_gt (p q : Nat) : nat_cmp p q = .gt ↔ q < p := by
  unfold nat_cmp; split_ifs with h1 h2 <;> simp [*]
  omega

theorem nat_cmp_eq_eq (p q : Nat) : nat_cmp p q = .eq ↔ p = q := by
  unfold nat_cmp; split_ifs with h1 h2 <;> simp [*] <;> omega

mutual
theorem ast_cmp_eq_eq : ∀ a b : Expr, ast_cmp a b = .eq ↔ a = b
  | .num p, .num q => by simp [ast_cmp, rat_cmp_eq_eq]
  | .num _, .var _ => by simp [ast_cmp]
  | .num _, .app _ _ => by simp [ast_cmp]
  | .var _, .num _ => by simp [ast_cmp]
  | .var i, .var j => by simp [ast_cmp, nat_cmp_eq_eq]
  | .var _, .app _ _ => by simp [ast_cmp]
  | .app _ _, .num _ => by simp [ast_cmp]
  | .app _ _, .var _ => by simp [ast_cmp]
  | .app f as, .app g bs => by
    simp only [ast_cmp, andThen_eq_eq, nat_cmp_eq_eq, ast_cmp_list_eq_eq as bs, Expr.app.injEq]
    constructor
    · rintro ⟨_, h2, h3⟩
      exact ⟨Func.code_inj h2, h3⟩
    · rintro ⟨h1, h2⟩
      simp [h1, h2]
theorem ast_cmp_list_eq_eq : ∀ as bs : List Expr, ast_cmp_list as bs = .eq ↔ as = bs
  | [], [] => by simp [ast_cmp_list]
  | [], _ :: _ => by simp [ast_cmp_list]
  | _ :: _, [] => by simp [ast_cmp_list]
  | a :: as, b :: bs => by
    simp only [ast_cmp_list, andThen_eq_eq, ast_cmp_eq_eq a b, ast_cmp_list_eq_eq as bs,
      List.cons.injEq]
end

mutual
theorem ast_cmp_eq_gt : ∀ a b : Expr, ast_cmp a b = .gt ↔ ast_cmp b a = .lt
  | .num p, .num q => by simp [ast_cmp, rat_cmp_eq_gt, rat_cmp_eq_lt]
  | .num _, .var _ => by simp [ast_cmp]
  | .num _, .app _ _ => by simp [ast_cmp]
  | .var _, .num _ => by simp [ast_cmp]
  | .var i, .var j => by simp [ast_cmp, nat_cmp_eq_gt, nat_cmp_eq_lt]
  | .var _, .app _ _ => by simp [ast_cmp]
  | .app _ _, .num _ => by simp [ast_cmp]
  | .app _ _, .var _ => by simp [ast_cmp]
  | .app f as, .app g bs => by
    simp only [ast_cmp, andThen_eq_gt, andThen_eq_lt, nat_cmp_eq_gt, nat_cmp_eq_lt,
      nat_cmp_eq_eq, ast_cmp_list_eq_gt as bs]
    constructor <;> rintro (h | ⟨h1, h | ⟨h2, h3⟩⟩) <;> simp [*]
theorem ast_cmp_list_eq_gt : ∀ as bs : List Expr,
    ast_cmp_list as bs = .gt ↔ ast_cmp_list bs as = .lt
  | [], [] => by simp [ast_cmp_list]
  | [], _ :: _ => by simp [ast_cmp_list]
  | _ :: _, [] => by simp [ast_cmp_list]
  | a :: as, b :: bs => by
    simp only [ast_cmp_list, andThen_eq_gt, andThen_eq_lt, ast_cmp_eq_gt a b,
      ast_cmp_list_eq_gt as bs, ast_cmp_eq_eq]
    constructor <;> rintro (h | ⟨h1, h2⟩) <;> simp [*]
end

mutual
theorem Expr.induction_on {P : Expr → Prop} (hnum : ∀ q, P (.num q)) (hvar : ∀ i, P (.var i))
    (happ : ∀ f as, (∀ a ∈ as, P a) → P (.app f as)) : ∀ e, P e
  | .num q => hnum q
  | .var i => hvar i
  | .app f as => happ f as (Expr.induction_on_list hnum hvar happ as)
theorem Expr.induction_on_list {P : Expr → Prop} (hnum : ∀ q, P (.num q))
    (hvar : ∀ i, P (.var i)) (happ : ∀ f as, (∀ a ∈ as, P a) → P (.app f as)) :
    ∀ as : List Expr, ∀ a ∈ as, P a
  | [], _, h => absurd h (List.not_mem_nil _)
  | b :: bs, a, h => by
    rcases List.mem_cons.mp h with rfl | h
    · exact Expr.induction_on hnum hvar happ _
    · exact Expr.induction_on_list hnum hvar happ bs a h
end

theorem ast_cmp_list_trans_of (as : List Expr)
    (ih : ∀ a ∈ as, ∀ b c, ast_cmp a b = .lt → ast_cmp b c = .lt → ast_cmp a c = .lt) :
    ∀ bs cs : List Expr,
      ast_cmp_list as bs = .lt → ast_cmp_list bs cs = .lt → ast_cmp_list as cs = .lt := by
  induction as with
  | nil =>
    intro bs cs
    cases bs <;> cases cs <;> simp [ast_cmp_list]
  | cons a as iha =>
    intro bs cs
    cases bs with
    | nil => simp [ast_cmp_list]
    | cons b bs =>
      cases cs with
      | nil => simp [ast_cmp_list]
      | cons c cs =>
        simp only [ast_cmp_list, andThen_eq_lt, ast_cmp_eq_eq]
        rintro (h1 | ⟨h1, h1x⟩) (h2 | ⟨h2, h2x⟩)
        · left; exact ih a (List.mem_cons_self _ _) b c h1 h2
        · left; subst h2; exact h1
        · left; subst h1; exact h2
        · right
          exact ⟨h1.trans h2,
            iha (fun x hx => ih x (List.mem_cons_of_mem _ hx)) bs cs h1x h2x⟩

theorem ast_cmp_trans (a : Expr) :
    ∀ b c : Expr, ast_cmp a b = .lt → ast_cmp b c = .lt → ast_cmp a c = .lt := by
  induction a using Expr.induction_on with
  | hnum p =>
    intro b c
    cases b <;> cases c <;> simp only [ast_cmp, rat_cmp_eq_lt] <;>
      first
      | exact fun h1 h2 => lt_trans h1 h2
      | simp
  | hvar i =>
    intro b c
    cases b <;> cases c <;> simp only [ast_cmp, nat_cmp_eq_lt] <;>
      first
      | exact fun h1 h2 => lt_trans h1 h2
      | simp
  | happ f as ih =>
    intro b c
    cases b with
    | num q => cases c <;> simp [ast_cmp]
    | var j => cases c <;> simp [ast_cmp]
    | app g bs =>
      cases c with
      | num q => simp [ast_cmp]
      | var j => simp [ast_cmp]
      | app h cs =>
        simp only [ast_cmp, andThen_eq_lt, nat_cmp_eq_lt, nat_cmp_eq_eq]
        rintro (h1 | ⟨h1, h1x | ⟨h1y, h1z⟩⟩) (h2 | ⟨h2, h2x | ⟨h2y, h2z⟩⟩)
        · left; omega
        · left; omega
        · left; omega
        · left; omega
        · right; exact ⟨by omega, Or.inl (by omega)⟩
        · right; exact ⟨by omega, Or.inl (by omega)⟩
        · left; omega
        · right; exact ⟨by omega, Or.inl (by omega)⟩
        · right
          exact ⟨by omega, Or.inr ⟨by omega, ast_cmp_list_trans_of as ih bs cs h1z h2z⟩⟩

theorem ast_lt_iff (a b : Expr) : ast_lt a b = true ↔ ast_cmp a b = .lt := by
  unfold ast_lt
  cases ast_cmp a b <;> simp

theorem ast_lt_irrefl (a : Expr) : ast_lt a a = false := by
  have h := (ast_cmp_eq_eq a a).mpr rfl
  simp [ast_lt, h]

theorem ast_lt_trans (a b c : Expr) (h1 : ast_lt a b = true) (h2 : ast_lt b c = true) :
    ast_lt a c = true := by
  rw [ast_lt_iff] at *
  exact ast_cmp_trans a b c h1 h2

theorem ast_lt_total (a b : Expr) (h : a ≠ b) : ast_lt a b = true ∨ ast_lt b a = true := by
  simp only [ast_lt_iff]
  cases hc : ast_cmp a b with
  | lt => exact Or.inl rfl
  | eq => exact absurd ((ast_cmp_eq_eq a b).mp hc) h
  | gt => exact Or.inr ((ast_cmp_eq_gt a b).mp hc)

theorem ast_lt_asymm (a b : Expr) (h : ast_lt a b = true) : ast_lt b a = false := by
  cases hba : ast_lt b a with
  | false => rfl
  | true =>
    have := ast_lt_trans a b a h hba
    rw [ast_lt_irrefl] at this
    exact absurd this (by simp)

/-! ## The monomial comparator -/

namespace poly_rewriter

theorem mon_lt_irrefl (rw : poly_rewriter) (e : Expr) : rw.mon_lt e e = false := by
  unfold mon_lt
  split
  · exact ast_lt_irrefl e
  · simp

theorem mon_lt_trans (rw : poly_rewriter) (e1 e2 e3 : Expr) (h1 : rw.mon_lt e1 e2 = true)
    (h2 : rw.mon_lt e2 e3 = true) : rw.mon_lt e1 e3 = true := by
  unfold mon_lt at *
  split at h1
  · rename_i h
    simp only [h, if_true] at h2 ⊢
    exact ast_lt_trans _ _ _ h1 h2
  · rename_i h
    simp only [h] at h2 ⊢
    simp only [Bool.false_eq_true, if_false, decide_eq_true_eq] at h1 h2 ⊢
    exact lt_trans h1 h2

theorem mon_lt_neg_trans (rw : poly_rewriter) (e1 e2 e3 : Expr) (h1 : rw.mon_lt e1 e2 = false)
    (h2 : rw.mon_lt e2 e3 = false) : rw.mon_lt e1 e3 = false := by
  unfold mon_lt at *
  split at h1
  · rename_i h
    simp only [h, if_true] at h2 ⊢
    by_cases h12 : e1 = e2
    · subst h12; exact h2
    · by_cases h23 : e2 = e3
      · subst h23; exact h1
      · have a1 : ast_lt e2 e1 = true := by
          rcases ast_lt_total e1 e2 h12 with h | h
          · rw [h] at h1; exact absurd h1 (by simp)
          · exact h
        have a2 : ast_lt e3 e2 = true := by
          rcases ast_lt_total e2 e3 h23 with h | h
          · rw [h] at h2; exact absurd h2 (by simp)
          · exact h
        exact ast_lt_asymm _ _ (ast_lt_trans _ _ _ a2 a1)
  · rename_i h
    simp only [h] at h2 ⊢
    simp only [Bool.false_eq_true, if_false, decide_eq_false_iff_not, not_lt] at h1 h2 ⊢
    exact le_trans h2 h1

theorem mon_lt_strict_weak (rw : poly_rewriter) : StrictWeak rw.mon_lt :=
  ⟨rw.mon_lt_irrefl, rw.mon_lt_trans, rw.mon_lt_neg_trans⟩

theorem mon_lt_asymm (rw : poly_rewriter) (e1 e2 : Expr) (h : rw.mon_lt e1 e2 = true) :
    rw.mon_lt e2 e1 = false := by
  cases h21 : rw.mon_lt e2 e1 with
  | false => rfl
  | true =>
    have := rw.mon_lt_trans _ _ _ h h21
    rw [mon_lt_irrefl] at this
    exact absurd this (by simp)

theorem mon_lt_ast_total (rw : poly_rewriter) (h : rw.m_ast_order = true) (e1 e2 : Expr)
    (hne : e1 ≠ e2) : rw.mon_lt e1 e2 = true ∨ rw.mon_lt e2 e1 = true := by
  unfold mon_lt
  simp only [h, if_true]
  exact ast_lt_total e1 e2 hne

theorem mon_lt_ordinal (rw : poly_rewriter) (h : rw.m_ast_order = false) (e1 e2 : Expr) :
    rw.mon_lt e1 e2 = true ↔ rw.ordinal e1 < rw.ordinal e2 := by
  unfold mon_lt
  simp [h]

end poly_rewriter

namespace poly_rewriter

/-- Claim C10, as stated, fails: under the ordinal order the distinct terms `x` and `(* 2 x)`
have the same ordinal (the node identifier of `x`), and `mon_lt` holds in neither direction;
no tie-break by node identifier takes place. -/
theorem mon_lt_ordinal_not_total :
    (Expr.app (.uf 0) [] ≠ Expr.app .mul [.num 2, .app (.uf 0) []]) ∧
    (example_rw true false false false true false false 10).ordinal (.app (.uf 0) []) =
      (example_rw true false false false true false false 10).ordinal
        (.app .mul [.num 2, .app (.uf 0) []]) ∧
    (example_rw true false false false true false false 10).mon_lt (.app (.uf 0) [])
      (.app .mul [.num 2, .app (.uf 0) []]) = false ∧
    (example_rw true false false false true false false 10).mon_lt
      (.app .mul [.num 2, .app (.uf 0) []]) (.app (.uf 0) []) = false := by
  decide!

/-- Claim C10, amended: under both settings of `ast_order` the comparator `mon_lt` is
irreflexive and transitive, and so is incomparability (a strict weak ordering); under the AST
order any two distinct terms are related in exactly one direction; under the ordinal order
`mon_lt e1 e2` holds exactly when the ordinal of `e1` is below the ordinal of `e2`, so terms
with equal ordinal are not separated. -/
theorem mon_lt_strict_order (rw : poly_rewriter) :
    (∀ e, rw.mon_lt e e = false) ∧
    (∀ e1 e2 e3, rw.mon_lt e1 e2 = true → rw.mon_lt e2 e3 = true → rw.mon_lt e1 e3 = true) ∧
    (∀ e1 e2 e3, rw.mon_lt e1 e2 = false → rw.mon_lt e2 e3 = false → rw.mon_lt e1 e3 = false) ∧
    (rw.m_ast_order = true → ∀ e1 e2, e1 ≠ e2 →
      (rw.mon_lt e1 e2 = true ∧ rw.mon_lt e2 e1 = false) ∨
      (rw.mon_lt e1 e2 = false ∧ rw.mon_lt e2 e1 = true)) ∧
    (rw.m_ast_order = false → ∀ e1 e2,
      (rw.mon_lt e1 e2 = true ↔ rw.ordinal e1 < rw.ordinal e2)) := by
  refine ⟨rw.mon_lt_irrefl, rw.mon_lt_trans, rw.mon_lt_neg_trans, ?_, ?_⟩
  · intro h e1 e2 hne
    rcases rw.mon_lt_ast_total h e1 e2 hne with h1 | h1
    · exact Or.inl ⟨h1, rw.mon_lt_asymm _ _ h1⟩
    · exact Or.inr ⟨rw.mon_lt_asymm _ _ h1, h1⟩
  · intro h e1 e2
    exact rw.mon_lt_ordinal h e1 e2

/-- Witness for `mon_lt_strict_order`: under the AST order the distinct terms `x` and `y` are
related in exactly one direction. -/
theorem mon_lt_strict_order_witness :
    ((example_rw true false false false true true false 10).mon_lt (.app (.uf 0) [])
        (.app (.uf 1) []) = true ∧
      (example_rw true false false false true true false 10).mon_lt (.app (.uf 1) [])
        (.app (.uf 0) []) = false) ∨
    ((example_rw true false false false true true false 10).mon_lt (.app (.uf 0) [])
        (.app (.uf 1) []) = false ∧
      (example_rw true false false false true true false 10).mon_lt (.app (.uf 1) [])
        (.app (.uf 0) []) = true) :=
  (mon_lt_strict_order (example_rw true false false false true true false 10)).2.2.2.1 rfl
    (.app (.uf 0) []) (.app (.uf 1) []) (by decide)

end poly_rewriter

/-! ## Values of sums and products -/

theorem eval_num (σ : Assignment) (q : ℚ) : eval σ (.num q) = q := by
  simp [eval]

theorem eval_add (σ : Assignment) (as : List Expr) : eval σ (.app .add as) = eval_sum σ as := by
  simp [eval]

theorem eval_mul (σ : Assignment) (as : List Expr) : eval σ (.app .mul as) = eval_prod σ as := by
  simp [eval]

theorem eval_sum_cons (σ : Assignment) (a : Expr) (as : List Expr) :
    eval_sum σ (a :: as) = eval σ a + eval_sum σ as := by
  simp [eval_sum]

theorem eval_prod_cons (σ : Assignment) (a : Expr) (as : List Expr) :
    eval_prod σ (a :: as) = eval σ a * eval_prod σ as := by
  simp [eval_prod]

theorem eval_sum_nil (σ : Assignment) : eval_sum σ [] = 0 := by
  simp [eval_sum]

theorem eval_prod_nil (σ : Assignment) : eval_prod σ [] = 1 := by
  simp [eval_prod]

theorem eval_sum_append (σ : Assignment) (as bs : List Expr) :
    eval_sum σ (as ++ bs) = eval_sum σ as + eval_sum σ bs := by
  induction as with
  | nil => simp [eval_sum_nil]
  | cons a as ih => simp [eval_sum_cons, ih, add_assoc]

theorem eval_prod_append (σ : Assignment) (as bs : List Expr) :
    eval_prod σ (as ++ bs) = eval_prod σ as * eval_prod σ bs := by
  induction as with
  | nil => simp [eval_prod_nil]
  | cons a as ih => simp [eval_prod_cons, ih, mul_assoc]

theorem eval_sum_perm (σ : Assignment) {as bs : List Expr} (h : List.Perm as bs) :
    eval_sum σ as = eval_sum σ bs := by
  induction h with
  | nil => rfl
  | cons x _ ih => simp [eval_sum_cons, ih]
  | swap x y l => simp only [eval_sum_cons]; ring
  | trans _ _ ih1 ih2 => exact ih1.trans ih2

theorem eval_prod_perm (σ : Assignment) {as bs : List Expr} (h : List.Perm as bs) :
    eval_prod σ as = eval_prod σ bs := by
  induction h with
  | nil => rfl
  | cons x _ ih => simp [eval_prod_cons, ih]
  | swap x y l => simp only [eval_prod_cons]; ring
  | trans _ _ ih1 ih2 => exact ih1.trans ih2

theorem eval_power_nat (σ : Assignment) (b : Expr) (n : Nat) :
    eval σ (mk_power b (n : ℚ)) = eval σ b ^ n := by
  simp [mk_power, eval, Rat.isInt]

namespace poly_rewriter

theorem eval_mk_add_app (σ : Assignment) (l : List Expr) :
    eval σ (mk_add_app l) = eval_sum σ l := by
  match l with
  | [] => simp [mk_add_app, mk_numeral, eval_num, eval_sum_nil]
  | [a] => simp [mk_add_app, eval_sum_cons, eval_sum_nil]
  | a :: b :: r => simp [mk_add_app, eval_add]

end poly_rewriter

/-! ## Arity contracts -/

theorem wf_list_iff (l : List Expr) : Expr.wf_list l = true ↔ ∀ a ∈ l, a.wf = true := by
  induction l with
  | nil => simp [Expr.wf_list]
  | cons a as ih => simp [Expr.wf_list, ih]

theorem wf_args {f : Func} {as : List Expr} (h : (Expr.app f as).wf = true) :
    ∀ a ∈ as, a.wf = true := by
  simp only [Expr.wf, Bool.and_eq_true] at h
  exact (wf_list_iff as).mp h.2

theorem wf_add_of (as : List Expr) (h1 : 1 ≤ as.length) (h : ∀ a ∈ as, a.wf = true) :
    (Expr.app .add as).wf = true := by
  simp only [Expr.wf, Bool.and_eq_true, decide_eq_true_eq]
  exact ⟨h1, (wf_list_iff as).mpr h⟩

theorem wf_mul_of (as : List Expr) (h1 : 1 ≤ as.length) (h : ∀ a ∈ as, a.wf = true) :
    (Expr.app .mul as).wf = true := by
  simp only [Expr.wf, Bool.and_eq_true, decide_eq_true_eq]
  exact ⟨h1, (wf_list_iff as).mpr h⟩

theorem wf_get_args {e : Expr} (h : e.wf = true) : ∀ a ∈ e.get_args, a.wf = true := by
  cases e with
  | num q => simp [Expr.get_args]
  | var i => simp [Expr.get_args]
  | app f as => exact wf_args h

theorem wf_get_arg {e : Expr} (h : e.wf = true) (i : Nat) : (e.get_arg i).wf = true := by
  unfold Expr.get_arg
  by_cases hi : i < e.get_args.length
  · rw [List.getD_eq_getElem _ _ hi]
    exact wf_get_args h _ (List.getElem_mem _)
  · rw [List.getD_eq_default _ _ (by omega)]
    simp [Expr.wf]

theorem wf_power_shape {t : Expr} (h : t.wf = true) (hp : t.is_power = true) :
    t = .app .power [t.get_arg 0, t.get_arg 1] := by
  cases t with
  | num q => simp [Expr.is_power] at hp
  | var i => simp [Expr.is_power] at hp
  | app f as =>
    cases f <;> simp [Expr.is_power] at hp
    simp only [Expr.wf, Bool.and_eq_true, decide_eq_true_eq] at h
    match as, h with
    | [a, b], _ => simp [Expr.get_arg, Expr.get_args]

theorem is_numeral_eq_some {e : Expr} {q : ℚ} (h : e.is_numeral = some q) : e = .num q := by
  cases e <;> simp [Expr.is_numeral] at h
  rw [h]

theorem is_numeral_eq_none_of_app (f : Func) (as : List Expr) :
    (Expr.app f as).is_numeral = none := by
  simp [Expr.is_numeral]

namespace poly_rewriter

/-! ## Values of the structural constructors for products -/

theorem get_power_body_spec (σ : Assignment) (t : Expr) (h : t.wf = true) :
    ∃ n : Nat, 1 ≤ n ∧ (get_power_body t).2 = (n : ℚ) ∧
      eval σ t = eval σ (get_power_body t).1 ^ n ∧ (get_power_body t).1.wf = true := by
  unfold get_power_body
  by_cases hp : t.is_power = true
  · simp only [hp, Bool.not_true, Bool.false_eq_true, if_false]
    cases hk : (t.get_arg 1).is_numeral with
    | none => exact ⟨1, le_refl _, by simp, by simp, h⟩
    | some k =>
      simp only
      by_cases hc : (k.isInt && decide (1 < k)) = true
      · simp only [hc, if_true]
        simp only [Bool.and_eq_true, decide_eq_true_eq] at hc
        have hden : k.den = 1 := by simpa [Rat.isInt] using hc.1
        have hkq : k = (k.num : ℚ) := (Rat.coe_int_num_of_den_eq_one hden).symm
        have hpos : (1 : ℤ) < k.num := by
          have : ((1 : ℤ) : ℚ) < (k.num : ℚ) := by rw [← hkq]; simpa using hc.2
          exact_mod_cast this
        refine ⟨k.num.toNat, by omega, ?_, ?_, wf_get_arg h 0⟩
        · have h1 : ((k.num.toNat : ℤ) : ℚ) = (k.num : ℚ) := by
            rw [Int.toNat_of_nonneg (by omega)]
          calc k = (k.num : ℚ) := hkq
            _ = ((k.num.toNat : ℤ) : ℚ) := h1.symm
            _ = (k.num.toNat : ℚ) := Int.cast_natCast _
        · have hshape := wf_power_shape h hp
          rw [is_numeral_eq_some hk] at hshape
          have hk0 : (0 : ℚ) ≤ k := by linarith [hc.2]
          rw [hshape]
          simp [eval, hc.1, hk0, Expr.get_arg, Expr.get_args]
      · simp only [hc, Bool.false_eq_true, if_false]
        exact ⟨1, le_refl _, by simp, by simp, h⟩
  · simp only [hp, Bool.not_false, if_true]
    exact ⟨1, le_refl _, by simp, by simp, h⟩

theorem push_power_spec (σ : Assignment) (prev : Expr) (n : Nat) (hw : prev.wf = true) :
    eval σ (push_power prev (n : ℚ)) = eval σ prev ^ n ∧ (push_power prev (n : ℚ)).wf = true := by
  unfold push_power
  split
  · rename_i h
    have : n = 1 := by exact_mod_cast h
    subst this
    simp [hw]
  · refine ⟨eval_power_nat σ prev n, ?_⟩
    simp [mk_power, Expr.wf, Expr.wf_list, hw]

theorem fold_powers_spec (σ : Assignment) (rest : List Expr) :
    ∀ (prev : Expr) (n : Nat), prev.wf = true → (∀ a ∈ rest, a.wf = true) →
      eval_prod σ (fold_powers prev (n : ℚ) rest) = eval σ prev ^ n * eval_prod σ rest ∧
      (∀ a ∈ fold_powers prev (n : ℚ) rest, a.wf = true) := by
  induction rest with
  | nil =>
    intro prev n hw _
    have := push_power_spec σ prev n hw
    simp [fold_powers, eval_prod_cons, eval_prod_nil, this.1, this.2]
  | cons a rest ih =>
    intro prev n hw hr
    have ha : a.wf = true := hr a (List.mem_cons_self _ _)
    have hrest : ∀ x ∈ rest, x.wf = true := fun x hx => hr x (List.mem_cons_of_mem _ hx)
    obtain ⟨m, hm1, hm2, hm3, hm4⟩ := get_power_body_spec σ a ha
    simp only [fold_powers]
    split
    · rename_i heq
      rw [hm2]
      have hcast : (n : ℚ) + (m : ℚ) = ((n + m : Nat) : ℚ) := by push_cast; ring
      rw [hcast]
      have := ih prev (n + m) hw hrest
      refine ⟨?_, this.2⟩
      rw [this.1, eval_prod_cons, hm3, heq, pow_add]
      ring
    · rw [hm2]
      have := ih (get_power_body a).1 m hm4 hrest
      have hp := push_power_spec σ prev n hw
      constructor
      · rw [eval_prod_cons, this.1, hp.1, eval_prod_cons, hm3]
      · intro x hx
        rcases List.mem_cons.mp hx with rfl | hx
        · exact hp.2
        · exact this.2 x hx

theorem fold_powers_ne_nil (prev : Expr) (k : ℚ) (rest : List Expr) :
    fold_powers prev k rest ≠ [] := by
  induction rest generalizing prev k with
  | nil => simp [fold_powers]
  | cons a rest ih =>
    simp only [fold_powers]
    split
    · exact ih _ _
    · simp

theorem fold_powers_length (prev : Expr) (k : ℚ) (rest : List Expr) :
    (fold_powers prev k rest).length ≤ rest.length + 1 := by
  induction rest generalizing prev k with
  | nil => simp [fold_powers]
  | cons a rest ih =>
    simp only [fold_powers]
    split
    · have := ih prev (k + (get_power_body a).2)
      simp only [List.length_cons]
      omega
    · have := ih (get_power_body a).1 (get_power_body a).2
      simp only [List.length_cons]
      omega

theorem is_zero_spec {e : Expr} (h : is_zero e = true) : e = .num 0 := by
  unfold is_zero at h
  cases hn : e.is_numeral with
  | none => simp [hn] at h
  | some v =>
    simp only [hn, decide_eq_true_eq] at h
    rw [is_numeral_eq_some hn, h]

/-- Value and arity contracts of `mk_mul_app` on two factors. -/
theorem mk_mul_app_aux_pair (rw : poly_rewriter) (σ : Assignment) (fuel : Nat) (x y : Expr)
    (hx : x.wf = true) (hy : y.wf = true) :
    eval σ (mk_mul_app_aux rw (fuel + 1) [x, y]) = eval σ x * eval σ y ∧
      (mk_mul_app_aux rw (fuel + 1) [x, y]).wf = true := by
  simp only [mk_mul_app_aux]
  split
  · obtain ⟨n, hn1, hn2, hn3, hn4⟩ := get_power_body_spec σ x hx
    have hf := fold_powers_spec σ [y] (get_power_body x).1 n hn4 (by simpa using hy)
    have hlen := fold_powers_length (get_power_body x).1 (get_power_body x).2 [y]
    have hne := fold_powers_ne_nil (get_power_body x).1 (get_power_body x).2 [y]
    rw [← hn2] at hf
    have hval : eval_prod σ (fold_powers (get_power_body x).1 (get_power_body x).2 [y]) =
        eval σ x * eval σ y := by
      rw [hf.1, hn3]; simp [eval_prod_cons, eval_prod_nil]
    have hwf := hf.2
    generalize fold_powers (get_power_body x).1 (get_power_body x).2 [y] = l
      at hval hlen hne hwf ⊢
    match l, hne, hlen with
    | [a], _, _ =>
      simp only [eval_prod_cons, eval_prod_nil, mul_one] at hval
      exact ⟨hval, hwf a (List.mem_singleton_self a)⟩
    | [a, b], _, _ =>
      have hw2 : (Expr.app .mul [a, b]).wf = true := wf_mul_of _ (by simp) hwf
      cases ha : a.is_numeral <;> simp [ha, eval_mul, hval, hw2]
  · have hw2 : (Expr.app .mul [x, y]).wf = true :=
      wf_mul_of _ (by simp) (by simpa using ⟨hx, hy⟩)
    cases ha : x.is_numeral <;> simp [ha, eval_mul, eval_prod_cons, eval_prod_nil, hw2]

/-- Value and arity contracts of `mk_mul_app(c, arg)`. -/
theorem mk_mul_app_num_aux_spec (rw : poly_rewriter) (σ : Assignment) (fuel : Nat) (c : ℚ)
    (arg : Expr) (hw : arg.wf = true) :
    eval σ (mk_mul_app_num_aux rw (fuel + 2) c arg) = c * eval σ arg ∧
      (mk_mul_app_num_aux rw (fuel + 2) c arg).wf = true := by
  unfold mk_mul_app_num_aux
  split
  · rename_i h; simp [h, hw]
  · split
    · rename_i h
      have := is_zero_spec h
      subst this
      simp [eval_num, hw]
    · have := mk_mul_app_aux_pair rw σ fuel (mk_numeral c) arg (by simp [mk_numeral, Expr.wf]) hw
      simpa [mk_numeral, eval_num] using this

/-- Value and arity contracts of `mk_mul_app(num_args, args)`. -/
theorem mk_mul_app_aux_spec (rw : poly_rewriter) (σ : Assignment) (fuel : Nat) :
    ∀ args : List Expr, args.length ≤ fuel → (∀ a ∈ args, a.wf = true) →
      eval σ (mk_mul_app_aux rw fuel args) = eval_prod σ args ∧
      (mk_mul_app_aux rw fuel args).wf = true := by
  induction fuel with
  | zero =>
    intro args hlen _
    match args, hlen with
    | [], _ => simp [mk_mul_app_aux, mk_numeral, eval_num, eval_prod_nil, Expr.wf]
  | succ fuel ih =>
    intro args hlen hwf
    match args, hlen, hwf with
    | [], _, _ => simp [mk_mul_app_aux, mk_numeral, eval_num, eval_prod_nil, Expr.wf]
    | [a], _, hwf =>
      simp [mk_mul_app_aux, eval_prod_cons, eval_prod_nil]
      exact hwf a (List.mem_singleton_self a)
    | [x, y], _, hwf =>
      have := mk_mul_app_aux_pair rw σ fuel x y (hwf x (by simp)) (hwf y (by simp))
      simpa [eval_prod_cons, eval_prod_nil] using this
    | a0 :: a1 :: a2 :: rest, hlen, hwf =>
      have hfuel : ∃ f2, fuel = f2 + 2 := ⟨fuel - 2, by simp at hlen; omega⟩
      obtain ⟨f2, rfl⟩ := hfuel
      rw [mk_mul_app_aux]
      split
      · obtain ⟨n, hn1, hn2, hn3, hn4⟩ := get_power_body_spec σ a0 (hwf a0 (by simp))
        have hf := fold_powers_spec σ (a1 :: a2 :: rest) (get_power_body a0).1 n hn4
          (fun x hx => hwf x (List.mem_cons_of_mem _ hx))
        have hlenf := fold_powers_length (get_power_body a0).1 (get_power_body a0).2
          (a1 :: a2 :: rest)
        have hne := fold_powers_ne_nil (get_power_body a0).1 (get_power_body a0).2
          (a1 :: a2 :: rest)
        rw [← hn2] at hf
        have hval : eval_prod σ (fold_powers (get_power_body a0).1 (get_power_body a0).2
            (a1 :: a2 :: rest)) = eval_prod σ (a0 :: a1 :: a2 :: rest) := by
          rw [hf.1, eval_prod_cons σ a0, hn3]
        have hwf2 := hf.2
        generalize fold_powers (get_power_body a0).1 (get_power_body a0).2
          (a1 :: a2 :: rest) = l at hval hlenf hne hwf2 ⊢
        match l, hne with
        | [x], _ =>
          simp only [eval_prod_cons, eval_prod_nil, mul_one] at hval
          exact ⟨hval, hwf2 x (List.mem_singleton_self x)⟩
        | x :: y :: new_rest, _ =>
          have hw3 : (Expr.app .mul (x :: y :: new_rest)).wf = true :=
            wf_mul_of _ (by simp) hwf2
          simp only
          cases hx : x.is_numeral with
          | none => exact ⟨by rw [eval_mul, hval], hw3⟩
          | some a =>
            simp only
            split
            · have hin := ih (y :: new_rest)
                (by simp only [List.length_cons] at hlenf hlen ⊢; omega)
                (fun z hz => hwf2 z (List.mem_cons_of_mem _ hz))
              have hnum := mk_mul_app_num_aux_spec rw σ f2 a _ hin.2
              refine ⟨?_, hnum.2⟩
              rw [hnum.1, hin.1, ← hval, eval_prod_cons σ x, is_numeral_eq_some hx, eval_num]
            · exact ⟨by rw [eval_mul, hval], hw3⟩
      · have hw3 : (Expr.app .mul (a0 :: a1 :: a2 :: rest)).wf = true :=
          wf_mul_of _ (by simp) hwf
        cases hx : a0.is_numeral with
        | none => exact ⟨by simp [eval_mul], hw3⟩
        | some a =>
          simp only
          split
          · have hin := ih (a1 :: a2 :: rest)
              (by simp only [List.length_cons] at hlen ⊢; omega)
              (fun z hz => hwf z (List.mem_cons_of_mem _ hz))
            have hnum := mk_mul_app_num_aux_spec rw σ f2 a _ hin.2
            refine ⟨?_, hnum.2⟩
            rw [hnum.1, hin.1, eval_prod_cons σ a0, is_numeral_eq_some hx, eval_num]
          · exact ⟨by simp [eval_mul], hw3⟩

theorem eval_mk_mul_app (rw : poly_rewriter) (σ : Assignment) (args : List Expr)
    (hwf : ∀ a ∈ args, a.wf = true) : eval σ (rw.mk_mul_app args) = eval_prod σ args :=
  (mk_mul_app_aux_spec rw σ (args.length + 1) args (by omega) hwf).1

theorem wf_mk_mul_app (rw : poly_rewriter) (args : List Expr)
    (hwf : ∀ a ∈ args, a.wf = true) : (rw.mk_mul_app args).wf = true :=
  (mk_mul_app_aux_spec rw ⟨fun _ => 0, fun _ => true⟩ (args.length + 1) args (by omega) hwf).2

theorem eval_mk_mul_app_num (rw : poly_rewriter) (σ : Assignment) (c : ℚ) (arg : Expr)
    (hw : arg.wf = true) : eval σ (rw.mk_mul_app_num c arg) = c * eval σ arg :=
  (mk_mul_app_num_aux_spec rw σ 1 c arg hw).1

theorem wf_mk_mul_app_num (rw : poly_rewriter) (c : ℚ) (arg : Expr) (hw : arg.wf = true) :
    (rw.mk_mul_app_num c arg).wf = true :=
  (mk_mul_app_num_aux_spec rw ⟨fun _ => 0, fun _ => true⟩ 1 c arg hw).2

end poly_rewriter

namespace poly_rewriter

/-! ## The macro `TO_BUFFER` -/

theorem is_add_shape {e : Expr} (h : e.is_add = true) : ∃ as, e = .app .add as := by
  cases e with
  | num q => simp [Expr.is_add] at h
  | var i => simp [Expr.is_add] at h
  | app f as => cases f <;> simp [Expr.is_add] at h; exact ⟨as, rfl⟩

theorem is_mul_shape {e : Expr} (h : e.is_mul = true) : ∃ as, e = .app .mul as := by
  cases e with
  | num q => simp [Expr.is_mul] at h
  | var i => simp [Expr.is_mul] at h
  | app f as => cases f <;> simp [Expr.is_mul] at h; exact ⟨as, rfl⟩

theorem wf_add_cons {as : List Expr} (h : (Expr.app .add as).wf = true) :
    ∃ a tl, as = a :: tl := by
  simp only [Expr.wf, Bool.and_eq_true, decide_eq_true_eq] at h
  match as, h with
  | a :: tl, _ => exact ⟨a, tl, rfl⟩

theorem wf_mul_cons {as : List Expr} (h : (Expr.app .mul as).wf = true) :
    ∃ a tl, as = a :: tl := by
  simp only [Expr.wf, Bool.and_eq_true, decide_eq_true_eq] at h
  match as, h with
  | a :: tl, _ => exact ⟨a, tl, rfl⟩

theorem to_buffer_loop_wf (tester : Expr → Bool) (fuel : Nat) :
    ∀ todo : List Expr, (∀ e ∈ todo, e.wf = true) →
      ∀ e ∈ to_buffer_loop tester fuel todo, e.wf = true := by
  induction fuel with
  | zero =>
    intro todo hw
    cases todo <;> simpa [to_buffer_loop] using hw
  | succ fuel ih =>
    intro todo hw
    cases todo with
    | nil => simp [to_buffer_loop]
    | cons e rest =>
      simp only [to_buffer_loop]
      have he := hw e (List.mem_cons_self _ _)
      have hrest : ∀ x ∈ rest, x.wf = true := fun x hx => hw x (List.mem_cons_of_mem _ hx)
      split
      · apply ih
        intro x hx
        rcases List.mem_cons.mp hx with rfl | hx
        · exact wf_get_arg he 0
        · rcases List.mem_append.mp hx with hx | hx
          · exact hrest x hx
          · exact wf_get_args he x (List.mem_of_mem_tail hx)
      · intro x hx
        rcases List.mem_cons.mp hx with rfl | hx
        · exact he
        · exact ih rest hrest x hx

theorem to_buffer_loop_sum (σ : Assignment) (fuel : Nat) :
    ∀ todo : List Expr, (∀ e ∈ todo, e.wf = true) →
      eval_sum σ (to_buffer_loop Expr.is_add fuel todo) = eval_sum σ todo := by
  induction fuel with
  | zero =>
    intro todo _
    cases todo <;> simp [to_buffer_loop]
  | succ fuel ih =>
    intro todo hw
    cases todo with
    | nil => simp [to_buffer_loop]
    | cons e rest =>
      simp only [to_buffer_loop]
      have he := hw e (List.mem_cons_self _ _)
      have hrest : ∀ x ∈ rest, x.wf = true := fun x hx => hw x (List.mem_cons_of_mem _ hx)
      split
      · rename_i ht
        obtain ⟨as, rfl⟩ := is_add_shape ht
        obtain ⟨a, tl, rfl⟩ := wf_add_cons he
        rw [ih]
        · simp [Expr.get_arg, Expr.get_args, eval_sum_cons, eval_sum_append, eval_add]
          ring
        · intro x hx
          rcases List.mem_cons.mp hx with rfl | hx
          · exact wf_get_arg he 0
          · rcases List.mem_append.mp hx with hx | hx
            · exact hrest x hx
            · exact wf_get_args he x (List.mem_of_mem_tail hx)
      · rw [eval_sum_cons, eval_sum_cons, ih rest hrest]

theorem to_buffer_loop_prod (σ : Assignment) (fuel : Nat) :
    ∀ todo : List Expr, (∀ e ∈ todo, e.wf = true) →
      eval_prod σ (to_buffer_loop Expr.is_mul fuel todo) = eval_prod σ todo := by
  induction fuel with
  | zero =>
    intro todo _
    cases todo <;> simp [to_buffer_loop]
  | succ fuel ih =>
    intro todo hw
    cases todo with
    | nil => simp [to_buffer_loop]
    | cons e rest =>
      simp only [to_buffer_loop]
      have he := hw e (List.mem_cons_self _ _)
      have hrest : ∀ x ∈ rest, x.wf = true := fun x hx => hw x (List.mem_cons_of_mem _ hx)
      split
      · rename_i ht
        obtain ⟨as, rfl⟩ := is_mul_shape ht
        obtain ⟨a, tl, rfl⟩ := wf_mul_cons he
        rw [ih]
        · simp [Expr.get_arg, Expr.get_args, eval_prod_cons, eval_prod_append, eval_mul]
          ring
        · intro x hx
          rcases List.mem_cons.mp hx with rfl | hx
          · exact wf_get_arg he 0
          · rcases List.mem_append.mp hx with hx | hx
            · exact hrest x hx
            · exact wf_get_args he x (List.mem_of_mem_tail hx)
      · rw [eval_prod_cons, eval_prod_cons, ih rest hrest]

theorem TO_BUFFER_wf (tester : Expr → Bool) (e : Expr) (h : e.wf = true) :
    ∀ x ∈ TO_BUFFER tester e, x.wf = true :=
  to_buffer_loop_wf tester _ [e] (by simpa using h)

theorem TO_BUFFER_sum (σ : Assignment) (e : Expr) (h : e.wf = true) :
    eval_sum σ (TO_BUFFER Expr.is_add e) = eval σ e := by
  unfold TO_BUFFER
  rw [to_buffer_loop_sum σ _ [e] (by simpa using h)]
  simp [eval_sum_cons, eval_sum_nil]

theorem TO_BUFFER_prod (σ : Assignment) (e : Expr) (h : e.wf = true) :
    eval_prod σ (TO_BUFFER Expr.is_mul e) = eval σ e := by
  unfold TO_BUFFER
  rw [to_buffer_loop_prod σ _ [e] (by simpa using h)]
  simp [eval_prod_cons, eval_prod_nil]

/-! ## `merge_muls` -/

theorem set_head_perm (x : Expr) (xs : List Expr) (k : Nat) (hk : k < xs.length) :
    List.Perm (xs.getD k (num 0) :: xs.set k x) (x :: xs) := by
  induction xs generalizing k with
  | nil => simp at hk
  | cons y ys ih =>
    cases k with
    | zero => simpa using List.Perm.swap x y ys
    | succ k =>
      simp only [List.length_cons, Nat.add_lt_add_iff_right] at hk
      simp only [List.getD_cons_succ, List.set_cons_succ]
      exact (List.Perm.swap y _ _).trans (((ih k hk).cons y).trans (List.Perm.swap x y ys))

theorem swap_entries_perm (l : List Expr) (i k : Nat) (hi : i < l.length) (hk : k < l.length) :
    List.Perm (swap_entries l i k) l := by
  unfold swap_entries
  induction l generalizing i k with
  | nil => simp at hi
  | cons x xs ih =>
    cases i with
    | zero =>
      cases k with
      | zero => simp
      | succ k =>
        simp only [List.length_cons, Nat.add_lt_add_iff_right] at hk
        simpa using set_head_perm x xs k hk
    | succ i =>
      simp only [List.length_cons, Nat.add_lt_add_iff_right] at hi
      cases k with
      | zero => simpa using set_head_perm x xs i hi
      | succ k =>
        simp only [List.length_cons, Nat.add_lt_add_iff_right] at hk
        simpa using ih i k hi hk

theorem swap_entries_length (l : List Expr) (i k : Nat) : (swap_entries l i k).length = l.length := by
  simp [swap_entries]

theorem swap_entries_take (l : List Expr) (i k : Nat) (hki : k ≤ i) (hi : i < l.length) :
    (swap_entries l i k).take (k + 1) = l.take k ++ [l.getD i (num 0)] := by
  unfold swap_entries
  induction l generalizing i k with
  | nil => simp at hi
  | cons x xs ih =>
    cases k with
    | zero =>
      cases i with
      | zero => simp
      | succ i => simp
    | succ k =>
      cases i with
      | zero => omega
      | succ i =>
        simp only [List.length_cons, Nat.add_lt_add_iff_right] at hi
        have := ih i k (by omega) hi
        simpa using this

theorem find_index_spec (x : Expr) (l : List Expr) :
    ∀ (j0 j : Nat), find_index x l j0 = some j →
      j0 ≤ j ∧ j - j0 < l.length ∧ l.getD (j - j0) (num 0) = x := by
  induction l with
  | nil => intro j0 j h; simp [find_index] at h
  | cons y ys ih =>
    intro j0 j h
    simp only [find_index] at h
    split at h
    · rename_i hy
      simp only [Option.some.injEq] at h
      subst h
      simp [hy]
    · obtain ⟨h1, h2, h3⟩ := ih (j0 + 1) j h
      refine ⟨by omega, by simp only [List.length_cons]; omega, ?_⟩
      have : j - j0 = (j - (j0 + 1)) + 1 := by omega
      rw [this, List.getD_cons_succ]
      exact h3

theorem find_from_spec (m2 : List Expr) (x : Expr) (k j : Nat) (h : find_from m2 x k = some j) :
    k ≤ j ∧ j < m2.length ∧ m2.getD j (num 0) = x := by
  obtain ⟨h1, h2, h3⟩ := find_index_spec x (m2.drop k) k j h
  rw [List.length_drop] at h2
  refine ⟨h1, by omega, ?_⟩
  rw [← h3]
  simp only [List.getD_eq_getElem?_getD, List.getElem?_drop]
  congr 2
  omega

theorem merge_loop_spec (n : Nat) :
    ∀ (s : Nat) (m1 m2 : List Expr) (k : Nat), k ≤ s → s + n ≤ m1.length → k ≤ m2.length →
      m1.take k = m2.take k →
      List.Perm (merge_loop (List.range' s n) (m1, m2, k)).1 m1 ∧
      List.Perm (merge_loop (List.range' s n) (m1, m2, k)).2.1 m2 ∧
      (merge_loop (List.range' s n) (m1, m2, k)).1.take
          (merge_loop (List.range' s n) (m1, m2, k)).2.2 =
        (merge_loop (List.range' s n) (m1, m2, k)).2.1.take
          (merge_loop (List.range' s n) (m1, m2, k)).2.2 := by
  induction n with
  | zero =>
    intro s m1 m2 k _ _ _ ht
    simp [merge_loop, ht]
  | succ n ih =>
    intro s m1 m2 k hks hlen hk2 ht
    simp only [List.range'_succ, merge_loop]
    cases hf : find_from m2 (m1.getD s (num 0)) k with
    | none =>
      simp only
      exact ih (s + 1) m1 m2 k (by omega) (by omega) hk2 ht
    | some j =>
      simp only
      obtain ⟨hj1, hj2, hj3⟩ := find_from_spec m2 _ k j hf
      have hs : s < m1.length := by omega
      have hk1 : k < m1.length := by omega
      have hkm2 : k < m2.length := by omega
      have := ih (s + 1) (swap_entries m1 s k) (swap_entries m2 j k) (k + 1) (by omega)
        (by rw [swap_entries_length]; omega) (by rw [swap_entries_length]; omega)
        (by rw [swap_entries_take m1 s k hks hs, swap_entries_take m2 j k hj1 hj2, ht, hj3])
      exact ⟨this.1.trans (swap_entries_perm m1 s k hs hk1),
        this.2.1.trans (swap_entries_perm m2 j k hj2 hkm2), this.2.2⟩

theorem merge_muls_spec (rw : poly_rewriter) (σ : Assignment) (x y : Expr) (hx : x.wf = true)
    (hy : y.wf = true) :
    eval σ (rw.merge_muls x y) = eval σ x + eval σ y ∧ (rw.merge_muls x y).wf = true := by
  unfold merge_muls
  have h1w := TO_BUFFER_wf Expr.is_mul x hx
  have h2w := TO_BUFFER_wf Expr.is_mul y hy
  have h1p := TO_BUFFER_prod σ x hx
  have h2p := TO_BUFFER_prod σ y hy
  have hspec := merge_loop_spec (TO_BUFFER Expr.is_mul x).length 0 (TO_BUFFER Expr.is_mul x)
    (TO_BUFFER Expr.is_mul y) 0 (le_refl _) (by omega) (Nat.zero_le _) (by simp)
  rw [← List.range_eq_range'] at hspec
  simp only
  generalize merge_loop (List.range (TO_BUFFER Expr.is_mul x).length)
    (TO_BUFFER Expr.is_mul x, TO_BUFFER Expr.is_mul y, 0) = r at hspec ⊢
  obtain ⟨m1, m2, k⟩ := r
  simp only at hspec ⊢
  obtain ⟨hp1, hp2, htk⟩ := hspec
  have hw1 : ∀ a ∈ m1, a.wf = true := fun a ha => h1w a (hp1.subset ha)
  have hw2 : ∀ a ∈ m2, a.wf = true := fun a ha => h2w a (hp2.subset ha)
  have hwd1 : ∀ a ∈ m1.drop k, a.wf = true := fun a ha => hw1 a (List.mem_of_mem_drop ha)
  have hwd2 : ∀ a ∈ m2.drop k, a.wf = true := fun a ha => hw2 a (List.mem_of_mem_drop ha)
  have hwadd : (mk_add_app [rw.mk_mul_app (m1.drop k), rw.mk_mul_app (m2.drop k)]).wf = true := by
    simp only [mk_add_app]
    apply wf_add_of _ (by simp)
    intro a ha
    simp only [List.mem_cons, List.mem_singleton, List.not_mem_nil, or_false] at ha
    rcases ha with rfl | rfl
    · exact wf_mk_mul_app rw _ hwd1
    · exact wf_mk_mul_app rw _ hwd2
  have hwall : ∀ a ∈ m1.take k ++
      [mk_add_app [rw.mk_mul_app (m1.drop k), rw.mk_mul_app (m2.drop k)]], a.wf = true := by
    intro a ha
    rcases List.mem_append.mp ha with ha | ha
    · exact hw1 a (List.mem_of_mem_take ha)
    · rw [List.mem_singleton.mp ha]; exact hwadd
  refine ⟨?_, wf_mk_mul_app rw _ hwall⟩
  rw [eval_mk_mul_app rw σ _ hwall, eval_prod_append, eval_prod_cons, eval_prod_nil,
    eval_mk_add_app, eval_sum_cons, eval_sum_cons, eval_sum_nil,
    eval_mk_mul_app rw σ _ hwd1, eval_mk_mul_app rw σ _ hwd2]
  have e1 : eval σ x = eval_prod σ (m1.take k) * eval_prod σ (m1.drop k) := by
    rw [← h1p, ← eval_prod_perm σ hp1, ← eval_prod_append, List.take_append_drop]
  have e2 : eval σ y = eval_prod σ (m1.take k) * eval_prod σ (m2.drop k) := by
    rw [← h2p, ← eval_prod_perm σ hp2, htk, ← eval_prod_append, List.take_append_drop]
  rw [e1, e2]
  ring

end poly_rewriter

namespace poly_rewriter

/-! ## `hoist_multiplication` -/

theorem eval_sum_set (σ : Assignment) (l : List Expr) (j : Nat) (v : Expr) (hj : j < l.length) :
    eval_sum σ (l.set j v) + eval σ (l.getD j (num 0)) = eval_sum σ l + eval σ v := by
  induction l generalizing j with
  | nil => simp at hj
  | cons x xs ih =>
    cases j with
    | zero => simp [eval_sum_cons]; ring
    | succ j =>
      simp only [List.length_cons, Nat.add_lt_add_iff_right] at hj
      simp only [List.set_cons_succ, List.getD_cons_succ, eval_sum_cons]
      linarith [ih j hj]

theorem wf_mk_add_app (l : List Expr) (h : ∀ a ∈ l, a.wf = true) : (mk_add_app l).wf = true := by
  match l, h with
  | [], _ => simp [mk_add_app, mk_numeral, Expr.wf]
  | [a], h => exact h a (List.mem_singleton_self a)
  | a :: b :: r, h => exact wf_add_of _ (by simp) h

/-- Invariant of the loops of `hoist_multiplication`: the buffers keep their length, every
summand respects the arity contracts and the sum keeps its value `v`. -/
def hoist_inv (σ : Assignment) (n : Nat) (v : ℚ) (st : hoist_state) : Prop :=
  st.adds.length = n ∧ st.valid.length = n ∧ (∀ a ∈ st.adds, a.wf = true) ∧
    eval_sum σ st.adds = v

theorem hoist_mul_inner_inv (rw : poly_rewriter) (σ : Assignment) (n : Nat) (v : ℚ) (k : Nat)
    (hk : k < n) (muls : List Expr) :
    ∀ st : hoist_state, hoist_inv σ n v st → hoist_inv σ n v (hoist_mul_inner rw k muls st) := by
  induction muls with
  | nil => intro st h; simpa [hoist_mul_inner] using h
  | cons e muls ih =>
    intro st h
    simp only [hoist_mul_inner]
    split
    · exact ih st h
    · cases hf : map_find st.mul_map e with
      | none => exact ih _ h
      | some j =>
        simp only
        split
        · rename_i hcond
          simp only [Bool.and_eq_true, decide_eq_true_eq] at hcond
          obtain ⟨hl, hv, hw, hs⟩ := h
          have hj : j < n := by
            by_contra hcon
            rw [List.getD_eq_default _ _ (by omega)] at hcond
            exact absurd hcond.1 (by simp)
          have hwj : (st.adds.getD j (num 0)).wf = true := by
            rw [List.getD_eq_getElem _ _ (by omega)]; exact hw _ (List.getElem_mem _)
          have hwk : (st.adds.getD k (num 0)).wf = true := by
            rw [List.getD_eq_getElem _ _ (by omega)]; exact hw _ (List.getElem_mem _)
          have hm := merge_muls_spec rw σ _ _ hwj hwk
          refine ⟨by simp [hl], by simp [hv], ?_, ?_⟩
          · intro a ha
            rcases List.mem_or_eq_of_mem_set ha with ha | rfl
            · rcases List.mem_or_eq_of_mem_set ha with ha | rfl
              · exact hw a ha
              · exact hm.2
            · simp [mk_numeral, Expr.wf]
          · simp only
            have e1 := eval_sum_set σ st.adds j
              (rw.merge_muls (st.adds.getD j (num 0)) (st.adds.getD k (num 0))) (by omega)
            have e2 := eval_sum_set σ (st.adds.set j
              (rw.merge_muls (st.adds.getD j (num 0)) (st.adds.getD k (num 0)))) k
              (mk_numeral 0) (by simp; omega)
            have e3 : (st.adds.set j (rw.merge_muls (st.adds.getD j (num 0))
                (st.adds.getD k (num 0)))).getD k (num 0) = st.adds.getD k (num 0) := by
              simp only [List.getD_eq_getElem?_getD]
              rw [List.getElem?_set_ne hcond.2]
            rw [e3] at e2
            rw [hm.1] at e1
            simp only [mk_numeral, eval_num] at e2 ⊢
            linarith
        · exact ih _ h

theorem hoist_mul_outer_inv (rw : poly_rewriter) (σ : Assignment) (n : Nat) (v : ℚ)
    (ks : List Nat) (hks : ∀ k ∈ ks, k < n) :
    ∀ st : hoist_state, hoist_inv σ n v st → hoist_inv σ n v (hoist_mul_outer rw ks st) := by
  induction ks with
  | nil => intro st h; simpa [hoist_mul_outer] using h
  | cons k ks ih =>
    intro st h
    simp only [hoist_mul_outer]
    exact ih (fun x hx => hks x (List.mem_cons_of_mem _ hx)) _
      (hoist_mul_inner_inv rw σ n v k (hks k (List.mem_cons_self _ _)) _ st h)

theorem hoist_multiplication_spec (rw : poly_rewriter) (σ : Assignment) (som : Expr)
    (h : som.wf = true) :
    eval σ (rw.hoist_multiplication som).2 = eval σ som ∧
      (rw.hoist_multiplication som).2.wf = true ∧
      ((rw.hoist_multiplication som).1 = false → (rw.hoist_multiplication som).2 = som) := by
  unfold hoist_multiplication
  split
  · exact ⟨rfl, h, fun _ => rfl⟩
  · simp only
    have hinv := hoist_mul_outer_inv rw σ (TO_BUFFER Expr.is_add som).length (eval σ som)
      (List.range (TO_BUFFER Expr.is_add som).length) (fun k hk => List.mem_range.mp hk)
      { adds := TO_BUFFER Expr.is_add som,
        valid := List.replicate (TO_BUFFER Expr.is_add som).length true,
        mul_map := [], change := false }
      ⟨rfl, by simp, TO_BUFFER_wf _ som h, TO_BUFFER_sum σ som h⟩
    split
    · exact ⟨rfl, h, fun _ => rfl⟩
    · obtain ⟨_, _, hw, hs⟩ := hinv
      exact ⟨by rw [eval_mk_add_app, hs], wf_mk_add_app _ hw, by simp⟩

end poly_rewriter

namespace poly_rewriter

/-! ## `hoist_ite` -/

theorem set_insert_all_spec (es : List Expr) :
    ∀ shared : List Expr, shared.Nodup →
      (set_insert_all shared es).Nodup ∧
      ∀ x, x ∈ set_insert_all shared es ↔ x ∈ shared ∨ x ∈ es := by
  induction es with
  | nil => intro shared h; simp [set_insert_all, h]
  | cons e es ih =>
    intro shared h
    simp only [set_insert_all]
    split
    · rename_i hmem
      have := ih shared h
      refine ⟨this.1, fun x => ?_⟩
      rw [this.2 x, List.mem_cons]
      constructor
      · rintro (h1 | h1)
        · exact Or.inl h1
        · exact Or.inr (Or.inr h1)
      · rintro (h1 | h1 | h1)
        · exact Or.inl h1
        · exact Or.inl (h1 ▸ hmem)
        · exact Or.inr h1
    · rename_i hmem
      have hnd : (shared ++ [e]).Nodup := by
        rw [List.nodup_append]
        refine ⟨h, List.nodup_singleton e, ?_⟩
        intro a ha hb
        rw [List.mem_singleton] at hb
        exact hmem (hb ▸ ha)
      have := ih (shared ++ [e]) hnd
      refine ⟨this.1, fun x => ?_⟩
      rw [this.2 x, List.mem_append, List.mem_singleton, List.mem_cons]
      tauto

theorem occurs_uniquely_spec (l : List Expr) (h : occurs_uniquely l = true) : l.Nodup := by
  induction l with
  | nil => exact List.nodup_nil
  | cons e es ih =>
    simp only [occurs_uniquely, Bool.and_eq_true, Bool.not_eq_true', decide_eq_false_iff_not] at h
    exact List.nodup_cons.mpr ⟨h.1, ih h.2⟩

theorem eval_sum_remove (σ : Assignment) (adds T : List Expr) (hn : adds.Nodup) (hT : T.Nodup)
    (hsub : ∀ x ∈ T, x ∈ adds) :
    eval_sum σ (adds.filter (fun e => !decide (e ∈ T))) + eval_sum σ T = eval_sum σ adds := by
  have h1 := List.filter_append_perm (fun e => decide (e ∈ T)) adds
  have h2 : List.Perm (adds.filter (fun e => decide (e ∈ T))) T := by
    rw [List.perm_ext_iff_of_nodup (hn.filter _) hT]
    intro a
    simp only [List.mem_filter, decide_eq_true_eq]
    exact ⟨fun h => h.2, fun h => ⟨hsub a h, h⟩⟩
  rw [← eval_sum_perm σ h1, eval_sum_append, eval_sum_perm σ h2]
  ring

theorem hoist_ite_leaf_spec (σ : Assignment) (a : Expr) (sh : List Expr) (g : ℚ)
    (hok : (hoist_ite_leaf a sh g).1 = true) (hg : g = 0 → sh = []) (hnd : sh.Nodup)
    (hwa : a.wf = true) :
    (hoist_ite_leaf a sh g).2.1 ≠ [] ∧ (hoist_ite_leaf a sh g).2.1.Nodup ∧
    (hoist_ite_leaf a sh g).2.2 = 1 ∧
    (g ≠ 0 → ∀ x ∈ (hoist_ite_leaf a sh g).2.1, x ∈ sh) ∧
    (∀ T : List Expr, (∀ x ∈ T, x ∈ (hoist_ite_leaf a sh g).2.1) → T.Nodup →
      eval σ (apply_hoist_leaf a 1 T) + eval_sum σ T = eval σ a) := by
  have hsets : ((if g = 0 then set_insert_all sh (TO_BUFFER Expr.is_add a)
      else sh.filter (fun e => decide (e ∈ TO_BUFFER Expr.is_add a))).Nodup) ∧
      (∀ x ∈ (if g = 0 then set_insert_all sh (TO_BUFFER Expr.is_add a)
        else sh.filter (fun e => decide (e ∈ TO_BUFFER Expr.is_add a))),
        x ∈ TO_BUFFER Expr.is_add a) ∧
      (g ≠ 0 → ∀ x ∈ (if g = 0 then set_insert_all sh (TO_BUFFER Expr.is_add a)
        else sh.filter (fun e => decide (e ∈ TO_BUFFER Expr.is_add a))), x ∈ sh) := by
    by_cases hg0 : g = 0
    · simp only [hg0, if_true]
      have hs := hg hg0
      subst hs
      have := set_insert_all_spec (TO_BUFFER Expr.is_add a) [] List.nodup_nil
      refine ⟨this.1, fun x hx => ?_, fun h => absurd rfl h⟩
      simpa using (this.2 x).mp hx
    · simp only [hg0, if_false]
      refine ⟨hnd.filter _, fun x hx => ?_, fun _ x hx => (List.mem_filter.mp hx).1⟩
      simpa using (List.mem_filter.mp hx).2
  unfold hoist_ite_leaf at hok ⊢
  simp only at hok ⊢
  generalize (if g = 0 then set_insert_all sh (TO_BUFFER Expr.is_add a)
      else sh.filter (fun e => decide (e ∈ TO_BUFFER Expr.is_add a))) = S at hok hsets ⊢
  by_cases hint : (is_int_numeral a).isSome = true
  · simp [hint] at hok
  · simp only [hint, Bool.false_eq_true, if_false] at hok ⊢
    by_cases hemp : S.isEmpty = true
    · simp [hemp] at hok
    · simp only [hemp, Bool.false_eq_true, if_false] at hok ⊢
      by_cases huniq : (!occurs_uniquely (TO_BUFFER Expr.is_add a)) = true
      · simp [huniq] at hok
      · simp only [huniq, Bool.false_eq_true, if_false] at hok ⊢
        have hu : (TO_BUFFER Expr.is_add a).Nodup :=
          occurs_uniquely_spec _ (by simpa using huniq)
        refine ⟨by simpa [List.isEmpty_iff] using hemp, hsets.1, trivial, hsets.2.2, ?_⟩
        intro T hT hTn
        unfold apply_hoist_leaf
        simp only [is_nontrivial_gcd, decide_True, Bool.not_true, Bool.and_false,
          Bool.false_eq_true, if_false]
        rw [eval_mk_add_app, eval_sum_remove σ _ T hu hTn (fun x hx => hsets.2.1 x (hT x hx)),
          TO_BUFFER_sum σ a hwa]

theorem wf_ite_args {c t e : Expr} (h : (Expr.app .ite [c, t, e]).wf = true) :
    t.wf = true ∧ e.wf = true := by
  have := wf_args h
  exact ⟨this t (by simp), this e (by simp)⟩

theorem hoist_ite_rec_spec (σ : Assignment) (a : Expr) :
    ∀ (sh : List Expr) (g : ℚ), (hoist_ite_rec a sh g).1 = true → (g = 0 → sh = []) →
      sh.Nodup → a.wf = true →
      (hoist_ite_rec a sh g).2.1 ≠ [] ∧ (hoist_ite_rec a sh g).2.1.Nodup ∧
      (hoist_ite_rec a sh g).2.2 = 1 ∧
      (g ≠ 0 → ∀ x ∈ (hoist_ite_rec a sh g).2.1, x ∈ sh) ∧
      (∀ T : List Expr, (∀ x ∈ T, x ∈ (hoist_ite_rec a sh g).2.1) → T.Nodup →
        eval σ (apply_hoist 1 T a) + eval_sum σ T = eval σ a) := by
  induction a using Expr.induction_on with
  | hnum q =>
    intro sh g hok hg hnd hwa
    rw [hoist_ite_rec.eq_2 _ _ _ (by intro _ _ _ h; cases h)] at hok ⊢
    have := hoist_ite_leaf_spec σ _ sh g hok hg hnd hwa
    refine ⟨this.1, this.2.1, this.2.2.1, this.2.2.2.1, fun T h1 h2 => ?_⟩
    rw [apply_hoist.eq_2 _ _ _ (by intro _ _ _ h; cases h)]
    exact this.2.2.2.2 T h1 h2
  | hvar i =>
    intro sh g hok hg hnd hwa
    rw [hoist_ite_rec.eq_2 _ _ _ (by intro _ _ _ h; cases h)] at hok ⊢
    have := hoist_ite_leaf_spec σ _ sh g hok hg hnd hwa
    refine ⟨this.1, this.2.1, this.2.2.1, this.2.2.2.1, fun T h1 h2 => ?_⟩
    rw [apply_hoist.eq_2 _ _ _ (by intro _ _ _ h; cases h)]
    exact this.2.2.2.2 T h1 h2
  | happ f as ih =>
    intro sh g hok hg hnd hwa
    by_cases hshape : ∃ c t e, Expr.app f as = .app .ite [c, t, e]
    · obtain ⟨c, t, e, heq⟩ := hshape
      simp only [Expr.app.injEq] at heq
      obtain ⟨rfl, rfl⟩ := heq
      obtain ⟨hwt, hwe⟩ := wf_ite_args hwa
      rw [hoist_ite_rec.eq_1] at hok ⊢
      have iht := ih t (by simp) sh g
      have ihe := ih e (by simp)
      generalize hoist_ite_rec t sh g = r1 at hok iht ⊢
      obtain ⟨ok1, S1, g1⟩ := r1
      cases ok1 with
      | false => simp at hok
      | true =>
        simp only at hok ⊢
        obtain ⟨t1, t2, t3, t4, t5⟩ := iht rfl hg hnd hwt
        simp only at t1 t2 t3 t4 t5
        subst t3
        obtain ⟨e1, e2, e3, e4, e5⟩ := ihe S1 1 hok (by norm_num) t2 hwe
        refine ⟨e1, e2, e3, fun hg0 x hx => t4 hg0 x (e4 (by norm_num) x hx), ?_⟩
        intro T hT hTn
        rw [apply_hoist.eq_1]
        have v1 := t5 T (fun x hx => e4 (by norm_num) x (hT x hx)) hTn
        have v2 := e5 T hT hTn
        simp only [eval]
        split
        · exact v1
        · exact v2
    · have hne : ∀ c t e, Expr.app f as = .app .ite [c, t, e] → False :=
        fun c t e h => hshape ⟨c, t, e, h⟩
      rw [hoist_ite_rec.eq_2 _ _ _ hne] at hok ⊢
      have := hoist_ite_leaf_spec σ _ sh g hok hg hnd hwa
      refine ⟨this.1, this.2.1, this.2.2.1, this.2.2.2.1, fun T h1 h2 => ?_⟩
      rw [apply_hoist.eq_2 _ _ _ hne]
      exact this.2.2.2.2 T h1 h2

theorem hoist_ite_summand_spec (rw : poly_rewriter) (σ : Assignment) (a a2 : Expr)
    (hwa : a.wf = true) (h : rw.hoist_ite_summand a = some a2) : eval σ a2 = eval σ a := by
  unfold hoist_ite_summand at h
  split at h
  · have hspec := hoist_ite_rec_spec σ a [] 0
    generalize hoist_ite_rec a [] 0 = r at h hspec
    obtain ⟨ok, shared, g⟩ := r
    simp only at h hspec
    split at h
    · rename_i hcond
      simp only [Bool.and_eq_true] at hcond
      obtain ⟨s1, s2, s3, _, s5⟩ := hspec hcond.1 (fun _ => trivial) List.nodup_nil hwa
      have hemp : shared.isEmpty = false := by
        cases shared with
        | nil => exact absurd rfl s1
        | cons _ _ => rfl
      simp only [hemp, Bool.not_false, if_true, is_nontrivial_gcd, decide_True, Bool.not_true,
        Bool.and_false, Bool.false_eq_true, if_false] at h
      split at h
      · simp only [Option.some.injEq] at h
        subst h
        rw [eval_mk_add_app, eval_sum_cons]
        exact s5 shared (fun x hx => hx) s2
      · simp at h
    · simp at h
  · simp at h

theorem hoist_ite_spec (rw : poly_rewriter) (σ : Assignment) (e : Expr) (h : e.wf = true) :
    eval σ (rw.hoist_ite e).2 = eval σ e := by
  unfold hoist_ite
  split
  · rfl
  · simp only
    split
    · simp only
      rw [eval_mk_add_app, ← TO_BUFFER_sum σ e h]
      have hw := TO_BUFFER_wf Expr.is_add e h
      generalize TO_BUFFER Expr.is_add e = adds at hw
      induction adds with
      | nil => simp
      | cons a adds ih =>
        simp only [List.map_cons, eval_sum_cons]
        rw [ih (fun x hx => hw x (List.mem_cons_of_mem _ hx))]
        congr 1
        cases hs : rw.hoist_ite_summand a with
        | none => simp
        | some a2 =>
          simp only [Option.getD_some]
          exact hoist_ite_summand_spec rw σ a a2 (hw a (List.mem_cons_self _ _)) hs
    · rfl

theorem add_finish_spec (rw : poly_rewriter) (σ : Assignment) (result : Expr)
    (h : result.wf = true) :
    ∃ r, (rw.add_finish result).2 = some r ∧ eval σ r = eval σ result := by
  unfold add_finish
  have hm := hoist_multiplication_spec rw σ result h
  generalize rw.hoist_multiplication result = r1 at hm
  obtain ⟨b1, r1⟩ := r1
  cases b1 with
  | true => exact ⟨r1, rfl, hm.1⟩
  | false =>
    simp only at hm ⊢
    have hi := hoist_ite_spec rw σ r1 hm.2.1
    generalize rw.hoist_ite r1 = r2 at hi
    obtain ⟨b2, r2⟩ := r2
    cases b2 with
    | true => exact ⟨r2, rfl, by rw [hi, hm.1]⟩
    | false => exact ⟨r2, rfl, by rw [hi, hm.1]⟩

end poly_rewriter

namespace poly_rewriter

/-! ## Coefficient bookkeeping of `mk_nflat_add_core` -/

theorem get_power_product_coeff_fst (t : Expr) :
    (get_power_product_coeff t).1 = get_power_product t := by
  unfold get_power_product_coeff get_power_product
  by_cases h : (t.is_mul && t.get_num_args == 2) = true
  · simp only [h, if_true]
    cases hn : (t.get_arg 0).is_numeral <;> simp
  · have h2 : (t.is_mul && t.get_num_args == 2) = false := by simpa using h
    simp [h2]

theorem eval_get_power_product_coeff (σ : Assignment) (t : Expr) :
    eval σ t = (get_power_product_coeff t).2 * eval σ (get_power_product_coeff t).1 := by
  unfold get_power_product_coeff
  by_cases h : (t.is_mul && t.get_num_args == 2) = true
  · simp only [h, if_true]
    cases hn : (t.get_arg 0).is_numeral with
    | none => simp
    | some a =>
      simp only [Bool.and_eq_true, beq_iff_eq] at h
      obtain ⟨as, rfl⟩ := is_mul_shape h.1
      simp only [Expr.get_num_args, Expr.get_args] at h
      match as, h.2 with
      | [x, y], _ =>
        simp only [Expr.get_arg, Expr.get_args, List.getD_cons_zero] at hn
        rw [is_numeral_eq_some hn]
        simp [Expr.get_arg, Expr.get_args, eval_mul, eval_prod_cons, eval_prod_nil, eval_num]
  · have h2 : (t.is_mul && t.get_num_args == 2) = false := by simpa using h
    simp [h2]

theorem wf_get_power_product (t : Expr) (h : t.wf = true) : (get_power_product t).wf = true := by
  unfold get_power_product
  split
  · exact wf_get_arg h 1
  · exact h

theorem add_scan_loop_c (rw : poly_rewriter) (σ : Assignment) (l : List Expr) :
    ∀ (i : Nat) (st : add_scan),
      (add_scan_loop rw i l st).c =
        st.c + eval_sum σ (l.filter (fun a => a.is_numeral.isSome)) := by
  induction l with
  | nil => intro i st; simp [add_scan_loop, eval_sum_nil]
  | cons a l ih =>
    intro i st
    simp only [add_scan_loop]
    rw [ih]
    cases hn : a.is_numeral with
    | none =>
      have hc : (add_scan_step rw i a st).c = st.c := by
        unfold add_scan_step
        simp only [hn]
        split <;> split <;> rfl
      simp [hc, List.filter_cons, hn]
    | some q =>
      have hc : (add_scan_step rw i a st).c = st.c + q := by
        unfold add_scan_step
        simp only [hn]
        split <;> rfl
      rw [hc, List.filter_cons]
      simp only [hn, Option.isSome_some, if_true, eval_sum_cons]
      rw [is_numeral_eq_some hn, eval_num]
      ring

theorem eval_sum_filter_split (σ : Assignment) (p : Expr → Bool) (l : List Expr) :
    eval_sum σ l = eval_sum σ (l.filter p) + eval_sum σ (l.filter (fun a => !p a)) := by
  rw [← eval_sum_append]
  exact (eval_sum_perm σ (List.filter_append_perm p l)).symm

theorem coeffs_find_add (pp : Expr) (a : ℚ) (q : Expr) (coeffs : List (Expr × ℚ)) :
    coeffs_find q (coeffs_add pp a coeffs) =
      coeffs_find q coeffs + (if q = pp then a else 0) := by
  induction coeffs with
  | nil =>
    simp only [coeffs_add, coeffs_find]
    by_cases h : pp = q
    · simp [h]
    · have h2 : ¬ q = pp := fun e => h e.symm
      simp [h, h2]
  | cons e rest ih =>
    obtain ⟨p, b⟩ := e
    simp only [coeffs_add]
    by_cases hp : p = pp
    · simp only [hp, if_true, coeffs_find]
      by_cases hq : pp = q
      · simp [hq]
      · have h2 : ¬ q = pp := fun e => hq e.symm
        simp [hq, h2]
    · simp only [hp, if_false, coeffs_find]
      by_cases hq : p = q
      · have h2 : ¬ q = pp := fun e => hp (hq.trans e)
        simp [hq, h2]
      · simp only [hq, if_false]
        exact ih

/-- Sum of the coefficients of the monomials of `l` whose power product is `pp`. -/
def coeff_total (pp : Expr) : List Expr → ℚ
  | [] => 0
  | arg :: rest =>
    (if arg.is_numeral.isSome then 0
     else if get_power_product arg = pp then (get_power_product_coeff arg).2 else 0) +
      coeff_total pp rest

/-- Sum of the values of the monomials of `l` that the third loop of `mk_nflat_add_core` still
has to account for when the power products in `visited` have been emitted. -/
def emit_value (σ : Assignment) (multiple visited : List Expr) : List Expr → ℚ
  | [] => 0
  | arg :: rest =>
    (if arg.is_numeral.isSome then 0
     else if get_power_product arg ∈ multiple ∧ get_power_product arg ∈ visited then 0
     else eval σ arg) + emit_value σ multiple visited rest

theorem collect_coeffs_find (multiple : List Expr) (q : Expr) (l : List Expr) :
    ∀ coeffs : List (Expr × ℚ),
      coeffs_find q (collect_coeffs multiple l coeffs) =
        coeffs_find q coeffs + (if q ∈ multiple then coeff_total q l else 0) := by
  induction l with
  | nil => intro coeffs; simp [collect_coeffs, coeff_total]
  | cons arg rest ih =>
    intro coeffs
    simp only [collect_coeffs, coeff_total]
    by_cases hn : arg.is_numeral.isSome = true
    · simp only [hn, if_true, zero_add]
      exact ih coeffs
    · simp only [hn, Bool.false_eq_true, if_false]
      rw [get_power_product_coeff_fst]
      by_cases hm : get_power_product arg ∈ multiple
      · simp only [hm, not_true_eq_false, if_false]
        rw [ih, coeffs_find_add]
        by_cases hq : q = get_power_product arg
        · subst hq
          simp [hm]
          ring
        · have hq2 : ¬ get_power_product arg = q := fun e => hq e.symm
          simp [hq, hq2]
      · simp only [hm, not_false_eq_true, if_true]
        rw [ih]
        by_cases hq : get_power_product arg = q
        · subst hq
          simp [hm]
        · simp [hq]

theorem emit_value_split (σ : Assignment) (multiple visited : List Expr) (pp : Expr)
    (hm : pp ∈ multiple) (hv : pp ∉ visited) (l : List Expr) :
    emit_value σ multiple visited l =
      emit_value σ multiple (pp :: visited) l + coeff_total pp l * eval σ pp := by
  induction l with
  | nil => simp [emit_value, coeff_total]
  | cons arg rest ih =>
    simp only [emit_value, coeff_total]
    rw [ih]
    by_cases hn : arg.is_numeral.isSome = true
    · simp only [hn, if_true]
      ring
    · simp only [hn, Bool.false_eq_true, if_false]
      by_cases hq : get_power_product arg = pp
      · have e1 := eval_get_power_product_coeff σ arg
        rw [get_power_product_coeff_fst] at e1
        simp only [hq, hm, hv, List.mem_cons, true_or, and_self, and_false, if_true, if_false]
        rw [e1, hq]
        ring
      · have hq2 : ¬ pp = get_power_product arg := fun e => hq e.symm
        simp only [hq, List.mem_cons, false_or, if_false]
        ring

theorem emit_value_nil (σ : Assignment) (multiple : List Expr) (l : List Expr) :
    emit_value σ multiple [] l = eval_sum σ (l.filter (fun a => !a.is_numeral.isSome)) := by
  induction l with
  | nil => simp [emit_value, eval_sum_nil]
  | cons arg rest ih =>
    simp only [emit_value, List.filter_cons]
    rw [ih]
    by_cases hn : arg.is_numeral.isSome = true
    · simp [hn]
    · simp [hn, eval_sum_cons]

theorem coeff_total_cons_ne (pp arg : Expr) (rest : List Expr)
    (h : arg.is_numeral.isSome = true ∨ get_power_product arg ≠ pp) :
    coeff_total pp (arg :: rest) = coeff_total pp rest := by
  simp only [coeff_total]
  rcases h with h | h
  · simp [h]
  · simp [h]

theorem emit_monomials_spec (rw : poly_rewriter) (hnorm : ∀ q, rw.normalize q = q)
    (σ : Assignment) (multiple : List Expr) (coeffs : List (Expr × ℚ)) (l : List Expr) :
    ∀ visited : List Expr, (∀ a ∈ l, a.wf = true) →
      (∀ pp ∈ multiple, pp ∉ visited → coeffs_find pp coeffs = coeff_total pp l) →
      eval_sum σ (emit_monomials rw multiple coeffs l visited) = emit_value σ multiple visited l ∧
      (∀ a ∈ emit_monomials rw multiple coeffs l visited, a.wf = true) := by
  induction l with
  | nil => intro visited _ _; simp [emit_monomials, emit_value, eval_sum_nil]
  | cons arg rest ih =>
    intro visited hwf hc
    have hwa := hwf arg (List.mem_cons_self _ _)
    have hwr : ∀ a ∈ rest, a.wf = true := fun a ha => hwf a (List.mem_cons_of_mem _ ha)
    simp only [emit_monomials, emit_value]
    by_cases hn : arg.is_numeral.isSome = true
    · simp only [hn, if_true, zero_add]
      exact ih visited hwr (fun pp h1 h2 => by
        rw [hc pp h1 h2, coeff_total_cons_ne _ _ _ (Or.inl hn)])
    · simp only [hn, Bool.false_eq_true, if_false]
      by_cases hm : get_power_product arg ∈ multiple
      · simp only [hm, not_true_eq_false, if_false, true_and]
        by_cases hv : get_power_product arg ∈ visited
        · simp only [hv, not_true_eq_false, if_false, if_true, zero_add]
          exact ih visited hwr (fun pp h1 h2 => by
            have h4 : get_power_product arg ≠ pp := fun e => h2 (e ▸ hv)
            rw [hc pp h1 h2, coeff_total_cons_ne _ _ _ (Or.inr h4)])
        · simp only [hv, not_false_eq_true, if_true, if_false, hnorm]
          have hrec := ih (get_power_product arg :: visited) hwr (fun pp h1 h2 => by
            have h3 : pp ∉ visited := fun e => h2 (List.mem_cons_of_mem _ e)
            have h4 : get_power_product arg ≠ pp := fun e => h2 (e ▸ List.mem_cons_self _ _)
            rw [hc pp h1 h3, coeff_total_cons_ne _ _ _ (Or.inr h4)])
          have hcf := hc _ hm hv
          have hsplit := emit_value_split σ multiple visited _ hm hv rest
          have hwpp := wf_get_power_product arg hwa
          have e1 := eval_get_power_product_coeff σ arg
          rw [get_power_product_coeff_fst] at e1
          have htot : coeff_total (get_power_product arg) (arg :: rest) =
              (get_power_product_coeff arg).2 + coeff_total (get_power_product arg) rest := by
            simp [coeff_total, hn]
          split
          · constructor
            · rw [eval_sum_cons, eval_mk_mul_app_num rw σ _ _ hwpp, hrec.1, hsplit, hcf, htot, e1]
              ring
            · intro a ha
              rcases List.mem_cons.mp ha with rfl | ha
              · exact wf_mk_mul_app_num rw _ _ hwpp
              · exact hrec.2 a ha
          · rename_i hz
            have hz0 : coeffs_find (get_power_product arg) coeffs = 0 := by
              by_contra hne; exact hz hne
            constructor
            · rw [hrec.1, hsplit, e1]
              rw [hcf, htot] at hz0
              have : coeff_total (get_power_product arg) rest =
                  - (get_power_product_coeff arg).2 := by linarith
              rw [this]
              ring
            · exact hrec.2
      · simp only [hm, not_false_eq_true, if_true, false_and, if_false]
        have hrec := ih visited hwr (fun pp h1 h2 => by
          have h4 : get_power_product arg ≠ pp := fun e => hm (e ▸ h1)
          rw [hc pp h1 h2, coeff_total_cons_ne _ _ _ (Or.inr h4)])
        constructor
        · rw [eval_sum_cons, hrec.1]
        · intro a ha
          rcases List.mem_cons.mp ha with rfl | ha
          · exact hwa
          · exact hrec.2 a ha

theorem eval_sum_push_coeff (σ : Assignment) (c : ℚ) : eval_sum σ (push_coeff c) = c := by
  unfold push_coeff
  split
  · simp [mk_numeral, eval_sum_cons, eval_sum_nil, eval_num]
  · rename_i h
    simp only [ne_eq, not_not] at h
    simp [h, eval_sum_nil]

theorem wf_push_coeff (c : ℚ) : ∀ a ∈ push_coeff c, a.wf = true := by
  unfold push_coeff
  split <;> simp [mk_numeral, Expr.wf]

/-- The value written by `mk_nflat_add_core` has the value of the sum of the arguments. -/
theorem mk_nflat_add_core_value (rw : poly_rewriter) (hnorm : ∀ q, rw.normalize q = q)
    (σ : Assignment) (args : List Expr) (hwf : ∀ a ∈ args, a.wf = true)
    (h : (rw.mk_nflat_add_core args).1 ≠ .BR_FAILED) :
    ∃ r, (rw.mk_nflat_add_core args).2 = some r ∧ eval σ r = eval_sum σ args := by
  unfold mk_nflat_add_core at h ⊢
  simp only [hnorm] at h ⊢
  have hc := add_scan_loop_c rw σ args 0
    { c := 0, num_coeffs := 0, visited := [], multiple := [], has_multiple := false,
      prev := none, ordered := true }
  simp only [zero_add] at hc
  generalize add_scan_loop rw 0 args
    { c := 0, num_coeffs := 0, visited := [], multiple := [], has_multiple := false,
      prev := none, ordered := true } = st at h hc ⊢
  have hsplit := eval_sum_filter_split σ (fun a => a.is_numeral.isSome) args
  split
  · have hem := emit_monomials_spec rw hnorm σ st.multiple
      (collect_coeffs st.multiple args []) args [] hwf (fun pp h1 _ => by
        rw [collect_coeffs_find]; simp [coeffs_find, h1])
    rw [emit_value_nil] at hem
    have hwnew : ∀ a ∈ push_coeff st.c ++
        (if rw.m_sort_sums = true then
          rw.std_sort rw.mon_lt (emit_monomials rw st.multiple
            (collect_coeffs st.multiple args []) args [])
        else emit_monomials rw st.multiple (collect_coeffs st.multiple args []) args []),
        a.wf = true := by
      intro a ha
      rcases List.mem_append.mp ha with ha | ha
      · exact wf_push_coeff _ a ha
      · split at ha
        · exact hem.2 a ((rw.std_sort_perm _ _).subset ha)
        · exact hem.2 a ha
    obtain ⟨r, hr1, hr2⟩ := add_finish_spec rw σ _ (wf_mk_add_app _ hwnew)
    refine ⟨r, hr1, ?_⟩
    rw [hr2, eval_mk_add_app, eval_sum_append, eval_sum_push_coeff, hsplit, hc]
    congr 1
    split
    · rw [eval_sum_perm σ (rw.std_sort_perm _ _), hem.1]
    · exact hem.1
  · split
    · rename_i hf
      rw [if_neg (by assumption), if_pos hf] at h
      exact absurd rfl h
    · have hwnew : ∀ a ∈ push_coeff st.c ++
          (if (!st.ordered) = true then
            rw.std_sort rw.mon_lt (args.filter (fun arg => !arg.is_numeral.isSome))
          else args.filter (fun arg => !arg.is_numeral.isSome)), a.wf = true := by
        intro a ha
        rcases List.mem_append.mp ha with ha | ha
        · exact wf_push_coeff _ a ha
        · split at ha
          · exact hwf a (List.mem_of_mem_filter ((rw.std_sort_perm _ _).subset ha))
          · exact hwf a (List.mem_of_mem_filter ha)
      obtain ⟨r, hr1, hr2⟩ := add_finish_spec rw σ _ (wf_mk_add_app _ hwnew)
      refine ⟨r, hr1, ?_⟩
      rw [hr2, eval_mk_add_app, eval_sum_append, eval_sum_push_coeff, hsplit, hc]
      congr 1
      split
      · rw [eval_sum_perm σ (rw.std_sort_perm _ _)]
      · rfl

theorem flatten_add_spec (σ : Assignment) (args : List Expr) (hwf : ∀ a ∈ args, a.wf = true) :
    eval_sum σ (flatten_add args) = eval_sum σ args ∧ ∀ a ∈ flatten_add args, a.wf = true := by
  induction args with
  | nil => simp [flatten_add]
  | cons arg rest ih =>
    have hwa := hwf arg (List.mem_cons_self _ _)
    have hrec := ih (fun a ha => hwf a (List.mem_cons_of_mem _ ha))
    simp only [flatten_add]
    split
    · rename_i ha
      obtain ⟨as, rfl⟩ := is_add_shape ha
      constructor
      · simp [Expr.get_args, eval_sum_append, eval_sum_cons, eval_add, hrec.1]
      · intro a ha
        rcases List.mem_append.mp ha with ha | ha
        · exact wf_get_args hwa a ha
        · exact hrec.2 a ha
    · constructor
      · rw [eval_sum_cons, eval_sum_cons, hrec.1]
      · intro a ha
        rcases List.mem_cons.mp ha with rfl | ha
        · exact hwa
        · exact hrec.2 a ha

/-- The value written by `mk_flat_add_core` has the value of the sum of the arguments. -/
theorem mk_flat_add_core_value (rw : poly_rewriter) (hnorm : ∀ q, rw.normalize q = q)
    (σ : Assignment) (args : List Expr) (hwf : ∀ a ∈ args, a.wf = true)
    (h : (rw.mk_flat_add_core args).1 ≠ .BR_FAILED) :
    ∃ r, (rw.mk_flat_add_core args).2 = some r ∧ eval σ r = eval_sum σ args := by
  unfold mk_flat_add_core at h ⊢
  split
  · have hfl := flatten_add_spec σ args hwf
    have hcore := mk_nflat_add_core_value rw hnorm σ (flatten_add args) hfl.2
    generalize rw.mk_nflat_add_core (flatten_add args) = res at hcore h ⊢
    obtain ⟨st, r⟩ := res
    cases st with
    | BR_FAILED => exact ⟨_, rfl, by rw [eval_mk_add_app, hfl.1]⟩
    | BR_DONE =>
      obtain ⟨r2, h1, h2⟩ := hcore (by simp)
      exact ⟨r2, h1, by rw [h2, hfl.1]⟩
    | BR_REWRITE1 =>
      obtain ⟨r2, h1, h2⟩ := hcore (by simp)
      exact ⟨r2, h1, by rw [h2, hfl.1]⟩
    | BR_REWRITE2 =>
      obtain ⟨r2, h1, h2⟩ := hcore (by simp)
      exact ⟨r2, h1, by rw [h2, hfl.1]⟩
    | BR_REWRITE_FULL =>
      obtain ⟨r2, h1, h2⟩ := hcore (by simp)
      exact ⟨r2, h1, by rw [h2, hfl.1]⟩
  · rename_i hany
    rw [if_neg hany] at h
    exact mk_nflat_add_core_value rw hnorm σ args hwf h

end poly_rewriter

/-! ## Example terms -/

/-- The uninterpreted constant `x`. -/
def ex_x : Expr := .app (.uf 0) []

/-- The uninterpreted constant `y`. -/
def ex_y : Expr := .app (.uf 1) []

/-- The uninterpreted constant `z`. -/
def ex_z : Expr := .app (.uf 2) []

/-- An assignment that gives every atom the value `2` and makes every condition true. -/
def ex_assignment : Assignment := ⟨fun _ => 2, fun _ => true⟩

namespace poly_rewriter

/-- Claim C1: sum rewriting preserves meaning.  Over exact rationals (`normalize` is the
identity), for every configuration, every list `args` of terms that respect the factory's
arity contracts and every assignment, whenever `mk_nflat_add_core` (or `mk_flat_add_core`)
returns a status other than `BR_FAILED` it has written a result whose value is the sum of the
values of `args`. -/
theorem add_core_preserves_value (rw : poly_rewriter) (hnorm : ∀ q, rw.normalize q = q)
    (σ : Assignment) (args : List Expr) (hwf : ∀ a ∈ args, a.wf = true) :
    ((rw.mk_nflat_add_core args).1 ≠ .BR_FAILED →
      ∃ r, (rw.mk_nflat_add_core args).2 = some r ∧ eval σ r = eval_sum σ args) ∧
    ((rw.mk_flat_add_core args).1 ≠ .BR_FAILED →
      ∃ r, (rw.mk_flat_add_core args).2 = some r ∧ eval σ r = eval_sum σ args) :=
  ⟨mk_nflat_add_core_value rw hnorm σ args hwf, mk_flat_add_core_value rw hnorm σ args hwf⟩

/-- Witness for `add_core_preserves_value`: the sum `(+ 1 x (* 3 x y) x (* 3 x z))` with
multiplication hoisting on. -/
theorem add_core_preserves_value_witness :
    ∃ r, ((example_rw true false true true true true false 10).mk_nflat_add_core
        [.num 1, ex_x, .app .mul [.num 3, ex_x, ex_y], ex_x, .app .mul [.num 3, ex_x, ex_z]]).2 =
          some r ∧
      eval ex_assignment r = eval_sum ex_assignment
        [.num 1, ex_x, .app .mul [.num 3, ex_x, ex_y], ex_x, .app .mul [.num 3, ex_x, ex_z]] :=
  (add_core_preserves_value (example_rw true false true true true true false 10)
    (fun _ => rfl) ex_assignment
    [.num 1, ex_x, .app .mul [.num 3, ex_x, ex_y], ex_x, .app .mul [.num 3, ex_x, ex_z]]
    (by decide)).1 (by decide!)

end poly_rewriter

namespace poly_rewriter

/-! ## The first loop of `mk_nflat_add_core` -/

theorem add_scan_step_visited (rw : poly_rewriter) (i : Nat) (arg : Expr) (st : add_scan) :
    (add_scan_step rw i arg st).visited =
      if get_power_product arg ∈ st.visited then st.visited
      else get_power_product arg :: st.visited := by
  unfold add_scan_step
  cases arg.is_numeral <;> simp only <;> split <;> (try split) <;> rfl

theorem add_scan_step_multiple (rw : poly_rewriter) (i : Nat) (arg : Expr) (st : add_scan) :
    (add_scan_step rw i arg st).multiple =
      if get_power_product arg ∈ st.visited then get_power_product arg :: st.multiple
      else st.multiple := by
  unfold add_scan_step
  cases arg.is_numeral <;> simp only <;> split <;> (try split) <;> rfl

theorem add_scan_step_has_multiple (rw : poly_rewriter) (i : Nat) (arg : Expr) (st : add_scan) :
    (add_scan_step rw i arg st).has_multiple =
      if get_power_product arg ∈ st.visited then true else st.has_multiple := by
  unfold add_scan_step
  cases arg.is_numeral <;> simp only <;> split <;> (try split) <;> rfl

theorem add_scan_step_num_coeffs (rw : poly_rewriter) (i : Nat) (arg : Expr) (st : add_scan) :
    (add_scan_step rw i arg st).num_coeffs =
      st.num_coeffs + (if arg.is_numeral.isSome then 1 else 0) := by
  unfold add_scan_step
  cases hn : arg.is_numeral with
  | none =>
    simp only []
    by_cases h1 : (rw.m_sort_sums && st.ordered) = true <;>
      by_cases h2 : get_power_product arg ∈ st.visited <;> simp [h1, h2]
  | some q =>
    simp only []
    by_cases h2 : get_power_product arg ∈ st.visited <;> simp [h2]

/-- The test of an argument against its predecessor in the adjacency checks. -/
def prev_ok (rw : poly_rewriter) (arg : Expr) : Option Expr → Bool
  | some prev => !rw.mon_lt arg prev
  | none => true

theorem add_scan_step_ordered (rw : poly_rewriter) (i : Nat) (arg : Expr) (st : add_scan) :
    (add_scan_step rw i arg st).ordered =
      if arg.is_numeral.isSome then !rw.m_sort_sums || decide (i = 0)
      else if rw.m_sort_sums && st.ordered then prev_ok rw arg st.prev
      else st.ordered := by
  unfold add_scan_step
  cases hn : arg.is_numeral with
  | none =>
    simp only []
    by_cases h1 : (rw.m_sort_sums && st.ordered) = true
    · simp only [Bool.and_eq_true] at h1
      obtain ⟨h3, h4⟩ := h1
      by_cases h2 : get_power_product arg ∈ st.visited <;>
        cases hp : st.prev <;> simp [h2, hp, prev_ok, h3, h4]
    · by_cases h2 : get_power_product arg ∈ st.visited <;> simp [h1, h2]
  | some q =>
    simp only []
    by_cases h2 : get_power_product arg ∈ st.visited <;> simp [h2]

theorem mul_ordered_cons (rw : poly_rewriter) (prev : Option Expr) (a : Expr) (l : List Expr) :
    mul_ordered rw prev (a :: l) =
      if a.is_numeral.isSome then mul_ordered rw prev l
      else prev_ok rw a prev && mul_ordered rw (some a) l := by
  cases prev <;> simp [mul_ordered, prev_ok]

theorem add_scan_step_prev (rw : poly_rewriter) (i : Nat) (arg : Expr) (st : add_scan) :
    (add_scan_step rw i arg st).prev =
      if arg.is_numeral.isSome then st.prev
      else if rw.m_sort_sums && st.ordered then some arg else st.prev := by
  unfold add_scan_step
  cases hn : arg.is_numeral with
  | none =>
    simp only []
    by_cases h1 : (rw.m_sort_sums && st.ordered) = true <;>
      by_cases h2 : get_power_product arg ∈ st.visited <;> simp [h1, h2]
  | some q =>
    simp only []
    by_cases h2 : get_power_product arg ∈ st.visited <;> simp [h2]

theorem add_scan_loop_num_coeffs (rw : poly_rewriter) (l : List Expr) :
    ∀ (i : Nat) (st : add_scan),
      (add_scan_loop rw i l st).num_coeffs =
        st.num_coeffs + (l.filter (fun a => a.is_numeral.isSome)).length := by
  induction l with
  | nil => intro i st; simp [add_scan_loop]
  | cons a l ih =>
    intro i st
    simp only [add_scan_loop]
    rw [ih, add_scan_step_num_coeffs, List.filter_cons]
    split <;> simp <;> omega

theorem add_scan_loop_visited (rw : poly_rewriter) (l : List Expr) :
    ∀ (i : Nat) (st : add_scan) (x : Expr),
      x ∈ (add_scan_loop rw i l st).visited ↔ x ∈ st.visited ∨ x ∈ l.map get_power_product := by
  induction l with
  | nil => intro i st x; simp [add_scan_loop]
  | cons a l ih =>
    intro i st x
    simp only [add_scan_loop]
    rw [ih, add_scan_step_visited]
    by_cases h : get_power_product a ∈ st.visited
    · simp only [h, if_true, List.map_cons, List.mem_cons]
      constructor
      · rintro (h1 | h1)
        · exact Or.inl h1
        · exact Or.inr (Or.inr h1)
      · rintro (h1 | h1 | h1)
        · exact Or.inl h1
        · exact Or.inl (h1 ▸ h)
        · exact Or.inr h1
    · simp only [h, if_false, List.map_cons, List.mem_cons]
      tauto

theorem add_scan_loop_multiple (rw : poly_rewriter) (l : List Expr) :
    ∀ (i : Nat) (st : add_scan) (x : Expr),
      x ∈ (add_scan_loop rw i l st).multiple ↔
        x ∈ st.multiple ∨ (x ∈ st.visited ∧ x ∈ l.map get_power_product) ∨
          2 ≤ (l.map get_power_product).count x := by
  induction l with
  | nil => intro i st x; simp [add_scan_loop]
  | cons a l ih =>
    intro i st x
    simp only [add_scan_loop]
    rw [ih, add_scan_step_multiple, add_scan_step_visited]
    simp only [List.map_cons, List.mem_cons, List.count_cons]
    have hcount : x ∈ l.map get_power_product ↔ 1 ≤ (l.map get_power_product).count x := by
      rw [List.one_le_count_iff]
    by_cases h : get_power_product a ∈ st.visited
    · simp only [h, if_true, List.mem_cons]
      by_cases hx : get_power_product a = x
      · subst hx
        simp only [true_or, beq_self_eq_true, if_true, h, true_and]
        simp
      · have hx2 : ¬ x = get_power_product a := fun e => hx e.symm
        have hx3 : (get_power_product a == x) = false := by simpa using hx
        simp only [hx2, false_or, hx3, Bool.false_eq_true, if_false, add_zero]
    · simp only [h, if_false, List.mem_cons]
      by_cases hx : get_power_product a = x
      · subst hx
        simp only [true_or, beq_self_eq_true, if_true, h, false_and, true_and, false_or]
        rw [hcount]
        constructor
        · rintro (h1 | h1 | h1)
          · exact Or.inl h1
          · exact Or.inr (by omega)
          · exact Or.inr (by omega)
        · rintro (h1 | h1)
          · exact Or.inl h1
          · exact Or.inr (Or.inl (by omega))
      · have hx2 : ¬ x = get_power_product a := fun e => hx e.symm
        have hx3 : (get_power_product a == x) = false := by simpa using hx
        simp only [hx2, false_or, hx3, Bool.false_eq_true, if_false, add_zero]

theorem add_scan_loop_has_multiple (rw : poly_rewriter) (l : List Expr) :
    ∀ (i : Nat) (st : add_scan), (st.has_multiple = true ↔ st.multiple ≠ []) →
      ((add_scan_loop rw i l st).has_multiple = true ↔
        (add_scan_loop rw i l st).multiple ≠ []) := by
  induction l with
  | nil => intro i st h; simpa [add_scan_loop] using h
  | cons a l ih =>
    intro i st h
    simp only [add_scan_loop]
    apply ih
    rw [add_scan_step_has_multiple, add_scan_step_multiple]
    split
    · simp
    · exact h

/-- The initial state of the first loop of `mk_nflat_add_core`. -/
def add_scan_init : add_scan :=
  { c := 0, num_coeffs := 0, visited := [], multiple := [], has_multiple := false,
    prev := none, ordered := true }

theorem add_scan_multiple_iff (rw : poly_rewriter) (args : List Expr) (x : Expr) :
    x ∈ (add_scan_loop rw 0 args add_scan_init).multiple ↔
      2 ≤ (args.map get_power_product).count x := by
  rw [add_scan_loop_multiple]
  simp [add_scan_init]

theorem add_scan_has_multiple_iff (rw : poly_rewriter) (args : List Expr) :
    (add_scan_loop rw 0 args add_scan_init).has_multiple = true ↔
      ¬ (args.map get_power_product).Nodup := by
  rw [add_scan_loop_has_multiple rw args 0 add_scan_init (by simp [add_scan_init])]
  rw [List.nodup_iff_count_le_one]
  constructor
  · intro h hall
    obtain ⟨x, hx⟩ := List.exists_mem_of_ne_nil _ h
    have := (add_scan_multiple_iff rw args x).mp hx
    have := hall x
    omega
  · intro h hnil
    apply h
    intro x
    by_contra hc
    have : x ∈ (add_scan_loop rw 0 args add_scan_init).multiple :=
      (add_scan_multiple_iff rw args x).mpr (by omega)
    rw [hnil] at this
    exact absurd this (List.not_mem_nil _)

/-- With `sort_sums` on, from a positive index on the flag `ordered` survives exactly when it
was set, no numeral follows and no argument is below its predecessor. -/
theorem add_scan_loop_ordered_pos (rw : poly_rewriter) (hs : rw.m_sort_sums = true)
    (l : List Expr) :
    ∀ (i : Nat) (st : add_scan), 0 < i →
      ((add_scan_loop rw i l st).ordered = true ↔
        st.ordered = true ∧ (∀ a ∈ l, a.is_numeral = none) ∧ mul_ordered rw st.prev l = true) := by
  induction l with
  | nil => intro i st _; simp [add_scan_loop, mul_ordered]
  | cons a l ih =>
    intro i st hi
    simp only [add_scan_loop]
    rw [ih (i + 1) _ (by omega), add_scan_step_ordered, add_scan_step_prev]
    rw [mul_ordered_cons]
    cases hn : a.is_numeral with
    | some q =>
      have hi0 : ¬ i = 0 := by omega
      simp [hs, hi0, hn]
    | none =>
      simp only [Option.isSome_none, Bool.false_eq_true, if_false, hs, Bool.true_and,
        List.mem_cons, forall_eq_or_imp, hn, true_and]
      cases ho : st.ordered with
      | false => simp
      | true => simp; tauto

theorem add_scan_ordered_iff (rw : poly_rewriter) (hs : rw.m_sort_sums = true)
    (a : Expr) (l : List Expr) :
    (add_scan_loop rw 0 (a :: l) add_scan_init).ordered = true ↔
      (∀ b ∈ l, b.is_numeral = none) ∧ mul_ordered rw none (a :: l) = true := by
  simp only [add_scan_loop]
  rw [add_scan_loop_ordered_pos rw hs l 1 _ (by omega), add_scan_step_ordered,
    add_scan_step_prev, mul_ordered_cons]
  cases hn : a.is_numeral with
  | some q => simp [hs, hn, add_scan_init]
  | none => simp [hs, hn, add_scan_init, prev_ok]

theorem add_scan_ordered_of_not_sort (rw : poly_rewriter) (hs : rw.m_sort_sums = false)
    (l : List Expr) :
    ∀ (i : Nat) (st : add_scan), st.ordered = true → (add_scan_loop rw i l st).ordered = true := by
  induction l with
  | nil => intro i st h; simpa [add_scan_loop] using h
  | cons a l ih =>
    intro i st h
    simp only [add_scan_loop]
    apply ih
    rw [add_scan_step_ordered]
    simp [hs, h]

end poly_rewriter

namespace poly_rewriter

/-! ## The shape of the sums built by `mk_nflat_add_core` without hoisting -/

theorem add_finish_off (rw : poly_rewriter) (h1 : rw.m_hoist_mul = false)
    (h2 : rw.m_hoist_ite = false) (result : Expr) :
    rw.add_finish result = (.BR_DONE, some result) := by
  simp [add_finish, hoist_multiplication, hoist_ite, h1, h2]

/-- The monomials that `mk_nflat_add_core` places behind the constant in `new_args`. -/
def new_monomials (rw : poly_rewriter) (args : List Expr) : List Expr :=
  if (add_scan_loop rw 0 args add_scan_init).has_multiple then
    if rw.m_sort_sums then
      rw.std_sort rw.mon_lt
        (emit_monomials rw (add_scan_loop rw 0 args add_scan_init).multiple
          (collect_coeffs (add_scan_loop rw 0 args add_scan_init).multiple args []) args [])
    else
      emit_monomials rw (add_scan_loop rw 0 args add_scan_init).multiple
        (collect_coeffs (add_scan_loop rw 0 args add_scan_init).multiple args []) args []
  else if !(add_scan_loop rw 0 args add_scan_init).ordered then
    rw.std_sort rw.mon_lt (args.filter (fun arg => !arg.is_numeral.isSome))
  else args.filter (fun arg => !arg.is_numeral.isSome)

/-- The test under which `mk_nflat_add_core` declines: nothing is repeated, the arguments
are in order, and there is no numeral or a single non-zero one in front. -/
def add_declines (rw : poly_rewriter) (args : List Expr) : Bool :=
  !(add_scan_loop rw 0 args add_scan_init).has_multiple &&
    ((add_scan_loop rw 0 args add_scan_init).ordered && !rw.m_hoist_mul && !rw.m_hoist_ite &&
      (decide ((add_scan_loop rw 0 args add_scan_init).num_coeffs = 0) ||
        (decide ((add_scan_loop rw 0 args add_scan_init).num_coeffs = 1) &&
          (match (args.getD 0 (num 0)).is_numeral with
           | some a => !decide (a = 0)
           | none => false))))

theorem mk_nflat_add_core_off (rw : poly_rewriter) (h1 : rw.m_hoist_mul = false)
    (h2 : rw.m_hoist_ite = false) (args : List Expr) :
    rw.mk_nflat_add_core args =
      if add_declines rw args then (.BR_FAILED, none)
      else
        (.BR_DONE, some (mk_add_app
          (push_coeff (rw.normalize (add_scan_loop rw 0 args add_scan_init).c) ++
            new_monomials rw args))) := by
  unfold mk_nflat_add_core add_declines new_monomials add_scan_init
  simp only [add_finish_off rw h1 h2]
  generalize add_scan_loop rw 0 args
    { c := 0, num_coeffs := 0, visited := [], multiple := [], has_multiple := false,
      prev := none, ordered := true } = st
  cases st.has_multiple with
  | true => simp
  | false =>
    simp only [Bool.false_eq_true, if_false, Bool.not_false, Bool.true_and] <;> rfl

theorem is_numeral_none_iff (e : Expr) : e.is_numeral = none ↔ e.is_numeral.isSome = false := by
  cases e.is_numeral <;> simp

theorem mk_mul_app_num_unfold (rw : poly_rewriter) (c : ℚ) (arg : Expr) (hc : c ≠ 1)
    (hz : is_zero arg = false) :
    rw.mk_mul_app_num c arg =
      if rw.use_power then
        match fold_powers (num c) 1 [arg] with
        | [] => mk_numeral 1
        | [x] => x
        | x :: y :: new_rest => .app .mul (x :: y :: new_rest)
      else .app .mul [num c, arg] := by
  unfold mk_mul_app_num mk_mul_app_num_aux
  simp only [hc, if_false, hz, Bool.false_eq_true, mk_numeral]
  rw [mk_mul_app_aux]
  have hb : get_power_body (num c) = (num c, 1) := by simp [get_power_body, Expr.is_power]
  rw [hb]
  split
  · have hlen := fold_powers_length (num c) 1 [arg]
    generalize fold_powers (num c) 1 [arg] = l at hlen ⊢
    match l, hlen with
    | [], _ => rfl
    | [x], _ => rfl
    | [x, y], _ => cases hx : x.is_numeral <;> simp [hx]
  · simp [Expr.is_numeral]

theorem fold_powers_pair (c : ℚ) (arg : Expr) :
    fold_powers (num c) 1 [arg] =
      if (get_power_body arg).1 = num c then [push_power (num c) (1 + (get_power_body arg).2)]
      else [num c, push_power (get_power_body arg).1 (get_power_body arg).2] := by
  simp only [fold_powers]
  split
  · rfl
  · simp [push_power]

theorem push_power_get_power_body (t : Expr) (h : t.wf = true) :
    push_power (get_power_body t).1 (get_power_body t).2 = t := by
  unfold get_power_body
  by_cases hp : t.is_power = true
  · simp only [hp, Bool.not_true, Bool.false_eq_true, if_false]
    cases hk : (t.get_arg 1).is_numeral with
    | none => simp [push_power]
    | some k =>
      simp only
      by_cases hc : (k.isInt && decide (1 < k)) = true
      · simp only [hc, if_true]
        simp only [Bool.and_eq_true, decide_eq_true_eq] at hc
        have hne : k ≠ 1 := ne_of_gt hc.2
        have hshape := wf_power_shape h hp
        rw [is_numeral_eq_some hk] at hshape
        simp only [push_power, hne, if_false, mk_power]
        exact hshape.symm
      · simp [hc, push_power]
  · simp [hp, push_power]

/-- The product of a non-zero coefficient other than one and a factor whose base is not a
numeral is the application `(* c arg)`. -/
theorem mk_mul_app_num_eq (rw : poly_rewriter) (c : ℚ) (arg : Expr) (hc : c ≠ 1)
    (hn : arg.is_numeral = none) (hb : (get_power_body arg).1.is_numeral = none)
    (hw : arg.wf = true) : rw.mk_mul_app_num c arg = .app .mul [num c, arg] := by
  have hz : is_zero arg = false := by simp [is_zero, hn]
  rw [mk_mul_app_num_unfold rw c arg hc hz, fold_powers_pair]
  have hne : ¬ (get_power_body arg).1 = num c := by
    intro e; rw [e] at hb; simp [Expr.is_numeral] at hb
  simp only [hne, if_false, push_power_get_power_body arg hw]
  split <;> rfl

theorem get_power_body_snd_ge (t : Expr) : 1 ≤ (get_power_body t).2 := by
  unfold get_power_body
  split
  · simp
  · cases (t.get_arg 1).is_numeral with
    | none => simp
    | some k =>
      simp only
      split
      · rename_i h
        simp only [Bool.and_eq_true, decide_eq_true_eq] at h
        exact le_of_lt h.2
      · simp

/-- A coefficient times a term that is neither a numeral nor a sum is neither. -/
theorem mk_mul_app_num_not_num_add (rw : poly_rewriter) (c : ℚ) (arg : Expr)
    (hn : arg.is_numeral = none) (ha : arg.is_add = false) :
    (rw.mk_mul_app_num c arg).is_numeral = none ∧ (rw.mk_mul_app_num c arg).is_add = false := by
  by_cases hc : c = 1
  · simp [mk_mul_app_num, mk_mul_app_num_aux, hc, hn, ha]
  · have hz : is_zero arg = false := by simp [is_zero, hn]
    rw [mk_mul_app_num_unfold rw c arg hc hz, fold_powers_pair]
    by_cases hu : rw.use_power = true
    · simp only [hu, if_true]
      by_cases hb : (get_power_body arg).1 = num c
      · simp only [hb, if_true]
        have hk := get_power_body_snd_ge arg
        have hne : ¬ (1 + (get_power_body arg).2 = 1) := by intro e; linarith
        simp [push_power, hne, mk_power, Expr.is_numeral, Expr.is_add]
      · simp [hb, Expr.is_numeral, Expr.is_add]
    · simp [hu, Expr.is_numeral, Expr.is_add]

theorem emit_monomials_mem (rw : poly_rewriter) (multiple : List Expr)
    (coeffs : List (Expr × ℚ)) (l : List Expr) :
    ∀ (visited : List Expr) (x : Expr), x ∈ emit_monomials rw multiple coeffs l visited →
      (x ∈ l ∧ x.is_numeral = none ∧ get_power_product x ∉ multiple) ∨
      (∃ arg ∈ l, arg.is_numeral = none ∧ get_power_product arg ∈ multiple ∧
        ∃ a : ℚ, a ≠ 0 ∧ x = rw.mk_mul_app_num a (get_power_product arg)) := by
  induction l with
  | nil => intro visited x h; simp [emit_monomials] at h
  | cons arg rest ih =>
    intro visited x h
    have lift : ∀ V, x ∈ emit_monomials rw multiple coeffs rest V →
        (x ∈ arg :: rest ∧ x.is_numeral = none ∧ get_power_product x ∉ multiple) ∨
        (∃ arg2 ∈ arg :: rest, arg2.is_numeral = none ∧ get_power_product arg2 ∈ multiple ∧
          ∃ a : ℚ, a ≠ 0 ∧ x = rw.mk_mul_app_num a (get_power_product arg2)) := by
      intro V hx
      rcases ih V x hx with h1 | ⟨arg2, h1, h2⟩
      · exact Or.inl ⟨List.mem_cons_of_mem _ h1.1, h1.2⟩
      · exact Or.inr ⟨arg2, List.mem_cons_of_mem _ h1, h2⟩
    simp only [emit_monomials] at h
    by_cases hn : arg.is_numeral.isSome = true
    · simp only [hn, if_true] at h
      exact lift _ h
    · have hn2 : arg.is_numeral = none := by
        cases h0 : arg.is_numeral with
        | none => rfl
        | some q => simp [h0] at hn
      simp only [hn, Bool.false_eq_true, if_false] at h
      by_cases hm : get_power_product arg ∈ multiple
      · simp only [hm, not_true_eq_false, if_false] at h
        by_cases hv : get_power_product arg ∈ visited
        · simp only [hv, not_true_eq_false, if_false] at h
          exact lift _ h
        · simp only [hv, not_false_eq_true, if_true] at h
          split at h
          · rename_i hnz
            rcases List.mem_cons.mp h with rfl | h
            · exact Or.inr ⟨arg, List.mem_cons_self _ _, hn2, hm, _, hnz, rfl⟩
            · exact lift _ h
          · exact lift _ h
      · simp only [hm, not_false_eq_true, if_true] at h
        rcases List.mem_cons.mp h with rfl | h
        · exact Or.inl ⟨List.mem_cons_self _ _, hn2, hm⟩
        · exact lift _ h

theorem new_monomials_mem (rw : poly_rewriter) (args : List Expr) (x : Expr)
    (h : x ∈ new_monomials rw args) :
    (x ∈ args ∧ x.is_numeral = none) ∨
    (∃ arg ∈ args, arg.is_numeral = none ∧
      ∃ a : ℚ, a ≠ 0 ∧ x = rw.mk_mul_app_num a (get_power_product arg)) := by
  unfold new_monomials at h
  have hfilter : ∀ y, y ∈ args.filter (fun arg => !arg.is_numeral.isSome) →
      y ∈ args ∧ y.is_numeral = none := by
    intro y hy
    rw [List.mem_filter] at hy
    refine ⟨hy.1, ?_⟩
    cases h0 : y.is_numeral with
    | none => rfl
    | some q => simp [h0] at hy
  have hemit : ∀ y, y ∈ emit_monomials rw (add_scan_loop rw 0 args add_scan_init).multiple
      (collect_coeffs (add_scan_loop rw 0 args add_scan_init).multiple args []) args [] →
      (y ∈ args ∧ y.is_numeral = none) ∨
      (∃ arg ∈ args, arg.is_numeral = none ∧
        ∃ a : ℚ, a ≠ 0 ∧ y = rw.mk_mul_app_num a (get_power_product arg)) := by
    intro y hy
    rcases emit_monomials_mem rw _ _ args [] y hy with h1 | ⟨arg, h1, h2, _, h4⟩
    · exact Or.inl ⟨h1.1, h1.2.1⟩
    · exact Or.inr ⟨arg, h1, h2, h4⟩
  split at h
  · split at h
    · exact hemit x ((rw.std_sort_perm _ _).subset h)
    · exact hemit x h
  · split at h
    · exact Or.inl (hfilter x ((rw.std_sort_perm _ _).subset h))
    · exact Or.inl (hfilter x h)

end poly_rewriter

namespace poly_rewriter

theorem mk_add_app_eq_add (l children : List Expr) (h : mk_add_app l = .app .add children)
    (hl : ∀ x ∈ l, x.is_add = false) : l = children := by
  match l, h, hl with
  | [], h, _ => simp [mk_add_app, mk_numeral] at h
  | [a], h, hl =>
    simp only [mk_add_app] at h
    have := hl a (List.mem_singleton_self a)
    rw [h] at this
    simp [Expr.is_add] at this
  | a :: b :: r, h, _ =>
    simp only [mk_add_app, Expr.app.injEq, true_and] at h
    exact h

theorem push_coeff_not_add (c : ℚ) : ∀ x ∈ push_coeff c, x.is_add = false := by
  unfold push_coeff
  split <;> simp [mk_numeral, Expr.is_add]

theorem not_add_of_pp (arg : Expr) (h : (get_power_product arg).is_add = false) :
    arg.is_add = false := by
  cases ha : arg.is_add with
  | false => rfl
  | true =>
    obtain ⟨as, rfl⟩ := is_add_shape ha
    simp [get_power_product, Expr.is_mul, Expr.is_add] at h

/-- Without hoisting, the monomials behind the constant are neither numerals nor sums when
the power products of the arguments are neither. -/
theorem new_monomials_not_num_add (rw : poly_rewriter) (args : List Expr)
    (hpp : ∀ arg ∈ args, arg.is_numeral = none →
      (get_power_product arg).is_numeral = none ∧ (get_power_product arg).is_add = false) :
    ∀ x ∈ new_monomials rw args, x.is_numeral = none ∧ x.is_add = false := by
  intro x hx
  rcases new_monomials_mem rw args x hx with ⟨h1, h2⟩ | ⟨arg, h1, h2, a, _, rfl⟩
  · exact ⟨h2, not_add_of_pp x (hpp x h1 h2).2⟩
  · exact mk_mul_app_num_not_num_add rw a _ (hpp arg h1 h2).1 (hpp arg h1 h2).2

/-- Claim C8, as stated, fails: a single remaining summand is returned as it is, and when that
summand is itself a sum its numerals stay where they are.  With hoisting off,
`(+ 0 (+ x 1))` has a non-numeral power product and the result is `(+ x 1)`, whose child 1
is a numeral. -/
theorem add_core_numeral_position_counterexample :
    (∀ arg ∈ [Expr.num 0, Expr.app .add [ex_x, .num 1]], arg.is_numeral = none →
      (get_power_product arg).is_numeral = none) ∧
    (example_rw true false false false true true false 10).mk_nflat_add_core
      [.num 0, .app .add [ex_x, .num 1]] = (.BR_DONE, some (.app .add [ex_x, .num 1])) ∧
    [ex_x, Expr.num 1].get? 1 = some (.num 1) := by
  decide!

/-- Claim C8, amended: with hoisting off, for every list `args` in which the power product of
every non-numeral argument is neither a numeral nor itself a sum, if `mk_nflat_add_core`
returns `BR_DONE` with an add application then a numeral child of it can only be child 0,
and it is not zero. -/
theorem add_core_numeral_position (rw : poly_rewriter) (h1 : rw.m_hoist_mul = false)
    (h2 : rw.m_hoist_ite = false) (args : List Expr)
    (hpp : ∀ arg ∈ args, arg.is_numeral = none →
      (get_power_product arg).is_numeral = none ∧ (get_power_product arg).is_add = false)
    (children : List Expr)
    (hres : rw.mk_nflat_add_core args = (.BR_DONE, some (.app .add children))) :
    ∀ (i : Nat) (q : ℚ), children.get? i = some (.num q) → i = 0 ∧ q ≠ 0 := by
  rw [mk_nflat_add_core_off rw h1 h2] at hres
  split at hres
  · simp at hres
  · simp only [Prod.mk.injEq, Option.some.injEq, true_and] at hres
    have hM := new_monomials_not_num_add rw args hpp
    have hL : ∀ x ∈ push_coeff (rw.normalize (add_scan_loop rw 0 args add_scan_init).c) ++
        new_monomials rw args, x.is_add = false := by
      intro x hx
      rcases List.mem_append.mp hx with hx | hx
      · exact push_coeff_not_add _ x hx
      · exact (hM x hx).2
    have hch := mk_add_app_eq_add _ _ hres hL
    intro i q hi
    rw [← hch] at hi
    unfold push_coeff at hi
    split at hi
    · rename_i hc
      cases i with
      | zero =>
        simp only [List.singleton_append, List.get?_cons_zero, Option.some.injEq,
          mk_numeral, Expr.num.injEq] at hi
        exact ⟨rfl, hi ▸ hc⟩
      | succ i =>
        simp only [List.singleton_append, List.get?_cons_succ] at hi
        have := (hM _ (List.get?_mem hi)).1
        simp [Expr.is_numeral] at this
    · simp only [List.nil_append] at hi
      have := (hM _ (List.get?_mem hi)).1
      simp [Expr.is_numeral] at this

/-- Witness for `add_core_numeral_position`: `(+ 1 x 2 y x)` becomes `(+ 3 y (* 2 x))`. -/
theorem add_core_numeral_position_witness : 0 = 0 ∧ (3 : ℚ) ≠ 0 :=
  add_core_numeral_position (example_rw true false false false true true false 10) rfl rfl
    [.num 1, ex_x, .num 2, ex_y, ex_x] (by decide)
    [.num 3, ex_y, .app .mul [.num 2, ex_x]] (by decide!) 0 3 (by decide)

end poly_rewriter

/-! ## Canonical monomials -/

/-- A power product: a term that is not a numeral, not a sum, not a product with a leading
numeral and not a power of a numeral. -/
def is_power_product (e : Expr) : Bool :=
  !e.is_numeral.isSome && !e.is_add && !(e.is_mul && (e.get_arg 0).is_numeral.isSome) &&
    !(poly_rewriter.get_power_body e).1.is_numeral.isSome

/-- A canonical monomial: a power product `pp`, or `(* c pp)` with a numeral `c`. -/
def is_canonical_monomial (e : Expr) : Bool :=
  !e.is_numeral.isSome && is_power_product (poly_rewriter.get_power_product e)

namespace poly_rewriter

theorem is_power_product_spec {e : Expr} (h : is_power_product e = true) :
    e.is_numeral = none ∧ e.is_add = false ∧
      (e.is_mul && (e.get_arg 0).is_numeral.isSome) = false ∧
      (get_power_body e).1.is_numeral = none := by
  simp only [is_power_product, Bool.and_eq_true, Bool.not_eq_true'] at h
  obtain ⟨⟨⟨h1, h2⟩, h3⟩, h4⟩ := h
  refine ⟨?_, h2, h3, ?_⟩
  · cases h0 : e.is_numeral with
    | none => rfl
    | some q => simp [h0] at h1
  · cases h0 : (get_power_body e).1.is_numeral with
    | none => rfl
    | some q => simp [h0] at h4

theorem get_power_product_of_pp {e : Expr} (h : is_power_product e = true) :
    get_power_product e = e := by
  have h3 := (is_power_product_spec h).2.2.1
  unfold get_power_product
  split
  · rename_i hc
    simp only [Bool.and_eq_true] at hc
    simp [hc.1.1, hc.2] at h3
  · rfl

theorem canonical_spec {e : Expr} (h : is_canonical_monomial e = true) :
    e.is_numeral = none ∧ is_power_product (get_power_product e) = true := by
  simp only [is_canonical_monomial, Bool.and_eq_true, Bool.not_eq_true'] at h
  refine ⟨?_, h.2⟩
  cases h0 : e.is_numeral with
  | none => rfl
  | some q => simp [h0] at h

theorem canonical_of_pp {e : Expr} (h : is_power_product e = true) :
    is_canonical_monomial e = true := by
  have h1 := (is_power_product_spec h).1
  simp [is_canonical_monomial, h1, get_power_product_of_pp h, h]

/-- A non-zero coefficient times a power product is a canonical monomial with that power
product. -/
theorem mk_mul_app_num_canonical (rw : poly_rewriter) (a : ℚ) (pp : Expr)
    (hpp : is_power_product pp = true) (hw : pp.wf = true) :
    get_power_product (rw.mk_mul_app_num a pp) = pp ∧
      is_canonical_monomial (rw.mk_mul_app_num a pp) = true := by
  obtain ⟨h1, _, _, h4⟩ := is_power_product_spec hpp
  by_cases ha : a = 1
  · have : rw.mk_mul_app_num a pp = pp := by simp [mk_mul_app_num, mk_mul_app_num_aux, ha]
    rw [this]
    exact ⟨get_power_product_of_pp hpp, canonical_of_pp hpp⟩
  · rw [mk_mul_app_num_eq rw a pp ha h1 h4 hw]
    have : get_power_product (.app .mul [num a, pp]) = pp := by
      simp [get_power_product, Expr.is_mul, Expr.get_num_args, Expr.get_args, Expr.get_arg,
        Expr.is_numeral]
    refine ⟨this, ?_⟩
    simp [is_canonical_monomial, this, hpp, Expr.is_numeral]

/-- Under the ordinal order without powers, a canonical monomial is ranked by the node
identifier of its power product. -/
theorem ordinal_canonical (rw : poly_rewriter) (hu : rw.use_power = false) (e : Expr)
    (h : is_canonical_monomial e = true) :
    rw.ordinal e = (rw.get_id (get_power_product e) : Int) := by
  obtain ⟨hn, hpp⟩ := canonical_spec h
  obtain ⟨p1, p2, p3, p4⟩ := is_power_product_spec hpp
  unfold ordinal
  by_cases hv : is_essentially_var e = true
  · have : get_power_product e = e := by
      unfold get_power_product
      split
      · rename_i hc
        simp only [Bool.and_eq_true] at hc
        obtain ⟨as, rfl⟩ := is_mul_shape hc.1.1
        simp [is_essentially_var, Func.is_arith] at hv
      · rfl
    simp [hv, this]
  · simp only [hv, Bool.false_eq_true, if_false]
    by_cases hm : e.is_mul = true
    · simp only [hm, if_true]
      by_cases h0 : (e.get_arg 0).is_numeral.isSome = true
      · simp only [h0, if_true]
        by_cases h2 : e.get_num_args = 2
        · simp [get_power_product, hm, h2, h0]
        · have : get_power_product e = e := by simp [get_power_product, h2]
          rw [this] at p3
          simp [hm, h0] at p3
      · have : get_power_product e = e := by simp [get_power_product, h0]
        simp [h0, this]
    · have : get_power_product e = e := by simp [get_power_product, hm]
      simp [hm, hn, hu, this]

/-! ## Order of the monomials built by `mk_nflat_add_core` -/

theorem mul_ordered_pairwise (rw : poly_rewriter) (l : List Expr) :
    ∀ prev : Option Expr, mul_ordered rw prev l = true →
      (∀ x ∈ l.filter (fun arg => !arg.is_numeral.isSome), prev_ok rw x prev = true) ∧
      List.Pairwise (fun a b => rw.mon_lt b a = false)
        (l.filter (fun arg => !arg.is_numeral.isSome)) := by
  induction l with
  | nil => intro prev _; simp
  | cons a rest ih =>
    intro prev h
    rw [mul_ordered_cons] at h
    by_cases hn : a.is_numeral.isSome = true
    · simp only [hn, if_true] at h
      have hf : (a :: rest).filter (fun arg => !arg.is_numeral.isSome) =
          rest.filter (fun arg => !arg.is_numeral.isSome) := by
        rw [List.filter_cons]; simp [hn]
      rw [hf]
      exact ih prev h
    · simp only [hn, Bool.false_eq_true, if_false, Bool.and_eq_true] at h
      obtain ⟨hp, hr⟩ := h
      obtain ⟨i1, i2⟩ := ih (some a) hr
      have hf : (a :: rest).filter (fun arg => !arg.is_numeral.isSome) =
          a :: rest.filter (fun arg => !arg.is_numeral.isSome) := by
        rw [List.filter_cons]; simp [hn]
      rw [hf]
      constructor
      · intro x hx
        rcases List.mem_cons.mp hx with rfl | hx
        · exact hp
        · have hxa := i1 x hx
          cases prev with
          | none => rfl
          | some p =>
            simp only [prev_ok, Bool.not_eq_true'] at hxa hp ⊢
            exact rw.mon_lt_neg_trans _ _ _ hxa hp
      · rw [List.pairwise_cons]
        refine ⟨fun x hx => ?_, i2⟩
        simpa [prev_ok] using i1 x hx

theorem pairwise_mul_ordered (rw : poly_rewriter) (l : List Expr)
    (hp : List.Pairwise (fun a b => rw.mon_lt b a = false) l) :
    ∀ prev : Option Expr, (∀ x ∈ l, prev_ok rw x prev = true) → mul_ordered rw prev l = true := by
  induction l with
  | nil => intro prev _; simp [mul_ordered]
  | cons a rest ih =>
    intro prev h
    rw [List.pairwise_cons] at hp
    rw [mul_ordered_cons]
    split
    · exact ih hp.2 prev (fun x hx => h x (List.mem_cons_of_mem _ hx))
    · rw [Bool.and_eq_true]
      refine ⟨h a (List.mem_cons_self _ _), ih hp.2 (some a) (fun x hx => ?_)⟩
      simpa [prev_ok] using hp.1 x hx

/-- With `sort_sums` on, no monomial behind the constant is below an earlier one. -/
theorem new_monomials_sorted (rw : poly_rewriter) (hs : rw.m_sort_sums = true)
    (args : List Expr) :
    List.Pairwise (fun a b => rw.mon_lt b a = false) (new_monomials rw args) := by
  unfold new_monomials
  simp only [hs, if_true]
  split
  · exact rw.std_sort_sorted _ _ rw.mon_lt_strict_weak
  · split
    · exact rw.std_sort_sorted _ _ rw.mon_lt_strict_weak
    · rename_i ho
      have ho2 : (add_scan_loop rw 0 args add_scan_init).ordered = true := by simpa using ho
      cases args with
      | nil => simp
      | cons a l =>
        rw [add_scan_ordered_iff rw hs a l] at ho2
        exact (mul_ordered_pairwise rw (a :: l) none ho2.2).2

theorem emit_monomials_pps (rw : poly_rewriter) (multiple : List Expr)
    (coeffs : List (Expr × ℚ)) (l : List Expr) :
    ∀ visited : List Expr,
      (∀ x, x ∉ multiple → (l.map get_power_product).count x ≤ 1) →
      (∀ arg ∈ l, arg.is_numeral = none →
        is_power_product (get_power_product arg) = true ∧ arg.wf = true) →
      ((emit_monomials rw multiple coeffs l visited).map get_power_product).Nodup ∧
      ∀ y ∈ (emit_monomials rw multiple coeffs l visited).map get_power_product,
        y ∈ l.map get_power_product ∧ (y ∈ multiple → y ∉ visited) := by
  induction l with
  | nil => intro visited _ _; simp [emit_monomials]
  | cons arg rest ih =>
    intro visited hcount hcan
    have hcount2 : ∀ x, x ∉ multiple → (rest.map get_power_product).count x ≤ 1 := by
      intro x hx
      have := hcount x hx
      simp only [List.map_cons, List.count_cons] at this
      omega
    have hcan2 : ∀ a ∈ rest, a.is_numeral = none →
        is_power_product (get_power_product a) = true ∧ a.wf = true :=
      fun a ha => hcan a (List.mem_cons_of_mem _ ha)
    have lift : ∀ V, (∀ y, y ∉ V → y ∉ visited) →
        ((emit_monomials rw multiple coeffs rest V).map get_power_product).Nodup ∧
        ∀ y ∈ (emit_monomials rw multiple coeffs rest V).map get_power_product,
          y ∈ (arg :: rest).map get_power_product ∧ (y ∈ multiple → y ∉ visited) := by
      intro V hV
      obtain ⟨i1, i2⟩ := ih V hcount2 hcan2
      refine ⟨i1, fun y hy => ?_⟩
      obtain ⟨j1, j2⟩ := i2 y hy
      exact ⟨by rw [List.map_cons]; exact List.mem_cons_of_mem _ j1, fun hm => hV y (j2 hm)⟩
    simp only [emit_monomials]
    by_cases hn : arg.is_numeral.isSome = true
    · simp only [hn, if_true]
      exact lift visited (fun y hy => hy)
    · have hn2 : arg.is_numeral = none := by
        cases h0 : arg.is_numeral with
        | none => rfl
        | some q => simp [h0] at hn
      obtain ⟨hpp, hwa⟩ := hcan arg (List.mem_cons_self _ _) hn2
      simp only [hn, Bool.false_eq_true, if_false]
      by_cases hm : get_power_product arg ∈ multiple
      · simp only [hm, not_true_eq_false, if_false]
        by_cases hv : get_power_product arg ∈ visited
        · simp only [hv, not_true_eq_false, if_false]
          exact lift visited (fun y hy => hy)
        · simp only [hv, not_false_eq_true, if_true]
          have hl := lift (get_power_product arg :: visited)
            (fun y hy h => hy (List.mem_cons_of_mem _ h))
          obtain ⟨i1, i2⟩ := ih (get_power_product arg :: visited) hcount2 hcan2
          split
          · have hmk := mk_mul_app_num_canonical rw
              (rw.normalize (coeffs_find (get_power_product arg) coeffs)) _ hpp
              (wf_get_power_product arg hwa)
            simp only [List.map_cons, hmk.1]
            constructor
            · rw [List.nodup_cons]
              refine ⟨fun hmem => ?_, hl.1⟩
              exact (i2 _ hmem).2 hm (List.mem_cons_self _ _)
            · intro y hy
              rcases List.mem_cons.mp hy with rfl | hy
              · exact ⟨List.mem_cons_self _ _, fun _ => hv⟩
              · exact hl.2 y hy
          · exact hl
      · simp only [hm, not_false_eq_true, if_true, List.map_cons]
        have hl := lift visited (fun y hy => hy)
        obtain ⟨i1, i2⟩ := ih visited hcount2 hcan2
        constructor
        · rw [List.nodup_cons]
          refine ⟨fun hmem => ?_, hl.1⟩
          have h1 := (i2 _ hmem).1
          have h2 := hcount _ hm
          simp only [List.map_cons, List.count_cons_self] at h2
          have h3 := List.one_le_count_iff.mpr h1
          omega
        · intro y hy
          rcases List.mem_cons.mp hy with rfl | hy
          · exact ⟨List.mem_cons_self _ _, fun h => absurd h hm⟩
          · exact hl.2 y hy

/-- The monomials behind the constant have pairwise different power products when the
arguments are numerals and canonical monomials. -/
theorem new_monomials_pps_nodup (rw : poly_rewriter) (args : List Expr)
    (hwf : ∀ a ∈ args, a.wf = true)
    (hcan : ∀ arg ∈ args, arg.is_numeral.isSome = true ∨ is_canonical_monomial arg = true) :
    ((new_monomials rw args).map get_power_product).Nodup := by
  have hcan2 : ∀ arg ∈ args, arg.is_numeral = none →
      is_power_product (get_power_product arg) = true ∧ arg.wf = true := by
    intro arg ha hn
    rcases hcan arg ha with h | h
    · simp [hn] at h
    · exact ⟨(canonical_spec h).2, hwf arg ha⟩
  unfold new_monomials
  split
  · have hem := (emit_monomials_pps rw (add_scan_loop rw 0 args add_scan_init).multiple
      (collect_coeffs (add_scan_loop rw 0 args add_scan_init).multiple args []) args []
      (fun x hx => by
        rw [add_scan_multiple_iff] at hx
        omega) hcan2).1
    split
    · exact ((rw.std_sort_perm _ _).map _).nodup_iff.mpr hem
    · exact hem
  · rename_i hm
    have hnd : (args.map get_power_product).Nodup := by
      by_contra hc
      exact hm ((add_scan_has_multiple_iff rw args).mpr hc)
    have hsub : ((args.filter (fun arg => !arg.is_numeral.isSome)).map
        get_power_product).Nodup :=
      hnd.sublist ((List.filter_sublist _).map _)
    split
    · exact ((rw.std_sort_perm _ _).map _).nodup_iff.mpr hsub
    · exact hsub

/-- The monomials behind the constant are canonical monomials when the arguments are numerals
and canonical monomials. -/
theorem new_monomials_canonical (rw : poly_rewriter) (args : List Expr)
    (hwf : ∀ a ∈ args, a.wf = true)
    (hcan : ∀ arg ∈ args, arg.is_numeral.isSome = true ∨ is_canonical_monomial arg = true) :
    ∀ x ∈ new_monomials rw args, is_canonical_monomial x = true := by
  intro x hx
  rcases new_monomials_mem rw args x hx with ⟨h1, h2⟩ | ⟨arg, h1, h2, a, _, rfl⟩
  · rcases hcan x h1 with h | h
    · simp [h2] at h
    · exact h
  · rcases hcan arg h1 with h | h
    · simp [h2] at h
    · exact (mk_mul_app_num_canonical rw a _ (canonical_spec h).2
        (wf_get_power_product arg (hwf arg h1))).2

end poly_rewriter

namespace poly_rewriter

theorem canonical_not_add {e : Expr} (h : is_canonical_monomial e = true) : e.is_add = false :=
  not_add_of_pp e (is_power_product_spec (canonical_spec h).2).2.1

/-- Without hoisting and on numerals and canonical monomials, an add application returned by
`mk_nflat_add_core` has the constant (if not zero) followed by `new_monomials` as children. -/
theorem add_core_children (rw : poly_rewriter) (h1 : rw.m_hoist_mul = false)
    (h2 : rw.m_hoist_ite = false) (args : List Expr) (hwf : ∀ a ∈ args, a.wf = true)
    (hcan : ∀ arg ∈ args, arg.is_numeral.isSome = true ∨ is_canonical_monomial arg = true)
    (children : List Expr)
    (hres : rw.mk_nflat_add_core args = (.BR_DONE, some (.app .add children))) :
    children = push_coeff (rw.normalize (add_scan_loop rw 0 args add_scan_init).c) ++
      new_monomials rw args := by
  rw [mk_nflat_add_core_off rw h1 h2] at hres
  split at hres
  · simp at hres
  · simp only [Prod.mk.injEq, Option.some.injEq, true_and] at hres
    refine (mk_add_app_eq_add _ _ hres (fun x hx => ?_)).symm
    rcases List.mem_append.mp hx with hx | hx
    · exact push_coeff_not_add _ x hx
    · exact canonical_not_add (new_monomials_canonical rw args hwf hcan x hx)

theorem filter_push_coeff_append (c : ℚ) (M : List Expr) (hM : ∀ x ∈ M, x.is_numeral = none) :
    (push_coeff c ++ M).filter (fun arg => !arg.is_numeral.isSome) = M := by
  have h1 : (push_coeff c).filter (fun arg => !arg.is_numeral.isSome) = [] := by
    unfold push_coeff
    split <;> simp [mk_numeral, Expr.is_numeral]
  rw [List.filter_append, h1, List.nil_append, List.filter_eq_self]
  intro x hx
  simp [hM x hx]

/-- Claim C9, as stated, fails: under the ordinal order with `use_power` on, `x` and `(^ x 2)`
have the same ordinal, so in `(+ 1 x (^ x 2))`, built from `(+ x 1 (^ x 2))`, the monomials
are not strictly increasing under `mon_lt`. -/
theorem add_core_sorted_counterexample :
    (∀ arg ∈ [ex_x, Expr.num 1, mk_power ex_x 2],
      arg.is_numeral.isSome = true ∨ is_canonical_monomial arg = true) ∧
    (example_rw true false false false true false true 10).mk_nflat_add_core
      [ex_x, .num 1, mk_power ex_x 2] =
        (.BR_DONE, some (.app .add [.num 1, ex_x, mk_power ex_x 2])) ∧
    (example_rw true false false false true false true 10).mon_lt ex_x (mk_power ex_x 2) =
      false := by
  decide!

/-- Claim C9, amended: with `sort_sums` on and hoisting off, under the AST order (with
`use_power` on or off) or under the ordinal order with `use_power` off, for every list `args` of
numerals and canonical monomials, if `mk_nflat_add_core` returns `BR_DONE` with an add
application then its non-numeral children are strictly increasing under `mon_lt` and no two
of them have the same power product. -/
theorem add_core_sorted (rw : poly_rewriter) (hs : rw.m_sort_sums = true)
    (h1 : rw.m_hoist_mul = false) (h2 : rw.m_hoist_ite = false)
    (hord : rw.m_ast_order = true ∨ rw.use_power = false) (args : List Expr)
    (hwf : ∀ a ∈ args, a.wf = true)
    (hcan : ∀ arg ∈ args, arg.is_numeral.isSome = true ∨ is_canonical_monomial arg = true)
    (children : List Expr)
    (hres : rw.mk_nflat_add_core args = (.BR_DONE, some (.app .add children))) :
    List.Pairwise (fun a b => rw.mon_lt a b = true)
      (children.filter (fun arg => !arg.is_numeral.isSome)) ∧
    List.Pairwise (fun a b => get_power_product a ≠ get_power_product b)
      (children.filter (fun arg => !arg.is_numeral.isSome)) := by
  have hch := add_core_children rw h1 h2 args hwf hcan children hres
  have hcanM := new_monomials_canonical rw args hwf hcan
  have hfil := filter_push_coeff_append (rw.normalize (add_scan_loop rw 0 args add_scan_init).c)
    (new_monomials rw args) (fun x hx => (canonical_spec (hcanM x hx)).1)
  rw [hch, hfil]
  have hsorted := new_monomials_sorted rw hs args
  have hnd := new_monomials_pps_nodup rw args hwf hcan
  have hpp : List.Pairwise (fun a b => get_power_product a ≠ get_power_product b)
      (new_monomials rw args) := by
    rw [List.Nodup, List.pairwise_map] at hnd
    exact hnd
  refine ⟨?_, hpp⟩
  have hboth := hsorted.and hpp
  have hmem : List.Pairwise (fun a b => is_canonical_monomial a = true ∧
      is_canonical_monomial b = true) (new_monomials rw args) :=
    List.pairwise_of_forall_mem_list (fun a ha b hb => ⟨hcanM a ha, hcanM b hb⟩)
  refine (hboth.and hmem).imp ?_
  rintro a b ⟨⟨hba, hne⟩, hca, hcb⟩
  by_cases hast : rw.m_ast_order = true
  · have hab : a ≠ b := fun e => hne (e ▸ rfl)
    rcases rw.mon_lt_ast_total hast a b hab with h | h
    · exact h
    · rw [h] at hba; exact absurd hba (by simp)
  · have hast2 : rw.m_ast_order = false := by simpa using hast
    have hu : rw.use_power = false := by
      rcases hord with h | h
      · exact absurd h hast
      · exact h
    rw [rw.mon_lt_ordinal hast2, ordinal_canonical rw hu a hca, ordinal_canonical rw hu b hcb]
    have hba2 : ¬ (rw.ordinal b < rw.ordinal a) := by
      rw [← rw.mon_lt_ordinal hast2]; simp [hba]
    rw [ordinal_canonical rw hu a hca, ordinal_canonical rw hu b hcb] at hba2
    have hid : rw.get_id (get_power_product a) ≠ rw.get_id (get_power_product b) :=
      fun e => hne (rw.get_id_inj e)
    omega

/-- Witness for `add_core_sorted`: `(+ 1 x 2 y x)` becomes `(+ 3 y (* 2 x))` under the AST
order. -/
theorem add_core_sorted_witness :
    List.Pairwise (fun a b => (example_rw true false false false true true false 10).mon_lt a b
        = true)
      ([Expr.num 3, ex_y, .app .mul [.num 2, ex_x]].filter
        (fun arg => !arg.is_numeral.isSome)) ∧
    List.Pairwise (fun a b => get_power_product a ≠ get_power_product b)
      ([Expr.num 3, ex_y, .app .mul [.num 2, ex_x]].filter
        (fun arg => !arg.is_numeral.isSome)) :=
  add_core_sorted (example_rw true false false false true true false 10) rfl rfl rfl
    (Or.inl rfl) [.num 1, ex_x, .num 2, ex_y, ex_x] (by decide) (by decide)
    [.num 3, ex_y, .app .mul [.num 2, ex_x]] (by decide!)

theorem pps_push_coeff_append_nodup (c : ℚ) (M : List Expr)
    (hM : ∀ x ∈ M, is_canonical_monomial x = true)
    (hnd : (M.map get_power_product).Nodup) :
    ((push_coeff c ++ M).map get_power_product).Nodup := by
  unfold push_coeff
  split
  · simp only [List.singleton_append, List.map_cons, List.nodup_cons]
    refine ⟨?_, hnd⟩
    intro hmem
    obtain ⟨x, hx, he⟩ := List.mem_map.mp hmem
    have := (is_power_product_spec (canonical_spec (hM x hx)).2).1
    rw [he] at this
    simp [get_power_product, mk_numeral, Expr.is_mul, Expr.is_numeral] at this
  · simpa using hnd

/-- Claim C6: sum rewriting is idempotent.  With hoisting off, for every list `args` of
numerals and canonical monomials (respecting the arity contracts), if `mk_nflat_add_core`
returns `BR_DONE` with an add application `(+ a1 ... an)`, then on `a1 ... an` it returns
`BR_FAILED` (nothing left to do) or `BR_DONE` with the identical term. -/
theorem add_core_idempotent (rw : poly_rewriter) (h1 : rw.m_hoist_mul = false)
    (h2 : rw.m_hoist_ite = false) (args : List Expr) (hwf : ∀ a ∈ args, a.wf = true)
    (hcan : ∀ arg ∈ args, arg.is_numeral.isSome = true ∨ is_canonical_monomial arg = true)
    (children : List Expr)
    (hres : rw.mk_nflat_add_core args = (.BR_DONE, some (.app .add children))) :
    (rw.mk_nflat_add_core children).1 = .BR_FAILED ∨
      rw.mk_nflat_add_core children = (.BR_DONE, some (.app .add children)) := by
  left
  have hch := add_core_children rw h1 h2 args hwf hcan children hres
  have hcanM := new_monomials_canonical rw args hwf hcan
  have hnumM : ∀ x ∈ new_monomials rw args, x.is_numeral = none :=
    fun x hx => (canonical_spec (hcanM x hx)).1
  have hnd := pps_push_coeff_append_nodup
    (rw.normalize (add_scan_loop rw 0 args add_scan_init).c) _ hcanM
    (new_monomials_pps_nodup rw args hwf hcan)
  rw [← hch] at hnd
  have hmult : (add_scan_loop rw 0 children add_scan_init).has_multiple = false := by
    cases hm : (add_scan_loop rw 0 children add_scan_init).has_multiple with
    | false => rfl
    | true => exact absurd hnd ((add_scan_has_multiple_iff rw children).mp hm)
  have hordered : (add_scan_loop rw 0 children add_scan_init).ordered = true := by
    by_cases hs : rw.m_sort_sums = true
    · have hsorted := new_monomials_sorted rw hs args
      have hmo : ∀ prev, (∀ x ∈ new_monomials rw args, prev_ok rw x prev = true) →
          mul_ordered rw prev (new_monomials rw args) = true :=
        pairwise_mul_ordered rw _ hsorted
      rw [hch]
      unfold push_coeff
      split
      · rw [List.singleton_append, add_scan_ordered_iff rw hs]
        refine ⟨hnumM, ?_⟩
        rw [mul_ordered_cons]
        simp only [mk_numeral, Expr.is_numeral, Option.isSome_some, if_true]
        exact hmo none (fun x _ => rfl)
      · rw [List.nil_append]
        cases hM : new_monomials rw args with
        | nil => simp [add_scan_loop, add_scan_init]
        | cons a l =>
          rw [add_scan_ordered_iff rw hs]
          rw [hM] at hnumM hmo
          exact ⟨fun b hb => hnumM b (List.mem_cons_of_mem _ hb), hmo none (fun x _ => rfl)⟩
    · exact add_scan_ordered_of_not_sort rw (by simpa using hs) children 0 add_scan_init rfl
  have hnc := add_scan_loop_num_coeffs rw children 0 add_scan_init
  rw [mk_nflat_add_core_off rw h1 h2]
  have hdec : add_declines rw children = true := by
    unfold add_declines
    rw [hmult, hordered, h1, h2, hnc]
    simp only [Bool.not_false, Bool.true_and, add_scan_init, zero_add]
    rw [hch]
    unfold push_coeff
    split
    · rename_i hc
      have hf : ([mk_numeral (rw.normalize (add_scan_loop rw 0 args add_scan_init).c)] ++
          new_monomials rw args).filter (fun a => a.is_numeral.isSome) =
          [mk_numeral (rw.normalize (add_scan_loop rw 0 args add_scan_init).c)] := by
        rw [List.filter_append]
        have : (new_monomials rw args).filter (fun a => a.is_numeral.isSome) = [] := by
          rw [List.filter_eq_nil_iff]
          intro x hx
          simp [hnumM x hx]
        rw [this]
        simp [mk_numeral, Expr.is_numeral]
      rw [hf]
      simp [mk_numeral, Expr.is_numeral, hc]
    · have hf : (([] : List Expr) ++ new_monomials rw args).filter
          (fun a => a.is_numeral.isSome) = [] := by
        rw [List.nil_append, List.filter_eq_nil_iff]
        intro x hx
        simp [hnumM x hx]
      rw [hf]
      simp
  rw [hdec]
  rfl

/-- Witness for `add_core_idempotent`: `(+ 1 x 2 y x)` becomes `(+ 3 y (* 2 x))`, on which
the function declines. -/
theorem add_core_idempotent_witness :
    ((example_rw true false false false true true false 10).mk_nflat_add_core
        [.num 3, ex_y, .app .mul [.num 2, ex_x]]).1 = .BR_FAILED ∨
      (example_rw true false false false true true false 10).mk_nflat_add_core
        [.num 3, ex_y, .app .mul [.num 2, ex_x]] =
          (.BR_DONE, some (.app .add [.num 3, ex_y, .app .mul [.num 2, ex_x]])) :=
  add_core_idempotent (example_rw true false false false true true false 10) rfl rfl
    [.num 1, ex_x, .num 2, ex_y, ex_x] (by decide) (by decide)
    [.num 3, ex_y, .app .mul [.num 2, ex_x]] (by decide!)

end poly_rewriter

namespace poly_rewriter

/-! ## Independence of the argument order -/

/-- What the third loop of `mk_nflat_add_core` pushes for one argument. -/
def emit_out (rw : poly_rewriter) (multiple : List Expr) (coeffs : List (Expr × ℚ))
    (arg : Expr) (visited : List Expr) : List Expr :=
  if arg.is_numeral.isSome then []
  else if get_power_product arg ∉ multiple then [arg]
  else if get_power_product arg ∉ visited then
    if rw.normalize (coeffs_find (get_power_product arg) coeffs) ≠ 0 then
      [rw.mk_mul_app_num (rw.normalize (coeffs_find (get_power_product arg) coeffs))
        (get_power_product arg)]
    else []
  else []

/-- The marks `visited` after the third loop of `mk_nflat_add_core` handled one argument. -/
def emit_upd (multiple : List Expr) (arg : Expr) (visited : List Expr) : List Expr :=
  if arg.is_numeral.isSome then visited
  else if get_power_product arg ∉ multiple then visited
  else if get_power_product arg ∉ visited then get_power_product arg :: visited
  else visited

theorem emit_monomials_cons (rw : poly_rewriter) (multiple : List Expr)
    (coeffs : List (Expr × ℚ)) (arg : Expr) (rest visited : List Expr) :
    emit_monomials rw multiple coeffs (arg :: rest) visited =
      emit_out rw multiple coeffs arg visited ++
        emit_monomials rw multiple coeffs rest (emit_upd multiple arg visited) := by
  simp only [emit_monomials, emit_out, emit_upd]
  split
  · rfl
  · split
    · rfl
    · split
      · split <;> rfl
      · rfl

theorem emit_monomials_congr (rw : poly_rewriter) (m1 m2 : List Expr)
    (c1 c2 : List (Expr × ℚ)) (hm : ∀ x, x ∈ m1 ↔ x ∈ m2)
    (hc : ∀ x, coeffs_find x c1 = coeffs_find x c2) (l : List Expr) :
    ∀ V1 V2 : List Expr, (∀ x, x ∈ V1 ↔ x ∈ V2) →
      emit_monomials rw m1 c1 l V1 = emit_monomials rw m2 c2 l V2 := by
  induction l with
  | nil => intro V1 V2 _; simp [emit_monomials]
  | cons arg rest ih =>
    intro V1 V2 hV
    simp only [emit_monomials]
    simp only [hm, hV, hc]
    split
    · exact ih V1 V2 hV
    · split
      · rw [ih V1 V2 hV]
      · split
        · have hV2 : ∀ x, x ∈ get_power_product arg :: V1 ↔ x ∈ get_power_product arg :: V2 := by
            intro x; simp [hV]
          split
          · rw [ih _ _ hV2]
          · exact ih _ _ hV2
        · exact ih V1 V2 hV

theorem emit_out_upd_ne (rw : poly_rewriter) (multiple : List Expr) (coeffs : List (Expr × ℚ))
    (x y : Expr) (V : List Expr)
    (h : y.is_numeral.isSome = true ∨ get_power_product x ≠ get_power_product y) :
    emit_out rw multiple coeffs x (emit_upd multiple y V) = emit_out rw multiple coeffs x V := by
  unfold emit_upd
  rcases h with h | h
  · simp [h]
  · split
    · rfl
    · split
      · rfl
      · split
        · unfold emit_out
          simp only [List.mem_cons, h, false_or]
        · rfl

theorem emit_out_swap (rw : poly_rewriter) (multiple : List Expr) (coeffs : List (Expr × ℚ))
    (x y : Expr) (V : List Expr) :
    List.Perm
      (emit_out rw multiple coeffs y V ++ emit_out rw multiple coeffs x (emit_upd multiple y V))
      (emit_out rw multiple coeffs x V ++ emit_out rw multiple coeffs y (emit_upd multiple x V)) := by
  by_cases hx : x.is_numeral.isSome = true
  · have e1 : emit_out rw multiple coeffs x (emit_upd multiple y V) = [] := by
      simp [emit_out, hx]
    have e2 : emit_out rw multiple coeffs x V = [] := by simp [emit_out, hx]
    rw [e1, e2, emit_out_upd_ne rw multiple coeffs y x V (Or.inl hx)]
    simp
  · by_cases hy : y.is_numeral.isSome = true
    · have e1 : emit_out rw multiple coeffs y (emit_upd multiple x V) = [] := by
        simp [emit_out, hy]
      have e2 : emit_out rw multiple coeffs y V = [] := by simp [emit_out, hy]
      rw [e1, e2, emit_out_upd_ne rw multiple coeffs x y V (Or.inl hy)]
      simp
    · by_cases hxy : get_power_product x = get_power_product y
      · by_cases hm : get_power_product y ∈ multiple
        · by_cases hv : get_power_product y ∈ V
          · simp [emit_out, emit_upd, hx, hy, hxy, hm, hv]
          · simp [emit_out, emit_upd, hx, hy, hxy, hm, hv]
        · simp only [emit_out, emit_upd, hx, hy, hxy, hm, Bool.false_eq_true, if_false,
            not_false_eq_true, if_true]
          exact List.Perm.swap _ _ _
      · rw [emit_out_upd_ne rw multiple coeffs x y V (Or.inr hxy),
          emit_out_upd_ne rw multiple coeffs y x V (Or.inr (fun e => hxy e.symm))]
        exact List.perm_append_comm

theorem emit_upd_comm (multiple : List Expr) (x y : Expr) (V : List Expr) :
    ∀ z, z ∈ emit_upd multiple x (emit_upd multiple y V) ↔
      z ∈ emit_upd multiple y (emit_upd multiple x V) := by
  have key : ∀ (a : Expr) (W : List Expr) (z : Expr), z ∈ emit_upd multiple a W ↔
      z ∈ W ∨ (a.is_numeral.isSome = false ∧ get_power_product a ∈ multiple ∧
        z = get_power_product a) := by
    intro a W z
    unfold emit_upd
    by_cases ha : a.is_numeral.isSome = true
    · simp [ha]
    · by_cases hm : get_power_product a ∈ multiple
      · by_cases hv : get_power_product a ∈ W
        · simp only [ha, hm, hv, not_true_eq_false, if_false, Bool.false_eq_true]
          constructor
          · exact fun h => Or.inl h
          · rintro (h | ⟨_, _, rfl⟩)
            · exact h
            · exact hv
        · simp only [ha, hm, hv, not_true_eq_false, not_false_eq_true, if_true, if_false,
            Bool.false_eq_true, List.mem_cons]
          have ha2 : a.is_numeral.isSome = false := by simpa using ha
          simp only [ha2, true_and]
          tauto
      · simp [ha, hm]
  intro z
  simp only [key]
  tauto

theorem emit_monomials_perm (rw : poly_rewriter) (multiple : List Expr)
    (coeffs : List (Expr × ℚ)) {l1 l2 : List Expr} (h : List.Perm l1 l2) :
    ∀ V : List Expr, List.Perm (emit_monomials rw multiple coeffs l1 V)
      (emit_monomials rw multiple coeffs l2 V) := by
  induction h with
  | nil => intro V; exact List.Perm.refl _
  | cons x _ ih =>
    intro V
    rw [emit_monomials_cons, emit_monomials_cons]
    exact List.Perm.append_left _ (ih _)
  | swap x y l =>
    intro V
    rw [emit_monomials_cons, emit_monomials_cons, emit_monomials_cons, emit_monomials_cons,
      ← List.append_assoc, ← List.append_assoc]
    rw [emit_monomials_congr rw multiple multiple coeffs coeffs (fun _ => Iff.rfl)
      (fun _ => rfl) l _ _ (emit_upd_comm multiple x y V)]
    exact List.Perm.append_right _ (emit_out_swap rw multiple coeffs x y V)
  | trans _ _ ih1 ih2 => intro V; exact (ih1 V).trans (ih2 V)

theorem coeff_total_perm (pp : Expr) {l1 l2 : List Expr} (h : List.Perm l1 l2) :
    coeff_total pp l1 = coeff_total pp l2 := by
  induction h with
  | nil => rfl
  | cons x _ ih => simp [coeff_total, ih]
  | swap x y l => simp only [coeff_total]; ring
  | trans _ _ ih1 ih2 => exact ih1.trans ih2

/-- The monomials of `mk_nflat_add_core` before sorting. -/
def raw_monomials (rw : poly_rewriter) (args : List Expr) : List Expr :=
  if (add_scan_loop rw 0 args add_scan_init).has_multiple then
    emit_monomials rw (add_scan_loop rw 0 args add_scan_init).multiple
      (collect_coeffs (add_scan_loop rw 0 args add_scan_init).multiple args []) args []
  else args.filter (fun arg => !arg.is_numeral.isSome)

theorem add_scan_has_multiple_perm (rw : poly_rewriter) {l1 l2 : List Expr}
    (h : List.Perm l1 l2) :
    (add_scan_loop rw 0 l1 add_scan_init).has_multiple =
      (add_scan_loop rw 0 l2 add_scan_init).has_multiple := by
  have h1 := add_scan_has_multiple_iff rw l1
  have h2 := add_scan_has_multiple_iff rw l2
  have h3 : (l1.map get_power_product).Nodup ↔ (l2.map get_power_product).Nodup :=
    (h.map _).nodup_iff
  cases ha : (add_scan_loop rw 0 l1 add_scan_init).has_multiple <;>
    cases hb : (add_scan_loop rw 0 l2 add_scan_init).has_multiple <;>
    simp_all

theorem raw_monomials_perm (rw : poly_rewriter) {l1 l2 : List Expr} (h : List.Perm l1 l2) :
    List.Perm (raw_monomials rw l1) (raw_monomials rw l2) := by
  unfold raw_monomials
  rw [add_scan_has_multiple_perm rw h]
  split
  · have hm : ∀ x, x ∈ (add_scan_loop rw 0 l1 add_scan_init).multiple ↔
        x ∈ (add_scan_loop rw 0 l2 add_scan_init).multiple := by
      intro x
      rw [add_scan_multiple_iff, add_scan_multiple_iff, (h.map _).count_eq]
    have hc : ∀ x, coeffs_find x
        (collect_coeffs (add_scan_loop rw 0 l1 add_scan_init).multiple l1 []) =
        coeffs_find x (collect_coeffs (add_scan_loop rw 0 l2 add_scan_init).multiple l2 []) := by
      intro x
      rw [collect_coeffs_find, collect_coeffs_find, coeff_total_perm x h]
      simp only [hm]
    rw [emit_monomials_congr rw _ _ _ _ hm hc l1 [] [] (fun _ => Iff.rfl)]
    exact emit_monomials_perm rw _ _ h []
  · exact h.filter _

theorem sorted_perm_unique (rw : poly_rewriter) (hast : rw.m_ast_order = true)
    {l1 l2 : List Expr} (hp : List.Perm l1 l2)
    (h1 : List.Pairwise (fun a b => rw.mon_lt b a = false) l1)
    (h2 : List.Pairwise (fun a b => rw.mon_lt b a = false) l2) : l1 = l2 := by
  haveI : IsAntisymm Expr (fun a b => rw.mon_lt b a = false) := ⟨by
    intro a b hab hba
    by_contra hne
    rcases rw.mon_lt_ast_total hast a b hne with h | h
    · rw [h] at hba; exact absurd hba (by simp)
    · rw [h] at hab; exact absurd hab (by simp)⟩
  exact List.eq_of_perm_of_sorted hp h1 h2

end poly_rewriter

namespace poly_rewriter

/-- The sum that stands for a call of `mk_nflat_add_core`: the result written, or the default
application `(+ args)` that the caller assembles after `BR_FAILED`. -/
def add_result (rw : poly_rewriter) (args : List Expr) : Expr :=
  match rw.mk_nflat_add_core args with
  | (.BR_FAILED, _) => .app .add args
  | (_, some r) => r
  | (_, none) => .app .add args

theorem add_result_off (rw : poly_rewriter) (h1 : rw.m_hoist_mul = false)
    (h2 : rw.m_hoist_ite = false) (args : List Expr) :
    add_result rw args =
      if add_declines rw args then .app .add args
      else mk_add_app (push_coeff (rw.normalize (add_scan_loop rw 0 args add_scan_init).c) ++
        new_monomials rw args) := by
  unfold add_result
  rw [mk_nflat_add_core_off rw h1 h2]
  by_cases hd : add_declines rw args = true
  · simp [hd]
  · simp [hd]

theorem filter_ordered_sorted (rw : poly_rewriter) (hs : rw.m_sort_sums = true)
    (args : List Expr) (ho : (add_scan_loop rw 0 args add_scan_init).ordered = true) :
    List.Pairwise (fun a b => rw.mon_lt b a = false)
      (args.filter (fun arg => !arg.is_numeral.isSome)) := by
  cases args with
  | nil => simp
  | cons a l =>
    rw [add_scan_ordered_iff rw hs a l] at ho
    exact (mul_ordered_pairwise rw (a :: l) none ho.2).2

theorem new_monomials_eq_sort (rw : poly_rewriter) (hs : rw.m_sort_sums = true)
    (hast : rw.m_ast_order = true) (args : List Expr) :
    new_monomials rw args = rw.std_sort rw.mon_lt (raw_monomials rw args) := by
  unfold new_monomials raw_monomials
  simp only [hs, if_true]
  split
  · rfl
  · split
    · rfl
    · rename_i ho
      have ho2 : (add_scan_loop rw 0 args add_scan_init).ordered = true := by simpa using ho
      exact (sorted_perm_unique rw hast (rw.std_sort_perm _ _)
        (rw.std_sort_sorted _ _ rw.mon_lt_strict_weak)
        (filter_ordered_sorted rw hs args ho2)).symm

theorem add_scan_c_eq (rw : poly_rewriter) (args : List Expr) :
    (add_scan_loop rw 0 args add_scan_init).c =
      eval_sum ex_assignment (args.filter (fun a => a.is_numeral.isSome)) := by
  rw [add_scan_loop_c rw ex_assignment args 0 add_scan_init]
  simp [add_scan_init]

/-- With `sort_sums` on, hoisting off, the AST order and exact rationals, the sum that stands
for a call on at least two arguments is the constant followed by the sorted monomials. -/
theorem add_result_canonical (rw : poly_rewriter) (hs : rw.m_sort_sums = true)
    (h1 : rw.m_hoist_mul = false) (h2 : rw.m_hoist_ite = false)
    (hast : rw.m_ast_order = true) (hnorm : ∀ q, rw.normalize q = q) (args : List Expr)
    (hlen : 2 ≤ args.length) :
    add_result rw args =
      mk_add_app (push_coeff (add_scan_loop rw 0 args add_scan_init).c ++
        rw.std_sort rw.mon_lt (raw_monomials rw args)) := by
  rw [add_result_off rw h1 h2, hnorm, new_monomials_eq_sort rw hs hast]
  split
  · rename_i hd
    simp only [add_declines, Bool.and_eq_true, Bool.not_eq_true', Bool.or_eq_true,
      decide_eq_true_eq] at hd
    obtain ⟨hm, ⟨⟨⟨ho, _⟩, _⟩, hnc⟩⟩ := hd
    have hraw : raw_monomials rw args = args.filter (fun arg => !arg.is_numeral.isSome) := by
      simp [raw_monomials, hm]
    have hsort : rw.std_sort rw.mon_lt (args.filter (fun arg => !arg.is_numeral.isSome)) =
        args.filter (fun arg => !arg.is_numeral.isSome) :=
      sorted_perm_unique rw hast (rw.std_sort_perm _ _)
        (rw.std_sort_sorted _ _ rw.mon_lt_strict_weak) (filter_ordered_sorted rw hs args ho)
    rw [hraw, hsort, add_scan_c_eq]
    have hcount : (add_scan_loop rw 0 args add_scan_init).num_coeffs =
        (args.filter (fun a => a.is_numeral.isSome)).length := by
      rw [add_scan_loop_num_coeffs]; simp [add_scan_init]
    rw [hcount] at hnc
    obtain ⟨a, t, rfl, ht⟩ : ∃ a t, args = a :: t ∧ 1 ≤ t.length := by
      match args, hlen with
      | a :: b :: l, _ => exact ⟨a, b :: l, rfl, by simp⟩
    rw [add_scan_ordered_iff rw hs a t] at ho
    have htail : t.filter (fun a => a.is_numeral.isSome) = [] := by
      rw [List.filter_eq_nil_iff]
      intro x hx
      simp [ho.1 x hx]
    have htail2 : t.filter (fun arg => !arg.is_numeral.isSome) = t := by
      rw [List.filter_eq_self]
      intro x hx
      simp [ho.1 x hx]
    obtain ⟨b, l, rfl⟩ : ∃ b l, t = b :: l := by
      match t, ht with
      | b :: l, _ => exact ⟨b, l, rfl⟩
    cases hn : a.is_numeral with
    | none =>
      have e1 : (a :: b :: l).filter (fun a => a.is_numeral.isSome) = [] := by
        rw [List.filter_cons, htail]; simp [hn]
      have e2 : (a :: b :: l).filter (fun arg => !arg.is_numeral.isSome) = a :: b :: l := by
        rw [List.filter_cons, htail2]; simp [hn]
      rw [e1, e2]
      simp [eval_sum_nil, push_coeff, mk_add_app]
    | some q =>
      have e1 : (a :: b :: l).filter (fun a => a.is_numeral.isSome) = [a] := by
        rw [List.filter_cons, htail]; simp [hn]
      have e2 : (a :: b :: l).filter (fun arg => !arg.is_numeral.isSome) = b :: l := by
        rw [List.filter_cons, htail2]; simp [hn]
      rw [e1] at hnc
      rw [e1, e2]
      simp only [List.getD_cons_zero, hn, Bool.not_eq_true', decide_eq_false_iff_not,
        List.length_singleton] at hnc
      have hq : q ≠ 0 := by
        rcases hnc with h | h
        · omega
        · exact h.2
      have ha := is_numeral_eq_some hn
      subst ha
      simp [eval_sum_cons, eval_sum_nil, eval_num, push_coeff, hq, mk_numeral, mk_add_app]
  · rfl

/-- Claim C5, as stated, fails: under the ordinal order with `use_power` on, `x` and `(^ x 2)`
have the same ordinal, both `(+ x (^ x 2))` and `(+ (^ x 2) x)` count as ordered, and each is
left as it is. -/
theorem add_core_order_counterexample :
    List.Perm [ex_x, mk_power ex_x 2] [mk_power ex_x 2, ex_x] ∧
    (example_rw true false false false true false true 10).mk_nflat_add_core
      [ex_x, mk_power ex_x 2] = (.BR_FAILED, none) ∧
    (example_rw true false false false true false true 10).mk_nflat_add_core
      [mk_power ex_x 2, ex_x] = (.BR_FAILED, none) ∧
    add_result (example_rw true false false false true false true 10) [ex_x, mk_power ex_x 2] ≠
      add_result (example_rw true false false false true false true 10)
        [mk_power ex_x 2, ex_x] :=
  ⟨List.Perm.swap _ _ _, by decide!, by decide!, by decide!⟩

/-- Claim C5, amended: under the AST order, with `sort_sums` on, hoisting off and exact
rationals (`normalize` the identity), the sum produced does not depend on the argument
order: for every list `args` and every permutation of it, `mk_nflat_add_core` yields the same
term for both, where a `BR_FAILED` return stands for the default application `(+ args)`. -/
theorem add_core_order_independent (rw : poly_rewriter) (hs : rw.m_sort_sums = true)
    (h1 : rw.m_hoist_mul = false) (h2 : rw.m_hoist_ite = false)
    (hast : rw.m_ast_order = true) (hnorm : ∀ q, rw.normalize q = q) (args1 args2 : List Expr)
    (hperm : List.Perm args1 args2) : add_result rw args1 = add_result rw args2 := by
  by_cases hlen : 2 ≤ args1.length
  · have hlen2 : 2 ≤ args2.length := by rw [← hperm.length_eq]; exact hlen
    rw [add_result_canonical rw hs h1 h2 hast hnorm args1 hlen,
      add_result_canonical rw hs h1 h2 hast hnorm args2 hlen2, add_scan_c_eq, add_scan_c_eq,
      eval_sum_perm ex_assignment (hperm.filter _)]
    congr 2
    exact sorted_perm_unique rw hast
      (((rw.std_sort_perm _ _).trans (raw_monomials_perm rw hperm)).trans
        (rw.std_sort_perm _ _).symm)
      (rw.std_sort_sorted _ _ rw.mon_lt_strict_weak)
      (rw.std_sort_sorted _ _ rw.mon_lt_strict_weak)
  · have : args1 = args2 := by
      match args1, hlen, hperm with
      | [], _, hperm => exact (List.perm_nil.mp hperm.symm).symm
      | [a], _, hperm => exact (List.perm_singleton.mp hperm.symm).symm
      | _ :: _ :: _, hlen, _ => simp at hlen
    rw [this]

/-- Witness for `add_core_order_independent`: `(+ 1 x 2 y x)` and `(+ x y x 2 1)`. -/
theorem add_core_order_independent_witness :
    add_result (example_rw true false false false true true false 10)
        [.num 1, ex_x, .num 2, ex_y, ex_x] =
      add_result (example_rw true false false false true true false 10)
        [ex_x, ex_y, ex_x, .num 2, .num 1] :=
  add_core_order_independent (example_rw true false false false true true false 10) rfl rfl rfl
    rfl (fun _ => rfl) [.num 1, ex_x, .num 2, ex_y, ex_x] [ex_x, ex_y, ex_x, .num 2, .num 1]
    (by decide)

end poly_rewriter

namespace poly_rewriter

/-! ## The first loop of `mk_nflat_mul_core` -/

theorem mul_scan_loop_c (σ : Assignment) (l : List Expr) :
    ∀ st : mul_scan,
      (mul_scan_loop l st).c = st.c * eval_prod σ (l.filter (fun a => a.is_numeral.isSome)) := by
  induction l with
  | nil => intro st; simp [mul_scan_loop, eval_prod_nil]
  | cons a l ih =>
    intro st
    simp only [mul_scan_loop]
    cases hn : a.is_numeral with
    | none => rw [ih]; simp [List.filter_cons, hn]
    | some q =>
      rw [ih, List.filter_cons]
      simp only [hn, Option.isSome_some, if_true, eval_prod_cons]
      rw [is_numeral_eq_some hn, eval_num]
      ring

theorem mul_scan_loop_c_prod (l : List Expr) :
    ∀ st : mul_scan,
      (mul_scan_loop l st).c = st.c * (l.filterMap Expr.is_numeral).prod := by
  induction l with
  | nil => intro st; simp [mul_scan_loop]
  | cons a l ih =>
    intro st
    simp only [mul_scan_loop]
    cases hn : a.is_numeral with
    | none => rw [ih]; simp [List.filterMap_cons, hn]
    | some q =>
      rw [ih, List.filterMap_cons]
      simp only [hn, List.prod_cons]
      ring

theorem mul_scan_loop_num_coeffs (l : List Expr) :
    ∀ st : mul_scan,
      (mul_scan_loop l st).num_coeffs =
        st.num_coeffs + (l.filter (fun a => a.is_numeral.isSome)).length := by
  induction l with
  | nil => intro st; simp [mul_scan_loop]
  | cons a l ih =>
    intro st
    simp only [mul_scan_loop]
    cases hn : a.is_numeral with
    | none => rw [ih]; simp [List.filter_cons, hn]
    | some q =>
      rw [ih, List.filter_cons]
      simp [hn]
      omega

theorem mul_scan_loop_var (l : List Expr) :
    ∀ st : mul_scan,
      (mul_scan_loop l st).var =
        if l.filter (fun a => !a.is_numeral.isSome) = [] then st.var
        else (l.filter (fun a => !a.is_numeral.isSome)).getLast? := by
  induction l with
  | nil => intro st; simp [mul_scan_loop]
  | cons a l ih =>
    intro st
    simp only [mul_scan_loop]
    cases hn : a.is_numeral with
    | none =>
      rw [ih, List.filter_cons]
      simp only [hn, Option.isSome_none, Bool.not_false, if_true]
      cases hl : (l.filter (fun a => !a.is_numeral.isSome)) with
      | nil => simp
      | cons b r => simp [List.getLast?_cons_cons]
    | some q =>
      rw [ih, List.filter_cons]
      simp [hn]

theorem mul_scan_loop_num_add (l : List Expr) :
    ∀ st : mul_scan,
      (mul_scan_loop l st).num_add =
        st.num_add +
          (l.filter (fun a => !a.is_numeral.isSome && a.is_add)).length := by
  induction l with
  | nil => intro st; simp [mul_scan_loop]
  | cons a l ih =>
    intro st
    simp only [mul_scan_loop]
    cases hn : a.is_numeral with
    | none =>
      rw [ih, List.filter_cons]
      simp only [hn, Option.isSome_none, Bool.not_false, Bool.true_and]
      cases ha : a.is_add <;> simp
      omega
    | some q =>
      rw [ih, List.filter_cons]
      simp [hn]

theorem eval_prod_filter_split (σ : Assignment) (p : Expr → Bool) (l : List Expr) :
    eval_prod σ l = eval_prod σ (l.filter p) * eval_prod σ (l.filter (fun a => !p a)) := by
  rw [← eval_prod_append]
  exact (eval_prod_perm σ (List.filter_append_perm p l)).symm

theorem filter_length_add (p : Expr → Bool) (l : List Expr) :
    (l.filter p).length + (l.filter (fun a => !p a)).length = l.length := by
  have := (List.filter_append_perm p l).length_eq
  rw [List.length_append] at this
  exact this

/-! ## The sum-of-monomials expansion -/

/-- Value of the products that the expansion still has to generate from the iterator
position `it` on, the current one included. -/
def som_rest (σ : Assignment) : List (List Expr) → List Nat → ℚ
  | r :: rows, i :: it =>
    eval_sum σ (r.drop i) * eval_prod σ (som_select rows it) +
      eval_sum σ r * (som_rest σ rows it - eval_prod σ (som_select rows it))
  | _, _ => 1

/-- An iterator position that indexes every row within its bounds. -/
def som_valid : List (List Expr) → List Nat → Prop
  | r :: rows, i :: it => i < r.length ∧ som_valid rows it
  | [], [] => True
  | _, _ => False

theorem eval_sum_drop (σ : Assignment) (r : List Expr) (i : Nat) (h : i < r.length) :
    eval_sum σ (r.drop i) = eval σ (r.getD i (num 0)) + eval_sum σ (r.drop (i + 1)) := by
  rw [List.drop_eq_getElem_cons h, eval_sum_cons, List.getD_eq_getElem _ _ h]

theorem product_iterator_next_spec (σ : Assignment) (rows : List (List Expr)) :
    ∀ it : List Nat, som_valid rows it →
      match product_iterator_next (rows.map List.length) it with
      | some it1 =>
        som_valid rows it1 ∧
          som_rest σ rows it = eval_prod σ (som_select rows it) + som_rest σ rows it1
      | none => som_rest σ rows it = eval_prod σ (som_select rows it) := by
  induction rows with
  | nil =>
    intro it hv
    cases it with
    | nil => simp [product_iterator_next, som_rest, som_select, eval_prod_nil]
    | cons i it => simp [som_valid] at hv
  | cons r rows ih =>
    intro it hv
    cases it with
    | nil => simp [som_valid] at hv
    | cons i it =>
      simp only [som_valid] at hv
      obtain ⟨hi, hv2⟩ := hv
      have ihh := ih it hv2
      simp only [List.map_cons, product_iterator_next]
      by_cases hlt : i + 1 < r.length
      · simp only [hlt, if_true]
        refine ⟨?_, ?_⟩
        · simp only [som_valid]
          exact ⟨hlt, hv2⟩
        · simp only [som_rest, som_select, eval_prod_cons]
          rw [eval_sum_drop σ r i hi]
          ring
      · simp only [hlt, if_false]
        have hdrop : eval_sum σ (r.drop i) = eval σ (r.getD i (num 0)) := by
          rw [eval_sum_drop σ r i hi, List.drop_eq_nil_of_le (by omega), eval_sum_nil, add_zero]
        cases hn : product_iterator_next (rows.map List.length) it with
        | some it1 =>
          rw [hn] at ihh
          refine ⟨?_, ?_⟩
          · simp only [som_valid]
            exact ⟨by omega, ihh.1⟩
          · simp only [som_rest, som_select, eval_prod_cons, List.drop_zero]
            rw [hdrop, ihh.2]
            ring
        | none =>
          rw [hn] at ihh
          simp only [som_rest, som_select, eval_prod_cons]
          rw [hdrop, ihh]
          ring

theorem som_select_wf (rows : List (List Expr)) (h : ∀ r ∈ rows, ∀ a ∈ r, a.wf = true) :
    ∀ it : List Nat, ∀ a ∈ som_select rows it, a.wf = true := by
  induction rows with
  | nil => intro it a ha; cases it <;> simp [som_select] at ha
  | cons r rows ih =>
    intro it a ha
    cases it with
    | nil => simp [som_select] at ha
    | cons i it =>
      simp only [som_select, List.mem_cons] at ha
      rcases ha with rfl | ha
      · by_cases hi : i < r.length
        · rw [List.getD_eq_getElem _ _ hi]
          exact h r (List.mem_cons_self _ _) _ (List.getElem_mem _)
        · rw [List.getD_eq_default _ _ (by omega)]
          simp [Expr.wf]
      · exact ih (fun r2 hr2 => h r2 (List.mem_cons_of_mem _ hr2)) it a ha

theorem som_loop_spec (rw : poly_rewriter) (σ : Assignment) (rows : List (List Expr))
    (hw : ∀ r ∈ rows, ∀ a ∈ r, a.wf = true) (bound : Nat) (fuel : Nat) :
    ∀ (it : List Nat) (sum res : List Expr), som_valid rows it →
      (∀ a ∈ sum, a.wf = true) →
      som_loop rw rows (rows.map List.length) bound fuel it sum = some res →
      eval_sum σ res = eval_sum σ sum + som_rest σ rows it ∧ ∀ a ∈ res, a.wf = true := by
  induction fuel with
  | zero => intro it sum res _ _ h; simp [som_loop] at h
  | succ fuel ih =>
    intro it sum res hv hws h
    simp only [som_loop] at h
    split at h
    · simp at h
    · have hnext := product_iterator_next_spec σ rows it hv
      have hsel := som_select_wf rows hw it
      have hws2 : ∀ a ∈ sum ++ [rw.mk_mul_app (som_select rows it)], a.wf = true := by
        intro a ha
        rcases List.mem_append.mp ha with ha | ha
        · exact hws a ha
        · rw [List.mem_singleton.mp ha]; exact wf_mk_mul_app rw _ hsel
      have hval : eval_sum σ (sum ++ [rw.mk_mul_app (som_select rows it)]) =
          eval_sum σ sum + eval_prod σ (som_select rows it) := by
        rw [eval_sum_append, eval_sum_cons, eval_sum_nil, eval_mk_mul_app rw σ _ hsel, add_zero]
      cases hn : product_iterator_next (rows.map List.length) it with
      | some it1 =>
        rw [hn] at h hnext
        simp only at h hnext
        have := ih it1 _ res hnext.1 hws2 h
        refine ⟨?_, this.2⟩
        rw [this.1, hval, hnext.2]
        ring
      | none =>
        rw [hn] at h hnext
        simp only [Option.some.injEq] at h hnext
        subst h
        exact ⟨by rw [hval, hnext], hws2⟩

theorem som_rest_zero (σ : Assignment) (rows : List (List Expr)) :
    som_rest σ rows (rows.map (fun _ => 0)) = eval_prod σ (rows.map mk_add_app) := by
  induction rows with
  | nil => simp [som_rest, eval_prod_nil]
  | cons r rows ih =>
    simp only [List.map_cons, som_rest, List.drop_zero, eval_prod_cons, eval_mk_add_app, ih]
    ring

theorem som_valid_zero (rows : List (List Expr)) (h : ∀ r ∈ rows, r ≠ []) :
    som_valid rows (rows.map (fun _ => 0)) := by
  induction rows with
  | nil => simp [som_valid]
  | cons r rows ih =>
    simp only [List.map_cons, som_valid]
    refine ⟨?_, ih (fun r2 hr2 => h r2 (List.mem_cons_of_mem _ hr2))⟩
    have := h r (List.mem_cons_self _ _)
    exact List.length_pos.mpr this

theorem som_row_spec (σ : Assignment) (arg : Expr) (h : arg.wf = true) :
    eval σ (mk_add_app (som_row arg)) = eval σ arg ∧ som_row arg ≠ [] ∧
      ∀ a ∈ som_row arg, a.wf = true := by
  unfold som_row
  split
  · rename_i ha
    obtain ⟨as, rfl⟩ := is_add_shape ha
    obtain ⟨a, tl, rfl⟩ := wf_add_cons h
    refine ⟨by simp [Expr.get_args, eval_mk_add_app, eval_add], by simp [Expr.get_args], ?_⟩
    exact wf_get_args h
  · refine ⟨by simp [mk_add_app], by simp, ?_⟩
    intro a ha
    rw [List.mem_singleton.mp ha]
    exact h

end poly_rewriter

namespace poly_rewriter

/-! ## Values of the products built by `mk_nflat_mul_core` -/

/-- The initial state of the first loop of `mk_nflat_mul_core`. -/
def mul_scan_init : mul_scan := { c := 1, num_coeffs := 0, num_add := 0, var := none }

theorem eval_sum_map_mul (rw : poly_rewriter) (σ : Assignment) (c : ℚ) (as : List Expr)
    (hw : ∀ a ∈ as, a.wf = true) :
    eval_sum σ (as.map (fun t => rw.mk_mul_app_num c t)) = c * eval_sum σ as := by
  induction as with
  | nil => simp [eval_sum_nil]
  | cons a as ih =>
    simp only [List.map_cons, eval_sum_cons]
    rw [ih (fun x hx => hw x (List.mem_cons_of_mem _ hx)),
      eval_mk_mul_app_num rw σ c a (hw a (List.mem_cons_self _ _))]
    ring

theorem mul_pair_shape {v : Expr} {c : ℚ} (hm : v.is_mul = true)
    (h : (if v.get_num_args = 2 then (v.get_arg 0).is_numeral else none) = some c) :
    v = .app .mul [num c, v.get_arg 1] := by
  obtain ⟨as, rfl⟩ := is_mul_shape hm
  split at h
  · rename_i h2
    simp only [Expr.get_num_args, Expr.get_args] at h2
    match as, h2 with
    | [x, y], _ =>
      simp only [Expr.get_arg, Expr.get_args, List.getD_cons_zero] at h
      rw [is_numeral_eq_some h]
      simp [Expr.get_arg, Expr.get_args]
  · simp at h

theorem eval_prod_som_rows (σ : Assignment) (args : List Expr)
    (hwf : ∀ a ∈ args, a.wf = true) :
    eval_prod σ (args.map (mk_add_app ∘ som_row)) = eval_prod σ args := by
  induction args with
  | nil => rfl
  | cons a l ih =>
    simp only [List.map_cons, eval_prod_cons, Function.comp]
    rw [(som_row_spec σ a (hwf a (List.mem_cons_self _ _))).1]
    congr 1
    exact ih (fun x hx => hwf x (List.mem_cons_of_mem _ hx))

/-- The value written by `mk_nflat_mul_core` has the value of the product of the arguments. -/
theorem mk_nflat_mul_core_value (rw : poly_rewriter) (hnorm : ∀ q, rw.normalize q = q)
    (σ : Assignment) (args : List Expr) (hwf : ∀ a ∈ args, a.wf = true)
    (h : (rw.mk_nflat_mul_core args).1 ≠ .BR_FAILED) :
    ∃ r, (rw.mk_nflat_mul_core args).2 = some r ∧ eval σ r = eval_prod σ args := by
  unfold mk_nflat_mul_core at h ⊢
  simp only [hnorm] at h ⊢
  have hc := mul_scan_loop_c σ args mul_scan_init
  have hnc := mul_scan_loop_num_coeffs args mul_scan_init
  have hvar := mul_scan_loop_var args mul_scan_init
  have hna := mul_scan_loop_num_add args mul_scan_init
  simp only [mul_scan_init, one_mul, zero_add] at hc hnc hvar hna
  generalize mul_scan_loop args { c := 1, num_coeffs := 0, num_add := 0, var := none } = st
    at h hc hnc hvar hna ⊢
  have hsplit := eval_prod_filter_split σ (fun a => a.is_numeral.isSome) args
  have hlen := filter_length_add (fun a => a.is_numeral.isSome) args
  rw [← hc] at hsplit
  rw [← hnc] at hlen
  have hwn : ∀ a ∈ args.filter (fun a => !a.is_numeral.isSome), a.wf = true :=
    fun a ha => hwf a (List.mem_of_mem_filter ha)
  split
  · rename_i hcheap
    rw [if_pos hcheap] at h
    exact absurd rfl h
  · rename_i hcheap
    rw [if_neg hcheap] at h
    by_cases hall : st.num_coeffs = args.length
    · rw [if_pos hall]
      refine ⟨_, rfl, ?_⟩
      have : args.filter (fun a => !a.is_numeral.isSome) = [] :=
        List.length_eq_zero.mp (by omega)
      rw [hsplit, this, eval_prod_nil, mk_numeral, eval_num, mul_one]
    · rw [if_neg hall] at h ⊢
      by_cases hz : st.c = 0
      · rw [if_pos hz]
        refine ⟨_, rfl, ?_⟩
        rw [hsplit, hz, mk_numeral, eval_num, zero_mul]
      · rw [if_neg hz] at h ⊢
        by_cases hone : st.num_coeffs = args.length - 1
        · rw [if_pos hone] at h ⊢
          have hl1 : (args.filter (fun a => !a.is_numeral.isSome)).length = 1 := by omega
          obtain ⟨v, hv⟩ := List.length_eq_one.mp hl1
          rw [hv] at hvar hsplit hwn
          simp only [List.cons_ne_nil, if_false, List.getLast?_singleton] at hvar
          rw [hvar] at h ⊢
          simp only [Option.getD_some, eval_prod_cons, eval_prod_nil, mul_one] at h hsplit ⊢
          have hwv : v.wf = true := hwn v (List.mem_singleton_self v)
          by_cases hc1 : st.c = 1
          · rw [if_pos hc1]
            exact ⟨_, rfl, by rw [hsplit, hc1, one_mul]⟩
          · rw [if_neg hc1] at h ⊢
            by_cases hm : v.is_mul = true
            · rw [if_pos hm] at h ⊢
              cases hcp : (if v.get_num_args = 2 then (v.get_arg 0).is_numeral else none) with
              | none =>
                rw [hcp] at h
                exact absurd rfl h
              | some c_prime =>
                simp only
                refine ⟨_, rfl, ?_⟩
                have hshape := mul_pair_shape hm hcp
                rw [eval_mk_mul_app_num rw σ _ _ (wf_get_arg hwv 1), hsplit]
                conv_rhs => rw [hshape]
                simp only [eval_mul, eval_prod_cons, eval_prod_nil, eval_num]
                ring
            · rw [if_neg hm] at h ⊢
              by_cases hadd : st.num_add = 0
              · rw [if_pos hadd] at h ⊢
                split
                · rename_i hf
                  rw [if_pos hf] at h
                  exact absurd rfl h
                · exact ⟨_, rfl, by rw [eval_mk_mul_app_num rw σ _ _ hwv, hsplit]⟩
              · rw [if_neg hadd]
                refine ⟨_, rfl, ?_⟩
                have hva : v.is_add = true := by
                  have hpos : 0 < (args.filter
                      (fun a => !a.is_numeral.isSome && a.is_add)).length := by omega
                  obtain ⟨x, hx⟩ := List.exists_mem_of_length_pos hpos
                  rw [List.mem_filter, Bool.and_eq_true] at hx
                  have hxv : x ∈ args.filter (fun a => !a.is_numeral.isSome) :=
                    List.mem_filter.mpr ⟨hx.1, hx.2.1⟩
                  rw [hv, List.mem_singleton] at hxv
                  rw [← hxv]
                  exact hx.2.2
                obtain ⟨as, rfl⟩ := is_add_shape hva
                rw [eval_mk_add_app, Expr.get_args, eval_sum_map_mul rw σ _ _ (wf_args hwv),
                  hsplit, eval_add]
        · rw [if_neg hone] at h ⊢
          have hprod : eval σ (rw.mk_mul_app_num st.c
              (rw.mk_mul_app (args.filter (fun arg => !arg.is_numeral.isSome)))) =
              eval_prod σ args := by
            rw [eval_mk_mul_app_num rw σ _ _ (wf_mk_mul_app rw _ hwn),
              eval_mk_mul_app rw σ _ hwn, hsplit]
          split
          · exact ⟨_, rfl, hprod⟩
          · split
            · split
              · rename_i hf
                rw [if_neg (by assumption), if_pos (by assumption), if_pos hf] at h
                exact absurd rfl h
              · refine ⟨_, rfl, ?_⟩
                split
                · have hws : ∀ a ∈ rw.std_sort rw.mon_lt
                      (args.filter (fun arg => !arg.is_numeral.isSome)), a.wf = true :=
                    fun a ha => hwn a ((rw.std_sort_perm _ _).subset ha)
                  rw [eval_mk_mul_app_num rw σ _ _ (wf_mk_mul_app rw _ hws),
                    eval_mk_mul_app rw σ _ hws, eval_prod_perm σ (rw.std_sort_perm _ _), hsplit]
                · exact hprod
            · have hrows : ∀ r ∈ args.map som_row, ∀ a ∈ r, a.wf = true := by
                intro r hr a ha
                obtain ⟨arg, harg, rfl⟩ := List.mem_map.mp hr
                exact (som_row_spec σ arg (hwf arg harg)).2.2 a ha
              have hne : ∀ r ∈ args.map som_row, r ≠ [] := by
                intro r hr
                obtain ⟨arg, harg, rfl⟩ := List.mem_map.mp hr
                exact (som_row_spec σ arg (hwf arg harg)).2.1
              have hszs : args.map (fun a => (som_row a).length) =
                  (args.map som_row).map List.length := by
                rw [List.map_map]; rfl
              have hit : args.map (fun _ => 0) = (args.map som_row).map (fun _ => 0) := by
                rw [List.map_map]; rfl
              rw [hszs, hit] at h ⊢
              cases hloop : som_loop rw (args.map som_row) ((args.map som_row).map List.length)
                  (rw.som_budget args.length) (rw.som_budget args.length + 2)
                  ((args.map som_row).map (fun _ => 0)) [] with
              | none =>
                rw [if_neg (by assumption), if_neg (by assumption), hloop] at h
                exact absurd rfl h
              | some sum =>
                simp only
                refine ⟨_, rfl, ?_⟩
                have hspec := som_loop_spec rw σ (args.map som_row) hrows _ _ _ [] sum
                  (som_valid_zero _ hne) (by simp) hloop
                rw [eval_mk_add_app, hspec.1, eval_sum_nil, zero_add, som_rest_zero,
                  List.map_map]
                exact eval_prod_som_rows σ args hwf

end poly_rewriter

namespace poly_rewriter

theorem flatten_todo_spec (σ : Assignment) (fuel : Nat) :
    ∀ todo : List Expr, (∀ a ∈ todo, a.wf = true) →
      eval_prod σ (flatten_todo fuel todo) = eval_prod σ todo ∧
      ∀ a ∈ flatten_todo fuel todo, a.wf = true := by
  induction fuel with
  | zero =>
    intro todo hw
    cases todo with
    | nil => simp [flatten_todo]
    | cons a l => exact ⟨by simp [flatten_todo], by simpa [flatten_todo] using hw⟩
  | succ fuel ih =>
    intro todo hw
    cases todo with
    | nil => simp [flatten_todo]
    | cons curr rest =>
      have hwc := hw curr (List.mem_cons_self _ _)
      have hwr : ∀ a ∈ rest, a.wf = true := fun a ha => hw a (List.mem_cons_of_mem _ ha)
      simp only [flatten_todo]
      split
      · rename_i hm
        obtain ⟨as, rfl⟩ := is_mul_shape hm
        have := ih (as ++ rest) (fun a ha => by
          rcases List.mem_append.mp ha with ha | ha
          · exact wf_args hwc a ha
          · exact hwr a ha)
        refine ⟨?_, this.2⟩
        rw [Expr.get_args, this.1, eval_prod_append, eval_prod_cons, eval_mul]
      · have := ih rest hwr
        constructor
        · rw [eval_prod_cons, eval_prod_cons, this.1]
        · intro a ha
          rcases List.mem_cons.mp ha with rfl | ha
          · exact hwc
          · exact this.2 a ha

theorem flatten_mul_spec (σ : Assignment) (args : List Expr) (hwf : ∀ a ∈ args, a.wf = true) :
    eval_prod σ (flatten_mul args) = eval_prod σ args ∧ ∀ a ∈ flatten_mul args, a.wf = true := by
  induction args with
  | nil => simp [flatten_mul]
  | cons arg rest ih =>
    have hwa := hwf arg (List.mem_cons_self _ _)
    have hrec := ih (fun a ha => hwf a (List.mem_cons_of_mem _ ha))
    simp only [flatten_mul]
    split
    · have hft := flatten_todo_spec σ (2 * arg.size) [arg] (by simpa using hwa)
      constructor
      · rw [eval_prod_append, hft.1, hrec.1, eval_prod_cons, eval_prod_cons, eval_prod_nil]
        ring
      · intro a ha
        rcases List.mem_append.mp ha with ha | ha
        · exact hft.2 a ha
        · exact hrec.2 a ha
    · constructor
      · rw [eval_prod_cons, eval_prod_cons, hrec.1]
      · intro a ha
        rcases List.mem_cons.mp ha with rfl | ha
        · exact hwa
        · exact hrec.2 a ha

/-- The value written by `mk_flat_mul_core` has the value of the product of the arguments. -/
theorem mk_flat_mul_core_value (rw : poly_rewriter) (hnorm : ∀ q, rw.normalize q = q)
    (σ : Assignment) (args : List Expr) (hwf : ∀ a ∈ args, a.wf = true)
    (h : (rw.mk_flat_mul_core args).1 ≠ .BR_FAILED) :
    ∃ r, (rw.mk_flat_mul_core args).2 = some r ∧ eval σ r = eval_prod σ args := by
  unfold mk_flat_mul_core at h ⊢
  split
  · have hfl := flatten_mul_spec σ args hwf
    have hcore := mk_nflat_mul_core_value rw hnorm σ (flatten_mul args) hfl.2
    generalize rw.mk_nflat_mul_core (flatten_mul args) = res at hcore h ⊢
    obtain ⟨st, r⟩ := res
    cases st with
    | BR_FAILED => exact ⟨_, rfl, by rw [eval_mk_mul_app rw σ _ hfl.2, hfl.1]⟩
    | BR_DONE =>
      obtain ⟨r2, h1, h2⟩ := hcore (by simp)
      exact ⟨r2, h1, by rw [h2, hfl.1]⟩
    | BR_REWRITE1 =>
      obtain ⟨r2, h1, h2⟩ := hcore (by simp)
      exact ⟨r2, h1, by rw [h2, hfl.1]⟩
    | BR_REWRITE2 =>
      obtain ⟨r2, h1, h2⟩ := hcore (by simp)
      exact ⟨r2, h1, by rw [h2, hfl.1]⟩
    | BR_REWRITE_FULL =>
      obtain ⟨r2, h1, h2⟩ := hcore (by simp)
      exact ⟨r2, h1, by rw [h2, hfl.1]⟩
  · rename_i hany
    rw [if_neg hany] at h
    exact mk_nflat_mul_core_value rw hnorm σ args hwf h

/-- Claim C2: product rewriting preserves meaning.  Over exact rationals (`normalize` is the
identity), for every configuration (`flat`, `som`, `use_power` on or off), every list `args`
of terms that respect the factory's arity contracts and every assignment, whenever
`mk_nflat_mul_core` (or `mk_flat_mul_core`) returns a status other than `BR_FAILED` it has
written a result whose value is the product of the values of `args`, where `(^ b k)` denotes
`b` raised to `k`. -/
theorem mul_core_preserves_value (rw : poly_rewriter) (hnorm : ∀ q, rw.normalize q = q)
    (σ : Assignment) (args : List Expr) (hwf : ∀ a ∈ args, a.wf = true) :
    ((rw.mk_nflat_mul_core args).1 ≠ .BR_FAILED →
      ∃ r, (rw.mk_nflat_mul_core args).2 = some r ∧ eval σ r = eval_prod σ args) ∧
    ((rw.mk_flat_mul_core args).1 ≠ .BR_FAILED →
      ∃ r, (rw.mk_flat_mul_core args).2 = some r ∧ eval σ r = eval_prod σ args) :=
  ⟨mk_nflat_mul_core_value rw hnorm σ args hwf, mk_flat_mul_core_value rw hnorm σ args hwf⟩

/-- Witness for `mul_core_preserves_value`: the product `(* (+ x 1) (* x (+ x 2)))` with
sum-of-monomials expansion and powers on. -/
theorem mul_core_preserves_value_witness :
    ∃ r, ((example_rw true true false false true true true 10).mk_flat_mul_core
        [.app .add [ex_x, .num 1], .app .mul [ex_x, .app .add [ex_x, .num 2]]]).2 = some r ∧
      eval ex_assignment r = eval_prod ex_assignment
        [.app .add [ex_x, .num 1], .app .mul [ex_x, .app .add [ex_x, .num 2]]] :=
  (mul_core_preserves_value (example_rw true true false false true true true 10)
    (fun _ => rfl) ex_assignment
    [.app .add [ex_x, .num 1], .app .mul [ex_x, .app .add [ex_x, .num 2]]]
    (by decide)).2 (by decide!)

end poly_rewriter

namespace poly_rewriter

/-! ## `cancel_monomials` -/

/-- Modelled from the spec: `get_monomials(t, sz)` of `poly_rewriter.h`, which treats a side
as a sum: the arguments of an add application, and the term alone otherwise. -/
def get_monomials (t : Expr) : List Expr :=
  if t.is_add then t.get_args else [t]

/-- Mutable locals of the two scanning loops of `cancel_monomials`. -/
structure cancel_scan where
  c : ℚ
  num_coeffs : Nat
  visited : List Expr
  multiple : List Expr
  has_multiple : Bool

/-- First loop of `cancel_monomials`, over the monomials of `lhs`. -/
def cancel_scan_lhs : List Expr → cancel_scan → cancel_scan
  | [], st => st
  | arg :: rest, st =>
    match arg.is_numeral with
    | some a => cancel_scan_lhs rest { st with c := st.c + a, num_coeffs := st.num_coeffs + 1 }
    | none => cancel_scan_lhs rest { st with visited := get_power_product arg :: st.visited }

/-- Second loop of `cancel_monomials`, over the monomials of `rhs`. -/
def cancel_scan_rhs : List Expr → cancel_scan → cancel_scan
  | [], st => st
  | arg :: rest, st =>
    match arg.is_numeral with
    | some a => cancel_scan_rhs rest { st with c := st.c - a, num_coeffs := st.num_coeffs + 1 }
    | none =>
      if get_power_product arg ∈ st.visited then
        cancel_scan_rhs rest
          { st with multiple := get_power_product arg :: st.multiple, has_multiple := true }
      else cancel_scan_rhs rest st

/-- Update `coeffs[pos] -= a` for the position of `pp`.  The source asserts that `pp` has a
position; without one the buffer is left as it is. -/
def coeffs_sub (pp : Expr) (a : ℚ) : List (Expr × ℚ) → List (Expr × ℚ)
  | [] => []
  | (p, b) :: rest => if p = pp then (p, b - a) :: rest else (p, b) :: coeffs_sub pp a rest

/-- Second coefficient loop of `cancel_monomials`: the monomials of `rhs` are subtracted. -/
def cancel_coeffs_rhs (multiple : List Expr) : List Expr → List (Expr × ℚ) → List (Expr × ℚ)
  | [], coeffs => coeffs
  | arg :: rest, coeffs =>
    if arg.is_numeral.isSome then cancel_coeffs_rhs multiple rest coeffs
    else if (get_power_product_coeff arg).1 ∉ multiple then cancel_coeffs_rhs multiple rest coeffs
    else
      cancel_coeffs_rhs multiple rest
        (coeffs_sub (get_power_product_coeff arg).1 (get_power_product_coeff arg).2 coeffs)

/-- Loop of `cancel_monomials` that copies the monomials of `lhs` to `new_lhs_monomials`. -/
def cancel_emit_lhs (rw : poly_rewriter) (multiple : List Expr) (coeffs : List (Expr × ℚ)) :
    List Expr → List Expr → List Expr
  | [], _ => []
  | arg :: rest, visited =>
    if arg.is_numeral.isSome then cancel_emit_lhs rw multiple coeffs rest visited
    else if get_power_product arg ∉ multiple then
      arg :: cancel_emit_lhs rw multiple coeffs rest visited
    else if get_power_product arg ∉ visited then
      if coeffs_find (get_power_product arg) coeffs ≠ 0 then
        rw.mk_mul_app_num (coeffs_find (get_power_product arg) coeffs) (get_power_product arg) ::
          cancel_emit_lhs rw multiple coeffs rest (get_power_product arg :: visited)
      else cancel_emit_lhs rw multiple coeffs rest (get_power_product arg :: visited)
    else cancel_emit_lhs rw multiple coeffs rest visited

/-- Loop of `cancel_monomials` over the monomials of `rhs`: the monomials pushed to
`new_lhs_monomials` (first component) and to `new_rhs_monomials` (second component). -/
def cancel_emit_rhs (rw : poly_rewriter) (multiple : List Expr) (move : Bool) :
    List Expr → List Expr × List Expr
  | [] => ([], [])
  | arg :: rest =>
    if arg.is_numeral.isSome then cancel_emit_rhs rw multiple move rest
    else if (get_power_product_coeff arg).1 ∉ multiple then
      if move then
        if (get_power_product_coeff arg).2 ≠ 0 then
          if (get_power_product_coeff arg).2 = -1 then
            ((get_power_product_coeff arg).1 :: (cancel_emit_rhs rw multiple move rest).1,
              (cancel_emit_rhs rw multiple move rest).2)
          else
            (rw.mk_mul_app
                [mk_numeral (-(get_power_product_coeff arg).2), (get_power_product_coeff arg).1] ::
              (cancel_emit_rhs rw multiple move rest).1,
              (cancel_emit_rhs rw multiple move rest).2)
        else cancel_emit_rhs rw multiple move rest
      else
        ((cancel_emit_rhs rw multiple move rest).1,
          arg :: (cancel_emit_rhs rw multiple move rest).2)
    else cancel_emit_rhs rw multiple move rest

/-- Function `cancel_monomials(lhs, rhs, move, lhs_result, rhs_result)`: the status and the
values written to `lhs_result` and `rhs_result`, if any. -/
def cancel_monomials (rw : poly_rewriter) (lhs rhs : Expr) (move : Bool) :
    br_status × Option (Expr × Expr) :=
  let lhs_monomials := get_monomials lhs
  let rhs_monomials := get_monomials rhs
  let st1 := cancel_scan_lhs lhs_monomials
    { c := 0, num_coeffs := 0, visited := [], multiple := [], has_multiple := false }
  if move && decide (st1.num_coeffs = 0) && rhs.is_numeral.isSome then (.BR_FAILED, none)
  else
    let st := cancel_scan_rhs rhs_monomials st1
    let c := rw.normalize st.c
    if !st.has_multiple && decide (st.num_coeffs ≤ 1) &&
        (if move then rhs.is_numeral.isSome
         else decide (st.num_coeffs = 0) || rhs.is_numeral.isSome) then
      (.BR_FAILED, none)
    else
      let coeffs :=
        cancel_coeffs_rhs st.multiple rhs_monomials (collect_coeffs st.multiple lhs_monomials [])
      let moved := cancel_emit_rhs rw st.multiple move rhs_monomials
      let new_lhs := cancel_emit_lhs rw st.multiple coeffs lhs_monomials [] ++ moved.1
      let new_rhs := moved.2
      let new_lhs_out :=
        if move && rw.m_sort_sums then rw.std_sort rw.mon_lt new_lhs else new_lhs
      let c_at_rhs := move || new_rhs.isEmpty || !new_lhs.isEmpty
      let c2 := if c_at_rhs then rw.normalize (-c) else c
      let insert_c_lhs := !c_at_rhs && (new_lhs.isEmpty || !decide (c2 = 0))
      let insert_c_rhs := c_at_rhs && (new_rhs.isEmpty || !decide (c2 = 0))
      (.BR_DONE,
        some (mk_add_app ((if insert_c_lhs then [mk_numeral c2] else []) ++ new_lhs_out),
              mk_add_app ((if insert_c_rhs then [mk_numeral c2] else []) ++ new_rhs)))

end poly_rewriter


namespace poly_rewriter

theorem eval_get_monomials (σ : Assignment) (t : Expr) :
    eval_sum σ (get_monomials t) = eval σ t := by
  unfold get_monomials
  split
  · rename_i h
    obtain ⟨as, rfl⟩ := is_add_shape h
    rw [Expr.get_args, eval_add]
  · rw [eval_sum_cons, eval_sum_nil, add_zero]

theorem wf_get_monomials (t : Expr) (h : t.wf = true) : ∀ a ∈ get_monomials t, a.wf = true := by
  unfold get_monomials
  split
  · rename_i h2
    obtain ⟨as, rfl⟩ := is_add_shape h2
    exact wf_args h
  · intro a ha
    rw [List.mem_singleton.mp ha]
    exact h

theorem cancel_scan_lhs_spec (σ : Assignment) (l : List Expr) :
    ∀ st : cancel_scan,
      (cancel_scan_lhs l st).c = st.c + eval_sum σ (l.filter (fun a => a.is_numeral.isSome)) ∧
      (cancel_scan_lhs l st).multiple = st.multiple ∧
      (∀ pp, pp ∈ (cancel_scan_lhs l st).visited →
        pp ∈ st.visited ∨ ∃ a ∈ l, a.is_numeral.isSome = false ∧ get_power_product a = pp) := by
  induction l with
  | nil => intro st; simp [cancel_scan_lhs, eval_sum_nil]
  | cons a l ih =>
    intro st
    cases hn : a.is_numeral with
    | none =>
      simp only [cancel_scan_lhs, hn]
      obtain ⟨h1, h2, h3⟩ := ih { st with visited := get_power_product a :: st.visited }
      refine ⟨?_, h2, ?_⟩
      · rw [h1]; simp [List.filter_cons, hn]
      · intro pp hpp
        rcases h3 pp hpp with h | ⟨b, hb, hb2⟩
        · rcases List.mem_cons.mp h with h | h
          · exact Or.inr ⟨a, List.mem_cons_self _ _, by simp [hn], h.symm⟩
          · exact Or.inl h
        · exact Or.inr ⟨b, List.mem_cons_of_mem _ hb, hb2⟩
    | some q =>
      simp only [cancel_scan_lhs, hn]
      obtain ⟨h1, h2, h3⟩ := ih { st with c := st.c + q, num_coeffs := st.num_coeffs + 1 }
      refine ⟨?_, h2, ?_⟩
      · rw [h1, List.filter_cons]
        simp only [hn, Option.isSome_some, if_true, eval_sum_cons]
        rw [is_numeral_eq_some hn, eval_num]
        ring
      · intro pp hpp
        rcases h3 pp hpp with h | ⟨b, hb, hb2⟩
        · exact Or.inl h
        · exact Or.inr ⟨b, List.mem_cons_of_mem _ hb, hb2⟩

theorem cancel_scan_rhs_spec (σ : Assignment) (l : List Expr) :
    ∀ st : cancel_scan,
      (cancel_scan_rhs l st).c = st.c - eval_sum σ (l.filter (fun a => a.is_numeral.isSome)) ∧
      (∀ pp, pp ∈ (cancel_scan_rhs l st).multiple → pp ∈ st.multiple ∨ pp ∈ st.visited) := by
  induction l with
  | nil =>
    intro st
    exact ⟨by simp [cancel_scan_rhs, eval_sum_nil], fun pp h => Or.inl h⟩
  | cons a l ih =>
    intro st
    cases hn : a.is_numeral with
    | none =>
      simp only [cancel_scan_rhs, hn]
      split
      · rename_i hv
        obtain ⟨h1, h2⟩ := ih
          { st with multiple := get_power_product a :: st.multiple, has_multiple := true }
        refine ⟨?_, ?_⟩
        · rw [h1]; simp [List.filter_cons, hn]
        · intro pp hpp
          rcases h2 pp hpp with h | h
          · rcases List.mem_cons.mp h with h | h
            · exact Or.inr (h ▸ hv)
            · exact Or.inl h
          · exact Or.inr h
      · obtain ⟨h1, h2⟩ := ih st
        refine ⟨?_, h2⟩
        rw [h1]; simp [List.filter_cons, hn]
    | some q =>
      simp only [cancel_scan_rhs, hn]
      obtain ⟨h1, h2⟩ := ih { st with c := st.c - q, num_coeffs := st.num_coeffs + 1 }
      refine ⟨?_, h2⟩
      rw [h1, List.filter_cons]
      simp only [hn, Option.isSome_some, if_true, eval_sum_cons]
      rw [is_numeral_eq_some hn, eval_num]
      ring

theorem coeffs_add_keys (pp : Expr) (a : ℚ) (q : Expr) (coeffs : List (Expr × ℚ))
    (h : q ∈ coeffs.map Prod.fst ∨ q = pp) : q ∈ (coeffs_add pp a coeffs).map Prod.fst := by
  induction coeffs with
  | nil =>
    rcases h with h | h
    · simp at h
    · simp [coeffs_add, h]
  | cons e rest ih =>
    obtain ⟨p, b⟩ := e
    simp only [coeffs_add]
    by_cases hp : p = pp
    · simp only [hp, if_true, List.map_cons, List.mem_cons]
      rcases h with h | h
      · simp only [List.map_cons, List.mem_cons] at h
        rcases h with h | h
        · exact Or.inl (h.trans hp)
        · exact Or.inr h
      · exact Or.inl h
    · simp only [hp, if_false, List.map_cons, List.mem_cons]
      rcases h with h | h
      · simp only [List.map_cons, List.mem_cons] at h
        rcases h with h | h
        · exact Or.inl h
        · exact Or.inr (ih (Or.inl h))
      · exact Or.inr (ih (Or.inr h))

theorem collect_coeffs_keys (multiple : List Expr) (q : Expr) (l : List Expr) :
    ∀ coeffs : List (Expr × ℚ),
      (q ∈ coeffs.map Prod.fst ∨
        (q ∈ multiple ∧ ∃ a ∈ l, a.is_numeral.isSome = false ∧ get_power_product a = q)) →
      q ∈ (collect_coeffs multiple l coeffs).map Prod.fst := by
  induction l with
  | nil =>
    intro coeffs h
    rcases h with h | ⟨_, a, ha, _⟩
    · exact h
    · simp at ha
  | cons arg rest ih =>
    intro coeffs h
    simp only [collect_coeffs]
    by_cases hn : arg.is_numeral.isSome = true
    · simp only [hn, if_true]
      apply ih
      rcases h with h | ⟨hq, a, ha, ha2, ha3⟩
      · exact Or.inl h
      · rcases List.mem_cons.mp ha with rfl | ha
        · rw [hn] at ha2; cases ha2
        · exact Or.inr ⟨hq, a, ha, ha2, ha3⟩
    · simp only [hn, Bool.false_eq_true, if_false]
      rw [get_power_product_coeff_fst]
      by_cases hm : get_power_product arg ∈ multiple
      · simp only [hm, not_true_eq_false, if_false]
        apply ih
        rcases h with h | ⟨hq, a, ha, ha2, ha3⟩
        · exact Or.inl (coeffs_add_keys _ _ _ _ (Or.inl h))
        · rcases List.mem_cons.mp ha with rfl | ha
          · exact Or.inl (coeffs_add_keys _ _ _ _ (Or.inr ha3.symm))
          · exact Or.inr ⟨hq, a, ha, ha2, ha3⟩
      · simp only [hm, not_false_eq_true, if_true]
        apply ih
        rcases h with h | ⟨hq, a, ha, ha2, ha3⟩
        · exact Or.inl h
        · rcases List.mem_cons.mp ha with rfl | ha
          · exact absurd (ha3 ▸ hq) hm
          · exact Or.inr ⟨hq, a, ha, ha2, ha3⟩

theorem coeffs_sub_keys (pp : Expr) (a : ℚ) (coeffs : List (Expr × ℚ)) :
    (coeffs_sub pp a coeffs).map Prod.fst = coeffs.map Prod.fst := by
  induction coeffs with
  | nil => simp [coeffs_sub]
  | cons e rest ih =>
    obtain ⟨p, b⟩ := e
    simp only [coeffs_sub]
    by_cases hp : p = pp
    · simp [hp]
    · simp [hp, ih]

theorem coeffs_find_sub (pp : Expr) (a : ℚ) (q : Expr) (coeffs : List (Expr × ℚ))
    (h : pp ∈ coeffs.map Prod.fst) :
    coeffs_find q (coeffs_sub pp a coeffs) =
      coeffs_find q coeffs - (if q = pp then a else 0) := by
  induction coeffs with
  | nil => simp at h
  | cons e rest ih =>
    obtain ⟨p, b⟩ := e
    simp only [coeffs_sub]
    by_cases hp : p = pp
    · simp only [hp, if_true, coeffs_find]
      by_cases hq : pp = q
      · simp [hq]
      · have h2 : ¬ q = pp := fun e => hq e.symm
        simp [hq, h2]
    · simp only [hp, if_false, coeffs_find]
      by_cases hq : p = q
      · have h2 : ¬ q = pp := fun e => hp (hq.trans e)
        simp [hq, h2]
      · simp only [hq, if_false]
        apply ih
        simp only [List.map_cons, List.mem_cons] at h
        rcases h with h | h
        · exact absurd h.symm hp
        · exact h

theorem cancel_coeffs_rhs_find (multiple : List Expr) (q : Expr) (l : List Expr) :
    ∀ coeffs : List (Expr × ℚ), (∀ pp ∈ multiple, pp ∈ coeffs.map Prod.fst) →
      coeffs_find q (cancel_coeffs_rhs multiple l coeffs) =
        coeffs_find q coeffs - (if q ∈ multiple then coeff_total q l else 0) := by
  induction l with
  | nil => intro coeffs _; simp [cancel_coeffs_rhs, coeff_total]
  | cons arg rest ih =>
    intro coeffs hk
    simp only [cancel_coeffs_rhs, coeff_total]
    by_cases hn : arg.is_numeral.isSome = true
    · simp only [hn, if_true, zero_add]
      exact ih coeffs hk
    · simp only [hn, Bool.false_eq_true, if_false]
      rw [get_power_product_coeff_fst]
      by_cases hm : get_power_product arg ∈ multiple
      · simp only [hm, not_true_eq_false, if_false]
        rw [ih _ (fun pp hpp => by rw [coeffs_sub_keys]; exact hk pp hpp),
          coeffs_find_sub _ _ _ _ (hk _ hm)]
        by_cases hq : q = get_power_product arg
        · subst hq
          simp [hm]
          ring
        · have hq2 : ¬ get_power_product arg = q := fun e => hq e.symm
          simp [hq, hq2]
      · simp only [hm, not_false_eq_true, if_true]
        rw [ih coeffs hk]
        by_cases hq : get_power_product arg = q
        · subst hq
          simp [hm]
        · simp [hq]

end poly_rewriter

namespace poly_rewriter

/-- Sum of the values of the monomials of the right-hand side whose power product is marked
in `multiple` and not in `visited`. -/
def rhs_value (σ : Assignment) (multiple visited : List Expr) : List Expr → ℚ
  | [] => 0
  | arg :: rest =>
    (if arg.is_numeral.isSome then 0
     else if get_power_product arg ∈ multiple ∧ get_power_product arg ∉ visited then eval σ arg
     else 0) + rhs_value σ multiple visited rest

/-- Sum of the values of the monomials of the right-hand side whose power product is not
marked in `multiple`. -/
def rhs_rest_value (σ : Assignment) (multiple : List Expr) : List Expr → ℚ
  | [] => 0
  | arg :: rest =>
    (if arg.is_numeral.isSome then 0
     else if get_power_product arg ∉ multiple then eval σ arg else 0) +
      rhs_rest_value σ multiple rest

theorem rhs_value_split (σ : Assignment) (multiple visited : List Expr) (pp : Expr)
    (hm : pp ∈ multiple) (hv : pp ∉ visited) (l : List Expr) :
    rhs_value σ multiple visited l =
      rhs_value σ multiple (pp :: visited) l + coeff_total pp l * eval σ pp := by
  induction l with
  | nil => simp [rhs_value, coeff_total]
  | cons arg rest ih =>
    simp only [rhs_value, coeff_total]
    rw [ih]
    by_cases hn : arg.is_numeral.isSome = true
    · simp only [hn, if_true]
      ring
    · simp only [hn, Bool.false_eq_true, if_false]
      by_cases hq : get_power_product arg = pp
      · have e1 := eval_get_power_product_coeff σ arg
        rw [get_power_product_coeff_fst] at e1
        simp only [hq, hm, hv, List.mem_cons, true_or, not_true_eq_false, not_false_eq_true,
          and_self, and_false, if_true, if_false]
        rw [e1, hq]
        ring
      · simp only [hq, List.mem_cons, false_or, if_false]
        ring

theorem rhs_value_zero (σ : Assignment) (multiple visited : List Expr)
    (h : ∀ pp ∈ multiple, pp ∈ visited) (l : List Expr) : rhs_value σ multiple visited l = 0 := by
  induction l with
  | nil => simp [rhs_value]
  | cons arg rest ih =>
    simp only [rhs_value, ih, add_zero]
    by_cases hn : arg.is_numeral.isSome = true
    · simp [hn]
    · by_cases hm : get_power_product arg ∈ multiple
      · simp [hn, hm, h _ hm]
      · simp [hn, hm]

theorem rhs_value_add_rest (σ : Assignment) (multiple : List Expr) (l : List Expr) :
    rhs_value σ multiple [] l + rhs_rest_value σ multiple l =
      eval_sum σ (l.filter (fun a => !a.is_numeral.isSome)) := by
  induction l with
  | nil => simp [rhs_value, rhs_rest_value, eval_sum_nil]
  | cons arg rest ih =>
    simp only [rhs_value, rhs_rest_value, List.filter_cons]
    by_cases hn : arg.is_numeral.isSome = true
    · simp only [hn, if_true, zero_add, Bool.not_true, Bool.false_eq_true, if_false]
      exact ih
    · simp only [hn, Bool.false_eq_true, if_false, Bool.not_false, if_true, eval_sum_cons,
        List.not_mem_nil, not_false_eq_true, and_true]
      rw [← ih]
      by_cases hm : get_power_product arg ∈ multiple
      · simp only [hm, if_true, not_true_eq_false, if_false]; ring
      · simp only [hm, if_false, not_false_eq_true, if_true]; ring

theorem cancel_emit_lhs_spec (rw : poly_rewriter) (σ : Assignment) (multiple : List Expr)
    (coeffs : List (Expr × ℚ)) (rhs : List Expr) (l : List Expr) :
    ∀ visited : List Expr, (∀ a ∈ l, a.wf = true) →
      (∀ pp ∈ multiple, pp ∉ visited →
        coeffs_find pp coeffs = coeff_total pp l - coeff_total pp rhs) →
      (∀ pp ∈ multiple, pp ∉ visited →
        ∃ a ∈ l, a.is_numeral.isSome = false ∧ get_power_product a = pp) →
      eval_sum σ (cancel_emit_lhs rw multiple coeffs l visited) =
        emit_value σ multiple visited l - rhs_value σ multiple visited rhs ∧
      (∀ a ∈ cancel_emit_lhs rw multiple coeffs l visited, a.wf = true) := by
  induction l with
  | nil =>
    intro visited _ _ hex
    have hz := rhs_value_zero σ multiple visited (fun pp hpp => by
      by_contra hv
      obtain ⟨a, ha, _⟩ := hex pp hpp hv
      simp at ha) rhs
    simp [cancel_emit_lhs, emit_value, eval_sum_nil, hz]
  | cons arg rest ih =>
    intro visited hwf hc hex
    have hwa := hwf arg (List.mem_cons_self _ _)
    have hwr : ∀ a ∈ rest, a.wf = true := fun a ha => hwf a (List.mem_cons_of_mem _ ha)
    simp only [cancel_emit_lhs, emit_value]
    by_cases hn : arg.is_numeral.isSome = true
    · simp only [hn, if_true, zero_add]
      exact ih visited hwr
        (fun pp h1 h2 => by rw [hc pp h1 h2, coeff_total_cons_ne _ _ _ (Or.inl hn)])
        (fun pp h1 h2 => by
          obtain ⟨a, ha, ha2, ha3⟩ := hex pp h1 h2
          rcases List.mem_cons.mp ha with rfl | ha
          · rw [hn] at ha2; cases ha2
          · exact ⟨a, ha, ha2, ha3⟩)
    · simp only [hn, Bool.false_eq_true, if_false]
      by_cases hm : get_power_product arg ∈ multiple
      · simp only [hm, not_true_eq_false, if_false, true_and]
        by_cases hv : get_power_product arg ∈ visited
        · simp only [hv, not_true_eq_false, if_false, if_true, zero_add]
          have hne : ∀ pp, pp ∉ visited → get_power_product arg ≠ pp :=
            fun pp h2 e => h2 (e ▸ hv)
          exact ih visited hwr
            (fun pp h1 h2 => by
              rw [hc pp h1 h2, coeff_total_cons_ne _ _ _ (Or.inr (hne pp h2))])
            (fun pp h1 h2 => by
              obtain ⟨a, ha, ha2, ha3⟩ := hex pp h1 h2
              rcases List.mem_cons.mp ha with rfl | ha
              · exact absurd ha3 (hne pp h2)
              · exact ⟨a, ha, ha2, ha3⟩)
        · simp only [hv, not_false_eq_true, if_true, if_false]
          have hne : ∀ pp, pp ∉ get_power_product arg :: visited → get_power_product arg ≠ pp :=
            fun pp h2 e => h2 (e ▸ List.mem_cons_self _ _)
          have hrec := ih (get_power_product arg :: visited) hwr
            (fun pp h1 h2 => by
              have h3 : pp ∉ visited := fun e => h2 (List.mem_cons_of_mem _ e)
              rw [hc pp h1 h3, coeff_total_cons_ne _ _ _ (Or.inr (hne pp h2))])
            (fun pp h1 h2 => by
              have h3 : pp ∉ visited := fun e => h2 (List.mem_cons_of_mem _ e)
              obtain ⟨a, ha, ha2, ha3⟩ := hex pp h1 h3
              rcases List.mem_cons.mp ha with rfl | ha
              · exact absurd ha3 (hne pp h2)
              · exact ⟨a, ha, ha2, ha3⟩)
          have hcf := hc _ hm hv
          have hsplit := emit_value_split σ multiple visited _ hm hv rest
          have hsplit2 := rhs_value_split σ multiple visited _ hm hv rhs
          have hwpp := wf_get_power_product arg hwa
          have e1 := eval_get_power_product_coeff σ arg
          rw [get_power_product_coeff_fst] at e1
          have htot : coeff_total (get_power_product arg) (arg :: rest) =
              (get_power_product_coeff arg).2 + coeff_total (get_power_product arg) rest := by
            simp [coeff_total, hn]
          split
          · constructor
            · rw [eval_sum_cons, eval_mk_mul_app_num rw σ _ _ hwpp, hrec.1, hsplit, hsplit2, hcf,
                htot, e1]
              ring
            · intro a ha
              rcases List.mem_cons.mp ha with rfl | ha
              · exact wf_mk_mul_app_num rw _ _ hwpp
              · exact hrec.2 a ha
          · rename_i hz
            have hz0 : coeffs_find (get_power_product arg) coeffs = 0 := by
              by_contra hne2; exact hz hne2
            constructor
            · rw [hrec.1, hsplit, hsplit2, e1]
              rw [hcf, htot] at hz0
              have : coeff_total (get_power_product arg) rest =
                  coeff_total (get_power_product arg) rhs - (get_power_product_coeff arg).2 := by
                linarith
              rw [this]
              ring
            · exact hrec.2
      · simp only [hm, not_false_eq_true, if_true, false_and, if_false]
        have hne : ∀ pp ∈ multiple, get_power_product arg ≠ pp := fun pp h1 e => hm (e ▸ h1)
        have hrec := ih visited hwr
          (fun pp h1 h2 => by
            rw [hc pp h1 h2, coeff_total_cons_ne _ _ _ (Or.inr (hne pp h1))])
          (fun pp h1 h2 => by
            obtain ⟨a, ha, ha2, ha3⟩ := hex pp h1 h2
            rcases List.mem_cons.mp ha with rfl | ha
            · exact absurd ha3 (hne pp h1)
            · exact ⟨a, ha, ha2, ha3⟩)
        constructor
        · rw [eval_sum_cons, hrec.1]; ring
        · intro a ha
          rcases List.mem_cons.mp ha with rfl | ha
          · exact hwa
          · exact hrec.2 a ha

theorem cancel_emit_rhs_spec (rw : poly_rewriter) (σ : Assignment) (multiple : List Expr)
    (move : Bool) (l : List Expr) (hwf : ∀ a ∈ l, a.wf = true) :
    eval_sum σ (cancel_emit_rhs rw multiple move l).1 -
        eval_sum σ (cancel_emit_rhs rw multiple move l).2 = - rhs_rest_value σ multiple l ∧
      (∀ a ∈ (cancel_emit_rhs rw multiple move l).1, a.wf = true) ∧
      (∀ a ∈ (cancel_emit_rhs rw multiple move l).2, a.wf = true) := by
  induction l with
  | nil => simp [cancel_emit_rhs, rhs_rest_value, eval_sum_nil]
  | cons arg rest ih =>
    have hwa := hwf arg (List.mem_cons_self _ _)
    obtain ⟨h1, h2, h3⟩ := ih (fun a ha => hwf a (List.mem_cons_of_mem _ ha))
    have hwpp := wf_get_power_product arg hwa
    have e1 := eval_get_power_product_coeff σ arg
    simp only [cancel_emit_rhs, rhs_rest_value]
    rw [get_power_product_coeff_fst] at e1 ⊢
    by_cases hn : arg.is_numeral.isSome = true
    · simp only [hn, if_true, zero_add]
      exact ⟨h1, h2, h3⟩
    · simp only [hn, Bool.false_eq_true, if_false]
      by_cases hm : get_power_product arg ∈ multiple
      · simp only [hm, not_true_eq_false, if_false, zero_add]
        exact ⟨h1, h2, h3⟩
      · simp only [hm, not_false_eq_true, if_true]
        cases move with
        | false =>
          simp only [Bool.false_eq_true, if_false, eval_sum_cons]
          refine ⟨by linarith, h2, ?_⟩
          intro a ha
          rcases List.mem_cons.mp ha with rfl | ha
          · exact hwa
          · exact h3 a ha
        | true =>
          simp only [if_true]
          by_cases hz : (get_power_product_coeff arg).2 = 0
          · simp only [hz, ne_eq, not_true_eq_false, if_false]
            refine ⟨?_, h2, h3⟩
            rw [h1, e1, hz]; ring
          · simp only [hz, ne_eq, not_false_eq_true, if_true]
            by_cases hone : (get_power_product_coeff arg).2 = -1
            · simp only [hone, if_true, eval_sum_cons]
              refine ⟨?_, ?_, h3⟩
              · rw [e1, hone]; linarith
              · intro a ha
                rcases List.mem_cons.mp ha with rfl | ha
                · exact hwpp
                · exact h2 a ha
            · simp only [hone, if_false, eval_sum_cons]
              have hw2 : ∀ a ∈ [mk_numeral (-(get_power_product_coeff arg).2),
                  get_power_product arg], a.wf = true := by
                intro a ha
                simp only [List.mem_cons, List.mem_singleton, List.not_mem_nil, or_false] at ha
                rcases ha with rfl | rfl
                · simp [mk_numeral, Expr.wf]
                · exact hwpp
              refine ⟨?_, ?_, h3⟩
              · rw [eval_mk_mul_app rw σ _ hw2, eval_prod_cons, eval_prod_cons, eval_prod_nil,
                  mk_numeral, eval_num, e1]
                linarith
              · intro a ha
                rcases List.mem_cons.mp ha with rfl | ha
                · exact wf_mk_mul_app rw _ hw2
                · exact h2 a ha

theorem eval_sum_insert_c (σ : Assignment) (b e : Bool) (c : ℚ) :
    eval_sum σ (if (b && (e || !decide (c = 0))) = true then [mk_numeral c] else []) =
      if b = true then c else 0 := by
  cases b <;> cases e <;> by_cases hc : c = 0 <;>
    simp [hc, mk_numeral, eval_sum_cons, eval_sum_nil, eval_num]

end poly_rewriter

namespace poly_rewriter

/-- Claim C3: `cancel_monomials` preserves the relation between the two sides.  Over exact
rationals (`normalize` is the identity), for every `lhs` and `rhs` that respect the factory's
arity contracts, both values of `move` and every assignment, if `cancel_monomials` returns
`BR_DONE` with `(lhs_result, rhs_result)` then
`value(lhs_result) - value(rhs_result) = value(lhs) - value(rhs)`. -/
theorem cancel_monomials_preserves_difference (rw : poly_rewriter)
    (hnorm : ∀ q, rw.normalize q = q) (σ : Assignment) (lhs rhs : Expr) (move : Bool)
    (hl : lhs.wf = true) (hr : rhs.wf = true) (lhs_result rhs_result : Expr)
    (h : rw.cancel_monomials lhs rhs move = (.BR_DONE, some (lhs_result, rhs_result))) :
    eval σ lhs_result - eval σ rhs_result = eval σ lhs - eval σ rhs := by
  unfold cancel_monomials at h
  simp only [hnorm] at h
  have hwl := wf_get_monomials lhs hl
  have hwr := wf_get_monomials rhs hr
  have hel := eval_get_monomials σ lhs
  have her := eval_get_monomials σ rhs
  generalize get_monomials lhs = L at h hwl hel
  generalize get_monomials rhs = R at h hwr her
  obtain ⟨s1, s2, s3⟩ := cancel_scan_lhs_spec σ L
    { c := 0, num_coeffs := 0, visited := [], multiple := [], has_multiple := false }
  generalize cancel_scan_lhs L
    { c := 0, num_coeffs := 0, visited := [], multiple := [], has_multiple := false } = st1
    at h s1 s2 s3
  obtain ⟨t1, t2⟩ := cancel_scan_rhs_spec σ R st1
  generalize cancel_scan_rhs R st1 = st at h t1 t2
  have hmult : ∀ pp ∈ st.multiple,
      ∃ a ∈ L, a.is_numeral.isSome = false ∧ get_power_product a = pp := by
    intro pp hpp
    rcases t2 pp hpp with h1 | h1
    · rw [s2] at h1; simp at h1
    · rcases s3 pp h1 with h2 | h2
      · simp at h2
      · exact h2
  have hc : st.c = eval_sum σ (L.filter (fun a => a.is_numeral.isSome)) -
      eval_sum σ (R.filter (fun a => a.is_numeral.isSome)) := by
    rw [t1, s1]; simp
  have hkeys : ∀ pp ∈ st.multiple, pp ∈ (collect_coeffs st.multiple L []).map Prod.fst :=
    fun pp hpp => collect_coeffs_keys st.multiple pp L [] (Or.inr ⟨hpp, hmult pp hpp⟩)
  have hlhs := cancel_emit_lhs_spec rw σ st.multiple
    (cancel_coeffs_rhs st.multiple R (collect_coeffs st.multiple L [])) R L [] hwl
    (fun pp h1 _ => by
      rw [cancel_coeffs_rhs_find _ _ _ _ hkeys, collect_coeffs_find]
      simp [coeffs_find, h1])
    (fun pp h1 _ => hmult pp h1)
  have hrhs := cancel_emit_rhs_spec rw σ st.multiple move R hwr
  have hsum := rhs_value_add_rest σ st.multiple R
  rw [emit_value_nil] at hlhs
  have hsl := eval_sum_filter_split σ (fun a => a.is_numeral.isSome) L
  have hsr := eval_sum_filter_split σ (fun a => a.is_numeral.isSome) R
  generalize cancel_emit_lhs rw st.multiple
    (cancel_coeffs_rhs st.multiple R (collect_coeffs st.multiple L [])) L [] = E at h hlhs
  generalize cancel_emit_rhs rw st.multiple move R = M at h hrhs
  have key : ∀ (c : Prop) [Decidable c] (x y : br_status × Option (Expr × Expr)),
      y.1 = .BR_DONE → (if c then (br_status.BR_FAILED, none) else x) = y → x = y := by
    intro c _ x y hy h
    split at h
    · rw [← h] at hy; cases hy
    · exact h
  replace h := key _ _ _ rfl (key _ _ _ rfl h)
  simp only [Prod.mk.injEq, Option.some.injEq, true_and] at h
  obtain ⟨rfl, rfl⟩ := h
  have hsort : eval_sum σ (if (move && rw.m_sort_sums) = true then
      rw.std_sort rw.mon_lt (E ++ M.1) else E ++ M.1) = eval_sum σ E + eval_sum σ M.1 := by
    split
    · rw [eval_sum_perm σ (rw.std_sort_perm _ _), eval_sum_append]
    · rw [eval_sum_append]
  rw [eval_mk_add_app, eval_mk_add_app, eval_sum_append, eval_sum_append, hsort]
  generalize (move || M.2.isEmpty || !(E ++ M.1).isEmpty) = k
  rw [← hel, ← her, hsl, hsr]
  cases k with
  | false =>
    simp only [Bool.not_false, Bool.false_eq_true, if_false, Bool.false_and, Bool.true_and]
    have h1 := eval_sum_insert_c σ true (E ++ M.1).isEmpty st.c
    simp only [Bool.true_and, if_true] at h1
    rw [h1, eval_sum_nil, hlhs.1]
    linarith [hrhs.1]
  | true =>
    simp only [Bool.not_true, Bool.false_eq_true, if_false, if_true, Bool.false_and,
      Bool.true_and]
    have h1 := eval_sum_insert_c σ true M.2.isEmpty (-st.c)
    simp only [Bool.true_and, if_true] at h1
    rw [h1, eval_sum_nil, hlhs.1]
    linarith [hrhs.1]

/-- Witness for `cancel_monomials_preserves_difference`: `x + 2*y + 3 = y + 1 + z` with
`move` on becomes `x + y + (-1)*z = -2`. -/
theorem cancel_monomials_preserves_difference_witness :
    eval ex_assignment (.app .add [ex_x, ex_y, .app .mul [.num (-1), ex_z]]) -
        eval ex_assignment (.num (-2)) =
      eval ex_assignment (.app .add [ex_x, .app .mul [.num 2, ex_y], .num 3]) -
        eval ex_assignment (.app .add [ex_y, .num 1, ex_z]) :=
  cancel_monomials_preserves_difference (example_rw true false false false true true true 10)
    (fun _ => rfl) ex_assignment
    (.app .add [ex_x, .app .mul [.num 2, ex_y], .num 3]) (.app .add [ex_y, .num 1, ex_z]) true
    (by decide) (by decide) _ _ (by decide!)

end poly_rewriter

namespace rational

/-- Modelled from the spec: `abs(c)` of the numeric kernel. -/
def abs (c : ℚ) : ℚ := if c < 0 then -c else c

/-- Modelled from the spec: `gcd(a, b)` of the numeric kernel, on integer-valued rationals. -/
def gcd (a b : ℚ) : ℚ := ((Int.gcd a.num b.num : ℕ) : ℚ)

/-- Modelled from the spec: `divides(g, x)` returns whether `x / g` is an integer. -/
def divides (g x : ℚ) : Bool := (x / g).isInt

end rational

namespace poly_rewriter

/-! ## `gcd_test` -/

/-- Captured locals `g` and `offset` of the lambda of `gcd_test`. -/
structure gcd_state where
  g : ℚ
  offset : ℚ

/-- The lambda `test(side, e)` of `gcd_test`: its return value and the captured locals after
the call. -/
def gcd_test_step (side : Bool) (e : Expr) (st : gcd_state) : Bool × gcd_state :=
  match e.is_numeral with
  | some c =>
    if !c.isInt then (false, st)
    else (true, { st with offset := if side then st.offset + c else st.offset - c })
  | none =>
    match is_mul_coeff e with
    | some (c, _) =>
      if !c.isInt || decide (c = 0) then (false, st)
      else
        (!decide (rational.gcd (rational.abs c) st.g = 1),
          { st with g := rational.gcd (rational.abs c) st.g })
    | none => (false, st)

/-- One loop of `gcd_test` over the monomials of a side: whether every call of `test`
returned true, and the captured locals. -/
def gcd_test_loop (side : Bool) : List Expr → gcd_state → Bool × gcd_state
  | [], st => (true, st)
  | e :: rest, st =>
    match gcd_test_step side e st with
    | (true, st2) => gcd_test_loop side rest st2
    | (false, st2) => (false, st2)

/-- Function `gcd_test(lhs, rhs)`. -/
def gcd_test (lhs rhs : Expr) : Bool :=
  match gcd_test_loop true (get_monomials lhs) { g := 0, offset := 0 } with
  | (false, _) => true
  | (true, st1) =>
    match gcd_test_loop false (get_monomials rhs) st1 with
    | (false, _) => true
    | (true, st) =>
      if !decide (st.offset = 0) && !decide (st.g = 0) && !rational.divides st.g st.offset then
        false
      else true

end poly_rewriter

namespace poly_rewriter

theorem is_mul_coeff_spec {e : Expr} {c : ℚ} {t : Expr} (h : is_mul_coeff e = some (c, t)) :
    e = .app .mul [.num c, t] := by
  unfold is_mul_coeff at h
  split at h
  · cases h
  · rename_i hc
    simp only [Bool.or_eq_true, Bool.not_eq_true', bne_iff_ne, ne_eq, not_or, Bool.not_eq_false,
      not_not] at hc
    obtain ⟨as, rfl⟩ := is_mul_shape hc.1
    simp only [Expr.get_num_args, Expr.get_args] at hc
    match as, hc.2 with
    | [x, y], _ =>
      simp only [Expr.get_arg, Expr.get_args, List.getD_cons_zero, List.getD_cons_succ] at h
      cases hn : x.is_numeral with
      | none => rw [hn] at h; cases h
      | some a =>
        rw [hn] at h
        simp only [Option.some.injEq, Prod.mk.injEq] at h
        rw [is_numeral_eq_some hn, h.1, h.2]

theorem rational_abs_num_dvd (c : ℚ) (k : ℤ) (h : k ∣ (rational.abs c).num) : k ∣ c.num := by
  unfold rational.abs at h
  split at h
  · rw [Rat.neg_num] at h
    exact dvd_neg.mp h
  · exact h

theorem rational_gcd_spec (c : ℚ) (n : ℕ) (hc : c.isInt = true) :
    ∃ k : ℕ, rational.gcd (rational.abs c) (n : ℚ) = (k : ℚ) ∧
      (∃ z : ℤ, c = (k : ℚ) * z) ∧ ∃ m : ℤ, (n : ℚ) = (k : ℚ) * m := by
  have h1 : ((Int.gcd (rational.abs c).num ((n : ℚ).num) : ℕ) : ℤ) ∣ c.num :=
    rational_abs_num_dvd c _ Int.gcd_dvd_left
  have h2 : ((Int.gcd (rational.abs c).num ((n : ℚ).num) : ℕ) : ℤ) ∣ ((n : ℚ).num) :=
    Int.gcd_dvd_right
  refine ⟨Int.gcd (rational.abs c).num ((n : ℚ).num), rfl, ?_, ?_⟩
  · generalize Int.gcd (rational.abs c).num ((n : ℚ).num) = k at h1
    obtain ⟨z, hz⟩ := h1
    refine ⟨z, ?_⟩
    have e1 : c = ((c.num : ℤ) : ℚ) := Rat.eq_num_of_isInt hc
    rw [e1, hz]
    push_cast
    rfl
  · generalize Int.gcd (rational.abs c).num ((n : ℚ).num) = k at h2
    rw [Rat.num_natCast] at h2
    obtain ⟨m, hm⟩ := h2
    refine ⟨m, ?_⟩
    have e1 : (n : ℚ) = ((n : ℤ) : ℚ) := by push_cast; rfl
    rw [e1, hm]
    push_cast
    rfl

theorem gcd_test_step_spec (σ : Assignment) (side : Bool) (e : Expr) (st st2 : gcd_state)
    (hg : ∃ n : ℕ, st.g = (n : ℚ))
    (hint : e.is_numeral.isSome = false → (eval σ (get_power_product e)).isInt = true)
    (h : gcd_test_step side e st = (true, st2)) :
    (∃ n : ℕ, st2.g = (n : ℚ)) ∧ (∃ m : ℤ, st.g = st2.g * m) ∧
      ∃ z : ℤ, eval σ e = (if side then 1 else -1) * (st2.offset - st.offset) + st2.g * z := by
  unfold gcd_test_step at h
  cases hn : e.is_numeral with
  | some c =>
    rw [hn] at h
    simp only at h
    split at h
    · cases h
    · simp only [Prod.mk.injEq, true_and] at h
      subst h
      refine ⟨hg, ⟨1, by simp⟩, ⟨0, ?_⟩⟩
      rw [is_numeral_eq_some hn, eval_num]
      cases side <;> simp
  | none =>
    rw [hn] at h
    simp only at h
    cases hm : is_mul_coeff e with
    | none => rw [hm] at h; cases h
    | some p =>
      obtain ⟨c, t⟩ := p
      rw [hm] at h
      simp only at h
      split at h
      · cases h
      · rename_i hc
        simp only [Bool.or_eq_true, Bool.not_eq_true', decide_eq_true_eq, not_or,
          Bool.not_eq_false] at hc
        simp only [Prod.mk.injEq] at h
        obtain ⟨n, hn2⟩ := hg
        obtain ⟨k, hk1, ⟨z, hz⟩, ⟨m, hm2⟩⟩ := rational_gcd_spec c n hc.1
        have hst : st2.g = (k : ℚ) ∧ st2.offset = st.offset := by
          rw [← h.2, hn2, hk1]; exact ⟨rfl, rfl⟩
        have he := is_mul_coeff_spec hm
        have hpp : get_power_product e = t := by
          rw [he]; simp [get_power_product, Expr.is_mul, Expr.get_num_args, Expr.get_args,
            Expr.get_arg, Expr.is_numeral]
        have hi := hint (by rw [hn]; rfl)
        rw [hpp] at hi
        refine ⟨⟨k, hst.1⟩, ⟨m, by rw [hst.1, hn2, hm2]⟩, ⟨z * (eval σ t).num, ?_⟩⟩
        rw [hst.1, hst.2, he, eval_mul, eval_prod_cons, eval_prod_cons, eval_prod_nil, eval_num,
          mul_one]
        nth_rewrite 1 [hz]
        nth_rewrite 1 [Rat.eq_num_of_isInt hi]
        push_cast
        ring

theorem gcd_test_loop_spec (σ : Assignment) (side : Bool) (l : List Expr) :
    ∀ st st2 : gcd_state, (∃ n : ℕ, st.g = (n : ℚ)) →
      (∀ e ∈ l, e.is_numeral.isSome = false → (eval σ (get_power_product e)).isInt = true) →
      gcd_test_loop side l st = (true, st2) →
      (∃ n : ℕ, st2.g = (n : ℚ)) ∧ (∃ m : ℤ, st.g = st2.g * m) ∧
        ∃ z : ℤ, eval_sum σ l =
          (if side then 1 else -1) * (st2.offset - st.offset) + st2.g * z := by
  induction l with
  | nil =>
    intro st st2 hg _ h
    simp only [gcd_test_loop, Prod.mk.injEq, true_and] at h
    subst h
    exact ⟨hg, ⟨1, by simp⟩, ⟨0, by simp [eval_sum_nil]⟩⟩
  | cons e rest ih =>
    intro st st2 hg hint h
    simp only [gcd_test_loop] at h
    generalize hs : gcd_test_step side e st = r at h
    obtain ⟨b, st1⟩ := r
    cases b with
    | false => simp at h
    | true =>
      simp only at h
      obtain ⟨g1, ⟨m1, hm1⟩, ⟨z1, hz1⟩⟩ :=
        gcd_test_step_spec σ side e st st1 hg (hint e (List.mem_cons_self _ _)) hs
      obtain ⟨g2, ⟨m2, hm2⟩, ⟨z2, hz2⟩⟩ :=
        ih st1 st2 g1 (fun a ha => hint a (List.mem_cons_of_mem _ ha)) h
      refine ⟨g2, ⟨m2 * m1, by rw [hm1, hm2]; push_cast; ring⟩, ⟨m2 * z1 + z2, ?_⟩⟩
      rw [eval_sum_cons, hz1, hz2, hm2]
      push_cast
      ring

/-- Claim C4: `gcd_test` is sound.  For every `lhs` and `rhs`, if `gcd_test(lhs, rhs)` returns
false then under no assignment that gives integer values to the power products of the
monomials of both sides do `lhs` and `rhs` evaluate to the same number. -/
theorem gcd_test_sound (lhs rhs : Expr) (h : gcd_test lhs rhs = false) (σ : Assignment)
    (hint : ∀ m ∈ get_monomials lhs ++ get_monomials rhs, m.is_numeral.isSome = false →
      (eval σ (get_power_product m)).isInt = true) :
    eval σ lhs ≠ eval σ rhs := by
  intro heq
  unfold gcd_test at h
  generalize h1 : gcd_test_loop true (get_monomials lhs) { g := 0, offset := 0 } = r1 at h
  obtain ⟨b1, st1⟩ := r1
  cases b1 with
  | false => simp at h
  | true =>
    simp only at h
    generalize h2 : gcd_test_loop false (get_monomials rhs) st1 = r2 at h
    obtain ⟨b2, st⟩ := r2
    cases b2 with
    | false => simp at h
    | true =>
      simp only at h
      split at h
      · rename_i hc
        simp only [Bool.and_eq_true, Bool.not_eq_true', decide_eq_false_iff_not] at hc
        obtain ⟨g1, ⟨_, _⟩, ⟨z1, hz1⟩⟩ := gcd_test_loop_spec σ true (get_monomials lhs)
          { g := 0, offset := 0 } st1 ⟨0, by simp⟩
          (fun e he => hint e (List.mem_append_left _ he)) h1
        obtain ⟨_, ⟨m2, hm2⟩, ⟨z2, hz2⟩⟩ := gcd_test_loop_spec σ false (get_monomials rhs)
          st1 st g1 (fun e he => hint e (List.mem_append_right _ he)) h2
        rw [eval_get_monomials] at hz1 hz2
        rw [hz1, hz2, hm2] at heq
        simp only [if_true, Bool.false_eq_true, if_false, sub_zero] at heq
        have hoff : st.offset = st.g * ((z2 - m2 * z1 : ℤ) : ℚ) := by
          push_cast
          linarith
        have hdiv : rational.divides st.g st.offset = true := by
          unfold rational.divides
          rw [hoff, mul_div_cancel_left₀ _ hc.1.2]
          rfl
        rw [hdiv] at hc
        exact absurd hc.2 (by simp)
      · cases h

/-- Witness for `gcd_test_sound`: `2*x + 4*y = 1` has no integer solution. -/
theorem gcd_test_sound_witness :
    eval ex_assignment (.app .add [.app .mul [.num 2, ex_x], .app .mul [.num 4, ex_y]]) ≠
      eval ex_assignment (.num 1) :=
  gcd_test_sound (.app .add [.app .mul [.num 2, ex_x], .app .mul [.num 4, ex_y]]) (.num 1)
    (by decide!) ex_assignment (by decide!)

end poly_rewriter

namespace poly_rewriter

/-- Claim C7 fails with `use_power` on under the AST order: for the atoms `x`, `y`, the call
`mk_flat_mul_core(x, y, x)` returns `BR_DONE` with `(* (^ x 2) y)`, and
`mk_flat_mul_core((^ x 2), y)` returns `BR_DONE` with the different term `(* y (^ x 2))`.
It also fails with `use_power` off when the 32-bit budget of the expansion wraps: with `som`
on and `som_blowup = 2^30` the four flattened factors of `1`, `(* x y)`, `(+ x y)` have the
budget `2^32 mod 2^32 = 0`, the expansion is abandoned and the call returns `BR_DONE` with
`(* x y (+ x y))`; the three factors of that product have the budget `3 * 2^30` and the
second call returns `BR_REWRITE2` with the expanded sum. -/
theorem mul_core_idempotent_counterexample :
    (example_rw true false false false true true true 10).mk_flat_mul_core [ex_x, ex_y, ex_x] =
        (.BR_DONE, some (.app .mul [.app .power [ex_x, .num 2], ex_y])) ∧
      (example_rw true false false false true true true 10).mk_flat_mul_core
          [.app .power [ex_x, .num 2], ex_y] =
        (.BR_DONE, some (.app .mul [ex_y, .app .power [ex_x, .num 2]])) ∧
      (Expr.app .mul [ex_y, .app .power [ex_x, .num 2]] ≠
        .app .mul [.app .power [ex_x, .num 2], ex_y]) ∧
      ((example_rw true true false false true true false 1073741824).mk_flat_mul_core
          [ex_x, ex_y]).1 = .BR_FAILED ∧
      (example_rw true true false false true true false 1073741824).mk_flat_mul_core
          [.num 1, .app .mul [ex_x, ex_y], .app .add [ex_x, ex_y]] =
        (.BR_DONE, some (.app .mul [ex_x, ex_y, .app .add [ex_x, ex_y]])) ∧
      (example_rw true true false false true true false 1073741824).mk_flat_mul_core
          [ex_x, ex_y, .app .add [ex_x, ex_y]] =
        (.BR_REWRITE2,
          some (.app .add [.app .mul [ex_x, ex_y, ex_x], .app .mul [ex_x, ex_y, ex_y]])) := by
  decide!

/-! ## Products built with `use_power` off -/

theorem mk_mul_app_aux_off_nonnum (rw : poly_rewriter) (hpow : rw.use_power = false)
    (fuel : Nat) (a0 a1 : Expr) (rest : List Expr) (h0 : a0.is_numeral = none) :
    mk_mul_app_aux rw (fuel + 1) (a0 :: a1 :: rest) = .app .mul (a0 :: a1 :: rest) := by
  rw [mk_mul_app_aux]
  simp [hpow, h0]

theorem mk_mul_app_aux_off_pair (rw : poly_rewriter) (hpow : rw.use_power = false)
    (fuel : Nat) (a0 a1 : Expr) :
    mk_mul_app_aux rw (fuel + 1) [a0, a1] = .app .mul [a0, a1] := by
  rw [mk_mul_app_aux]
  cases h0 : a0.is_numeral <;> simp [hpow, h0]

theorem mk_mul_app_num_aux_off (rw : poly_rewriter) (hpow : rw.use_power = false)
    (fuel : Nat) (c : ℚ) (arg : Expr) (hc : c ≠ 1) (hz : is_zero arg = false) :
    mk_mul_app_num_aux rw (fuel + 2) c arg = .app .mul [num c, arg] := by
  rw [mk_mul_app_num_aux]
  simp only [hc, if_false, hz, Bool.false_eq_true]
  exact mk_mul_app_aux_off_pair rw hpow fuel _ _

theorem mk_mul_app_aux_off_num (rw : poly_rewriter) (hpow : rw.use_power = false)
    (fuel : Nat) (a : ℚ) (a1 a2 : Expr) (rest : List Expr) :
    mk_mul_app_aux rw (fuel + 1) (num a :: a1 :: a2 :: rest) =
      mk_mul_app_num_aux rw fuel a (mk_mul_app_aux rw fuel (a1 :: a2 :: rest)) := by
  rw [mk_mul_app_aux]
  simp [hpow, Expr.is_numeral]

theorem is_zero_of_not_numeral {e : Expr} (h : e.is_numeral = none) : is_zero e = false := by
  simp [is_zero, h]

end poly_rewriter

namespace poly_rewriter

theorem flat_eq_nflat (rw : poly_rewriter) (l : List Expr) (h : ∀ a ∈ l, a.is_mul = false) :
    rw.mk_flat_mul_core l = rw.mk_nflat_mul_core l := by
  unfold mk_flat_mul_core
  have hany : l.any Expr.is_mul = false := by
    rw [List.any_eq_false]
    intro a ha
    rw [h a ha]
    simp
  rw [hany]
  simp

theorem mul_scan_pair (c : ℚ) (v : Expr) (hn : v.is_numeral = none) :
    mul_scan_loop [num c, v] { c := 1, num_coeffs := 0, num_add := 0, var := none } =
      { c := c, num_coeffs := 1, num_add := if v.is_add then 1 else 0, var := some v } := by
  have e1 : (num c).is_numeral = some c := rfl
  simp only [mul_scan_loop, e1, hn, one_mul, zero_add]

theorem nflat_pair_failed (rw : poly_rewriter) (hnorm : ∀ q, rw.normalize q = q) (c : ℚ)
    (v : Expr) (hc0 : c ≠ 0) (hc1 : c ≠ 1) (hn : v.is_numeral = none)
    (hm : v.is_mul = false) (ha : v.is_add = false) :
    rw.mk_nflat_mul_core [num c, v] = (.BR_FAILED, none) := by
  unfold mk_nflat_mul_core
  rw [mul_scan_pair c v hn]
  split
  · rfl
  · simp [hnorm, hc0, hc1, hm, ha]

theorem flat_pair_mul_failed (rw : poly_rewriter) (hnorm : ∀ q, rw.normalize q = q) (c : ℚ)
    (b : Expr) (bs : List Expr) (hc0 : c ≠ 0) (hc1 : c ≠ 1) (hn : b.is_numeral = none) :
    rw.mk_flat_mul_core [num c, .app .mul (b :: bs)] = (.BR_FAILED, none) := by
  have e1 : (num c).is_numeral = some c := rfl
  have hflat : rw.mk_flat_mul_core [num c, .app .mul (b :: bs)] =
      rw.mk_nflat_mul_core [num c, .app .mul (b :: bs)] := by
    unfold mk_flat_mul_core
    simp [e1, Expr.is_mul, Expr.get_arg, Expr.get_args, hn]
  rw [hflat]
  unfold mk_nflat_mul_core
  rw [mul_scan_pair c (.app .mul (b :: bs)) rfl]
  split
  · rfl
  · simp [hnorm, hc0, hc1, Expr.is_mul, Expr.get_arg, Expr.get_args, Expr.get_num_args, hn]

end poly_rewriter

namespace poly_rewriter

theorem filter_numeral_nil (l : List Expr) (h : ∀ a ∈ l, a.is_numeral = none) :
    l.filter (fun a => a.is_numeral.isSome) = [] := by
  rw [List.filter_eq_nil_iff]
  intro a ha
  rw [h a ha]
  simp

theorem filter_not_numeral_self (l : List Expr) (h : ∀ a ∈ l, a.is_numeral = none) :
    l.filter (fun a => !a.is_numeral.isSome) = l := by
  rw [List.filter_eq_self]
  intro a ha
  rw [h a ha]
  rfl

/-- The call `mk_nflat_mul_core` on at least two factors none of which is a numeral, seen
after the numeral scan. -/
theorem nflat_nonnum (rw : poly_rewriter) (hnorm : ∀ q, rw.normalize q = q) (l : List Expr)
    (hnn : ∀ a ∈ l, a.is_numeral = none) (hlen : 2 ≤ l.length) :
    rw.mk_nflat_mul_core l =
      if !rw.m_som ||
          decide ((l.filter (fun a => !a.is_numeral.isSome && a.is_add)).length = 0) then
        if mul_ordered rw none l && !rw.use_power then (.BR_FAILED, none)
        else
          (.BR_DONE,
            some (rw.mk_mul_app_num 1
              (rw.mk_mul_app (if !mul_ordered rw none l then rw.std_sort rw.mon_lt l else l))))
      else
        match som_loop rw (l.map som_row) (l.map (fun a => (som_row a).length))
            (rw.som_budget l.length) (rw.som_budget l.length + 2)
            (l.map (fun _ => 0)) [] with
        | some sum => (.BR_REWRITE2, some (mk_add_app sum))
        | none => (.BR_FAILED, none) := by
  unfold mk_nflat_mul_core
  simp only [hnorm]
  have hc := mul_scan_loop_c ex_assignment l mul_scan_init
  have hnc := mul_scan_loop_num_coeffs l mul_scan_init
  have hna := mul_scan_loop_num_add l mul_scan_init
  simp only [mul_scan_init, one_mul, zero_add, filter_numeral_nil l hnn, eval_prod_nil,
    List.length_nil] at hc hnc hna
  generalize mul_scan_loop l { c := 1, num_coeffs := 0, num_add := 0, var := none } = st
    at hc hnc hna ⊢
  rw [filter_not_numeral_self l hnn, hc, hnc, hna]
  match l, hnn, hlen with
  | a0 :: a1 :: rest, hnn, _ =>
    have h0 : a0.is_numeral = none := hnn a0 (List.mem_cons_self _ _)
    simp only [List.getD_cons_zero, h0, Bool.and_false, Bool.false_and, Bool.false_eq_true,
      if_false, List.length_cons]
    rw [if_neg (by omega), if_neg (by norm_num), if_neg (by omega)]
    simp only [Nat.not_lt_zero, decide_False, Bool.false_or, Bool.false_and,
      Bool.false_eq_true, if_false, decide_True, Bool.and_true, Nat.lt_irrefl,
      zero_ne_one, Bool.or_self] <;> rfl

end poly_rewriter

namespace poly_rewriter

theorem size_list_append (as bs : List Expr) :
    Expr.size_list (as ++ bs) = Expr.size_list as + Expr.size_list bs := by
  induction as with
  | nil => simp [Expr.size_list]
  | cons a as ih => simp [Expr.size_list, ih, Nat.add_assoc]

theorem size_pos (e : Expr) : 1 ≤ e.size := by
  cases e <;> simp [Expr.size]

/-- With enough iterations the `todo` loop of `mk_flat_mul_core` leaves no product behind. -/
theorem flatten_todo_no_mul (fuel : Nat) :
    ∀ todo : List Expr, Expr.size_list todo ≤ fuel →
      ∀ x ∈ flatten_todo fuel todo, x.is_mul = false := by
  induction fuel with
  | zero =>
    intro todo hs
    cases todo with
    | nil => simp [flatten_todo]
    | cons a l =>
      have := size_pos a
      simp only [Expr.size_list] at hs
      omega
  | succ fuel ih =>
    intro todo hs
    cases todo with
    | nil => simp [flatten_todo]
    | cons curr rest =>
      simp only [flatten_todo]
      simp only [Expr.size_list] at hs
      split
      · rename_i hm
        obtain ⟨as, rfl⟩ := is_mul_shape hm
        apply ih
        rw [Expr.get_args, size_list_append]
        simp only [Expr.size] at hs
        omega
      · rename_i hm
        intro x hx
        rcases List.mem_cons.mp hx with rfl | hx
        · simpa using hm
        · exact ih rest (by have := size_pos curr; omega) x hx

theorem flatten_mul_no_mul (args : List Expr) : ∀ x ∈ flatten_mul args, x.is_mul = false := by
  induction args with
  | nil => simp [flatten_mul]
  | cons arg rest ih =>
    simp only [flatten_mul]
    split
    · intro x hx
      rcases List.mem_append.mp hx with hx | hx
      · exact flatten_todo_no_mul _ [arg] (by simp [Expr.size_list]; omega) x hx
      · exact ih x hx
    · rename_i hm
      intro x hx
      rcases List.mem_cons.mp hx with rfl | hx
      · simpa using hm
      · exact ih x hx

/-- The budget abort of the sum-of-monomials expansion survives the removal of a leading
factor that is not a sum: the iteration is the same and the budget is no larger. -/
theorem som_loop_abort_tail (rw : poly_rewriter) (r : List Expr) (sums : List (List Expr))
    (szs : List Nat) (bound1 bound2 : Nat) (hb : bound2 ≤ bound1) (fuel1 : Nat) :
    ∀ (fuel2 : Nat) (it : List Nat) (sum1 sum2 : List Expr),
      sum1.length = sum2.length → fuel1 + sum1.length = bound1 + 2 →
      bound2 + 2 ≤ fuel2 + sum2.length →
      som_loop rw (r :: sums) (1 :: szs) bound1 fuel1 (0 :: it) sum1 = none →
      som_loop rw sums szs bound2 fuel2 it sum2 = none := by
  induction fuel1 with
  | zero =>
    intro fuel2 it sum1 sum2 hl hf1 hf2 _
    cases fuel2 with
    | zero => simp [som_loop]
    | succ f2 =>
      rw [som_loop, if_pos (by omega)]
  | succ f1 ih =>
    intro fuel2 it sum1 sum2 hl hf1 hf2 h
    cases fuel2 with
    | zero => simp [som_loop]
    | succ f2 =>
      rw [som_loop]
      rw [som_loop] at h
      by_cases hlt : bound2 < sum2.length
      · rw [if_pos hlt]
      · rw [if_neg hlt]
        have hlt1 : ¬ bound1 < sum1.length := by
          intro h1
          omega
        rw [if_neg hlt1] at h
        simp only [product_iterator_next, Nat.lt_irrefl, if_false, zero_add] at h
        cases hnext : product_iterator_next szs it with
        | none => rw [hnext] at h; simp at h
        | some it1 =>
          rw [hnext] at h
          exact ih f2 it1 _ _ (by simp [hl]) (by simp; omega) (by simp; omega) h

end poly_rewriter

namespace poly_rewriter

theorem ite_failed_eq {c : Prop} [Decidable c] {x : br_status × Option Expr} {y : Option Expr}
    (h : (if c then (br_status.BR_FAILED, none) else x) = (.BR_DONE, y)) :
    ¬ c ∧ x = (.BR_DONE, y) := by
  split at h
  · cases h
  · exact ⟨by assumption, h⟩

theorem mk_mul_app_off_nonnum (rw : poly_rewriter) (hpow : rw.use_power = false)
    (l : List Expr) (hlen : 2 ≤ l.length) (hnn : ∀ a ∈ l, a.is_numeral = none) :
    rw.mk_mul_app l = .app .mul l := by
  match l, hlen, hnn with
  | a0 :: a1 :: rest, _, hnn =>
    exact mk_mul_app_aux_off_nonnum rw hpow _ a0 a1 rest (hnn a0 (List.mem_cons_self _ _))

theorem mk_mul_app_num_off (rw : poly_rewriter) (hpow : rw.use_power = false) (c : ℚ)
    (arg : Expr) (hc : c ≠ 1) (hn : arg.is_numeral = none) :
    rw.mk_mul_app_num c arg = .app .mul [num c, arg] :=
  mk_mul_app_num_aux_off rw hpow 1 c arg hc (is_zero_of_not_numeral hn)

theorem mk_mul_app_num_one (rw : poly_rewriter) (arg : Expr) : rw.mk_mul_app_num 1 arg = arg := by
  unfold mk_mul_app_num
  rw [mk_mul_app_num_aux]
  simp

theorem mul_ordered_filter (rw : poly_rewriter) (l : List Expr)
    (h : mul_ordered rw none l = true) :
    mul_ordered rw none (l.filter (fun a => !a.is_numeral.isSome)) = true :=
  pairwise_mul_ordered rw _ (mul_ordered_pairwise rw l none h).2 none (fun _ _ => rfl)

theorem mul_ordered_sort (rw : poly_rewriter) (l : List Expr) :
    mul_ordered rw none (rw.std_sort rw.mon_lt l) = true :=
  pairwise_mul_ordered rw _ (rw.std_sort_sorted _ _ rw.mon_lt_strict_weak) none (fun _ _ => rfl)

/-- The list handed to `mk_mul_app` on the sorting path of `mk_nflat_mul_core`. -/
def mul_sorted_args (rw : poly_rewriter) (l : List Expr) : List Expr :=
  if !mul_ordered rw none l then
    rw.std_sort rw.mon_lt (l.filter (fun arg => !arg.is_numeral.isSome))
  else l.filter (fun arg => !arg.is_numeral.isSome)

theorem mul_sorted_args_perm (rw : poly_rewriter) (l : List Expr) :
    List.Perm (mul_sorted_args rw l) (l.filter (fun arg => !arg.is_numeral.isSome)) := by
  unfold mul_sorted_args
  split
  · exact rw.std_sort_perm _ _
  · exact List.Perm.refl _

theorem mul_sorted_args_ordered (rw : poly_rewriter) (l : List Expr) :
    mul_ordered rw none (mul_sorted_args rw l) = true := by
  unfold mul_sorted_args
  split
  · exact mul_ordered_sort rw _
  · rename_i h
    exact mul_ordered_filter rw l (by simpa using h)

/-- The second call on the factors of a product that the sorting path of
`mk_nflat_mul_core` has built returns `BR_FAILED`. -/
theorem nflat_sorted_failed (rw : poly_rewriter) (hnorm : ∀ q, rw.normalize q = q)
    (hpow : rw.use_power = false) (l : List Expr) (hnm : ∀ a ∈ l, a.is_mul = false)
    (hlen : 2 ≤ (l.filter (fun arg => !arg.is_numeral.isSome)).length)
    (hsom : (!rw.m_som ||
      decide ((l.filter (fun a => !a.is_numeral.isSome && a.is_add)).length = 0)) = true) :
    rw.mk_flat_mul_core (mul_sorted_args rw l) = (.BR_FAILED, none) := by
  have hperm := mul_sorted_args_perm rw l
  have hmem : ∀ a ∈ mul_sorted_args rw l, a ∈ l ∧ a.is_numeral = none := by
    intro a ha
    have h1 := List.mem_filter.mp (hperm.subset ha)
    refine ⟨h1.1, ?_⟩
    cases hn : a.is_numeral with
    | none => rfl
    | some q => rw [hn] at h1; simp at h1
  rw [flat_eq_nflat rw _ (fun a ha => hnm a (hmem a ha).1),
    nflat_nonnum rw hnorm _ (fun a ha => (hmem a ha).2) (by rw [hperm.length_eq]; exact hlen)]
  have hadd : ((mul_sorted_args rw l).filter (fun a => !a.is_numeral.isSome && a.is_add)).length =
      (l.filter (fun a => !a.is_numeral.isSome && a.is_add)).length := by
    rw [(hperm.filter _).length_eq, List.filter_filter]
    congr 1
    apply List.filter_congr
    intro x _
    cases x.is_numeral.isSome <;> simp
  rw [hadd, if_pos hsom, mul_sorted_args_ordered, hpow]
  rfl

end poly_rewriter

namespace poly_rewriter

/-- A product that `mk_nflat_mul_core` returns with `BR_DONE` for factors none of which is a
product is not rewritten again: the second call returns `BR_FAILED`. -/
theorem nflat_done_idem (rw : poly_rewriter) (hnorm : ∀ q, rw.normalize q = q)
    (hpow : rw.use_power = false) (l : List Expr) (hnm : ∀ a ∈ l, a.is_mul = false)
    (as : List Expr) (h : rw.mk_nflat_mul_core l = (.BR_DONE, some (.app .mul as))) :
    rw.mk_flat_mul_core as = (.BR_FAILED, none) := by
  unfold mk_nflat_mul_core at h
  simp only [hnorm] at h
  have hnc := mul_scan_loop_num_coeffs l mul_scan_init
  have hvar := mul_scan_loop_var l mul_scan_init
  have hna := mul_scan_loop_num_add l mul_scan_init
  simp only [mul_scan_init, zero_add] at hnc hvar hna
  generalize mul_scan_loop l { c := 1, num_coeffs := 0, num_add := 0, var := none } = st
    at h hnc hvar hna
  have hlen := filter_length_add (fun a => a.is_numeral.isSome) l
  rw [← hnc] at hlen
  have hfn : ∀ a ∈ l.filter (fun a => !a.is_numeral.isSome), a ∈ l ∧ a.is_numeral = none := by
    intro a ha
    have h1 := List.mem_filter.mp ha
    refine ⟨h1.1, ?_⟩
    cases hn : a.is_numeral with
    | none => rfl
    | some q => rw [hn] at h1; simp at h1
  obtain ⟨_, h⟩ := ite_failed_eq h
  by_cases hall : st.num_coeffs = l.length
  · rw [if_pos hall] at h
    simp [mk_numeral] at h
  rw [if_neg hall] at h
  by_cases hz : st.c = 0
  · rw [if_pos hz] at h
    simp [mk_numeral] at h
  rw [if_neg hz] at h
  by_cases hone : st.num_coeffs = l.length - 1
  · rw [if_pos hone] at h
    have hl1 : (l.filter (fun a => !a.is_numeral.isSome)).length = 1 := by omega
    obtain ⟨v, hv⟩ := List.length_eq_one.mp hl1
    have hvl := hfn v (by rw [hv]; exact List.mem_singleton_self v)
    rw [hv] at hvar
    simp only [List.cons_ne_nil, if_false, List.getLast?_singleton] at hvar
    rw [hvar] at h
    simp only [Option.getD_some] at h
    have hvm : v.is_mul = false := hnm v hvl.1
    by_cases hc1 : st.c = 1
    · rw [if_pos hc1] at h
      simp only [Prod.mk.injEq, Option.some.injEq, true_and] at h
      rw [h] at hvm
      simp [Expr.is_mul] at hvm
    rw [if_neg hc1, if_neg (by rw [hvm]; simp)] at h
    by_cases hadd : st.num_add = 0
    · rw [if_pos hadd] at h
      obtain ⟨_, h⟩ := ite_failed_eq h
      rw [mk_mul_app_num_off rw hpow _ _ hc1 hvl.2] at h
      simp only [Prod.mk.injEq, Option.some.injEq, true_and, Expr.app.injEq] at h
      rw [← h]
      have hva : v.is_add = false := by
        cases hva : v.is_add with
        | false => rfl
        | true =>
          have hmem : v ∈ l.filter (fun a => !a.is_numeral.isSome && a.is_add) :=
            List.mem_filter.mpr ⟨hvl.1, by simp [hvl.2, hva]⟩
          have := List.length_pos_of_mem hmem
          omega
      rw [flat_eq_nflat rw _ (by
        intro a ha
        simp only [List.mem_cons, List.mem_singleton, List.not_mem_nil, or_false] at ha
        rcases ha with rfl | rfl
        · rfl
        · exact hvm)]
      exact nflat_pair_failed rw hnorm _ v hz hc1 hvl.2 hvm hva
    · rw [if_neg hadd] at h
      simp at h
  rw [if_neg hone] at h
  split at h
  · simp at h
  split at h
  · rename_i hsom
    obtain ⟨_, h⟩ := ite_failed_eq h
    have hl2 : 2 ≤ (l.filter (fun a => !a.is_numeral.isSome)).length := by omega
    have hres : (if (!mul_ordered rw none l) = true then
        rw.std_sort rw.mon_lt (l.filter (fun arg => !arg.is_numeral.isSome))
        else l.filter (fun arg => !arg.is_numeral.isSome)) = mul_sorted_args rw l := rfl
    rw [hres] at h
    have hperm := mul_sorted_args_perm rw l
    have hmem : ∀ a ∈ mul_sorted_args rw l, a.is_numeral = none :=
      fun a ha => (hfn a (hperm.subset ha)).2
    rw [hna] at hsom
    have hfail := nflat_sorted_failed rw hnorm hpow l hnm hl2 hsom
    rw [mk_mul_app_off_nonnum rw hpow _ (by rw [hperm.length_eq]; exact hl2) hmem] at h
    by_cases hc1 : st.c = 1
    · rw [hc1, mk_mul_app_num_one] at h
      simp only [Prod.mk.injEq, Option.some.injEq, true_and, Expr.app.injEq] at h
      rw [← h]
      exact hfail
    · rw [mk_mul_app_num_off rw hpow _ (.app .mul (mul_sorted_args rw l)) hc1 rfl] at h
      simp only [Prod.mk.injEq, Option.some.injEq, true_and, Expr.app.injEq] at h
      rw [← h]
      have hl3 : 2 ≤ (mul_sorted_args rw l).length := by rw [hperm.length_eq]; exact hl2
      match hs : mul_sorted_args rw l, hl3 with
      | b :: bs, _ =>
        exact flat_pair_mul_failed rw hnorm _ b bs hz hc1
          (hmem b (by rw [hs]; exact List.mem_cons_self _ _))
  · split at h <;> simp at h

end poly_rewriter

namespace poly_rewriter

/-- When `mk_nflat_mul_core` returns `BR_FAILED` for a leading numeral followed by at least
two factors, none of them a product, the failure is the budget abort of the
sum-of-monomials expansion. -/
theorem nflat_failed_num_head (rw : poly_rewriter) (hnorm : ∀ q, rw.normalize q = q) (a : ℚ)
    (t : List Expr) (hlen : 2 ≤ t.length) (hnm : ∀ x ∈ t, x.is_mul = false)
    (h : (rw.mk_nflat_mul_core (num a :: t)).1 = .BR_FAILED) :
    (∀ x ∈ t, x.is_numeral = none) ∧ a ≠ 0 ∧ rw.m_som = true ∧
      (t.filter (fun x => !x.is_numeral.isSome && x.is_add)).length ≠ 0 ∧
      som_loop rw ((num a :: t).map som_row) ((num a :: t).map (fun x => (som_row x).length))
        (rw.som_budget ((num a :: t).length)) (rw.som_budget ((num a :: t).length) + 2)
        ((num a :: t).map (fun _ => 0)) [] = none := by
  unfold mk_nflat_mul_core at h
  simp only [hnorm] at h
  have e1 : (num a).is_numeral = some a := rfl
  have hc := mul_scan_loop_c ex_assignment (num a :: t) mul_scan_init
  have hnc := mul_scan_loop_num_coeffs (num a :: t) mul_scan_init
  have hvar := mul_scan_loop_var (num a :: t) mul_scan_init
  have hna := mul_scan_loop_num_add (num a :: t) mul_scan_init
  simp only [mul_scan_init, zero_add, one_mul, List.filter_cons, e1, Option.isSome_some,
    if_true, Bool.not_true, Bool.false_and, Bool.false_eq_true, if_false, List.length_cons]
    at hc hnc hvar hna
  generalize mul_scan_loop (num a :: t) { c := 1, num_coeffs := 0, num_add := 0, var := none }
    = st at h hc hnc hvar hna
  have hlen2 := filter_length_add (fun x => x.is_numeral.isSome) t
  have hfn : ∀ x ∈ t.filter (fun x => !x.is_numeral.isSome), x ∈ t ∧ x.is_numeral = none := by
    intro x hx
    have h1 := List.mem_filter.mp hx
    refine ⟨h1.1, ?_⟩
    cases hn : x.is_numeral with
    | none => rfl
    | some q => rw [hn] at h1; simp at h1
  rw [if_neg (by
    intro hcheap
    simp only [Bool.and_eq_true, decide_eq_true_eq, List.length_cons] at hcheap
    omega)] at h
  simp only [List.length_cons] at h
  by_cases hall : st.num_coeffs = t.length + 1
  · rw [if_pos hall] at h
    cases h
  rw [if_neg hall] at h
  by_cases hz : st.c = 0
  · rw [if_pos hz] at h
    cases h
  rw [if_neg hz] at h
  by_cases hone : st.num_coeffs = t.length + 1 - 1
  · rw [if_pos hone] at h
    have hl1 : (t.filter (fun x => !x.is_numeral.isSome)).length = 1 := by omega
    obtain ⟨v, hv⟩ := List.length_eq_one.mp hl1
    have hvl := hfn v (by rw [hv]; exact List.mem_singleton_self v)
    rw [hv] at hvar
    simp only [List.cons_ne_nil, if_false, List.getLast?_singleton] at hvar
    rw [hvar] at h
    simp only [Option.getD_some] at h
    by_cases hc1 : st.c = 1
    · rw [if_pos hc1] at h
      cases h
    rw [if_neg hc1, if_neg (by rw [hnm v hvl.1]; simp)] at h
    by_cases hadd : st.num_add = 0
    · rw [if_pos hadd, if_neg (by
        intro hc2
        simp only [Bool.and_eq_true, decide_eq_true_eq] at hc2
        omega)] at h
      cases h
    · rw [if_neg hadd] at h
      cases h
  rw [if_neg hone] at h
  by_cases hrw : (decide (1 < st.num_coeffs) ||
      (decide (st.num_coeffs = 1) && !((num a :: t).getD 0 (num 0)).is_numeral.isSome)) = true
  · rw [if_pos hrw] at h
    cases h
  rw [if_neg hrw] at h
  simp only [Bool.or_eq_true, decide_eq_true_eq, Bool.and_eq_true, not_or] at hrw
  have hnil : t.filter (fun x => x.is_numeral.isSome) = [] :=
    List.length_eq_zero.mp (by omega)
  have hnn : ∀ x ∈ t, x.is_numeral = none := by
    intro x hx
    cases hn : x.is_numeral with
    | none => rfl
    | some q =>
      have : x ∈ t.filter (fun x => x.is_numeral.isSome) :=
        List.mem_filter.mpr ⟨hx, by simp [hn]⟩
      rw [hnil] at this
      simp at this
  have ha0 : a ≠ 0 := by
    intro e
    apply hz
    rw [hc, hnil, e]
    simp [eval_prod_cons, eval_num]
  by_cases hsom : (!rw.m_som || decide (st.num_add = 0)) = true
  · rw [if_pos hsom] at h
    rw [if_neg (by
      intro hc2
      simp only [Bool.and_eq_true, decide_eq_true_eq] at hc2
      omega)] at h
    cases h
  rw [if_neg hsom] at h
  simp only [Bool.or_eq_true, Bool.not_eq_true', decide_eq_true_eq, not_or,
    Bool.not_eq_false] at hsom
  refine ⟨hnn, ha0, hsom.1, by rw [← hna]; exact hsom.2, ?_⟩
  simp only [List.length_cons]
  cases hloop : som_loop rw ((num a :: t).map som_row)
      ((num a :: t).map (fun x => (som_row x).length))
      (rw.som_budget ((t.length + 1))) (rw.som_budget ((t.length + 1)) + 2)
      ((num a :: t).map (fun _ => 0)) [] with
  | none => rfl
  | some sum =>
    rw [hloop] at h
    cases h

end poly_rewriter

namespace poly_rewriter

/-- The product that `mk_flat_mul_core` builds from the flattened factors when
`mk_nflat_mul_core` has returned `BR_FAILED` is not rewritten again. -/
theorem flat_failed_idem (rw : poly_rewriter) (hnorm : ∀ q, rw.normalize q = q)
    (hpow : rw.use_power = false) (fl : List Expr) (hnm : ∀ a ∈ fl, a.is_mul = false)
    (hbud : fl.head? = some (.num 1) → rw.m_som = true →
      rw.som_budget (fl.length - 1) ≤ rw.som_budget fl.length)
    (as : List Expr) (hf : (rw.mk_nflat_mul_core fl).1 = .BR_FAILED)
    (hr : rw.mk_mul_app fl = .app .mul as) :
    (rw.mk_flat_mul_core as).1 = .BR_FAILED := by
  have hsame : rw.mk_mul_app fl = .app .mul fl → (rw.mk_flat_mul_core as).1 = .BR_FAILED := by
    intro e
    rw [e] at hr
    simp only [Expr.app.injEq, true_and] at hr
    rw [← hr, flat_eq_nflat rw fl hnm]
    exact hf
  match fl, hnm, hbud, hf, hr, hsame with
  | [], _, _, _, hr, _ => simp [mk_mul_app, mk_mul_app_aux, mk_numeral] at hr
  | [a], hnm, _, _, hr, _ =>
    simp only [mk_mul_app, mk_mul_app_aux] at hr
    have := hnm a (List.mem_singleton_self a)
    rw [hr] at this
    simp [Expr.is_mul] at this
  | [a0, a1], _, _, _, _, hsame => exact hsame (mk_mul_app_aux_off_pair rw hpow _ a0 a1)
  | a0 :: a1 :: a2 :: rest, hnm, hbud, hf, hr, hsame =>
    cases h0 : a0.is_numeral with
    | none => exact hsame (mk_mul_app_aux_off_nonnum rw hpow _ a0 a1 (a2 :: rest) h0)
    | some a =>
      have ea : a0 = num a := is_numeral_eq_some h0
      subst ea
      have hnmt : ∀ x ∈ a1 :: a2 :: rest, x.is_mul = false :=
        fun x hx => hnm x (List.mem_cons_of_mem _ hx)
      obtain ⟨hnn, ha0, hsom, hadd, hloop⟩ :=
        nflat_failed_num_head rw hnorm a (a1 :: a2 :: rest) (by simp) hnmt hf
      have e1 : rw.mk_mul_app (num a :: a1 :: a2 :: rest) =
          mk_mul_app_num_aux rw (rest.length + 3) a (.app .mul (a1 :: a2 :: rest)) := by
        unfold mk_mul_app
        rw [show (num a :: a1 :: a2 :: rest).length + 1 = (rest.length + 3) + 1 from by simp,
          mk_mul_app_aux_off_num rw hpow,
          mk_mul_app_aux_off_nonnum rw hpow (rest.length + 2) a1 a2 rest
            (hnn a1 (List.mem_cons_self _ _))]
      rw [e1] at hr
      by_cases ha1 : a = 1
      · rw [mk_mul_app_num_aux, if_pos ha1] at hr
        simp only [Expr.app.injEq, true_and] at hr
        rw [← hr, flat_eq_nflat rw _ hnmt, nflat_nonnum rw hnorm _ hnn (by simp)]
        rw [if_neg (by
          intro hc
          simp only [Bool.or_eq_true, Bool.not_eq_true', decide_eq_true_eq] at hc
          rcases hc with hc | hc
          · rw [hsom] at hc; cases hc
          · exact hadd hc)]
        have hl := som_loop_abort_tail rw (som_row (num a)) ((a1 :: a2 :: rest).map som_row)
          ((a1 :: a2 :: rest).map (fun x => (som_row x).length))
          (rw.som_budget ((num a :: a1 :: a2 :: rest).length))
          (rw.som_budget ((a1 :: a2 :: rest).length))
          (by
            have := hbud (by rw [ha1]; rfl) hsom
            simpa using this)
          (rw.som_budget ((num a :: a1 :: a2 :: rest).length) + 2)
          (rw.som_budget ((a1 :: a2 :: rest).length) + 2)
          ((a1 :: a2 :: rest).map (fun _ => 0)) [] [] rfl (by simp) (by simp) hloop
        rw [hl]
      · rw [mk_mul_app_num_aux_off rw hpow (rest.length + 1) a (.app .mul (a1 :: a2 :: rest))
          ha1 rfl] at hr
        simp only [Expr.app.injEq, true_and] at hr
        rw [← hr, flat_pair_mul_failed rw hnorm a a1 (a2 :: rest) ha0 ha1
          (hnn a1 (List.mem_cons_self _ _))]

theorem mk_flat_mul_core_cases (rw : poly_rewriter) (args : List Expr) :
    (rw.mk_flat_mul_core args = rw.mk_nflat_mul_core args ∧
      ((∀ a ∈ args, a.is_mul = false) ∨
        ∃ c bs, args = [num c, .app .mul bs] ∧ (bs.getD 0 (num 0)).is_numeral = none)) ∨
    (rw.mk_flat_mul_core args =
      match rw.mk_nflat_mul_core (flatten_mul args) with
      | (.BR_FAILED, _) => (.BR_DONE, some (rw.mk_mul_app (flatten_mul args)))
      | r => r) := by
  unfold mk_flat_mul_core
  split
  · exact Or.inr rfl
  · rename_i hc
    refine Or.inl ⟨rfl, ?_⟩
    by_cases hany : args.any Expr.is_mul = true
    · right
      simp only [hany, Bool.and_true, Bool.or_eq_true, decide_eq_true_eq, Bool.not_eq_true',
        Bool.and_eq_true, not_or, not_and, Bool.not_eq_false, Decidable.not_not] at hc
      obtain ⟨⟨hlen, hnum⟩, hmul⟩ := hc
      match args, hlen, hnum, hmul, hany with
      | [x, v], _, hnum, hmul, hany =>
        simp only [List.getD_cons_zero, List.getD_cons_succ] at hnum hmul
        cases hx : x.is_numeral with
        | none => rw [hx] at hnum; simp at hnum
        | some c =>
          have ex := is_numeral_eq_some hx
          subst ex
          have hvm : v.is_mul = true := by
            simpa [List.any, Expr.is_mul] using hany
          obtain ⟨bs, rfl⟩ := is_mul_shape hvm
          refine ⟨c, bs, rfl, ?_⟩
          have := hmul hvm
          simp only [Expr.get_arg, Expr.get_args] at this
          cases hb : (bs.getD 0 (num 0)).is_numeral with
          | none => rfl
          | some q => rw [hb] at this; simp at this
    · left
      intro a ha
      cases hm : a.is_mul with
      | false => rfl
      | true => exact absurd (List.any_eq_true.mpr ⟨a, ha, hm⟩) hany

end poly_rewriter

namespace poly_rewriter

/-- Claim C7, amended: product rewriting is idempotent when `use_power` is off.  Over exact
rationals (`normalize` is the identity), under either monomial order and every setting of
`som`, for every list `args` whose factors that are products are already rewritten (the
call on the factors of such a product returns `BR_FAILED` or `BR_DONE` with that product), if
`mk_flat_mul_core(args)` returns `BR_DONE` with a mul application `(* a1 ... an)`, then
`mk_flat_mul_core(a1 ... an)` returns `BR_FAILED` or `BR_DONE` with the identical term;
provided that, when `som` is on and the first of the `m` flattened factors is the numeral 1,
the 32-bit budget for `m - 1` factors does not exceed the one for `m` factors (as it does
whenever `som_blowup * m` is below 2^32). -/
theorem mul_core_idempotent (rw : poly_rewriter) (hnorm : ∀ q, rw.normalize q = q)
    (hpow : rw.use_power = false) (args : List Expr)
    (hfix : ∀ bs, Expr.app .mul bs ∈ args →
      (rw.mk_flat_mul_core bs).1 = .BR_FAILED ∨
        rw.mk_flat_mul_core bs = (.BR_DONE, some (.app .mul bs)))
    (hbud : (flatten_mul args).head? = some (.num 1) → rw.m_som = true →
      rw.som_budget ((flatten_mul args).length - 1) ≤ rw.som_budget (flatten_mul args).length)
    (as : List Expr) (h : rw.mk_flat_mul_core args = (.BR_DONE, some (.app .mul as))) :
    (rw.mk_flat_mul_core as).1 = .BR_FAILED ∨
      rw.mk_flat_mul_core as = (.BR_DONE, some (.app .mul as)) := by
  rcases mk_flat_mul_core_cases rw args with ⟨he, hA | ⟨c, bs, rfl, hb⟩⟩ | he
  · rw [he] at h
    left
    rw [nflat_done_idem rw hnorm hpow args hA as h]
  · rw [he] at h
    unfold mk_nflat_mul_core at h
    rw [mul_scan_pair c (.app .mul bs) rfl] at h
    obtain ⟨_, h⟩ := ite_failed_eq h
    simp only [hnorm, List.length_cons, List.length_nil, Option.getD_some] at h
    rw [if_neg (by norm_num)] at h
    by_cases hz : c = 0
    · rw [if_pos hz] at h
      simp [mk_numeral] at h
    rw [if_neg hz, if_pos (by norm_num)] at h
    by_cases hc1 : c = 1
    · rw [if_pos hc1] at h
      simp only [Prod.mk.injEq, Option.some.injEq, true_and, Expr.app.injEq] at h
      rw [← h]
      exact hfix bs (by simp)
    · rw [if_neg hc1, if_pos (show (Expr.app .mul bs).is_mul = true from rfl)] at h
      simp only [Expr.get_arg, Expr.get_args, hb] at h
      split at h <;> simp at h
  · rw [he] at h
    have hnm := flatten_mul_no_mul args
    generalize hr : rw.mk_nflat_mul_core (flatten_mul args) = r at h
    obtain ⟨s, o⟩ := r
    left
    cases s with
    | BR_FAILED =>
      simp only [Prod.mk.injEq, Option.some.injEq, true_and] at h
      exact flat_failed_idem rw hnorm hpow _ hnm hbud as (by rw [hr]) h
    | BR_DONE =>
      simp only at h
      rw [h] at hr
      rw [nflat_done_idem rw hnorm hpow _ hnm as hr]
    | BR_REWRITE1 => simp at h
    | BR_REWRITE2 => simp at h
    | BR_REWRITE_FULL => simp at h

/-- Witness for `mul_core_idempotent`: `(* (* x y) z)` is flattened to `(* x y z)`, which the
second call leaves alone. -/
theorem mul_core_idempotent_witness :
    ((example_rw true false false false true true false 10).mk_flat_mul_core
        [ex_x, ex_y, ex_z]).1 = .BR_FAILED ∨
      (example_rw true false false false true true false 10).mk_flat_mul_core
        [ex_x, ex_y, ex_z] = (.BR_DONE, some (.app .mul [ex_x, ex_y, ex_z])) :=
  mul_core_idempotent (example_rw true false false false true true false 10) (fun _ => rfl) rfl
    [.app .mul [ex_x, ex_y], ex_z]
    (fun bs hb => by
      have e : bs = [ex_x, ex_y] := by
        simpa [ex_x, ex_y, ex_z] using hb
      subst e
      exact Or.inl (by decide!))
    (fun h => absurd h (by decide))
    [ex_x, ex_y, ex_z] (by decide!)

end poly_rewriter

namespace poly_rewriter

/-! ## The budget of the sum-of-monomials expansion -/

theorem fold_powers_single (rest : List Expr) :
    ∀ (prev : Expr) (k : ℚ) (x : Expr), fold_powers prev k rest = [x] →
      ∃ k2 : ℚ, x = push_power prev k2 ∧ k ≤ k2 ∧ (rest ≠ [] → k + 1 ≤ k2) := by
  induction rest with
  | nil =>
    intro prev k x h
    simp only [fold_powers, List.cons.injEq, and_true] at h
    exact ⟨k, h.symm, le_refl _, fun hne => absurd rfl hne⟩
  | cons a rest ih =>
    intro prev k x h
    simp only [fold_powers] at h
    split at h
    · obtain ⟨k2, hx, hk, _⟩ := ih prev _ x h
      have := get_power_body_snd_ge a
      exact ⟨k2, hx, by linarith, fun _ => by linarith⟩
    · simp only [List.cons.injEq] at h
      exact absurd h.2 (fold_powers_ne_nil _ _ _)

theorem push_power_not_add (prev : Expr) (k : ℚ) (hk : 2 ≤ k) :
    (push_power prev k).is_add = false := by
  unfold push_power
  rw [if_neg (by intro e; rw [e] at hk; norm_num at hk)]
  rfl

/-- A product of at least two factors built by `mk_mul_app` is not a sum, and neither is a
coefficient times a term that is not a sum. -/
theorem mk_mul_app_aux_not_add (rw : poly_rewriter) (fuel : Nat) :
    (∀ l : List Expr, 2 ≤ l.length → (mk_mul_app_aux rw fuel l).is_add = false) ∧
    (∀ (c : ℚ) (arg : Expr), arg.is_add = false →
      (mk_mul_app_num_aux rw fuel c arg).is_add = false) := by
  induction fuel with
  | zero =>
    constructor
    · intro l hl
      match l, hl with
      | a0 :: a1 :: rest, _ => simp [mk_mul_app_aux, mk_numeral, Expr.is_add]
    · intro c arg ha
      rw [mk_mul_app_num_aux]
      split
      · exact ha
      · split
        · exact ha
        · rfl
  | succ fuel ih =>
    have hnum : ∀ (c : ℚ) (arg : Expr), arg.is_add = false →
        (mk_mul_app_num_aux rw (fuel + 1) c arg).is_add = false := by
      intro c arg ha
      rw [mk_mul_app_num_aux]
      split
      · exact ha
      · split
        · exact ha
        · exact ih.1 _ (by simp)
    refine ⟨?_, hnum⟩
    intro l hl
    match l, hl with
    | a0 :: a1 :: rest, _ =>
      rw [mk_mul_app_aux]
      split
      · split
        · rfl
        · rename_i x hx
          obtain ⟨k2, hx2, _, hk⟩ := fold_powers_single _ _ _ x hx
          rw [hx2]
          have := get_power_body_snd_ge a0
          exact push_power_not_add _ _ (by linarith [hk (by simp)])
        · rename_i x y new_rest _
          split
          · split
            · rename_i hlen
              simp only [List.length_cons] at hlen
              exact ih.2 _ _ (ih.1 _ (by simp only [List.length_cons]; omega))
            · rfl
          · rfl
      · split
        · split
          · rename_i hlen
            simp only [List.length_cons] at hlen
            exact ih.2 _ _ (ih.1 _ (by simp only [List.length_cons]; omega))
          · rfl
        · rfl

theorem mk_mul_app_not_add (rw : poly_rewriter) (l : List Expr) (hl : 2 ≤ l.length) :
    (rw.mk_mul_app l).is_add = false :=
  (mk_mul_app_aux_not_add rw _).1 l hl

theorem mk_mul_app_num_not_add (rw : poly_rewriter) (c : ℚ) (arg : Expr)
    (ha : arg.is_add = false) : (rw.mk_mul_app_num c arg).is_add = false :=
  (mk_mul_app_aux_not_add rw _).2 c arg ha

end poly_rewriter

namespace poly_rewriter

/-- Position of the iterator `it` in the enumeration of the cartesian product, the first
index running fastest. -/
def som_rank : List Nat → List Nat → Nat
  | s :: sz, i :: it => i + s * som_rank sz it
  | _, _ => 0

theorem product_iterator_next_rank (rows : List (List Expr)) :
    ∀ it : List Nat, som_valid rows it →
      match product_iterator_next (rows.map List.length) it with
      | some it1 =>
        som_rank (rows.map List.length) it1 = som_rank (rows.map List.length) it + 1
      | none => som_rank (rows.map List.length) it + 1 = (rows.map List.length).prod := by
  induction rows with
  | nil =>
    intro it hv
    cases it with
    | nil => simp [product_iterator_next, som_rank]
    | cons i it => simp [som_valid] at hv
  | cons r rows ih =>
    intro it hv
    cases it with
    | nil => simp [som_valid] at hv
    | cons i it =>
      simp only [som_valid] at hv
      obtain ⟨hi, hv2⟩ := hv
      have ihh := ih it hv2
      simp only [List.map_cons, product_iterator_next]
      by_cases hlt : i + 1 < r.length
      · simp only [hlt, if_true, som_rank]
        omega
      · simp only [hlt, if_false]
        have hr : r.length = i + 1 := by omega
        cases hn : product_iterator_next (rows.map List.length) it with
        | some it1 =>
          rw [hn] at ihh
          simp only [som_rank, ihh, zero_add, hr]
          ring
        | none =>
          rw [hn] at ihh
          simp only [som_rank, List.prod_cons, ← ihh, hr]
          ring

/-- The expansion loop aborts when more tuples remain than the budget leaves room for. -/
theorem som_loop_abort (rw : poly_rewriter) (rows : List (List Expr)) (bound : Nat)
    (fuel : Nat) :
    ∀ (it : List Nat) (sum : List Expr), som_valid rows it →
      bound + 1 + som_rank (rows.map List.length) it <
        sum.length + (rows.map List.length).prod →
      som_loop rw rows (rows.map List.length) bound fuel it sum = none := by
  induction fuel with
  | zero => intro it sum _ _; simp [som_loop]
  | succ fuel ih =>
    intro it sum hv hb
    rw [som_loop]
    split
    · rfl
    · rename_i hlt
      have hnext := product_iterator_next_spec ex_assignment rows it hv
      have hrank := product_iterator_next_rank rows it hv
      cases hn : product_iterator_next (rows.map List.length) it with
      | none =>
        rw [hn] at hrank
        simp only at hrank
        omega
      | some it1 =>
        rw [hn] at hrank hnext
        simp only at hrank ⊢
        exact ih it1 _ hnext.1 (by
          rw [hrank, List.length_append, List.length_singleton]
          omega)

theorem som_rank_zero (rows : List (List Expr)) :
    som_rank (rows.map List.length) (rows.map (fun _ => 0)) = 0 := by
  induction rows with
  | nil => rfl
  | cons r rows ih => simp only [List.map_cons, som_rank, ih, Nat.mul_zero, Nat.add_zero]

theorem som_row_ne_nil_of (arg : Expr) (h : arg.is_add = true → arg.get_args ≠ []) :
    som_row arg ≠ [] := by
  unfold som_row
  split
  · rename_i ha
    exact h ha
  · simp

theorem get_monomials_mk_add_app (l : List Expr) (h : ∀ a ∈ l, a.is_add = false) :
    (get_monomials (mk_add_app l)).length ≤ max l.length 1 := by
  match l, h with
  | [], _ => simp [mk_add_app, mk_numeral, get_monomials, Expr.is_add]
  | [a], h =>
    simp [mk_add_app, get_monomials, h a (List.mem_singleton_self a)]
  | a :: b :: r, _ => simp [mk_add_app, get_monomials, Expr.is_add, Expr.get_args]

end poly_rewriter

namespace poly_rewriter

theorem ite_failed_eq_of {α : Type} {c : Prop} [Decidable c] {x : br_status × Option α}
    {s : br_status} {y : Option α} (hs : s ≠ .BR_FAILED)
    (h : (if c then (br_status.BR_FAILED, none) else x) = (s, y)) : ¬ c ∧ x = (s, y) := by
  split at h
  · simp only [Prod.mk.injEq] at h
    exact absurd h.1.symm hs
  · exact ⟨by assumption, h⟩

theorem product_iterator_next_length :
    ∀ (szs it it1 : List Nat), product_iterator_next szs it = some it1 →
      it1.length = it.length := by
  intro szs
  induction szs with
  | nil => intro it it1 h; simp [product_iterator_next] at h
  | cons s szs ih =>
    intro it it1 h
    cases it with
    | nil => simp [product_iterator_next] at h
    | cons i it =>
      simp only [product_iterator_next] at h
      split at h
      · simp only [Option.some.injEq] at h
        rw [← h]
        rfl
      · cases hn : product_iterator_next szs it with
        | none => rw [hn] at h; simp at h
        | some it2 =>
          rw [hn] at h
          simp only [Option.some.injEq] at h
          rw [← h]
          simp [ih it it2 hn]

theorem som_select_length_eq (rows : List (List Expr)) :
    ∀ it : List Nat, it.length = rows.length → (som_select rows it).length = rows.length := by
  induction rows with
  | nil => intro it h; cases it <;> simp [som_select]
  | cons r rows ih =>
    intro it h
    cases it with
    | nil => simp at h
    | cons i it =>
      simp only [List.length_cons, Nat.add_right_cancel_iff] at h
      simp [som_select, ih it h]

/-- A sum that the expansion loop returns has at most one summand more than the budget, and
its new summands are products, not sums. -/
theorem som_loop_bound (rw : poly_rewriter) (rows : List (List Expr)) (szs : List Nat)
    (hr : 2 ≤ rows.length) (bound : Nat) (fuel : Nat) :
    ∀ (it : List Nat) (sum res : List Expr), it.length = rows.length →
      (∀ a ∈ sum, a.is_add = false) →
      som_loop rw rows szs bound fuel it sum = some res →
      res.length ≤ bound + 1 ∧ ∀ a ∈ res, a.is_add = false := by
  induction fuel with
  | zero => intro it sum res _ _ h; simp [som_loop] at h
  | succ fuel ih =>
    intro it sum res hv hs h
    rw [som_loop] at h
    split at h
    · cases h
    · rename_i hb
      have hnew : ∀ a ∈ sum ++ [rw.mk_mul_app (som_select rows it)], a.is_add = false := by
        intro a ha
        rcases List.mem_append.mp ha with ha | ha
        · exact hs a ha
        · rw [List.mem_singleton.mp ha]
          exact mk_mul_app_not_add rw _ (by rw [som_select_length_eq rows it hv]; exact hr)
      cases hn : product_iterator_next szs it with
      | none =>
        rw [hn] at h
        simp only [Option.some.injEq] at h
        rw [← h]
        exact ⟨by simp; omega, hnew⟩
      | some it1 =>
        rw [hn] at h
        exact ih it1 _ res (by rw [product_iterator_next_length szs it it1 hn, hv]) hnew h

/-- The wrapped budget never exceeds the product `m_som_blowup * orig_size`. -/
theorem som_budget_le (rw : poly_rewriter) (n : Nat) : rw.som_budget n ≤ rw.m_som_blowup * n :=
  Nat.mod_le _ _

/-- The number of summands of a `BR_REWRITE2` result of `mk_nflat_mul_core` on factors of
which at least two are not numerals. -/
theorem nflat_rewrite2_bound (rw : poly_rewriter) (args : List Expr)
    (h2 : 2 ≤ (args.filter (fun a => !a.is_numeral.isSome)).length) (r : Expr)
    (h : rw.mk_nflat_mul_core args = (.BR_REWRITE2, some r)) :
    (get_monomials r).length ≤ rw.som_budget args.length + 1 := by
  unfold mk_nflat_mul_core at h
  dsimp only at h
  have hnc := mul_scan_loop_num_coeffs args mul_scan_init
  simp only [mul_scan_init, zero_add] at hnc
  generalize mul_scan_loop args { c := 1, num_coeffs := 0, num_add := 0, var := none } = st
    at h hnc
  generalize rw.normalize st.c = c at h
  have hlen := filter_length_add (fun a => a.is_numeral.isSome) args
  rw [← hnc] at hlen
  have h2n : 2 ≤ args.length := by omega
  obtain ⟨_, h⟩ := ite_failed_eq_of (by simp) h
  rw [if_neg (by omega)] at h
  by_cases hz : c = 0
  · rw [if_pos hz] at h
    simp at h
  rw [if_neg hz, if_neg (by omega)] at h
  split at h
  · simp only [Prod.mk.injEq, Option.some.injEq, true_and] at h
    rw [← h]
    have hna := mk_mul_app_num_not_add rw c _ (mk_mul_app_not_add rw _ h2)
    simp only [get_monomials, hna, Bool.false_eq_true, if_false, List.length_singleton]
    omega
  split at h
  · split at h <;> simp at h
  · cases hloop : som_loop rw (args.map som_row) (args.map (fun a => (som_row a).length))
        (rw.som_budget args.length) (rw.som_budget args.length + 2)
        (args.map (fun _ => 0)) [] with
    | none => rw [hloop] at h; simp at h
    | some sum =>
      rw [hloop] at h
      simp only [Prod.mk.injEq, Option.some.injEq, true_and] at h
      rw [← h]
      obtain ⟨hl, hadd⟩ := som_loop_bound rw (args.map som_row) _ (by simpa using h2n) _ _ _ []
        sum (by simp) (by simp) hloop
      have := get_monomials_mk_add_app sum hadd
      omega

end poly_rewriter

namespace poly_rewriter

/-- With `som` on, numerals at most in first position, a coefficient that is not zero, at
least two factors that are not numerals and at least one sum among the factors,
`mk_nflat_mul_core` returns `BR_FAILED` as soon as the cartesian product of the rows has
more tuples than the budget plus one. -/
theorem nflat_som_abort (rw : poly_rewriter) (args : List Expr)
    (h2 : 2 ≤ (args.filter (fun a => !a.is_numeral.isSome)).length)
    (hsom : rw.m_som = true) (htail : ∀ a ∈ args.tail, a.is_numeral = none)
    (hc : rw.normalize ((args.filterMap Expr.is_numeral).prod) ≠ 0)
    (hadd : ∃ a ∈ args, a.is_add = true)
    (hprod : rw.som_budget args.length + 1 < (args.map (fun a => (som_row a).length)).prod) :
    rw.mk_nflat_mul_core args = (.BR_FAILED, none) := by
  have hcs := mul_scan_loop_c_prod args mul_scan_init
  have hnc := mul_scan_loop_num_coeffs args mul_scan_init
  have hna := mul_scan_loop_num_add args mul_scan_init
  simp only [mul_scan_init, zero_add, one_mul] at hcs hnc hna
  have hlen := filter_length_add (fun a => a.is_numeral.isSome) args
  have hnum : (args.filter (fun a => a.is_numeral.isSome)).length ≤ 1 ∧
      ((args.filter (fun a => a.is_numeral.isSome)).length = 1 →
        (args.getD 0 (num 0)).is_numeral.isSome = true) := by
    cases args with
    | nil => simp
    | cons a t =>
      have ht : t.filter (fun a => a.is_numeral.isSome) = [] := by
        rw [List.filter_eq_nil_iff]
        intro x hx
        simp [htail x hx]
      simp only [List.filter_cons, ht, List.getD_cons_zero]
      cases ha : a.is_numeral.isSome <;> simp
  have hposadd : (args.filter (fun a => !a.is_numeral.isSome && a.is_add)).length ≠ 0 := by
    obtain ⟨a, ha, haa⟩ := hadd
    have hn : a.is_numeral = none := by
      obtain ⟨as, rfl⟩ := is_add_shape haa
      rfl
    have hm : a ∈ args.filter (fun a => !a.is_numeral.isSome && a.is_add) :=
      List.mem_filter.mpr ⟨ha, by simp [hn, haa]⟩
    have := List.length_pos_of_mem hm
    omega
  unfold mk_nflat_mul_core
  refine (if_neg ?_).trans ?_
  · intro hcond
    simp only [Bool.and_eq_true, decide_eq_true_eq] at hcond
    obtain ⟨⟨hl, hm⟩, _⟩ := hcond
    obtain ⟨a, b, rfl⟩ := List.length_eq_two.1 hl
    have h0 : a.is_numeral = none := by
      cases h : a.is_numeral with
      | none => rfl
      | some q =>
        rw [List.filter_cons] at h2
        simp only [h, Option.isSome_some, Bool.not_true, Bool.false_eq_true, if_false] at h2
        have := List.length_filter_le (fun a => !a.is_numeral.isSome) [b]
        simp only [List.length_singleton] at this
        omega
    simp only [List.getD_cons_zero, h0] at hm
    cases hm
  dsimp only
  generalize mul_scan_loop args { c := 1, num_coeffs := 0, num_add := 0, var := none } = st
    at hcs hnc hna ⊢
  rw [hcs, hnc, hna]
  have hszs : args.map (fun a => (som_row a).length) = (args.map som_row).map List.length := by
    rw [List.map_map]; rfl
  have hit : args.map (fun _ => 0) = (args.map som_row).map (fun _ => 0) := by
    rw [List.map_map]; rfl
  rw [hszs] at hprod ⊢
  rw [hit]
  have hne : ∀ r ∈ args.map som_row, r ≠ [] := by
    intro r hr e
    have h0 : (0 : ℕ) ∈ (args.map som_row).map List.length :=
      List.mem_map.mpr ⟨r, hr, by rw [e]; rfl⟩
    rw [List.prod_eq_zero h0] at hprod
    omega
  rw [if_neg (by omega), if_neg hc, if_neg (by omega)]
  rw [if_neg (by
    intro hcond
    simp only [Bool.or_eq_true, Bool.and_eq_true, decide_eq_true_eq, Bool.not_eq_true'] at hcond
    rcases hcond with hcond | ⟨h1, h0⟩
    · omega
    · have := hnum.2 h1
      rw [h0] at this
      cases this)]
  rw [if_neg (by
    intro hcond
    simp only [Bool.or_eq_true, Bool.not_eq_true', decide_eq_true_eq] at hcond
    rcases hcond with hcond | hcond
    · rw [hsom] at hcond; cases hcond
    · exact hposadd hcond)]
  rw [som_loop_abort rw (args.map som_row) _ _ _ [] (som_valid_zero _ hne) (by
    rw [som_rank_zero]
    simp only [List.length_nil, zero_add, add_zero]
    omega)]

/-- Claim C11, as stated, fails: the budget test precedes each push, so one summand more
than `som_blowup * n` is admitted.  With `som_blowup = 1` the two factors `x` and
`(+ x y z)` give `BR_REWRITE2` with three summands; a numeral that is not in first
position is pulled out by an earlier rule, so `x`, `2`, `(+ x y z 1)` (four tuples, three
factors) give `BR_REWRITE2`, not `BR_FAILED`; and a coefficient zero ends the call before
the expansion, so `0`, `x`, `(+ x y z 1)` give `BR_DONE`. -/
theorem som_blowup_bound_counterexample :
    (example_rw false true false false true true false 1).mk_nflat_mul_core
        [ex_x, .app .add [ex_x, ex_y, ex_z]] =
      (.BR_REWRITE2,
        some (.app .add [.app .mul [ex_x, ex_x], .app .mul [ex_x, ex_y],
          .app .mul [ex_x, ex_z]])) ∧
    ¬ ((get_monomials (.app .add [.app .mul [ex_x, ex_x], .app .mul [ex_x, ex_y],
          .app .mul [ex_x, ex_z]])).length ≤ 1 * [ex_x, .app .add [ex_x, ex_y, ex_z]].length) ∧
    1 * [ex_x, .num 2, .app .add [ex_x, ex_y, ex_z, .num 1]].length <
      ([ex_x, .num 2, .app .add [ex_x, ex_y, ex_z, .num 1]].map
        (fun a => (som_row a).length)).prod ∧
    ((example_rw false true false false true true false 1).mk_nflat_mul_core
        [ex_x, .num 2, .app .add [ex_x, ex_y, ex_z, .num 1]]).1 = .BR_REWRITE2 ∧
    1 * [.num 0, ex_x, .app .add [ex_x, ex_y, ex_z, .num 1]].length <
      ([.num 0, ex_x, .app .add [ex_x, ex_y, ex_z, .num 1]].map
        (fun a => (som_row a).length)).prod ∧
    ((example_rw false true false false true true false 1).mk_nflat_mul_core
        [.num 0, ex_x, .app .add [ex_x, ex_y, ex_z, .num 1]]).1 = .BR_DONE := by
  decide!

/-- Claim C11, amended: the sum-of-monomials expansion admits one summand more than
`som_blowup * n`.  For every list `args` of `n` factors of which at least two are not
numerals, if `mk_nflat_mul_core` returns `BR_REWRITE2` then its result has at most
`som_blowup * n + 1` summands; and with `som` on, when at least one factor is a sum, no
factor behind the first is a numeral, the normalized product of the numerals is not zero and
the cartesian product of the factors' summands has more than `som_blowup * n + 1` tuples,
the call returns `BR_FAILED`.  The budget of the code is `som_blowup * n` in 32-bit unsigned
arithmetic, which is never larger; both statements hold with it in place of
`som_blowup * n`. -/
theorem som_blowup_bound (rw : poly_rewriter) (args : List Expr)
    (h2 : 2 ≤ (args.filter (fun a => !a.is_numeral.isSome)).length) :
    (∀ r, rw.mk_nflat_mul_core args = (.BR_REWRITE2, some r) →
      (get_monomials r).length ≤ rw.som_budget args.length + 1 ∧
        (get_monomials r).length ≤ rw.m_som_blowup * args.length + 1) ∧
    (rw.m_som = true → (∃ a ∈ args, a.is_add = true) →
      (∀ a ∈ args.tail, a.is_numeral = none) →
      rw.normalize ((args.filterMap Expr.is_numeral).prod) ≠ 0 →
      (rw.som_budget args.length + 1 < (args.map (fun a => (som_row a).length)).prod →
          rw.mk_nflat_mul_core args = (.BR_FAILED, none)) ∧
        (rw.m_som_blowup * args.length + 1 < (args.map (fun a => (som_row a).length)).prod →
          rw.mk_nflat_mul_core args = (.BR_FAILED, none))) := by
  have hle := som_budget_le rw args.length
  refine ⟨fun r h => ?_, ?_⟩
  · have := nflat_rewrite2_bound rw args h2 r h
    exact ⟨this, by omega⟩
  · intro hsom hadd htail hc
    exact ⟨fun hprod => nflat_som_abort rw args h2 hsom htail hc hadd hprod,
      fun hprod => nflat_som_abort rw args h2 hsom htail hc hadd (by omega)⟩

/-- Witness for `som_blowup_bound`: with `som_blowup = 1` the product of `x` and `(+ x y z)`
is expanded into three summands, one more than `1 * 2`. -/
theorem som_blowup_bound_witness :
    (get_monomials (.app .add [.app .mul [ex_x, ex_x], .app .mul [ex_x, ex_y],
        .app .mul [ex_x, ex_z]])).length ≤
      (example_rw false true false false true true false 1).m_som_blowup *
        [ex_x, .app .add [ex_x, ex_y, ex_z]].length + 1 :=
  ((som_blowup_bound (example_rw false true false false true true false 1)
    [ex_x, .app .add [ex_x, ex_y, ex_z]] (by decide)).1 _ (by decide!)).2

end poly_rewriter

namespace poly_rewriter

/-! ## The parts of `cancel_monomials` -/

/-- The locals `c`, `num_coeffs`, `visited`, `multiple` and `has_multiple` of
`cancel_monomials` after its two scanning loops. -/
def cancel_scans (lhs rhs : Expr) : cancel_scan :=
  cancel_scan_rhs (get_monomials rhs)
    (cancel_scan_lhs (get_monomials lhs)
      { c := 0, num_coeffs := 0, visited := [], multiple := [], has_multiple := false })

/-- The buffer `coeffs` of `cancel_monomials` after its two coefficient loops. -/
def cancel_coeffs (lhs rhs : Expr) : List (Expr × ℚ) :=
  cancel_coeffs_rhs (cancel_scans lhs rhs).multiple (get_monomials rhs)
    (collect_coeffs (cancel_scans lhs rhs).multiple (get_monomials lhs) [])

/-- The buffer `new_lhs_monomials` of `cancel_monomials` without the slot kept for the
constant, before sorting. -/
def cancel_new_lhs (rw : poly_rewriter) (lhs rhs : Expr) (move : Bool) : List Expr :=
  cancel_emit_lhs rw (cancel_scans lhs rhs).multiple (cancel_coeffs lhs rhs)
      (get_monomials lhs) [] ++
    (cancel_emit_rhs rw (cancel_scans lhs rhs).multiple move (get_monomials rhs)).1

/-- The buffer `new_rhs_monomials` of `cancel_monomials` without the slot kept for the
constant. -/
def cancel_new_rhs (rw : poly_rewriter) (lhs rhs : Expr) (move : Bool) : List Expr :=
  (cancel_emit_rhs rw (cancel_scans lhs rhs).multiple move (get_monomials rhs)).2

/-- The buffer `new_lhs_monomials` of `cancel_monomials` without the slot kept for the
constant, after sorting. -/
def cancel_lhs_out (rw : poly_rewriter) (lhs rhs : Expr) (move : Bool) : List Expr :=
  if move && rw.m_sort_sums then rw.std_sort rw.mon_lt (cancel_new_lhs rw lhs rhs move)
  else cancel_new_lhs rw lhs rhs move

/-- The folded constant `c` of `cancel_monomials` after the first `normalize(c)`. -/
def cancel_c (rw : poly_rewriter) (lhs rhs : Expr) : ℚ :=
  rw.normalize (cancel_scans lhs rhs).c

/-- The flag `c_at_rhs` of `cancel_monomials`. -/
def cancel_c_at_rhs (rw : poly_rewriter) (lhs rhs : Expr) (move : Bool) : Bool :=
  move || (cancel_new_rhs rw lhs rhs move).isEmpty || !(cancel_new_lhs rw lhs rhs move).isEmpty

/-- The constant `c` of `cancel_monomials` when the results are assembled: negated and
normalized again when it goes to the right-hand side. -/
def cancel_c_out (rw : poly_rewriter) (lhs rhs : Expr) (move : Bool) : ℚ :=
  if cancel_c_at_rhs rw lhs rhs move then rw.normalize (-(cancel_c rw lhs rhs))
  else cancel_c rw lhs rhs

/-- A `BR_DONE` return of `cancel_monomials` in terms of its parts. -/
theorem cancel_monomials_done (rw : poly_rewriter) (lhs rhs : Expr) (move : Bool)
    (l2 r2 : Expr) (h : rw.cancel_monomials lhs rhs move = (.BR_DONE, some (l2, r2))) :
    l2 = mk_add_app
        ((if !cancel_c_at_rhs rw lhs rhs move &&
              ((cancel_new_lhs rw lhs rhs move).isEmpty ||
                !decide (cancel_c_out rw lhs rhs move = 0)) then
            [mk_numeral (cancel_c_out rw lhs rhs move)] else []) ++
          cancel_lhs_out rw lhs rhs move) ∧
      r2 = mk_add_app
        ((if cancel_c_at_rhs rw lhs rhs move &&
              ((cancel_new_rhs rw lhs rhs move).isEmpty ||
                !decide (cancel_c_out rw lhs rhs move = 0)) then
            [mk_numeral (cancel_c_out rw lhs rhs move)] else []) ++
          cancel_new_rhs rw lhs rhs move) := by
  unfold cancel_monomials at h
  dsimp only at h
  obtain ⟨_, h⟩ := ite_failed_eq_of (by simp) h
  obtain ⟨_, h⟩ := ite_failed_eq_of (by simp) h
  simp only [Prod.mk.injEq, Option.some.injEq, true_and] at h
  exact ⟨h.1.symm, h.2.symm⟩

end poly_rewriter

namespace poly_rewriter

theorem cancel_scans_multiple (lhs rhs : Expr) :
    ∀ pp ∈ (cancel_scans lhs rhs).multiple,
      ∃ a ∈ get_monomials lhs, a.is_numeral.isSome = false ∧ get_power_product a = pp := by
  intro pp hpp
  unfold cancel_scans at hpp
  obtain ⟨_, s2, s3⟩ := cancel_scan_lhs_spec ex_assignment (get_monomials lhs)
    { c := 0, num_coeffs := 0, visited := [], multiple := [], has_multiple := false }
  obtain ⟨_, t2⟩ := cancel_scan_rhs_spec ex_assignment (get_monomials rhs)
    (cancel_scan_lhs (get_monomials lhs)
      { c := 0, num_coeffs := 0, visited := [], multiple := [], has_multiple := false })
  rcases t2 pp hpp with h1 | h1
  · rw [s2] at h1; simp at h1
  · rcases s3 pp h1 with h2 | h2
    · simp at h2
    · exact h2

theorem cancel_coeffs_find (lhs rhs : Expr) (pp : Expr)
    (h : pp ∈ (cancel_scans lhs rhs).multiple) :
    coeffs_find pp (cancel_coeffs lhs rhs) =
      coeff_total pp (get_monomials lhs) - coeff_total pp (get_monomials rhs) := by
  unfold cancel_coeffs
  rw [cancel_coeffs_rhs_find _ _ _ _ (fun q hq =>
      collect_coeffs_keys _ q _ [] (Or.inr ⟨hq, cancel_scans_multiple lhs rhs q hq⟩)),
    collect_coeffs_find]
  simp [coeffs_find, h]

theorem cancel_scan_lhs_num_coeffs (l : List Expr) (h : ∀ a ∈ l, a.is_numeral = none) :
    ∀ st : cancel_scan, (cancel_scan_lhs l st).num_coeffs = st.num_coeffs := by
  induction l with
  | nil => intro st; rfl
  | cons a l ih =>
    intro st
    simp only [cancel_scan_lhs, h a (List.mem_cons_self _ _)]
    rw [ih (fun x hx => h x (List.mem_cons_of_mem _ hx))]

theorem cancel_emit_rhs_move (rw : poly_rewriter) (multiple : List Expr) (l : List Expr) :
    (cancel_emit_rhs rw multiple true l).2 = [] := by
  induction l with
  | nil => rfl
  | cons arg rest ih =>
    simp only [cancel_emit_rhs]
    split
    · exact ih
    · split
      · simp only [if_true]
        split
        · split <;> exact ih
        · exact ih
      · exact ih

theorem mk_mul_app_aux_pair_fuel (rw : poly_rewriter) (f g : Nat) (x y : Expr) :
    mk_mul_app_aux rw (f + 1) [x, y] = mk_mul_app_aux rw (g + 1) [x, y] := by
  conv_lhs => rw [mk_mul_app_aux]
  conv_rhs => rw [mk_mul_app_aux]
  have hlen := fold_powers_length (get_power_body x).1 (get_power_body x).2 [y]
  split
  · split
    · rfl
    · rfl
    · rename_i a b new_rest heq
      rw [heq] at hlen
      simp only [List.length_cons, List.length_nil] at hlen
      have hl : ¬ 2 < (a :: b :: new_rest).length := by
        simp only [List.length_cons]
        omega
      split
      · rw [if_neg hl, if_neg hl]
      · rfl
  · simp

/-- The product `mk_mul_app(2, [c, pp])` of a numeral other than one and a power product is
`(* c pp)`. -/
theorem mk_mul_app_pair_pp (rw : poly_rewriter) (c : ℚ) (pp : Expr) (hc : c ≠ 1)
    (hpp : is_power_product pp = true) (hw : pp.wf = true) :
    rw.mk_mul_app [mk_numeral c, pp] = .app .mul [num c, pp] := by
  obtain ⟨h1, _, _, h4⟩ := is_power_product_spec hpp
  rw [← mk_mul_app_num_eq rw c pp hc h1 h4 hw]
  unfold mk_mul_app mk_mul_app_num
  rw [mk_mul_app_num_aux]
  simp only [hc, if_false, is_zero_of_not_numeral h1, Bool.false_eq_true]
  exact mk_mul_app_aux_pair_fuel rw _ _ _ _

theorem coeff_pp {pp : Expr} (hpp : is_power_product pp = true) :
    get_power_product_coeff pp = (pp, 1) := by
  have h3 := (is_power_product_spec hpp).2.2.1
  unfold get_power_product_coeff
  split
  · rename_i hc
    simp only [Bool.and_eq_true] at hc
    rw [hc.1] at h3
    simp only [Bool.true_and] at h3
    cases hn : (pp.get_arg 0).is_numeral with
    | none => rfl
    | some a => rw [hn] at h3; simp at h3
  · rfl

theorem coeff_mul_pair (c : ℚ) (pp : Expr) :
    get_power_product_coeff (.app .mul [num c, pp]) = (pp, c) := by
  simp [get_power_product_coeff, Expr.is_mul, Expr.get_num_args, Expr.get_args, Expr.get_arg,
    Expr.is_numeral]

/-- The monomial `mk_mul_app(a, pp)` built for a power product `pp` has coefficient `a`. -/
theorem coeff_mk_mul_app_num (rw : poly_rewriter) (a : ℚ) (pp : Expr)
    (hpp : is_power_product pp = true) (hw : pp.wf = true) :
    get_power_product_coeff (rw.mk_mul_app_num a pp) = (pp, a) := by
  obtain ⟨h1, _, _, h4⟩ := is_power_product_spec hpp
  by_cases ha : a = 1
  · have : rw.mk_mul_app_num a pp = pp := by simp [mk_mul_app_num, mk_mul_app_num_aux, ha]
    rw [this, ha]
    exact coeff_pp hpp
  · rw [mk_mul_app_num_eq rw a pp ha h1 h4 hw]
    exact coeff_mul_pair a pp

/-- Coefficient of the power product `pp` in one monomial. -/
def coeff_in (pp : Expr) (m : Expr) : ℚ :=
  if m.is_numeral.isSome then 0
  else if get_power_product m = pp then (get_power_product_coeff m).2 else 0

theorem coeff_total_cons (pp m : Expr) (l : List Expr) :
    coeff_total pp (m :: l) = coeff_in pp m + coeff_total pp l := rfl

theorem coeff_total_append (pp : Expr) (l1 l2 : List Expr) :
    coeff_total pp (l1 ++ l2) = coeff_total pp l1 + coeff_total pp l2 := by
  induction l1 with
  | nil => simp [coeff_total]
  | cons m l1 ih => simp only [List.cons_append, coeff_total_cons, ih]; ring

theorem coeff_in_canonical (pp q : Expr) (a : ℚ) (m : Expr)
    (hm : is_canonical_monomial m = true) (hc : get_power_product_coeff m = (q, a)) :
    coeff_in pp m = if q = pp then a else 0 := by
  unfold coeff_in
  rw [(canonical_spec hm).1, ← get_power_product_coeff_fst, hc]
  simp

end poly_rewriter

namespace poly_rewriter

/-- The power products of the monomials of a side that are not numerals. -/
def monomial_pps (l : List Expr) : List Expr :=
  (l.filter (fun a => !a.is_numeral.isSome)).map get_power_product

theorem monomial_pps_cons_num (a : Expr) (l : List Expr) (h : a.is_numeral.isSome = true) :
    monomial_pps (a :: l) = monomial_pps l := by
  unfold monomial_pps
  rw [List.filter_cons, if_neg (by simp [h])]

theorem monomial_pps_cons (a : Expr) (l : List Expr) (h : ¬ a.is_numeral.isSome = true) :
    monomial_pps (a :: l) = get_power_product a :: monomial_pps l := by
  unfold monomial_pps
  rw [List.filter_cons, if_pos (by simpa using h)]
  rfl

theorem coeff_in_of_ne (pp m : Expr) (h : get_power_product m ≠ pp) : coeff_in pp m = 0 := by
  unfold coeff_in
  rw [if_neg h]
  simp

theorem coeff_in_num (pp m : Expr) (h : m.is_numeral.isSome = true) : coeff_in pp m = 0 := by
  unfold coeff_in
  rw [if_pos h]

/-- The monomials that `cancel_monomials` copies from `lhs` are canonical, and the
coefficient they give to a power product. -/
theorem cancel_emit_lhs_canonical (rw : poly_rewriter) (multiple : List Expr)
    (coeffs : List (Expr × ℚ)) (pp : Expr) (l : List Expr) :
    ∀ visited : List Expr, (∀ a ∈ l, a.wf = true) →
      (∀ a ∈ l, a.is_numeral.isSome = true ∨ is_canonical_monomial a = true) →
      (∀ m ∈ cancel_emit_lhs rw multiple coeffs l visited, is_canonical_monomial m = true) ∧
      coeff_total pp (cancel_emit_lhs rw multiple coeffs l visited) =
        if pp ∈ multiple then
          (if pp ∈ visited then 0
           else if pp ∈ monomial_pps l then coeffs_find pp coeffs else 0)
        else coeff_total pp l := by
  induction l with
  | nil =>
    intro visited _ _
    simp [cancel_emit_lhs, coeff_total, monomial_pps]
  | cons arg rest ih =>
    intro visited hwf hcan
    have hwa := hwf arg (List.mem_cons_self _ _)
    have hwr : ∀ a ∈ rest, a.wf = true := fun a ha => hwf a (List.mem_cons_of_mem _ ha)
    have hcr : ∀ a ∈ rest, a.is_numeral.isSome = true ∨ is_canonical_monomial a = true :=
      fun a ha => hcan a (List.mem_cons_of_mem _ ha)
    simp only [cancel_emit_lhs]
    by_cases hn : arg.is_numeral.isSome = true
    · simp only [hn, if_true]
      obtain ⟨h1, h2⟩ := ih visited hwr hcr
      refine ⟨h1, ?_⟩
      rw [h2, monomial_pps_cons_num arg rest hn, coeff_total_cons, coeff_in_num pp arg hn,
        zero_add]
    · simp only [hn, Bool.false_eq_true, if_false]
      have hca : is_canonical_monomial arg = true := by
        rcases hcan arg (List.mem_cons_self _ _) with h | h
        · exact absurd h hn
        · exact h
      have hq := (canonical_spec hca).2
      have hwq := wf_get_power_product arg hwa
      rw [monomial_pps_cons arg rest hn, coeff_total_cons]
      by_cases hm : get_power_product arg ∈ multiple
      · simp only [hm, not_true_eq_false, if_false]
        by_cases hv : get_power_product arg ∈ visited
        · simp only [hv, not_true_eq_false, if_false]
          obtain ⟨h1, h2⟩ := ih visited hwr hcr
          refine ⟨h1, ?_⟩
          rw [h2]
          by_cases hpq : get_power_product arg = pp
          · subst hpq
            simp [hm, hv]
          · have hpq2 : ¬ pp = get_power_product arg := fun e => hpq e.symm
            rw [coeff_in_of_ne pp arg hpq]
            by_cases hpm : pp ∈ multiple <;> simp [hpm, hpq2]
        · simp only [hv, not_false_eq_true, if_true]
          obtain ⟨h1, h2⟩ := ih (get_power_product arg :: visited) hwr hcr
          have hmk := mk_mul_app_num_canonical rw
            (coeffs_find (get_power_product arg) coeffs) _ hq hwq
          have hck := coeff_in_canonical pp _ _ _ hmk.2
            (coeff_mk_mul_app_num rw (coeffs_find (get_power_product arg) coeffs) _ hq hwq)
          constructor
          · split
            · intro m hm2
              rcases List.mem_cons.mp hm2 with rfl | hm2
              · exact hmk.2
              · exact h1 m hm2
            · exact h1
          · by_cases hpq : get_power_product arg = pp
            · have hpv : pp ∉ visited := hpq ▸ hv
              have hpm : pp ∈ multiple := hpq ▸ hm
              split
              · rw [coeff_total_cons, hck, h2, hpq]
                simp [hpm, hpv]
              · rename_i hz
                rw [h2, hpq]
                rw [hpq] at hz
                simp only [ne_eq, not_not] at hz
                simp [hpm, hpv, hz]
            · have hpq2 : ¬ pp = get_power_product arg := fun e => hpq e.symm
              have hrec : coeff_total pp (cancel_emit_lhs rw multiple coeffs rest
                  (get_power_product arg :: visited)) =
                  if pp ∈ multiple then
                    (if pp ∈ visited then 0
                     else if pp ∈ monomial_pps rest then coeffs_find pp coeffs else 0)
                  else coeff_total pp rest := by
                rw [h2]
                simp [hpq2]
              rw [coeff_in_of_ne pp arg hpq]
              split
              · rw [coeff_total_cons, hck, hrec]
                by_cases hpm : pp ∈ multiple <;> simp [hpm, hpq, hpq2]
              · rw [hrec]
                by_cases hpm : pp ∈ multiple <;> simp [hpm, hpq2]
      · simp only [hm, not_false_eq_true, if_true]
        obtain ⟨h1, h2⟩ := ih visited hwr hcr
        constructor
        · intro m hm2
          rcases List.mem_cons.mp hm2 with rfl | hm2
          · exact hca
          · exact h1 m hm2
        · rw [coeff_total_cons, h2]
          by_cases hpm : pp ∈ multiple
          · have hpq : get_power_product arg ≠ pp := fun e => hm (e ▸ hpm)
            have hpq2 : ¬ pp = get_power_product arg := fun e => hpq e.symm
            rw [coeff_in_of_ne pp arg hpq]
            simp [hpm, hpq2]
          · simp [hpm]

/-- The monomials that `cancel_monomials` moves from `rhs` to the left are canonical, and
the coefficient they give to a power product. -/
theorem cancel_emit_rhs_canonical (rw : poly_rewriter) (multiple : List Expr) (pp : Expr)
    (l : List Expr) (hwf : ∀ a ∈ l, a.wf = true)
    (hcan : ∀ a ∈ l, a.is_numeral.isSome = true ∨ is_canonical_monomial a = true) :
    (∀ m ∈ (cancel_emit_rhs rw multiple true l).1, is_canonical_monomial m = true) ∧
      coeff_total pp (cancel_emit_rhs rw multiple true l).1 =
        if pp ∈ multiple then 0 else - coeff_total pp l := by
  induction l with
  | nil => simp [cancel_emit_rhs, coeff_total]
  | cons arg rest ih =>
    have hwa := hwf arg (List.mem_cons_self _ _)
    obtain ⟨h1, h2⟩ := ih (fun a ha => hwf a (List.mem_cons_of_mem _ ha))
      (fun a ha => hcan a (List.mem_cons_of_mem _ ha))
    simp only [cancel_emit_rhs]
    rw [coeff_total_cons, get_power_product_coeff_fst]
    by_cases hn : arg.is_numeral.isSome = true
    · simp only [hn, if_true]
      refine ⟨h1, ?_⟩
      rw [h2, coeff_in_num pp arg hn, zero_add]
    · simp only [hn, Bool.false_eq_true, if_false]
      have hca : is_canonical_monomial arg = true := by
        rcases hcan arg (List.mem_cons_self _ _) with h | h
        · exact absurd h hn
        · exact h
      have hq := (canonical_spec hca).2
      have hwq := wf_get_power_product arg hwa
      have hcin : coeff_in pp arg =
          if get_power_product arg = pp then (get_power_product_coeff arg).2 else 0 := by
        unfold coeff_in
        rw [if_neg hn]
      by_cases hm : get_power_product arg ∈ multiple
      · simp only [hm, not_true_eq_false, if_false]
        refine ⟨h1, ?_⟩
        rw [h2]
        by_cases hpm : pp ∈ multiple
        · simp [hpm]
        · have hpq : get_power_product arg ≠ pp := fun e => hpm (e ▸ hm)
          rw [coeff_in_of_ne pp arg hpq]
          simp [hpm]
      · simp only [hm, not_false_eq_true, if_true]
        have hpm_ne : pp ∈ multiple → get_power_product arg ≠ pp := fun hpm e => hm (e ▸ hpm)
        by_cases hz : (get_power_product_coeff arg).2 = 0
        · simp only [hz, ne_eq, not_true_eq_false, if_false]
          refine ⟨h1, ?_⟩
          rw [h2, hcin, hz]
          by_cases hpm : pp ∈ multiple <;> simp [hpm]
        · simp only [hz, ne_eq, not_false_eq_true, if_true]
          by_cases hone : (get_power_product_coeff arg).2 = -1
          · simp only [hone, if_true]
            constructor
            · intro m hm2
              rcases List.mem_cons.mp hm2 with rfl | hm2
              · exact canonical_of_pp hq
              · exact h1 m hm2
            · rw [coeff_total_cons, h2, hcin, hone,
                coeff_in_canonical pp _ _ _ (canonical_of_pp hq) (coeff_pp hq)]
              by_cases hpm : pp ∈ multiple
              · simp [hpm, hpm_ne hpm]
              · by_cases hpq : get_power_product arg = pp <;> simp [hpm, hpq]
                ring
          · simp only [hone, if_false]
            have hne1 : -(get_power_product_coeff arg).2 ≠ 1 := by
              intro e
              apply hone
              linarith
            have hshape := mk_mul_app_pair_pp rw _ _ hne1 hq hwq
            rw [hshape]
            have hcm : is_canonical_monomial
                (.app .mul [num (-(get_power_product_coeff arg).2), get_power_product arg]) =
                true := by
              have := mk_mul_app_num_canonical rw (-(get_power_product_coeff arg).2) _ hq hwq
              obtain ⟨h1', _, _, h4'⟩ := is_power_product_spec hq
              rw [mk_mul_app_num_eq rw _ _ hne1 h1' h4' hwq] at this
              exact this.2
            constructor
            · intro m hm2
              rcases List.mem_cons.mp hm2 with rfl | hm2
              · exact hcm
              · exact h1 m hm2
            · rw [coeff_total_cons, h2, hcin,
                coeff_in_canonical pp _ _ _ hcm (coeff_mul_pair _ _)]
              by_cases hpm : pp ∈ multiple
              · simp [hpm, hpm_ne hpm]
              · by_cases hpq : get_power_product arg = pp <;> simp [hpm, hpq]
                ring

end poly_rewriter

namespace poly_rewriter

/-- The results of `cancel_monomials` with `move` on, for sides made of numerals and
canonical monomials. -/
theorem cancel_move_shape (rw : poly_rewriter) (lhs rhs : Expr) (hwl : lhs.wf = true)
    (hwr : rhs.wf = true)
    (hcl : ∀ m ∈ get_monomials lhs, m.is_numeral.isSome = true ∨ is_canonical_monomial m = true)
    (hcr : ∀ m ∈ get_monomials rhs, m.is_numeral.isSome = true ∨ is_canonical_monomial m = true)
    (l2 r2 : Expr) (h : rw.cancel_monomials lhs rhs true = (.BR_DONE, some (l2, r2))) :
    l2 = mk_add_app (cancel_lhs_out rw lhs rhs true) ∧
      r2 = mk_numeral (rw.normalize (-(cancel_c rw lhs rhs))) ∧
      (∀ m ∈ cancel_lhs_out rw lhs rhs true, is_canonical_monomial m = true) ∧
      ∀ pp, coeff_total pp (cancel_lhs_out rw lhs rhs true) =
        coeff_total pp (get_monomials lhs) - coeff_total pp (get_monomials rhs) := by
  obtain ⟨hl, hr⟩ := cancel_monomials_done rw lhs rhs true l2 r2 h
  have hat : cancel_c_at_rhs rw lhs rhs true = true := by simp [cancel_c_at_rhs]
  have hrhs : cancel_new_rhs rw lhs rhs true = [] := cancel_emit_rhs_move rw _ _
  have hout : cancel_c_out rw lhs rhs true = rw.normalize (-(cancel_c rw lhs rhs)) := by
    unfold cancel_c_out
    rw [if_pos hat]
  rw [hat, hout] at hl hr
  rw [hrhs] at hr
  have hperm : List.Perm (cancel_lhs_out rw lhs rhs true) (cancel_new_lhs rw lhs rhs true) := by
    unfold cancel_lhs_out
    split
    · exact rw.std_sort_perm _ _
    · exact List.Perm.refl _
  refine ⟨by rw [hl]; simp, by rw [hr]; simp [mk_add_app], ?_, ?_⟩
  · intro m hm
    have hm2 := hperm.subset hm
    unfold cancel_new_lhs at hm2
    rcases List.mem_append.mp hm2 with hm3 | hm3
    · exact (cancel_emit_lhs_canonical rw _ _ m (get_monomials lhs) []
        (wf_get_monomials lhs hwl) hcl).1 m hm3
    · exact (cancel_emit_rhs_canonical rw _ m (get_monomials rhs)
        (wf_get_monomials rhs hwr) hcr).1 m hm3
  · intro pp
    rw [coeff_total_perm pp hperm]
    unfold cancel_new_lhs
    rw [coeff_total_append,
      (cancel_emit_lhs_canonical rw _ _ pp (get_monomials lhs) []
        (wf_get_monomials lhs hwl) hcl).2,
      (cancel_emit_rhs_canonical rw _ pp (get_monomials rhs)
        (wf_get_monomials rhs hwr) hcr).2]
    by_cases hpm : pp ∈ (cancel_scans lhs rhs).multiple
    · obtain ⟨a, ha, han, hap⟩ := cancel_scans_multiple lhs rhs pp hpm
      have hin : pp ∈ monomial_pps (get_monomials lhs) := by
        unfold monomial_pps
        exact List.mem_map.mpr ⟨a, List.mem_filter.mpr ⟨ha, by simp [han]⟩, hap⟩
      simp only [hpm, if_true, List.not_mem_nil, if_false, hin, add_zero]
      exact cancel_coeffs_find lhs rhs pp hpm
    · simp only [hpm, if_false]
      ring

theorem get_monomials_mk_add_app_canonical (l : List Expr)
    (h : ∀ m ∈ l, is_canonical_monomial m = true) (hne : l ≠ []) :
    get_monomials (mk_add_app l) = l := by
  match l, h, hne with
  | [a], h, _ =>
    simp [mk_add_app, get_monomials, canonical_not_add (h a (List.mem_singleton_self a))]
  | a :: b :: r, _, _ => simp [mk_add_app, get_monomials, Expr.is_add, Expr.get_args]

theorem mk_add_app_eq_zero_iff (l : List Expr)
    (h : ∀ m ∈ l, is_canonical_monomial m = true) : mk_add_app l = mk_numeral 0 ↔ l = [] := by
  constructor
  · intro e
    match l, h, e with
    | [], _, _ => rfl
    | [a], h, e =>
      have := (canonical_spec (h a (List.mem_singleton_self a))).1
      simp only [mk_add_app] at e
      rw [e] at this
      simp [mk_numeral, Expr.is_numeral] at this
    | a :: b :: r, _, e => simp [mk_add_app, mk_numeral] at e
  · intro e
    rw [e]
    rfl

/-- Claim C12, as stated, fails: `0 = (* -1 (+ x 1))` with `move` on moves the power product
`(+ x 1)` to the left, where it is returned as it is, a sum with the numeral summand `1`. -/
theorem cancel_move_separates_counterexample :
    (example_rw true false false false true true false 10).cancel_monomials
        (.num 0) (.app .mul [.num (-1), .app .add [ex_x, .num 1]]) true =
      (.BR_DONE, some (.app .add [ex_x, .num 1], .num 0)) ∧
    (Expr.num 1) ∈ get_monomials (.app .add [ex_x, .num 1]) := by
  decide!

/-- Claim C12, amended: `cancel_monomials` with `move` on separates monomials from the
constant when both sides are made of numerals and canonical monomials (and respect the
arity contracts).  If it returns `BR_DONE` then `rhs_result` is a single numeral;
`lhs_result` is the numeral `0` exactly when no monomial remains, and otherwise all its
summands are canonical monomials, none a numeral; and every power product has in
`lhs_result` its coefficient in `lhs` minus its coefficient in `rhs`. -/
theorem cancel_move_separates (rw : poly_rewriter) (lhs rhs : Expr) (hwl : lhs.wf = true)
    (hwr : rhs.wf = true)
    (hcl : ∀ m ∈ get_monomials lhs, m.is_numeral.isSome = true ∨ is_canonical_monomial m = true)
    (hcr : ∀ m ∈ get_monomials rhs, m.is_numeral.isSome = true ∨ is_canonical_monomial m = true)
    (l2 r2 : Expr) (h : rw.cancel_monomials lhs rhs true = (.BR_DONE, some (l2, r2))) :
    (∃ c, r2 = .num c) ∧
      (l2 = mk_numeral 0 ↔ cancel_new_lhs rw lhs rhs true = []) ∧
      (l2 ≠ mk_numeral 0 → ∀ m ∈ get_monomials l2, is_canonical_monomial m = true) ∧
      ∀ pp, coeff_total pp (get_monomials l2) =
        coeff_total pp (get_monomials lhs) - coeff_total pp (get_monomials rhs) := by
  obtain ⟨hl, hr, hcan, hco⟩ := cancel_move_shape rw lhs rhs hwl hwr hcl hcr l2 r2 h
  have hperm : List.Perm (cancel_lhs_out rw lhs rhs true) (cancel_new_lhs rw lhs rhs true) := by
    unfold cancel_lhs_out
    split
    · exact rw.std_sort_perm _ _
    · exact List.Perm.refl _
  have hz := mk_add_app_eq_zero_iff _ hcan
  rw [← hl] at hz
  refine ⟨⟨_, hr⟩, ?_, ?_, ?_⟩
  · rw [hz]
    constructor
    · intro e
      rw [e] at hperm
      exact List.Perm.eq_nil hperm.symm
    · intro e
      rw [e] at hperm
      exact List.Perm.eq_nil hperm
  · intro hne m hm
    have hne2 : cancel_lhs_out rw lhs rhs true ≠ [] := fun e => hne (hz.mpr e)
    rw [hl, get_monomials_mk_add_app_canonical _ hcan hne2] at hm
    exact hcan m hm
  · intro pp
    rw [← hco pp]
    by_cases hne : cancel_lhs_out rw lhs rhs true = []
    · rw [hl, hne]
      simp [mk_add_app, mk_numeral, get_monomials, Expr.is_add, coeff_total, Expr.is_numeral]
    · rw [hl, get_monomials_mk_add_app_canonical _ hcan hne]

/-- Witness for `cancel_move_separates`: `x + 2*y + 3 = y + 1 + z` with `move` on becomes
`x + y + (-1)*z = -2`, where `y` has the coefficient `2 - 1`. -/
theorem cancel_move_separates_witness :
    coeff_total ex_y (get_monomials (.app .add [ex_x, ex_y, .app .mul [.num (-1), ex_z]])) =
      coeff_total ex_y (get_monomials (.app .add [ex_x, .app .mul [.num 2, ex_y], .num 3])) -
        coeff_total ex_y (get_monomials (.app .add [ex_y, .num 1, ex_z])) :=
  (cancel_move_separates (example_rw true false false false true true true 10)
    (.app .add [ex_x, .app .mul [.num 2, ex_y], .num 3]) (.app .add [ex_y, .num 1, ex_z])
    (by decide) (by decide) (by decide) (by decide)
    (.app .add [ex_x, ex_y, .app .mul [.num (-1), ex_z]]) (.num (-2)) (by decide!)).2.2.2 ex_y

end poly_rewriter

namespace poly_rewriter

theorem cancel_monomials_zero_num (rw : poly_rewriter) (hnorm : ∀ q, rw.normalize q = q)
    (c : ℚ) :
    rw.cancel_monomials (mk_numeral 0) (mk_numeral c) true =
      (.BR_DONE, some (mk_numeral 0, mk_numeral c)) := by
  have e0 : (num 0).is_numeral = some 0 := rfl
  have ec : (num c).is_numeral = some c := rfl
  have hs : rw.std_sort rw.mon_lt [] = [] := List.Perm.eq_nil (rw.std_sort_perm _ _)
  unfold cancel_monomials
  simp only [mk_numeral, get_monomials, Expr.is_add, Bool.false_eq_true, if_false,
    cancel_scan_lhs, cancel_scan_rhs, e0, ec, hnorm, collect_coeffs, cancel_coeffs_rhs,
    cancel_emit_lhs, cancel_emit_rhs, Option.isSome_some, if_true]
  simp [mk_add_app, mk_numeral, hs]

/-- With `move` on and a numeral on the right, `cancel_monomials` returns `BR_FAILED` for a
left side without numeral summands. -/
theorem cancel_monomials_failed_of (rw : poly_rewriter) (lhs : Expr) (c : ℚ)
    (h : ∀ m ∈ get_monomials lhs, m.is_numeral = none) :
    rw.cancel_monomials lhs (mk_numeral c) true = (.BR_FAILED, none) := by
  unfold cancel_monomials
  dsimp only
  rw [cancel_scan_lhs_num_coeffs _ h]
  simp [mk_numeral, Expr.is_numeral]

/-- Claim C13, as stated, fails: `0 = (* -1 (+ x 1))` with `move` on gives `(+ x 1) = 0`, and
the second call turns that into `x = -1`. -/
theorem cancel_move_twice_counterexample :
    (example_rw true false false false true true false 10).cancel_monomials
        (.num 0) (.app .mul [.num (-1), .app .add [ex_x, .num 1]]) true =
      (.BR_DONE, some (.app .add [ex_x, .num 1], .num 0)) ∧
    (example_rw true false false false true true false 10).cancel_monomials
        (.app .add [ex_x, .num 1]) (.num 0) true =
      (.BR_DONE, some (ex_x, .num (-1))) := by
  decide!

/-- Claim C13, amended: over exact rationals, for sides made of numerals and canonical
monomials (and respecting the arity contracts), `cancel_monomials` with `move` on is a no-op
the second time: if `cancel_monomials(lhs, rhs, true)` returns `BR_DONE` with `(l2, r2)` then
`cancel_monomials(l2, r2, true)` returns `BR_FAILED` or `BR_DONE` with the same pair. -/
theorem cancel_move_twice (rw : poly_rewriter) (hnorm : ∀ q, rw.normalize q = q)
    (lhs rhs : Expr) (hwl : lhs.wf = true) (hwr : rhs.wf = true)
    (hcl : ∀ m ∈ get_monomials lhs, m.is_numeral.isSome = true ∨ is_canonical_monomial m = true)
    (hcr : ∀ m ∈ get_monomials rhs, m.is_numeral.isSome = true ∨ is_canonical_monomial m = true)
    (l2 r2 : Expr) (h : rw.cancel_monomials lhs rhs true = (.BR_DONE, some (l2, r2))) :
    (rw.cancel_monomials l2 r2 true).1 = .BR_FAILED ∨
      rw.cancel_monomials l2 r2 true = (.BR_DONE, some (l2, r2)) := by
  obtain ⟨hl, hr, hcan, _⟩ := cancel_move_shape rw lhs rhs hwl hwr hcl hcr l2 r2 h
  by_cases hne : cancel_lhs_out rw lhs rhs true = []
  · right
    rw [hl, hr, hne]
    exact cancel_monomials_zero_num rw hnorm _
  · left
    rw [hr, cancel_monomials_failed_of rw l2 _ (by
      intro m hm
      rw [hl, get_monomials_mk_add_app_canonical _ hcan hne] at hm
      exact (canonical_spec (hcan m hm)).1)]

/-- Witness for `cancel_move_twice`: `x + 2*y + 3 = y + 1 + z` becomes
`x + y + (-1)*z = -2`, which the second call leaves alone. -/
theorem cancel_move_twice_witness :
    ((example_rw true false false false true true true 10).cancel_monomials
        (.app .add [ex_x, ex_y, .app .mul [.num (-1), ex_z]]) (.num (-2)) true).1 =
        .BR_FAILED ∨
      (example_rw true false false false true true true 10).cancel_monomials
        (.app .add [ex_x, ex_y, .app .mul [.num (-1), ex_z]]) (.num (-2)) true =
        (.BR_DONE, some (.app .add [ex_x, ex_y, .app .mul [.num (-1), ex_z]], .num (-2))) :=
  cancel_move_twice (example_rw true false false false true true true 10) (fun _ => rfl)
    (.app .add [ex_x, .app .mul [.num 2, ex_y], .num 3]) (.app .add [ex_y, .num 1, ex_z])
    (by decide) (by decide) (by decide) (by decide) _ _ (by decide!)

end poly_rewriter

namespace poly_rewriter

/-- Claim C14, as stated, fails: with `move` off, for `x + 1 = x + y + 3` the left side is
left without monomials and the right side keeps `y`, and the folded constant `-2` is placed
on the left-hand side, not on the right. -/
theorem cancel_constant_placement_counterexample :
    (example_rw true false false false true true false 10).cancel_monomials
        (.app .add [ex_x, .num 1]) (.app .add [ex_x, ex_y, .num 3]) false =
      (.BR_DONE, some (.num (-2), ex_y)) ∧
    cancel_new_lhs (example_rw true false false false true true false 10)
        (.app .add [ex_x, .num 1]) (.app .add [ex_x, ex_y, .num 3]) false = [] ∧
    cancel_new_rhs (example_rw true false false false true true false 10)
        (.app .add [ex_x, .num 1]) (.app .add [ex_x, ex_y, .num 3]) false = [ex_y] := by
  decide!

/-- Claim C14, amended: whenever `cancel_monomials` returns `BR_DONE`, the folded constant
is placed on the right-hand side (negated) if `move` is true, or if the right side has no
non-constant monomial left, or if the left side has one; there a constant `0` is left out
when the right side has monomials.  In the remaining case (`move` false, the left side
without monomials, the right side with one) the constant is placed on the left-hand side,
which is then that numeral alone. -/
theorem cancel_constant_placement (rw : poly_rewriter) (lhs rhs : Expr) (move : Bool)
    (l2 r2 : Expr) (h : rw.cancel_monomials lhs rhs move = (.BR_DONE, some (l2, r2))) :
    ((move = true ∨ cancel_new_rhs rw lhs rhs move = [] ∨ cancel_new_lhs rw lhs rhs move ≠ []) →
      l2 = mk_add_app (cancel_lhs_out rw lhs rhs move) ∧
      r2 = mk_add_app
        ((if cancel_new_rhs rw lhs rhs move = [] ∨ rw.normalize (-(cancel_c rw lhs rhs)) ≠ 0 then
            [mk_numeral (rw.normalize (-(cancel_c rw lhs rhs)))] else []) ++
          cancel_new_rhs rw lhs rhs move)) ∧
    ((move = false ∧ cancel_new_rhs rw lhs rhs move ≠ [] ∧ cancel_new_lhs rw lhs rhs move = []) →
      l2 = mk_numeral (cancel_c rw lhs rhs) ∧ r2 = mk_add_app (cancel_new_rhs rw lhs rhs move)) := by
  obtain ⟨hl, hr⟩ := cancel_monomials_done rw lhs rhs move l2 r2 h
  constructor
  · intro hc
    have hat : cancel_c_at_rhs rw lhs rhs move = true := by
      unfold cancel_c_at_rhs
      rcases hc with hc | hc | hc
      · simp [hc]
      · simp [hc]
      · cases hn : cancel_new_lhs rw lhs rhs move with
        | nil => exact absurd hn hc
        | cons a l => simp
    have hout : cancel_c_out rw lhs rhs move = rw.normalize (-(cancel_c rw lhs rhs)) := by
      unfold cancel_c_out
      rw [if_pos hat]
    rw [hat, hout] at hl hr
    constructor
    · rw [hl]
      simp
    · rw [hr]
      congr 2
      cases hn : cancel_new_rhs rw lhs rhs move <;>
        by_cases hz : rw.normalize (-cancel_c rw lhs rhs) = 0 <;> simp [hz]
  · intro hc
    obtain ⟨hm, hrn, hln⟩ := hc
    subst hm
    have hat : cancel_c_at_rhs rw lhs rhs false = false := by
      unfold cancel_c_at_rhs
      rw [hln]
      cases hn : cancel_new_rhs rw lhs rhs false with
      | nil => exact absurd hn hrn
      | cons a l => simp
    have hout : cancel_c_out rw lhs rhs false = cancel_c rw lhs rhs := by
      unfold cancel_c_out
      rw [hat]
      simp
    have hlo : cancel_lhs_out rw lhs rhs false = [] := by
      unfold cancel_lhs_out
      rw [hln]
      simp
    rw [hat, hout, hlo, hln] at hl
    rw [hat] at hr
    constructor
    · rw [hl]
      simp [mk_add_app]
    · rw [hr]
      simp

/-- Witness for `cancel_constant_placement`: `x + 1 = x + y + 3` with `move` off becomes
`-2 = y`. -/
theorem cancel_constant_placement_witness :
    Expr.num (-2) =
        mk_numeral (cancel_c (example_rw true false false false true true false 10)
          (.app .add [ex_x, .num 1]) (.app .add [ex_x, ex_y, .num 3])) ∧
      ex_y = mk_add_app (cancel_new_rhs (example_rw true false false false true true false 10)
        (.app .add [ex_x, .num 1]) (.app .add [ex_x, ex_y, .num 3]) false) :=
  (cancel_constant_placement (example_rw true false false false true true false 10)
    (.app .add [ex_x, .num 1]) (.app .add [ex_x, ex_y, .num 3]) false _ _ (by decide!)).2
    ⟨rfl, by decide!, by decide!⟩

end poly_rewriter

namespace poly_rewriter

/-! ## The merges of `hoist_multiplication` -/

theorem find_index_none (x : Expr) (l : List Expr) :
    ∀ j0 : Nat, find_index x l j0 = none → x ∉ l := by
  induction l with
  | nil => intro j0 _; simp
  | cons y ys ih =>
    intro j0 h
    simp only [find_index] at h
    split at h
    · cases h
    · rename_i hy
      intro hm
      rcases List.mem_cons.mp hm with rfl | hm
      · exact hy rfl
      · exact ih (j0 + 1) h hm

theorem merge_loop_mono (n : Nat) :
    ∀ (s : Nat) (m1 m2 : List Expr) (k : Nat),
      k ≤ (merge_loop (List.range' s n) (m1, m2, k)).2.2 := by
  induction n with
  | zero => intro s m1 m2 k; simp [merge_loop]
  | succ n ih =>
    intro s m1 m2 k
    simp only [List.range'_succ, merge_loop]
    cases hf : find_from m2 (m1.getD s (num 0)) k with
    | none => exact ih (s + 1) m1 m2 k
    | some j => exact Nat.le_of_succ_le (ih (s + 1) _ _ (k + 1))

/-- The loop of `merge_muls` finds at least one common factor when there is one. -/
theorem merge_loop_pos (n : Nat) :
    ∀ (s : Nat) (m1 m2 : List Expr) (k : Nat),
      (∃ i, s ≤ i ∧ i < s + n ∧ m1.getD i (num 0) ∈ m2.drop k) →
      k < (merge_loop (List.range' s n) (m1, m2, k)).2.2 := by
  induction n with
  | zero => intro s m1 m2 k ⟨i, h1, h2, _⟩; omega
  | succ n ih =>
    intro s m1 m2 k ⟨i, h1, h2, h3⟩
    simp only [List.range'_succ, merge_loop]
    cases hf : find_from m2 (m1.getD s (num 0)) k with
    | none =>
      simp only
      have hnot := find_index_none _ _ _ hf
      have his : i ≠ s := by
        intro e
        rw [e] at h3
        exact hnot h3
      exact ih (s + 1) m1 m2 k ⟨i, by omega, by omega, h3⟩
    | some j =>
      simp only
      exact merge_loop_mono n (s + 1) _ _ (k + 1)

/-- The product built by `merge_muls(x, y)` for two summands that share a factor: common
factors times the sum of the two remaining products. -/
theorem merge_muls_shape (rw : poly_rewriter) (x y e : Expr)
    (hx : e ∈ TO_BUFFER Expr.is_mul x) (hy : e ∈ TO_BUFFER Expr.is_mul y) :
    ∃ common r1 r2 : List Expr, common ≠ [] ∧
      List.Perm (TO_BUFFER Expr.is_mul x) (common ++ r1) ∧
      List.Perm (TO_BUFFER Expr.is_mul y) (common ++ r2) ∧
      rw.merge_muls x y =
        rw.mk_mul_app (common ++ [mk_add_app [rw.mk_mul_app r1, rw.mk_mul_app r2]]) := by
  unfold merge_muls
  have hspec := merge_loop_spec (TO_BUFFER Expr.is_mul x).length 0 (TO_BUFFER Expr.is_mul x)
    (TO_BUFFER Expr.is_mul y) 0 (le_refl _) (by omega) (Nat.zero_le _) (by simp)
  have hpos := merge_loop_pos (TO_BUFFER Expr.is_mul x).length 0 (TO_BUFFER Expr.is_mul x)
    (TO_BUFFER Expr.is_mul y) 0 (by
      obtain ⟨i, hi, hie⟩ := List.getElem_of_mem hx
      refine ⟨i, Nat.zero_le _, by omega, ?_⟩
      rw [List.getD_eq_getElem _ _ hi, hie]
      simpa using hy)
  rw [← List.range_eq_range'] at hspec hpos
  simp only
  generalize merge_loop (List.range (TO_BUFFER Expr.is_mul x).length)
    (TO_BUFFER Expr.is_mul x, TO_BUFFER Expr.is_mul y, 0) = r at hspec hpos ⊢
  obtain ⟨m1, m2, k⟩ := r
  simp only at hspec hpos ⊢
  obtain ⟨hp1, hp2, htk⟩ := hspec
  refine ⟨m1.take k, m1.drop k, m2.drop k, ?_, ?_, ?_, rfl⟩
  · have hlen : 0 < m1.length := by
      rw [hp1.length_eq]
      exact List.length_pos_of_mem hx
    intro e2
    have := congrArg List.length e2
    simp only [List.length_take, List.length_nil] at this
    omega
  · rw [List.take_append_drop]
    exact hp1.symm
  · rw [htk, List.take_append_drop]
    exact hp2.symm

end poly_rewriter

namespace poly_rewriter

/-- One merge of `hoist_multiplication` on the buffer `adds`: two distinct summands that
share a factor `e` (not a numeral) are replaced, the first by the product of their common
factors and the sum of the two remaining products, the second by the numeral zero. -/
def merge_step (rw : poly_rewriter) (adds adds2 : List Expr) : Prop :=
  ∃ (j k : Nat) (e : Expr) (common r1 r2 : List Expr),
    j ≠ k ∧ j < adds.length ∧ k < adds.length ∧ e.is_numeral = none ∧
    e ∈ TO_BUFFER Expr.is_mul (adds.getD j (num 0)) ∧
    e ∈ TO_BUFFER Expr.is_mul (adds.getD k (num 0)) ∧
    common ≠ [] ∧
    List.Perm (TO_BUFFER Expr.is_mul (adds.getD j (num 0))) (common ++ r1) ∧
    List.Perm (TO_BUFFER Expr.is_mul (adds.getD k (num 0))) (common ++ r2) ∧
    adds2 =
      (adds.set j
        (rw.mk_mul_app (common ++ [mk_add_app [rw.mk_mul_app r1, rw.mk_mul_app r2]]))).set k
        (mk_numeral 0)

/-- The buffer `adds2` comes from `adds` by `n` merges. -/
def merge_steps (rw : poly_rewriter) : Nat → List Expr → List Expr → Prop
  | 0, adds, adds2 => adds = adds2
  | n + 1, adds, adds2 => ∃ mid, merge_steps rw n adds mid ∧ merge_step rw mid adds2

/-- Every valid entry of `mul_map` maps a factor that is not a numeral to a summand it
occurs in. -/
def hoist_map_ok (st : hoist_state) : Prop :=
  ∀ e j, map_find st.mul_map e = some j → st.valid.getD j false = true →
    e.is_numeral = none ∧ j < st.adds.length ∧
      e ∈ TO_BUFFER Expr.is_mul (st.adds.getD j (num 0))

/-- The buffer of the state comes from `adds0` by merges, at least one exactly when `change`
is set. -/
def hoist_trace (rw : poly_rewriter) (adds0 : List Expr) (st : hoist_state) : Prop :=
  ∃ n, merge_steps rw n adds0 st.adds ∧ (st.change = true ↔ 0 < n)

theorem map_find_insert (m : List (Expr × Nat)) (e : Expr) (k : Nat) (e2 : Expr) :
    map_find (map_insert m e k) e2 = if e = e2 then some k else map_find m e2 := by
  unfold map_find map_insert
  by_cases h : e = e2
  · simp [h]
  · simp [List.find?_cons, h]

theorem getD_set_ne_bool (l : List Bool) (i j : Nat) (v d : Bool) (h : i ≠ j) :
    (l.set i v).getD j d = l.getD j d := by
  simp only [List.getD_eq_getElem?_getD]
  rw [List.getElem?_set_ne h]

theorem getD_set_ne_expr (l : List Expr) (i j : Nat) (v d : Expr) (h : i ≠ j) :
    (l.set i v).getD j d = l.getD j d := by
  simp only [List.getD_eq_getElem?_getD]
  rw [List.getElem?_set_ne h]

theorem getD_set_self_false (l : List Bool) (i : Nat) : (l.set i false).getD i false = false := by
  simp only [List.getD_eq_getElem?_getD]
  by_cases h : i < l.length
  · rw [List.getElem?_eq_getElem (by simpa using h)]
    simp
  · rw [List.getElem?_eq_none (by simp; omega)]
    rfl

theorem hoist_mul_inner_trace (rw : poly_rewriter) (adds0 : List Expr) (N k : Nat)
    (hk : k < N) (muls : List Expr) :
    ∀ st : hoist_state, st.adds.length = N → st.valid.length = N →
      (∀ e ∈ muls, e ∈ TO_BUFFER Expr.is_mul (st.adds.getD k (num 0))) →
      hoist_map_ok st → hoist_trace rw adds0 st →
      (hoist_mul_inner rw k muls st).adds.length = N ∧
        (hoist_mul_inner rw k muls st).valid.length = N ∧
        hoist_map_ok (hoist_mul_inner rw k muls st) ∧
        hoist_trace rw adds0 (hoist_mul_inner rw k muls st) := by
  induction muls with
  | nil => intro st h1 h2 _ h4 h5; exact ⟨h1, h2, h4, h5⟩
  | cons e muls ih =>
    intro st h1 h2 h3 h4 h5
    have hek := h3 e (List.mem_cons_self _ _)
    have h3r : ∀ x ∈ muls, x ∈ TO_BUFFER Expr.is_mul (st.adds.getD k (num 0)) :=
      fun x hx => h3 x (List.mem_cons_of_mem _ hx)
    simp only [hoist_mul_inner]
    by_cases hn : e.is_numeral.isSome = true
    · rw [if_pos hn]
      exact ih st h1 h2 h3r h4 h5
    · rw [if_neg hn]
      have hen : e.is_numeral = none := by
        cases h : e.is_numeral with
        | none => rfl
        | some q => rw [h] at hn; simp at hn
      have hins : hoist_map_ok { st with mul_map := map_insert st.mul_map e k } := by
        intro e2 j hf hv
        rw [map_find_insert] at hf
        split at hf
        · rename_i heq
          simp only [Option.some.injEq] at hf
          subst hf
          subst heq
          exact ⟨hen, by rw [h1]; exact hk, hek⟩
        · exact h4 e2 j hf hv
      cases hf : map_find st.mul_map e with
      | none => exact ih _ h1 h2 h3r hins h5
      | some j =>
        simp only
        split
        · rename_i hcond
          simp only [Bool.and_eq_true, decide_eq_true_eq] at hcond
          obtain ⟨hvj, hjk⟩ := hcond
          obtain ⟨_, hjl, hej⟩ := h4 e j hf hvj
          refine ⟨by simp [h1], by simp [h2], ?_, ?_⟩
          · intro e2 j2 hf2 hv2
            simp only at hf2 hv2 ⊢
            have hj2k : k ≠ j2 := by
              intro e3
              rw [← e3, getD_set_self_false] at hv2
              cases hv2
            rw [getD_set_ne_bool _ _ _ _ _ hj2k] at hv2
            have hj2j : j ≠ j2 := by
              intro e3
              rw [← e3, getD_set_self_false] at hv2
              cases hv2
            rw [getD_set_ne_bool _ _ _ _ _ hj2j] at hv2
            obtain ⟨g1, g2, g3⟩ := h4 e2 j2 hf2 hv2
            refine ⟨g1, by simpa using g2, ?_⟩
            rw [getD_set_ne_expr _ _ _ _ _ hj2k, getD_set_ne_expr _ _ _ _ _ hj2j]
            exact g3
          · obtain ⟨n, hs, _⟩ := h5
            obtain ⟨common, r1, r2, hc, hp1, hp2, hm⟩ := merge_muls_shape rw _ _ e hej hek
            refine ⟨n + 1, ⟨st.adds, hs, j, k, e, common, r1, r2, hjk, hjl,
              by rw [h1]; exact hk, hen, hej, hek, hc, hp1, hp2, ?_⟩, by simp⟩
            simp only
            rw [hm]
        · exact ih _ h1 h2 h3r hins h5

theorem hoist_mul_outer_trace (rw : poly_rewriter) (adds0 : List Expr) (N : Nat)
    (ks : List Nat) (hks : ∀ k ∈ ks, k < N) :
    ∀ st : hoist_state, st.adds.length = N → st.valid.length = N →
      hoist_map_ok st → hoist_trace rw adds0 st →
      hoist_trace rw adds0 (hoist_mul_outer rw ks st) := by
  induction ks with
  | nil => intro st _ _ _ h; exact h
  | cons k ks ih =>
    intro st h1 h2 h3 h4
    simp only [hoist_mul_outer]
    obtain ⟨g1, g2, g3, g4⟩ := hoist_mul_inner_trace rw adds0 N k
      (hks k (List.mem_cons_self _ _)) _ st h1 h2 (fun e he => he) h3 h4
    exact ih (fun x hx => hks x (List.mem_cons_of_mem _ hx)) _ g1 g2 g3 g4

theorem hoist_mul_inner_change (rw : poly_rewriter) (k : Nat) (muls : List Expr) :
    ∀ st : hoist_state, st.change = true → (hoist_mul_inner rw k muls st).change = true := by
  induction muls with
  | nil => intro st h; exact h
  | cons e muls ih =>
    intro st h
    simp only [hoist_mul_inner]
    split
    · exact ih st h
    · split
      · split
        · rfl
        · exact ih _ h
      · exact ih _ h

theorem hoist_mul_outer_change (rw : poly_rewriter) (ks : List Nat) :
    ∀ st : hoist_state, st.change = true → (hoist_mul_outer rw ks st).change = true := by
  induction ks with
  | nil => intro st h; exact h
  | cons k ks ih =>
    intro st h
    simp only [hoist_mul_outer]
    exact ih _ (hoist_mul_inner_change rw k _ st h)

/-- The inner loop of `hoist_multiplication` on summand `k`, started with every entry of
`mul_map` pointing to a valid summand at or before `k`: it merges, or it leaves the buffers
alone, no factor it has seen was mapped to an earlier summand, and every factor it has seen
is mapped afterwards. -/
theorem hoist_mul_inner_no_merge (rw : poly_rewriter) (k : Nat) (muls : List Expr) :
    ∀ st : hoist_state,
      (∀ j, j ≤ k → st.valid.getD j false = true) →
      (∀ e j, map_find st.mul_map e = some j → j ≤ k) →
      (hoist_mul_inner rw k muls st).change = true ∨
        ((hoist_mul_inner rw k muls st).adds = st.adds ∧
          (hoist_mul_inner rw k muls st).valid = st.valid ∧
          (∀ e ∈ muls, e.is_numeral = none → ∀ j, map_find st.mul_map e = some j → j = k) ∧
          (∀ e2, (e2 ∈ muls ∧ e2.is_numeral = none) ∨ (∃ j, map_find st.mul_map e2 = some j) →
            ∃ j, map_find (hoist_mul_inner rw k muls st).mul_map e2 = some j) ∧
          (∀ e2 j, map_find (hoist_mul_inner rw k muls st).mul_map e2 = some j → j ≤ k)) := by
  induction muls with
  | nil =>
    intro st _ hb
    right
    refine ⟨rfl, rfl, ?_, ?_, hb⟩
    · intro e he; cases he
    · rintro e2 (⟨h, _⟩ | h)
      · cases h
      · exact h
  | cons e muls ih =>
    intro st hv hb
    simp only [hoist_mul_inner]
    by_cases hn : e.is_numeral.isSome = true
    · rw [if_pos hn]
      rcases ih st hv hb with h | ⟨h1, h2, h3, h4, h5⟩
      · exact Or.inl h
      · right
        refine ⟨h1, h2, ?_, ?_, h5⟩
        · intro e' he' hne'
          rcases List.mem_cons.1 he' with rfl | he'
          · rw [hne'] at hn; cases hn
          · exact h3 e' he' hne'
        · rintro e2 (⟨hm, hne2⟩ | h)
          · rcases List.mem_cons.1 hm with rfl | hm
            · rw [hne2] at hn; cases hn
            · exact h4 e2 (Or.inl ⟨hm, hne2⟩)
          · exact h4 e2 (Or.inr h)
    · rw [if_neg hn]
      have hins : ∀ e2 j, map_find (map_insert st.mul_map e k) e2 = some j → j ≤ k := by
        intro e2 j hf
        rw [map_find_insert] at hf
        split at hf
        · simp only [Option.some.injEq] at hf
          omega
        · exact hb e2 j hf
      have hstep : (∀ j, map_find st.mul_map e = some j → j = k) →
          (hoist_mul_inner rw k muls { st with mul_map := map_insert st.mul_map e k }).change
              = true ∨
            ((hoist_mul_inner rw k muls
                { st with mul_map := map_insert st.mul_map e k }).adds = st.adds ∧
              (hoist_mul_inner rw k muls
                { st with mul_map := map_insert st.mul_map e k }).valid = st.valid ∧
              (∀ e' ∈ e :: muls, e'.is_numeral = none →
                ∀ j, map_find st.mul_map e' = some j → j = k) ∧
              (∀ e2, (e2 ∈ e :: muls ∧ e2.is_numeral = none) ∨
                  (∃ j, map_find st.mul_map e2 = some j) →
                ∃ j, map_find (hoist_mul_inner rw k muls
                  { st with mul_map := map_insert st.mul_map e k }).mul_map e2 = some j) ∧
              (∀ e2 j, map_find (hoist_mul_inner rw k muls
                  { st with mul_map := map_insert st.mul_map e k }).mul_map e2 = some j →
                j ≤ k)) := by
        intro hek
        rcases ih { st with mul_map := map_insert st.mul_map e k } hv hins with
          h | ⟨h1, h2, h3, h4, h5⟩
        · exact Or.inl h
        · right
          refine ⟨h1, h2, ?_, ?_, h5⟩
          · intro e' he' hne' j hf
            rcases List.mem_cons.1 he' with rfl | he'
            · exact hek j hf
            · by_cases hee : e = e'
              · subst hee
                exact hek j hf
              · apply h3 e' he' hne' j
                simp only
                rw [map_find_insert, if_neg hee]
                exact hf
          · intro e2 h
            apply h4 e2
            by_cases hee : e = e2
            · right
              refine ⟨k, ?_⟩
              simp only
              rw [map_find_insert, if_pos hee]
            · rcases h with ⟨hm, hne2⟩ | ⟨j, hj⟩
              · rcases List.mem_cons.1 hm with rfl | hm
                · exact absurd rfl hee
                · exact Or.inl ⟨hm, hne2⟩
              · right
                refine ⟨j, ?_⟩
                simp only
                rw [map_find_insert, if_neg hee]
                exact hj
      cases hf : map_find st.mul_map e with
      | none =>
        simp only
        exact hstep (fun j hj => by rw [hf] at hj; cases hj)
      | some j =>
        simp only
        by_cases hcond : (st.valid.getD j false && decide (j ≠ k)) = true
        · rw [if_pos hcond]
          exact Or.inl rfl
        · rw [if_neg hcond]
          apply hstep
          intro j2 hj2
          rw [hf] at hj2
          simp only [Option.some.injEq] at hj2
          subst hj2
          by_contra hjk
          apply hcond
          rw [hv j (hb e j hf)]
          simp [hjk]

/-- Two distinct summands among the first `k` of the buffer share a factor that is not a
numeral. -/
def shares_factor (adds : List Expr) (k : Nat) : Prop :=
  ∃ i j, i < k ∧ j < k ∧ i ≠ j ∧ ∃ e, e.is_numeral = none ∧
    e ∈ TO_BUFFER Expr.is_mul (adds.getD i (num 0)) ∧
    e ∈ TO_BUFFER Expr.is_mul (adds.getD j (num 0))

/-- State of the outer loop of `hoist_multiplication` before summand `k` as long as nothing
has been merged: the buffers are untouched, every factor of an earlier summand is in
`mul_map`, every entry points to an earlier summand, and no two earlier summands share a
factor. -/
def hoist_no_merge (adds0 : List Expr) (k : Nat) (st : hoist_state) : Prop :=
  st.adds = adds0 ∧ (∀ j, j < adds0.length → st.valid.getD j false = true) ∧
    (∀ i, i < k → ∀ e ∈ TO_BUFFER Expr.is_mul (adds0.getD i (num 0)), e.is_numeral = none →
      ∃ j, map_find st.mul_map e = some j) ∧
    (∀ e j, map_find st.mul_map e = some j → j < k) ∧
    ¬ shares_factor adds0 k

theorem hoist_mul_outer_no_merge (rw : poly_rewriter) (adds0 : List Expr) (n : Nat) :
    ∀ (s : Nat) (st : hoist_state), s + n ≤ adds0.length →
      st.change = true ∨ hoist_no_merge adds0 s st →
      (hoist_mul_outer rw (List.range' s n) st).change = true ∨
        hoist_no_merge adds0 (s + n) (hoist_mul_outer rw (List.range' s n) st) := by
  induction n with
  | zero => intro s st _ h; simpa [hoist_mul_outer] using h
  | succ n ih =>
    intro s st hs h
    simp only [List.range'_succ, hoist_mul_outer]
    have hs2 : s + 1 + n ≤ adds0.length := by omega
    rw [show s + (n + 1) = s + 1 + n from by omega]
    apply ih (s + 1) _ hs2
    rcases h with h | ⟨h1, h2, h3, h4, h5⟩
    · exact Or.inl (hoist_mul_inner_change rw s _ st h)
    · subst h1
      rcases hoist_mul_inner_no_merge rw s (TO_BUFFER Expr.is_mul (st.adds.getD s (num 0))) st
          (fun j hj => h2 j (by omega)) (fun e j hf => Nat.le_of_lt (h4 e j hf)) with
        hc | ⟨g1, g2, g3, g4, g5⟩
      · exact Or.inl hc
      · right
        refine ⟨g1, ?_, ?_, ?_, ?_⟩
        · intro j hj
          rw [g2]
          exact h2 j hj
        · intro i hi e he hne
          by_cases hik : i = s
          · subst hik
            exact g4 e (Or.inl ⟨he, hne⟩)
          · exact g4 e (Or.inr (h3 i (by omega) e he hne))
        · intro e j hf
          have := g5 e j hf
          omega
        · rintro ⟨i, j, hi, hj, hij, e, hne, hei, hej⟩
          by_cases his : i = s
          · subst his
            have hjs : j < i := by omega
            obtain ⟨j0, hj0⟩ := h3 j hjs e hej hne
            have := g3 e hei hne j0 hj0
            have := h4 e j0 hj0
            omega
          · by_cases hjs : j = s
            · subst hjs
              have his2 : i < j := by omega
              obtain ⟨j0, hj0⟩ := h3 i his2 e hei hne
              have := g3 e hej hne j0 hj0
              have := h4 e j0 hj0
              omega
            · exact h5 ⟨i, j, by omega, by omega, hij, e, hne, hei, hej⟩

/-- With `hoist_mul` on, `hoist_multiplication` returns true as soon as two distinct summands
share a factor that is not a numeral. -/
theorem hoist_multiplication_fires (rw : poly_rewriter) (som : Expr)
    (hon : rw.m_hoist_mul = true)
    (hsh : shares_factor (TO_BUFFER Expr.is_add som) (TO_BUFFER Expr.is_add som).length) :
    (rw.hoist_multiplication som).1 = true := by
  have h := hoist_mul_outer_no_merge rw (TO_BUFFER Expr.is_add som)
    (TO_BUFFER Expr.is_add som).length 0
    { adds := TO_BUFFER Expr.is_add som,
      valid := List.replicate (TO_BUFFER Expr.is_add som).length true,
      mul_map := [], change := false } (by omega)
    (Or.inr ⟨rfl, by
      intro j hj
      simp only [List.getD_eq_getElem?_getD]
      rw [List.getElem?_replicate, if_pos hj]
      rfl, by
      intro i hi; omega, by
      intro e j hf; simp [map_find] at hf, by
      rintro ⟨i, j, hi, _⟩; omega⟩)
  rw [← List.range_eq_range', Nat.zero_add] at h
  have hch : (hoist_mul_outer rw (List.range (TO_BUFFER Expr.is_add som).length)
      { adds := TO_BUFFER Expr.is_add som,
        valid := List.replicate (TO_BUFFER Expr.is_add som).length true,
        mul_map := [], change := false }).change = true := by
    rcases h with h | h
    · exact h
    · exact absurd hsh h.2.2.2.2
  unfold hoist_multiplication
  simp only [hon, Bool.not_true, Bool.false_eq_true, if_false, hch]

theorem merge_steps_first (rw : poly_rewriter) (n : Nat) :
    ∀ a b : List Expr, merge_steps rw (n + 1) a b → ∃ mid, merge_step rw a mid := by
  induction n with
  | zero =>
    intro a b h
    obtain ⟨mid, h0, h1⟩ := h
    simp only [merge_steps] at h0
    subst h0
    exact ⟨b, h1⟩
  | succ n ih =>
    intro a b h
    obtain ⟨mid, h0, _⟩ := h
    exact ih a mid h0

theorem merge_step_shares (rw : poly_rewriter) (a mid : List Expr) (h : merge_step rw a mid) :
    shares_factor a a.length := by
  obtain ⟨j, k, e, _, _, _, hjk, hj, hk, hen, hej, hek, _⟩ := h
  exact ⟨j, k, hj, hk, hjk, e, hen, hej, hek⟩

/-- Claim C15: `hoist_multiplication` preserves meaning.  For every sum `som` that respects
the arity contracts and every assignment, the value of the sum after `hoist_multiplication`
equals its value before; with `hoist_mul` off it returns false and leaves the sum unchanged;
when it returns false the sum is unchanged, and when it returns true the sum is built from
the buffer of summands after at least one merge, each merge replacing two summands that
share a factor by the product of their common factors and the sum of the two remaining
products, and by a zero; and it returns true exactly when `hoist_mul` is on and two distinct
summands share a factor that is not a numeral. -/
theorem hoist_multiplication_merges (rw : poly_rewriter) (σ : Assignment) (som : Expr)
    (hwf : som.wf = true) :
    eval σ (rw.hoist_multiplication som).2 = eval σ som ∧
      (rw.m_hoist_mul = false → rw.hoist_multiplication som = (false, som)) ∧
      ((rw.hoist_multiplication som).1 = false → (rw.hoist_multiplication som).2 = som) ∧
      ((rw.hoist_multiplication som).1 = true →
        ∃ n adds2, merge_steps rw (n + 1) (TO_BUFFER Expr.is_add som) adds2 ∧
          (rw.hoist_multiplication som).2 = mk_add_app adds2) ∧
      ((rw.hoist_multiplication som).1 = true ↔
        rw.m_hoist_mul = true ∧
          shares_factor (TO_BUFFER Expr.is_add som) (TO_BUFFER Expr.is_add som).length) := by
  have hspec := hoist_multiplication_spec rw σ som hwf
  have hoff : rw.m_hoist_mul = false → rw.hoist_multiplication som = (false, som) := by
    intro hoff
    unfold hoist_multiplication
    simp [hoff]
  have htrue : (rw.hoist_multiplication som).1 = true →
      ∃ n adds2, merge_steps rw (n + 1) (TO_BUFFER Expr.is_add som) adds2 ∧
        (rw.hoist_multiplication som).2 = mk_add_app adds2 := by
    unfold hoist_multiplication
    split
    · intro h; cases h
    · simp only
      have htr := hoist_mul_outer_trace rw (TO_BUFFER Expr.is_add som)
        (TO_BUFFER Expr.is_add som).length (List.range (TO_BUFFER Expr.is_add som).length)
        (fun k hk => List.mem_range.mp hk)
        { adds := TO_BUFFER Expr.is_add som,
          valid := List.replicate (TO_BUFFER Expr.is_add som).length true,
          mul_map := [], change := false }
        rfl (by simp) (by intro e j hf; simp [map_find] at hf) ⟨0, rfl, by simp⟩
      split
      · intro h; cases h
      · rename_i hch
        intro _
        obtain ⟨n, hs, hn⟩ := htr
        have hpos : 0 < n := hn.mp (by simpa using hch)
        obtain ⟨m, rfl⟩ : ∃ m, n = m + 1 := ⟨n - 1, by omega⟩
        exact ⟨m, _, hs, rfl⟩
  refine ⟨hspec.1, hoff, hspec.2.2, htrue, ?_, ?_⟩
  · intro h
    refine ⟨?_, ?_⟩
    · cases hm : rw.m_hoist_mul
      · rw [hoff hm] at h
        cases h
      · rfl
    · obtain ⟨n, adds2, hs, _⟩ := htrue h
      obtain ⟨mid, hmid⟩ := merge_steps_first rw n _ _ hs
      exact merge_step_shares rw _ mid hmid
  · rintro ⟨hon, hsh⟩
    exact hoist_multiplication_fires rw som hon hsh

/-- Witness for `hoist_multiplication_merges`: `3*x*y + 3*x*z` keeps its value and is
merged, the flag returned is true. -/
theorem hoist_multiplication_merges_witness :
    eval ex_assignment ((example_rw true false true false true true false 10).hoist_multiplication
        (.app .add [.app .mul [.num 3, ex_x, ex_y], .app .mul [.num 3, ex_x, ex_z]])).2 =
      eval ex_assignment
        (.app .add [.app .mul [.num 3, ex_x, ex_y], .app .mul [.num 3, ex_x, ex_z]]) ∧
    ((example_rw true false true false true true false 10).hoist_multiplication
        (.app .add [.app .mul [.num 3, ex_x, ex_y], .app .mul [.num 3, ex_x, ex_z]])).1 = true :=
  ⟨(hoist_multiplication_merges (example_rw true false true false true true false 10)
      ex_assignment
      (.app .add [.app .mul [.num 3, ex_x, ex_y], .app .mul [.num 3, ex_x, ex_z]])
      (by decide)).1,
    (hoist_multiplication_merges (example_rw true false true false true true false 10)
      ex_assignment
      (.app .add [.app .mul [.num 3, ex_x, ex_y], .app .mul [.num 3, ex_x, ex_z]])
      (by decide)).2.2.2.2.mpr
      ⟨rfl, 0, 1, by decide, by decide, by decide, ex_x, rfl, by decide, by decide⟩⟩

end poly_rewriter

namespace poly_rewriter

/-! ## `hoist_ite`: shared addends -/

/-- Leaves of nested `ite` terms, left to right: the terms `hoist_ite(a, shared, g)` and
`apply_hoist` reach below the `ite` applications. -/
def ite_leaves : Expr → List Expr
  | .app .ite [_, t, e] => ite_leaves t ++ ite_leaves e
  | a => [a]

/-- Entries of `sh` that are addends of every one of the leaves. -/
def shared_from (sh : List Expr) (leaves : List Expr) : List Expr :=
  sh.filter (fun x => leaves.all (fun l => decide (x ∈ TO_BUFFER Expr.is_add l)))

/-- Addends that all the leaves contain: those of the first leaf that are addends of every
other leaf. -/
def shared_addends : List Expr → List Expr
  | [] => []
  | l :: rest => shared_from (TO_BUFFER Expr.is_add l) rest

/-- The `ite` term with the addends `S` removed from every leaf. -/
def strip_addends (S : List Expr) : Expr → Expr
  | .app .ite [c, t, e] => .app .ite [c, strip_addends S t, strip_addends S e]
  | a => mk_add_app ((TO_BUFFER Expr.is_add a).filter (fun x => !decide (x ∈ S)))

theorem ite_leaves_ne_nil (a : Expr) : ite_leaves a ≠ [] := by
  induction a using Expr.induction_on with
  | hnum q => simp [ite_leaves]
  | hvar i => simp [ite_leaves]
  | happ f as ih =>
    by_cases hshape : ∃ c t e, Expr.app f as = .app .ite [c, t, e]
    · obtain ⟨c, t, e, heq⟩ := hshape
      simp only [Expr.app.injEq] at heq
      obtain ⟨rfl, rfl⟩ := heq
      rw [ite_leaves.eq_1]
      have := ih t (by simp)
      simp [this]
    · have hne : ∀ c t e, Expr.app f as = .app .ite [c, t, e] → False :=
        fun c t e h => hshape ⟨c, t, e, h⟩
      rw [ite_leaves.eq_2 _ hne]
      simp

theorem shared_from_append (sh l1 l2 : List Expr) :
    shared_from sh (l1 ++ l2) = shared_from (shared_from sh l1) l2 := by
  unfold shared_from
  rw [List.filter_filter]
  congr 1
  funext x
  rw [List.all_append, Bool.and_comm]

theorem shared_from_subset (sh leaves : List Expr) (h : shared_from sh leaves ≠ []) : sh ≠ [] := by
  intro hs
  subst hs
  exact h rfl

theorem shared_from_single (sh : List Expr) (a : Expr) :
    shared_from sh [a] = sh.filter (fun e => decide (e ∈ TO_BUFFER Expr.is_add a)) := by
  unfold shared_from
  congr 1
  funext x
  simp

theorem shared_addends_append (l1 l2 : List Expr) (h : l1 ≠ []) :
    shared_addends (l1 ++ l2) = shared_from (shared_addends l1) l2 := by
  cases l1 with
  | nil => exact absurd rfl h
  | cons l rest =>
    simp only [List.cons_append, shared_addends]
    exact shared_from_append _ _ _

theorem set_insert_all_nodup (es : List Expr) :
    ∀ sh : List Expr, (sh ++ es).Nodup → set_insert_all sh es = sh ++ es := by
  induction es with
  | nil => intro sh _; simp [set_insert_all]
  | cons e es ih =>
    intro sh h
    have hmem : e ∉ sh := by
      intro hm
      rw [List.nodup_append] at h
      exact h.2.2 hm (List.mem_cons_self _ _)
    simp only [set_insert_all, if_neg hmem]
    rw [ih (sh ++ [e]) (by simpa using h)]
    simp

theorem occurs_uniquely_of_nodup (l : List Expr) (h : l.Nodup) : occurs_uniquely l = true := by
  induction l with
  | nil => rfl
  | cons e es ih =>
    rw [List.nodup_cons] at h
    simp [occurs_uniquely, h.1, ih h.2]

theorem hoist_ite_leaf_next (a : Expr) (sh : List Expr) (g : ℚ) (hg : g ≠ 0)
    (hint : (is_int_numeral a).isSome = false) (hnd : (TO_BUFFER Expr.is_add a).Nodup)
    (hne : shared_from sh [a] ≠ []) :
    hoist_ite_leaf a sh g = (true, shared_from sh [a], 1) := by
  rw [shared_from_single] at hne ⊢
  unfold hoist_ite_leaf
  simp only [hint, Bool.false_eq_true, if_false, if_neg hg]
  have hemp : (sh.filter (fun e => decide (e ∈ TO_BUFFER Expr.is_add a))).isEmpty = false := by
    cases h : sh.filter (fun e => decide (e ∈ TO_BUFFER Expr.is_add a)) with
    | nil => exact absurd h hne
    | cons _ _ => rfl
  simp [hemp, occurs_uniquely_of_nodup _ hnd]

theorem hoist_ite_leaf_first (a : Expr)
    (hint : (is_int_numeral a).isSome = false) (hnd : (TO_BUFFER Expr.is_add a).Nodup)
    (hne : TO_BUFFER Expr.is_add a ≠ []) :
    hoist_ite_leaf a [] 0 = (true, TO_BUFFER Expr.is_add a, 1) := by
  unfold hoist_ite_leaf
  simp only [hint, Bool.false_eq_true, if_false, if_true]
  rw [set_insert_all_nodup _ [] (by simpa using hnd)]
  have hemp : ([] ++ TO_BUFFER Expr.is_add a).isEmpty = false := by
    cases h : TO_BUFFER Expr.is_add a with
    | nil => exact absurd h hne
    | cons _ _ => rfl
  simp [hemp, hne, occurs_uniquely_of_nodup _ hnd]

theorem hoist_ite_rec_next (a : Expr) :
    ∀ (sh : List Expr) (g : ℚ), g ≠ 0 →
      (∀ l ∈ ite_leaves a, (is_int_numeral l).isSome = false ∧
        (TO_BUFFER Expr.is_add l).Nodup) →
      shared_from sh (ite_leaves a) ≠ [] →
      hoist_ite_rec a sh g = (true, shared_from sh (ite_leaves a), 1) := by
  induction a using Expr.induction_on with
  | hnum q =>
    intro sh g hg hl hne
    rw [hoist_ite_rec.eq_2 _ _ _ (by intro _ _ _ h; cases h)]
    rw [ite_leaves.eq_2 _ (by intro _ _ _ h; cases h)] at hl hne ⊢
    exact hoist_ite_leaf_next _ sh g hg (hl _ (by simp)).1 (hl _ (by simp)).2 hne
  | hvar i =>
    intro sh g hg hl hne
    rw [hoist_ite_rec.eq_2 _ _ _ (by intro _ _ _ h; cases h)]
    rw [ite_leaves.eq_2 _ (by intro _ _ _ h; cases h)] at hl hne ⊢
    exact hoist_ite_leaf_next _ sh g hg (hl _ (by simp)).1 (hl _ (by simp)).2 hne
  | happ f as ih =>
    intro sh g hg hl hne
    by_cases hshape : ∃ c t e, Expr.app f as = .app .ite [c, t, e]
    · obtain ⟨c, t, e, heq⟩ := hshape
      simp only [Expr.app.injEq] at heq
      obtain ⟨rfl, rfl⟩ := heq
      rw [ite_leaves.eq_1] at hl hne ⊢
      rw [shared_from_append] at hne ⊢
      rw [hoist_ite_rec.eq_1]
      rw [ih t (by simp) sh g hg (fun l h => hl l (List.mem_append_left _ h))
        (shared_from_subset _ _ hne)]
      simp only
      exact ih e (by simp) _ 1 (by norm_num) (fun l h => hl l (List.mem_append_right _ h)) hne
    · have hne2 : ∀ c t e, Expr.app f as = .app .ite [c, t, e] → False :=
        fun c t e h => hshape ⟨c, t, e, h⟩
      rw [hoist_ite_rec.eq_2 _ _ _ hne2]
      rw [ite_leaves.eq_2 _ hne2] at hl hne ⊢
      exact hoist_ite_leaf_next _ sh g hg (hl _ (by simp)).1 (hl _ (by simp)).2 hne

theorem hoist_ite_rec_first (a : Expr) :
    (∀ l ∈ ite_leaves a, (is_int_numeral l).isSome = false ∧
        (TO_BUFFER Expr.is_add l).Nodup) →
      shared_addends (ite_leaves a) ≠ [] →
      hoist_ite_rec a [] 0 = (true, shared_addends (ite_leaves a), 1) := by
  have leaf : ∀ b : Expr, (is_int_numeral b).isSome = false ∧ (TO_BUFFER Expr.is_add b).Nodup →
      shared_addends [b] ≠ [] →
      hoist_ite_leaf b [] 0 = (true, shared_addends [b], 1) := by
    intro b hb hne
    have hs : shared_addends [b] = TO_BUFFER Expr.is_add b := by
      simp [shared_addends, shared_from]
    rw [hs] at hne ⊢
    exact hoist_ite_leaf_first b hb.1 hb.2 hne
  induction a using Expr.induction_on with
  | hnum q =>
    intro hl hne
    rw [hoist_ite_rec.eq_2 _ _ _ (by intro _ _ _ h; cases h)]
    rw [ite_leaves.eq_2 _ (by intro _ _ _ h; cases h)] at hl hne ⊢
    exact leaf _ (hl _ (by simp)) hne
  | hvar i =>
    intro hl hne
    rw [hoist_ite_rec.eq_2 _ _ _ (by intro _ _ _ h; cases h)]
    rw [ite_leaves.eq_2 _ (by intro _ _ _ h; cases h)] at hl hne ⊢
    exact leaf _ (hl _ (by simp)) hne
  | happ f as ih =>
    intro hl hne
    by_cases hshape : ∃ c t e, Expr.app f as = .app .ite [c, t, e]
    · obtain ⟨c, t, e, heq⟩ := hshape
      simp only [Expr.app.injEq] at heq
      obtain ⟨rfl, rfl⟩ := heq
      rw [ite_leaves.eq_1] at hl hne ⊢
      rw [shared_addends_append _ _ (ite_leaves_ne_nil t)] at hne ⊢
      rw [hoist_ite_rec.eq_1]
      rw [ih t (by simp) (fun l h => hl l (List.mem_append_left _ h))
        (shared_from_subset _ _ hne)]
      simp only
      exact hoist_ite_rec_next e _ 1 (by norm_num)
        (fun l h => hl l (List.mem_append_right _ h)) hne
    · have hne2 : ∀ c t e, Expr.app f as = .app .ite [c, t, e] → False :=
        fun c t e h => hshape ⟨c, t, e, h⟩
      rw [hoist_ite_rec.eq_2 _ _ _ hne2]
      rw [ite_leaves.eq_2 _ hne2] at hl hne ⊢
      exact leaf _ (hl _ (by simp)) hne

theorem apply_hoist_one (S : List Expr) (a : Expr) : apply_hoist 1 S a = strip_addends S a := by
  induction a using Expr.induction_on with
  | hnum q =>
    rw [apply_hoist.eq_2 _ _ _ (by intro _ _ _ h; cases h),
      strip_addends.eq_2 _ _ (by intro _ _ _ h; cases h)]
    simp [apply_hoist_leaf, is_nontrivial_gcd]
  | hvar i =>
    rw [apply_hoist.eq_2 _ _ _ (by intro _ _ _ h; cases h),
      strip_addends.eq_2 _ _ (by intro _ _ _ h; cases h)]
    simp [apply_hoist_leaf, is_nontrivial_gcd]
  | happ f as ih =>
    by_cases hshape : ∃ c t e, Expr.app f as = .app .ite [c, t, e]
    · obtain ⟨c, t, e, heq⟩ := hshape
      simp only [Expr.app.injEq] at heq
      obtain ⟨rfl, rfl⟩ := heq
      rw [apply_hoist.eq_1, strip_addends.eq_1, ih t (by simp), ih e (by simp)]
    · have hne2 : ∀ c t e, Expr.app f as = .app .ite [c, t, e] → False :=
        fun c t e h => hshape ⟨c, t, e, h⟩
      rw [apply_hoist.eq_2 _ _ _ hne2, strip_addends.eq_2 _ _ hne2]
      simp [apply_hoist_leaf, is_nontrivial_gcd]

theorem hoist_ite_summand_shared (rw : poly_rewriter) (a : Expr) (hite : a.is_ite = true)
    (hl : ∀ l ∈ ite_leaves a, (is_int_numeral l).isSome = false ∧
        (TO_BUFFER Expr.is_add l).Nodup)
    (hne : shared_addends (ite_leaves a) ≠ []) :
    rw.hoist_ite_summand a = some (mk_add_app
      (strip_addends (shared_addends (ite_leaves a)) a :: shared_addends (ite_leaves a))) := by
  unfold hoist_ite_summand
  rw [if_pos hite, hoist_ite_rec_first a hl hne]
  simp only
  obtain ⟨s, ss, hs⟩ : ∃ s ss, shared_addends (ite_leaves a) = s :: ss := by
    cases h : shared_addends (ite_leaves a) with
    | nil => exact absurd h hne
    | cons s ss => exact ⟨s, ss, rfl⟩
  rw [hs]
  simp only [List.isEmpty_cons, Bool.not_false, Bool.or_true, Bool.and_self, if_true,
    is_nontrivial_gcd, decide_True, Bool.not_true, Bool.and_false, Bool.false_eq_true, if_false,
    apply_hoist_one]
  rw [if_pos]
  intro h
  rw [h] at hite
  simp [mk_add_app, Expr.is_ite] at hite

end poly_rewriter

/-- The uninterpreted condition `p`. -/
def ex_p : Expr := .app (.uf 3) []

namespace poly_rewriter

/-- Claim C16 (as stated, refuted): with `hoist_ite` on, both leaves of
`(ite p (+ x y y) (+ x z))` contain the addend `x` exactly once, and both leaves of
`(ite p 1 (+ y 1))` contain the addend `1` exactly once, yet `hoist_ite` returns false and
leaves `(+ 1 (ite p (+ x y y) (+ x z)))` and `(+ x (ite p 1 (+ y 1)))` as they are: a leaf
with a repeated addend, or a leaf that is an integer numeral, stops the extraction. -/
theorem hoist_ite_shared_counterexample :
    ((∀ l ∈ ite_leaves (.app .ite [ex_p, .app .add [ex_x, ex_y, ex_y], .app .add [ex_x, ex_z]]),
        (TO_BUFFER Expr.is_add l).count ex_x = 1) ∧
      (example_rw true false false true true true false 10).hoist_ite
          (.app .add [.num 1,
            .app .ite [ex_p, .app .add [ex_x, ex_y, ex_y], .app .add [ex_x, ex_z]]]) =
        (false, .app .add [.num 1,
            .app .ite [ex_p, .app .add [ex_x, ex_y, ex_y], .app .add [ex_x, ex_z]]])) ∧
    ((∀ l ∈ ite_leaves (.app .ite [ex_p, .num 1, .app .add [ex_y, .num 1]]),
        (TO_BUFFER Expr.is_add l).count (.num 1) = 1) ∧
      (example_rw true false false true true true false 10).hoist_ite
          (.app .add [ex_x, .app .ite [ex_p, .num 1, .app .add [ex_y, .num 1]]]) =
        (false, .app .add [ex_x, .app .ite [ex_p, .num 1, .app .add [ex_y, .num 1]]])) := by
  decide!

/-- Claim C16 (amended): `hoist_ite` preserves meaning, and it extracts the shared addends
of an `ite` summand none of whose leaves is an integer numeral or has a repeated addend.
For every sum `e` that respects the arity contracts and every assignment (of values to the
atoms and of truth values to the conditions) the value of `e` after `hoist_ite` equals its
value before.  With `hoist_ite` on, if a summand `a` of `e` is an `ite` such that no leaf is
an integer numeral, no leaf has an addend twice, and the set `S` of addends that all the
leaves contain is not empty, then `hoist_ite` returns true and the new sum has, in the place
of `a`, the sum of the `ite` with `S` removed from every leaf followed by the members of `S`
(in the iteration order of the table).  In particular `(+ 1 (ite p (+ x 1) (+ x 2)))`
becomes `(+ 1 (+ (ite p 1 2) x))`. -/
theorem hoist_ite_shared (rw : poly_rewriter) (σ : Assignment) (e : Expr)
    (hwf : e.wf = true) :
    eval σ (rw.hoist_ite e).2 = eval σ e ∧
      (rw.m_hoist_ite = true → ∀ a ∈ TO_BUFFER Expr.is_add e, a.is_ite = true →
        (∀ l ∈ ite_leaves a, (is_int_numeral l).isSome = false ∧
          (TO_BUFFER Expr.is_add l).Nodup) →
        shared_addends (ite_leaves a) ≠ [] →
        (rw.hoist_ite e).1 = true ∧
          ∃ (f : Expr → Expr) (S : List Expr), S.Perm (shared_addends (ite_leaves a)) ∧
            (rw.hoist_ite e).2 = mk_add_app ((TO_BUFFER Expr.is_add e).map f) ∧
            f a = mk_add_app (strip_addends S a :: S)) ∧
      (rw.m_hoist_ite = true →
        rw.hoist_ite (.app .add [.num 1,
            .app .ite [ex_p, .app .add [ex_x, .num 1], .app .add [ex_x, .num 2]]]) =
          (true, .app .add [.num 1,
            .app .add [.app .ite [ex_p, .num 1, .num 2], ex_x]])) := by
  refine ⟨hoist_ite_spec rw σ e hwf, ?_, ?_⟩
  · intro hflag a ha hite hl hne
    have hs := hoist_ite_summand_shared rw a hite hl hne
    have hp : (List.filterMap rw.hoist_ite_summand (TO_BUFFER Expr.is_add e)).isEmpty = false := by
      cases hfm : List.filterMap rw.hoist_ite_summand (TO_BUFFER Expr.is_add e) with
      | nil =>
        have : mk_add_app (strip_addends (shared_addends (ite_leaves a)) a ::
            shared_addends (ite_leaves a)) ∈
            List.filterMap rw.hoist_ite_summand (TO_BUFFER Expr.is_add e) :=
          List.mem_filterMap.mpr ⟨a, ha, hs⟩
        rw [hfm] at this
        cases this
      | cons _ _ => rfl
    unfold hoist_ite
    simp only [hflag, Bool.not_true, Bool.false_eq_true, if_false, hp, Bool.not_false, if_true]
    exact ⟨trivial, fun b => (rw.hoist_ite_summand b).getD b, _, List.Perm.refl _, rfl,
      by simp only [hs, Option.getD_some]⟩
  · intro hflag
    have hs := hoist_ite_summand_shared rw
      (.app .ite [ex_p, .app .add [ex_x, .num 1], .app .add [ex_x, .num 2]]) rfl
      (by decide) (by decide)
    have hv : shared_addends (ite_leaves
        (.app .ite [ex_p, .app .add [ex_x, .num 1], .app .add [ex_x, .num 2]])) = [ex_x] := by
      decide
    rw [hv] at hs
    have hst : strip_addends [ex_x]
        (.app .ite [ex_p, .app .add [ex_x, .num 1], .app .add [ex_x, .num 2]]) =
        .app .ite [ex_p, .num 1, .num 2] := by decide
    rw [hst] at hs
    have hn : rw.hoist_ite_summand (.num 1) = none := rfl
    have hb : TO_BUFFER Expr.is_add (.app .add [.num 1,
        .app .ite [ex_p, .app .add [ex_x, .num 1], .app .add [ex_x, .num 2]]]) =
        [.num 1, .app .ite [ex_p, .app .add [ex_x, .num 1], .app .add [ex_x, .num 2]]] := by
      decide
    unfold hoist_ite
    simp only [hflag, Bool.not_true, Bool.false_eq_true, if_false, hb, List.filterMap_cons, hn,
      hs, List.filterMap_nil, List.isEmpty_cons, Bool.not_false, if_true, List.map_cons,
      List.map_nil, Option.getD_none, Option.getD_some]
    rfl

/-- Witness for `hoist_ite_shared`: `(+ 1 (ite p (+ x 1) (+ x 2)))` keeps its value. -/
theorem hoist_ite_shared_witness :
    eval ex_assignment ((example_rw true false false true true true false 10).hoist_ite
        (.app .add [.num 1,
          .app .ite [ex_p, .app .add [ex_x, .num 1], .app .add [ex_x, .num 2]]])).2 =
      eval ex_assignment (.app .add [.num 1,
          .app .ite [ex_p, .app .add [ex_x, .num 1], .app .add [ex_x, .num 2]]]) :=
  (hoist_ite_shared (example_rw true false false true true true false 10) ex_assignment
    (.app .add [.num 1, .app .ite [ex_p, .app .add [ex_x, .num 1], .app .add [ex_x, .num 2]]])
    (by decide)).1

/-- Claim C17 (code defect): on `(+ x (ite p 2 4))`, an `ite` summand whose leaves are the
integer numerals 2 and 4 with gcd 2, `hoist_ite` with the flag on returns false and leaves
the sum as it is; the summand is not replaced by `(* 2 (ite p 1 2))`.  The leaf case of
`hoist_ite(a, shared, g)` returns false at an integer numeral without touching `g`. -/
theorem hoist_ite_gcd_not_extracted :
    (example_rw true false false true true true false 10).hoist_ite
        (.app .add [ex_x, .app .ite [ex_p, .num 2, .num 4]]) =
      (false, .app .add [ex_x, .app .ite [ex_p, .num 2, .num 4]]) ∧
    hoist_ite_rec (.app .ite [ex_p, .num 2, .num 4]) [] 0 = (false, [], 0) := by
  decide!

end poly_rewriter

namespace poly_rewriter

/-! ## `gcd_test`: the divisibility condition -/

/-- Summands the divisibility condition speaks of: an integer numeral, or a product
`(* c pp)` with an integer coefficient `c`. -/
def int_summand (e : Expr) : Bool :=
  match e.is_numeral with
  | some c => c.isInt
  | none =>
    match is_mul_coeff e with
    | some (c, _) => c.isInt
    | none => false

/-- Coefficient of a non-constant monomial `(* c pp)`; a numeral has none. -/
def nonconst_coeff (e : Expr) : Option ℚ :=
  match e.is_numeral with
  | some _ => none
  | none => (is_mul_coeff e).map Prod.fst

/-- The number `g`: the gcd of `|c|` over the non-constant monomials `(* c pp)` of a list,
zero when there is none. -/
def coeff_gcd (ms : List Expr) : ℕ :=
  (ms.filterMap nonconst_coeff).foldr (fun c acc => Nat.gcd c.num.natAbs acc) 0

/-- Sum of the constants (numerals) of a list of monomials. -/
def const_sum (ms : List Expr) : ℚ := (ms.filterMap Expr.is_numeral).sum

theorem isInt_intCast (z : ℤ) : (z : ℚ).isInt = true := by simp [Rat.isInt]

theorem isInt_add {a b : ℚ} (ha : a.isInt = true) (hb : b.isInt = true) :
    (a + b).isInt = true := by
  rw [Rat.eq_num_of_isInt ha, Rat.eq_num_of_isInt hb, ← Int.cast_add]
  exact isInt_intCast _

theorem isInt_sub {a b : ℚ} (ha : a.isInt = true) (hb : b.isInt = true) :
    (a - b).isInt = true := by
  rw [Rat.eq_num_of_isInt ha, Rat.eq_num_of_isInt hb, ← Int.cast_sub]
  exact isInt_intCast _

theorem rational_gcd_nat (c : ℚ) (n : ℕ) :
    rational.gcd (rational.abs c) (n : ℚ) = ((Nat.gcd c.num.natAbs n : ℕ) : ℚ) := by
  have h1 : (rational.abs c).num.natAbs = c.num.natAbs := by
    unfold rational.abs
    split
    · rw [Rat.neg_num, Int.natAbs_neg]
    · rfl
  unfold rational.gcd
  rw [Int.gcd_eq_natAbs, h1, Rat.num_natCast, Int.natAbs_ofNat]

theorem coeff_gcd_cons_num (e : Expr) (rest : List Expr) (c : ℚ) (h : e.is_numeral = some c) :
    coeff_gcd (e :: rest) = coeff_gcd rest ∧ const_sum (e :: rest) = c + const_sum rest := by
  unfold coeff_gcd const_sum
  simp [List.filterMap_cons, nonconst_coeff, h]

theorem coeff_gcd_cons_mul (e : Expr) (rest : List Expr) (c : ℚ) (pp : Expr)
    (hn : e.is_numeral = none) (h : is_mul_coeff e = some (c, pp)) :
    coeff_gcd (e :: rest) = Nat.gcd c.num.natAbs (coeff_gcd rest) ∧
      const_sum (e :: rest) = const_sum rest := by
  unfold coeff_gcd const_sum
  simp [List.filterMap_cons, nonconst_coeff, h, hn]

theorem coeff_gcd_append (l1 l2 : List Expr) :
    coeff_gcd (l1 ++ l2) = Nat.gcd (coeff_gcd l1) (coeff_gcd l2) := by
  unfold coeff_gcd
  rw [List.filterMap_append, List.foldr_append]
  induction l1.filterMap nonconst_coeff with
  | nil => simp
  | cons c cs ih => simp only [List.foldr_cons, ih, Nat.gcd_assoc]

theorem const_sum_isInt (l : List Expr) (h : ∀ m ∈ l, int_summand m = true) :
    (const_sum l).isInt = true := by
  induction l with
  | nil => exact isInt_intCast 0
  | cons e rest ih =>
    have hr := ih (fun m hm => h m (List.mem_cons_of_mem _ hm))
    have he := h e (List.mem_cons_self _ _)
    unfold int_summand at he
    cases hn : e.is_numeral with
    | some c =>
      rw [hn] at he
      rw [(coeff_gcd_cons_num e rest c hn).2]
      exact isInt_add he hr
    | none =>
      rw [hn] at he
      simp only at he
      cases hm : is_mul_coeff e with
      | none => rw [hm] at he; cases he
      | some p =>
        obtain ⟨c, pp⟩ := p
        rw [(coeff_gcd_cons_mul e rest c pp hn hm).2]
        exact hr

theorem gcd_test_loop_exact (side : Bool) (l : List Expr) :
    ∀ (st : gcd_state) (n : ℕ), st.g = (n : ℚ) →
      (∀ m ∈ l, int_summand m = true ∧ nonconst_coeff m ≠ some 0) →
      ((gcd_test_loop side l st).1 = true →
        (gcd_test_loop side l st).2.g = ((Nat.gcd n (coeff_gcd l) : ℕ) : ℚ) ∧
        (gcd_test_loop side l st).2.offset =
          if side then st.offset + const_sum l else st.offset - const_sum l) ∧
      ((gcd_test_loop side l st).1 = false → Nat.gcd n (coeff_gcd l) = 1) := by
  induction l with
  | nil =>
    intro st n hg _
    simp [gcd_test_loop, coeff_gcd, const_sum, hg]
  | cons e rest ih =>
    intro st n hg hl
    have he := hl e (List.mem_cons_self _ _)
    have hrest : ∀ m ∈ rest, int_summand m = true ∧ nonconst_coeff m ≠ some 0 :=
      fun m hm => hl m (List.mem_cons_of_mem _ hm)
    obtain ⟨he1, he2⟩ := he
    unfold int_summand at he1
    unfold nonconst_coeff at he2
    rw [gcd_test_loop]
    cases hn : e.is_numeral with
    | some c =>
      rw [hn] at he1
      simp only at he1
      obtain ⟨hG, hC⟩ := coeff_gcd_cons_num e rest c hn
      have hstep : gcd_test_step side e st =
          (true, { st with offset := if side then st.offset + c else st.offset - c }) := by
        unfold gcd_test_step
        simp [hn, he1]
      rw [hstep]
      simp only
      have := ih { st with offset := if side then st.offset + c else st.offset - c } n hg hrest
      rw [hG, hC]
      refine ⟨fun h => ⟨(this.1 h).1, ?_⟩, this.2⟩
      rw [(this.1 h).2]
      cases side <;> simp <;> ring
    | none =>
      rw [hn] at he1 he2
      simp only at he1 he2
      cases hm : is_mul_coeff e with
      | none => rw [hm] at he1; cases he1
      | some p =>
        obtain ⟨c, pp⟩ := p
        rw [hm] at he1 he2
        simp only [Option.map_some', ne_eq, Option.some.injEq] at he1 he2
        obtain ⟨hG, hC⟩ := coeff_gcd_cons_mul e rest c pp hn hm
        have hgn : rational.gcd (rational.abs c) st.g = ((Nat.gcd c.num.natAbs n : ℕ) : ℚ) := by
          rw [hg]
          exact rational_gcd_nat c n
        have hstep : gcd_test_step side e st =
            (!decide (Nat.gcd c.num.natAbs n = 1),
              { st with g := ((Nat.gcd c.num.natAbs n : ℕ) : ℚ) }) := by
          unfold gcd_test_step
          simp only [hn, hm, he1, he2, Bool.not_true, decide_False, Bool.or_self,
            Bool.false_eq_true, if_false, hgn, Nat.cast_eq_one]
        rw [hstep, hG, hC]
        have hassoc : Nat.gcd n (Nat.gcd c.num.natAbs (coeff_gcd rest)) =
            Nat.gcd (Nat.gcd c.num.natAbs n) (coeff_gcd rest) := by
          rw [← Nat.gcd_assoc, Nat.gcd_comm n]
        by_cases h1 : Nat.gcd c.num.natAbs n = 1
        · simp only [h1, decide_True, Bool.not_true]
          refine ⟨fun h => Bool.noConfusion h, fun _ => ?_⟩
          rw [hassoc, h1, Nat.gcd_one_left]
        · simp only [h1, decide_False, Bool.not_false]
          have := ih { st with g := ((Nat.gcd c.num.natAbs n : ℕ) : ℚ) }
            (Nat.gcd c.num.natAbs n) rfl hrest
          rw [hassoc]
          exact this

theorem divides_one (x : ℚ) (h : x.isInt = true) : rational.divides ((1 : ℕ) : ℚ) x = true := by
  unfold rational.divides
  simpa using h

/-- Claim C18 (as stated, refuted): every summand of `(+ (* 0 x) (* 2 y))` and of `1` is an
integer numeral or a product with an integer coefficient, the gcd of the coefficients is 2
and the offset is -1, which 2 does not divide; yet `gcd_test` returns true, because a zero
coefficient ends the test. -/
theorem gcd_test_divisibility_counterexample :
    (∀ m ∈ get_monomials (.app .add [.app .mul [.num 0, ex_x], .app .mul [.num 2, ex_y]]) ++
        get_monomials (.num 1), int_summand m = true) ∧
      gcd_test (.app .add [.app .mul [.num 0, ex_x], .app .mul [.num 2, ex_y]]) (.num 1) = true ∧
      coeff_gcd (get_monomials (.app .add [.app .mul [.num 0, ex_x], .app .mul [.num 2, ex_y]]) ++
        get_monomials (.num 1)) = 2 ∧
      const_sum (get_monomials (.app .add [.app .mul [.num 0, ex_x], .app .mul [.num 2, ex_y]])) -
        const_sum (get_monomials (.num 1)) = -1 ∧
      ¬ ((-1 : ℚ) = 0 ∨ ((2 : ℕ) : ℚ) = 0 ∨ rational.divides ((2 : ℕ) : ℚ) (-1) = true) := by
  decide!

/-- Claim C18 (amended): `gcd_test` computes the divisibility condition.  For every `lhs`
and `rhs` all of whose summands are integer numerals or products `(* c pp)` with a nonzero
integer coefficient `c`, `gcd_test(lhs, rhs)` returns true if and only if `offset = 0` or
`g = 0` or `g` divides `offset`, where `g` is the gcd of `|c|` over all non-constant
monomials of both sides and `offset` is the sum of the constants of `lhs` minus the sum of
the constants of `rhs`. -/
theorem gcd_test_divisibility (lhs rhs : Expr)
    (h : ∀ m ∈ get_monomials lhs ++ get_monomials rhs,
      int_summand m = true ∧ nonconst_coeff m ≠ some 0) :
    gcd_test lhs rhs = true ↔
      (const_sum (get_monomials lhs) - const_sum (get_monomials rhs) = 0 ∨
        ((coeff_gcd (get_monomials lhs ++ get_monomials rhs) : ℕ) : ℚ) = 0 ∨
        rational.divides ((coeff_gcd (get_monomials lhs ++ get_monomials rhs) : ℕ) : ℚ)
          (const_sum (get_monomials lhs) - const_sum (get_monomials rhs)) = true) := by
  have hl : ∀ m ∈ get_monomials lhs, int_summand m = true ∧ nonconst_coeff m ≠ some 0 :=
    fun m hm => h m (List.mem_append_left _ hm)
  have hr : ∀ m ∈ get_monomials rhs, int_summand m = true ∧ nonconst_coeff m ≠ some 0 :=
    fun m hm => h m (List.mem_append_right _ hm)
  have hoff : (const_sum (get_monomials lhs) - const_sum (get_monomials rhs)).isInt = true :=
    isInt_sub (const_sum_isInt _ (fun m hm => (hl m hm).1))
      (const_sum_isInt _ (fun m hm => (hr m hm).1))
  have h1 := gcd_test_loop_exact true (get_monomials lhs) { g := 0, offset := 0 } 0
    (by simp) hl
  rw [coeff_gcd_append]
  unfold gcd_test
  generalize gcd_test_loop true (get_monomials lhs) { g := 0, offset := 0 } = r1 at h1
  obtain ⟨b1, st1⟩ := r1
  cases b1 with
  | false =>
    simp only [true_iff]
    have := h1.2 rfl
    rw [Nat.gcd_zero_left] at this
    rw [this, Nat.gcd_one_left]
    exact Or.inr (Or.inr (divides_one _ hoff))
  | true =>
    obtain ⟨hg1, ho1⟩ := h1.1 rfl
    simp only [Nat.gcd_zero_left, if_true, zero_add] at hg1 ho1
    have h2 := gcd_test_loop_exact false (get_monomials rhs) st1 _ hg1 hr
    simp only
    generalize gcd_test_loop false (get_monomials rhs) st1 = r2 at h2
    obtain ⟨b2, st2⟩ := r2
    cases b2 with
    | false =>
      simp only [true_iff]
      rw [h2.2 rfl]
      exact Or.inr (Or.inr (divides_one _ hoff))
    | true =>
      obtain ⟨hg2, ho2⟩ := h2.1 rfl
      simp only [Bool.false_eq_true, if_false] at hg2 ho2
      simp only [hg2, ho2, ho1]
      by_cases ha : const_sum (get_monomials lhs) - const_sum (get_monomials rhs) = 0
      · simp [ha]
      · by_cases hb : (((coeff_gcd (get_monomials lhs)).gcd (coeff_gcd (get_monomials rhs)) : ℕ)
            : ℚ) = 0
        · simp [ha, hb]
        · cases hd : rational.divides
            (((coeff_gcd (get_monomials lhs)).gcd (coeff_gcd (get_monomials rhs)) : ℕ) : ℚ)
            (const_sum (get_monomials lhs) - const_sum (get_monomials rhs)) <;>
          simp [ha, hb, hd]

/-- Witness for `gcd_test_divisibility`: for `2*x + 1 = 4*y` the gcd is 2 and the offset is
1. -/
theorem gcd_test_divisibility_witness :
    gcd_test (.app .add [.app .mul [.num 2, ex_x], .num 1]) (.app .mul [.num 4, ex_y]) = false ∧
      coeff_gcd (get_monomials (.app .add [.app .mul [.num 2, ex_x], .num 1]) ++
        get_monomials (.app .mul [.num 4, ex_y])) = 2 ∧
      (gcd_test (.app .add [.app .mul [.num 2, ex_x], .num 1]) (.app .mul [.num 4, ex_y]) = true ↔
      (const_sum (get_monomials (.app .add [.app .mul [.num 2, ex_x], .num 1])) -
          const_sum (get_monomials (.app .mul [.num 4, ex_y])) = 0 ∨
        ((coeff_gcd (get_monomials (.app .add [.app .mul [.num 2, ex_x], .num 1]) ++
          get_monomials (.app .mul [.num 4, ex_y])) : ℕ) : ℚ) = 0 ∨
        rational.divides ((coeff_gcd (get_monomials (.app .add [.app .mul [.num 2, ex_x], .num 1])
          ++ get_monomials (.app .mul [.num 4, ex_y])) : ℕ) : ℚ)
          (const_sum (get_monomials (.app .add [.app .mul [.num 2, ex_x], .num 1])) -
            const_sum (get_monomials (.app .mul [.num 4, ex_y]))) = true)) :=
  ⟨by decide!, by decide!,
    gcd_test_divisibility (.app .add [.app .mul [.num 2, ex_x], .num 1])
      (.app .mul [.num 4, ex_y]) (by decide!)⟩

end poly_rewriter

namespace poly_rewriter

/-! ## Runs of equal bases -/

/-- A factor with base `p.1` and exponent `p.2` put in front of a list of runs: it joins the
first run when the bases are the same term, and starts a run of its own otherwise. -/
def merge_run (p : Expr × ℚ) : List (Expr × ℚ) → List (Expr × ℚ)
  | [] => [p]
  | r :: runs => if p.1 = r.1 then (p.1, p.2 + r.2) :: runs else p :: r :: runs

/-- The maximal runs of consecutive factors with the same base, in order, each given by its
base and the sum of the exponents of its factors; base and exponent of a factor are those of
`get_power_body`. -/
def power_runs : List Expr → List (Expr × ℚ)
  | [] => []
  | a :: rest => merge_run (get_power_body a) (power_runs rest)

/-- The factor emitted for a run: the base when the exponents sum to one, and `(^ base k)`
with `k` the sum of the exponents otherwise. -/
def emit_run (r : Expr × ℚ) : Expr := if r.2 = 1 then r.1 else mk_power r.1 r.2

theorem merge_run_head (p : Expr × ℚ) (runs : List (Expr × ℚ)) :
    ∃ k rs, merge_run p runs = (p.1, k) :: rs := by
  cases runs with
  | nil => exact ⟨p.2, [], rfl⟩
  | cons r rs =>
    simp only [merge_run]
    split
    · exact ⟨_, _, rfl⟩
    · exact ⟨p.2, r :: rs, rfl⟩

theorem merge_run_merge (p : Expr) (k k2 : ℚ) (runs : List (Expr × ℚ)) :
    merge_run (p, k) (merge_run (p, k2) runs) = merge_run (p, k + k2) runs := by
  cases runs with
  | nil => simp [merge_run]
  | cons r rs =>
    simp only [merge_run]
    by_cases h : p = r.1
    · simp [h, merge_run, add_assoc]
    · simp [h, merge_run]

theorem merge_run_ne (p q : Expr × ℚ) (runs : List (Expr × ℚ)) (h : q.1 ≠ p.1) :
    merge_run p (merge_run q runs) = p :: merge_run q runs := by
  obtain ⟨k, rs, hm⟩ := merge_run_head q runs
  rw [hm]
  simp only [merge_run]
  rw [if_neg (fun e => h e.symm)]

/-- The loop of `mk_mul_app` emits the maximal runs. -/
theorem fold_powers_runs (rest : List Expr) :
    ∀ (prev : Expr) (k : ℚ),
      fold_powers prev k rest = (merge_run (prev, k) (power_runs rest)).map emit_run := by
  induction rest with
  | nil => intro prev k; simp [fold_powers, power_runs, merge_run, emit_run, push_power]
  | cons a rest ih =>
    intro prev k
    simp only [fold_powers, power_runs]
    split
    · rename_i heq
      rw [ih]
      have hp : get_power_body a = (prev, (get_power_body a).2) := by
        rw [← heq]
      rw [hp, merge_run_merge]
    · rename_i hne
      rw [ih, merge_run_ne (prev, k) (get_power_body a) _ hne]
      simp [emit_run, push_power]

theorem power_runs_map_ne_nil (a : Expr) (rest : List Expr) :
    (power_runs (a :: rest)).map emit_run ≠ [] := by
  obtain ⟨k, rs, hm⟩ := merge_run_head (get_power_body a) (power_runs rest)
  simp [power_runs, hm]

theorem power_runs_length (l : List Expr) : (power_runs l).length ≤ l.length := by
  induction l with
  | nil => simp [power_runs]
  | cons a rest ih =>
    simp only [power_runs]
    cases h : power_runs rest with
    | nil => rw [h] at ih; simp [merge_run]
    | cons r rs =>
      rw [h] at ih
      simp only [merge_run]
      split <;> simp only [List.length_cons] at ih ⊢ <;> omega

theorem mk_mul_app_num_aux_fuel (rw : poly_rewriter) (f g : Nat) (c : ℚ) (arg : Expr) :
    mk_mul_app_num_aux rw (f + 2) c arg = mk_mul_app_num_aux rw (g + 2) c arg := by
  rw [mk_mul_app_num_aux, mk_mul_app_num_aux]
  split
  · rfl
  · split
    · rfl
    · exact mk_mul_app_aux_pair_fuel rw _ _ _ _

/-- The bound on the recursion depth of `mk_mul_app` is immaterial once it is at least the
number of factors. -/
theorem mk_mul_app_aux_fuel (rw : poly_rewriter) (f : Nat) :
    ∀ (g : Nat) (l : List Expr), l.length ≤ f → l.length ≤ g →
      mk_mul_app_aux rw f l = mk_mul_app_aux rw g l := by
  induction f with
  | zero =>
    intro g l hf _
    match l, hf with
    | [], _ => cases g <;> simp [mk_mul_app_aux]
  | succ f ih =>
    intro g l hf hg
    match l, hf, hg with
    | [], _, _ => cases g <;> simp [mk_mul_app_aux]
    | [a], _, _ => cases g <;> simp [mk_mul_app_aux]
    | a0 :: a1 :: rest, hf, hg =>
      obtain ⟨g, rfl⟩ : ∃ g2, g = g2 + 1 := ⟨g - 1, by simp only [List.length_cons] at hg; omega⟩
      simp only [List.length_cons] at hf hg
      have hnum : ∀ (a : ℚ) (tl : List Expr), tl.length ≤ rest.length + 1 → 2 ≤ tl.length →
          mk_mul_app_num_aux rw f a (mk_mul_app_aux rw f tl) =
            mk_mul_app_num_aux rw g a (mk_mul_app_aux rw g tl) := by
        intro a tl h1 h2
        rw [ih g tl (by omega) (by omega)]
        obtain ⟨f2, rfl⟩ : ∃ f2, f = f2 + 2 := ⟨f - 2, by omega⟩
        obtain ⟨g2, rfl⟩ : ∃ g2, g = g2 + 2 := ⟨g - 2, by omega⟩
        exact mk_mul_app_num_aux_fuel rw f2 g2 a _
      conv_lhs => rw [mk_mul_app_aux]
      conv_rhs => rw [mk_mul_app_aux]
      split
      · have hlen := fold_powers_length (get_power_body a0).1 (get_power_body a0).2 (a1 :: rest)
        split
        · rfl
        · rfl
        · rename_i x y new_rest heq
          rw [heq] at hlen
          simp only [List.length_cons] at hlen
          split
          · split
            · rename_i hlong
              simp only [List.length_cons] at hlong
              exact hnum _ (y :: new_rest) (by simp only [List.length_cons]; omega)
                (by simp only [List.length_cons]; omega)
            · rfl
          · rfl
      · split
        · split
          · rename_i hlong
            simp only [List.length_cons] at hlong
            exact hnum _ (a1 :: rest) (by simp) (by simp only [List.length_cons]; omega)
          · rfl
        · rfl

/-- Claim C20 (as stated, refuted): with `use_power` on, the three factors `2`, `x`, `y`
form three runs, emitted as `2`, `x` and `y`, but the result of `mk_mul_app` is
`(* 2 (* x y))`, which has two factors. -/
theorem mk_mul_app_folds_runs_counterexample :
    (power_runs [.num 2, ex_x, ex_y]).map emit_run = [.num 2, ex_x, ex_y] ∧
      (example_rw true false false false true true true 10).mk_mul_app [.num 2, ex_x, ex_y] =
        .app .mul [.num 2, .app .mul [ex_x, ex_y]] ∧
      ((example_rw true false false false true true true 10).mk_mul_app
        [.num 2, ex_x, ex_y]).get_args.length = 2 := by
  decide!

/-- Claim C20 (amended): `mk_mul_app` folds runs of equal bases.  With `use_power` on, for
every list of `n >= 2` factors, take the maximal runs of consecutive input factors with the
same base, in order, a run whose exponents (`k` for `(^ b k)` with integer `k >= 2`, else 1)
sum to 1 being emitted as the base and any other run as `(^ base k)` with `k` the sum of the
run's exponents.  A single emitted factor is returned bare.  When the first emitted factor is
not a numeral, or there are exactly two emitted factors, the result is the product whose
factors are the emitted ones, one to one and in order.  When the first emitted factor is a
numeral `a` and at least two more follow, the result is `mk_mul_app(a, p)` with `p` the
result of `mk_mul_app` on the remaining emitted factors: the nested product `(* a p)`. -/
theorem mk_mul_app_folds_runs (rw : poly_rewriter) (hpow : rw.use_power = true)
    (args : List Expr) (hn : 2 ≤ args.length) :
    (∀ x, (power_runs args).map emit_run = [x] → rw.mk_mul_app args = x) ∧
      (∀ x y rest, (power_runs args).map emit_run = x :: y :: rest →
        (x.is_numeral = none ∨ rest = []) → rw.mk_mul_app args = .app .mul (x :: y :: rest)) ∧
      (∀ a y z rest, (power_runs args).map emit_run = .num a :: y :: z :: rest →
        rw.mk_mul_app args = rw.mk_mul_app_num a (rw.mk_mul_app (y :: z :: rest))) := by
  match args, hn with
  | a0 :: a1 :: tl, _ =>
    have hfold : fold_powers (get_power_body a0).1 (get_power_body a0).2 (a1 :: tl) =
        (power_runs (a0 :: a1 :: tl)).map emit_run := by
      rw [fold_powers_runs]
      rfl
    have hlen := power_runs_length (a0 :: a1 :: tl)
    refine ⟨?_, ?_, ?_⟩
    · intro x hx
      unfold mk_mul_app
      rw [mk_mul_app_aux]
      simp only [hpow, if_true, hfold, hx]
    · intro x y rest hx hor
      unfold mk_mul_app
      rw [mk_mul_app_aux]
      simp only [hpow, if_true, hfold, hx]
      rcases hor with h | h
      · rw [h]
      · subst h
        cases x.is_numeral <;> simp
    · intro a y z rest hx
      have hl : (y :: z :: rest).length ≤ tl.length + 1 := by
        have : ((power_runs (a0 :: a1 :: tl)).map emit_run).length =
            (Expr.num a :: y :: z :: rest).length := by rw [hx]
        simp only [List.length_map, List.length_cons] at this hlen ⊢
        omega
      have hlong : 2 < (Expr.num a :: y :: z :: rest).length := by
        simp only [List.length_cons]
        omega
      unfold mk_mul_app
      rw [mk_mul_app_aux]
      simp only [hpow, if_true, hfold, hx, Expr.is_numeral, if_pos hlong]
      unfold mk_mul_app_num
      rw [mk_mul_app_aux_fuel rw (a0 :: a1 :: tl).length ((y :: z :: rest).length + 1)
        (y :: z :: rest) (by simp only [List.length_cons] at hl ⊢; omega) (by omega)]
      exact mk_mul_app_num_aux_fuel rw tl.length 1 a _

/-- Witness for `mk_mul_app_folds_runs`: the factors `x`, `x`, `y` form the runs `(^ x 2)` and
`y`, and `2`, `x`, `x`, `y` give `(* 2 (* (^ x 2) y))`. -/
theorem mk_mul_app_folds_runs_witness :
    (example_rw true false false false true true true 10).mk_mul_app [ex_x, ex_x, ex_y] =
      .app .mul [.app .power [ex_x, .num 2], ex_y] :=
  (mk_mul_app_folds_runs (example_rw true false false false true true true 10) rfl
    [ex_x, ex_x, ex_y] (by decide)).2.1 (.app .power [ex_x, .num 2]) ex_y [] (by decide!)
    (Or.inl rfl)

end poly_rewriter

namespace poly_rewriter

/-! ## Bases of the factors of a folded product -/

theorem get_power_body_snd_int (t : Expr) : (get_power_body t).2.isInt = true := by
  unfold get_power_body
  split
  · exact isInt_intCast 1
  · cases (t.get_arg 1).is_numeral with
    | none => exact isInt_intCast 1
    | some k =>
      simp only
      split
      · rename_i h
        simp only [Bool.and_eq_true, decide_eq_true_eq] at h
        exact h.1
      · exact isInt_intCast 1

theorem get_power_body_one (t : Expr) (h : (get_power_body t).2 = 1) :
    get_power_body t = (t, 1) := by
  unfold get_power_body at h ⊢
  by_cases hp : t.is_power = true
  · simp only [hp, Bool.not_true, Bool.false_eq_true, if_false] at h ⊢
    cases hk : (t.get_arg 1).is_numeral with
    | none => rfl
    | some k =>
      rw [hk] at h
      simp only at h ⊢
      by_cases hc : (k.isInt && decide (1 < k)) = true
      · rw [if_pos hc] at h
        simp only [Bool.and_eq_true, decide_eq_true_eq] at hc
        simp only at h
        rw [h] at hc
        exact absurd hc.2 (lt_irrefl _)
      · rw [if_neg hc]
  · simp [hp]

theorem get_power_body_mk_power (b : Expr) (k : ℚ) (hi : k.isInt = true) (hk : 1 < k) :
    get_power_body (mk_power b k) = (b, k) := by
  simp [get_power_body, mk_power, Expr.is_power, Expr.get_arg, Expr.get_args, Expr.is_numeral,
    hi, hk]

/-- A run as `power_runs` builds it: the exponent is an integer, at least one, and a run
with exponent one is a single factor that is its own base. -/
def run_ok (r : Expr × ℚ) : Prop :=
  r.2.isInt = true ∧ 1 ≤ r.2 ∧ (r.2 = 1 → get_power_body r.1 = (r.1, 1))

theorem run_ok_get_power_body (a : Expr) : run_ok (get_power_body a) := by
  refine ⟨get_power_body_snd_int a, get_power_body_snd_ge a, fun h => ?_⟩
  have h1 := get_power_body_one a h
  rw [h1]
  exact h1

theorem run_ok_base (r : Expr × ℚ) (h : run_ok r) : (get_power_body (emit_run r)).1 = r.1 := by
  obtain ⟨h1, h2, h3⟩ := h
  unfold emit_run
  split
  · rename_i h1k
    rw [h3 h1k]
  · rename_i hne
    rw [get_power_body_mk_power _ _ h1 (lt_of_le_of_ne h2 (Ne.symm hne))]

theorem run_ok_merge (p : Expr × ℚ) (runs : List (Expr × ℚ)) (hp : run_ok p)
    (hr : ∀ r ∈ runs, run_ok r) : ∀ r ∈ merge_run p runs, run_ok r := by
  cases runs with
  | nil => intro r h; simp only [merge_run, List.mem_singleton] at h; rw [h]; exact hp
  | cons r0 rs =>
    intro r h
    simp only [merge_run] at h
    split at h
    · rcases List.mem_cons.mp h with h | h
      · have h0 := hr r0 (List.mem_cons_self _ _)
        rw [h]
        refine ⟨isInt_add hp.1 h0.1, ?_, fun h1 => ?_⟩
        · have := hp.2.1; have := h0.2.1; simp only; linarith
        · have := hp.2.1; have := h0.2.1; simp only at h1; linarith
      · exact hr r (List.mem_cons_of_mem _ h)
    · rcases List.mem_cons.mp h with h | h
      · rw [h]; exact hp
      · exact hr r h

theorem power_runs_ok (l : List Expr) : ∀ r ∈ power_runs l, run_ok r := by
  induction l with
  | nil => intro r h; simp [power_runs] at h
  | cons a rest ih => exact run_ok_merge _ _ (run_ok_get_power_body a) ih

theorem merge_run_chain (p : Expr × ℚ) (runs : List (Expr × ℚ))
    (h : List.Chain' (fun r s => r.1 ≠ s.1) runs) :
    List.Chain' (fun r s => r.1 ≠ s.1) (merge_run p runs) := by
  cases runs with
  | nil => simp [merge_run]
  | cons r0 rs =>
    simp only [merge_run]
    split
    · rename_i heq
      cases rs with
      | nil => simp
      | cons r1 rs2 =>
        rw [List.chain'_cons] at h ⊢
        exact ⟨by simpa [heq] using h.1, h.2⟩
    · rename_i hne
      exact List.Chain'.cons hne h

theorem power_runs_chain (l : List Expr) :
    List.Chain' (fun r s => r.1 ≠ s.1) (power_runs l) := by
  induction l with
  | nil => simp [power_runs]
  | cons a rest ih => exact merge_run_chain _ _ ih

theorem merge_run_sublist (p : Expr × ℚ) (runs : List (Expr × ℚ)) :
    List.Sublist ((merge_run p runs).map Prod.fst) (p.1 :: runs.map Prod.fst) := by
  cases runs with
  | nil => simp [merge_run]
  | cons r0 rs =>
    simp only [merge_run]
    split
    · rename_i heq
      simp only [List.map_cons, heq]
      exact List.sublist_cons_self _ _
    · simp

theorem power_runs_sublist (l : List Expr) :
    List.Sublist ((power_runs l).map Prod.fst) (l.map (fun a => (get_power_body a).1)) := by
  induction l with
  | nil => simp [power_runs]
  | cons a rest ih =>
    simp only [power_runs, List.map_cons]
    exact (merge_run_sublist _ _).trans (List.Sublist.cons₂ _ ih)

theorem emitted_chain_of (runs : List (Expr × ℚ)) (hok : ∀ r ∈ runs, run_ok r)
    (h : List.Chain' (fun r s => r.1 ≠ s.1) runs) :
    List.Chain' (fun x y => (get_power_body x).1 ≠ (get_power_body y).1)
      (runs.map emit_run) := by
  induction runs with
  | nil => simp
  | cons r rs ih =>
    cases rs with
    | nil => simp
    | cons s rs2 =>
      rw [List.chain'_cons] at h
      simp only [List.map_cons] at ih ⊢
      rw [List.chain'_cons]
      refine ⟨?_, ih (fun x hx => hok x (List.mem_cons_of_mem _ hx)) h.2⟩
      rw [run_ok_base r (hok r (List.mem_cons_self _ _)),
        run_ok_base s (hok s (List.mem_cons_of_mem _ (List.mem_cons_self _ _)))]
      exact h.1

/-- Adjacent emitted factors have different bases. -/
theorem emitted_chain (l : List Expr) :
    List.Chain' (fun x y => (get_power_body x).1 ≠ (get_power_body y).1)
      ((power_runs l).map emit_run) :=
  emitted_chain_of _ (power_runs_ok l) (power_runs_chain l)

/-- When the identifiers of the bases do not decrease along the list, the emitted factors
have pairwise different bases. -/
theorem emitted_pairwise (rw : poly_rewriter) (l : List Expr)
    (hs : List.Pairwise
      (fun a b => rw.get_id (get_power_body a).1 ≤ rw.get_id (get_power_body b).1) l) :
    List.Pairwise (fun x y => (get_power_body x).1 ≠ (get_power_body y).1)
      ((power_runs l).map emit_run) := by
  have h1 : List.Pairwise (fun b c => rw.get_id b ≤ rw.get_id c)
      ((power_runs l).map Prod.fst) :=
    List.Pairwise.sublist (power_runs_sublist l) ((List.pairwise_map).mpr hs)
  have h2 : List.Chain' (fun b c => b ≠ c) ((power_runs l).map Prod.fst) :=
    (List.chain'_map _).mpr (power_runs_chain l)
  have h3 : List.Chain' (fun b c => rw.get_id b < rw.get_id c)
      ((power_runs l).map Prod.fst) := by
    have hc := List.Pairwise.chain' h1
    generalize (power_runs l).map Prod.fst = bs at h2 hc
    induction bs with
    | nil => simp
    | cons b bs ih =>
      cases bs with
      | nil => simp
      | cons b2 bs2 =>
        rw [List.chain'_cons] at h2 hc ⊢
        exact ⟨lt_of_le_of_ne hc.1 (fun e => h2.1 (rw.get_id_inj e)), ih h2.2 hc.2⟩
  have h4 : List.Pairwise (fun b c => rw.get_id b < rw.get_id c)
      ((power_runs l).map Prod.fst) := by
    have : IsTrans Expr (fun b c => rw.get_id b < rw.get_id c) :=
      ⟨fun _ _ _ h1 h2 => lt_trans h1 h2⟩
    exact List.chain'_iff_pairwise.mp h3
  rw [List.pairwise_map] at h4 ⊢
  refine List.Pairwise.imp_of_mem ?_ h4
  intro r s hr hs2 hlt
  rw [run_ok_base r (power_runs_ok l r hr), run_ok_base s (power_runs_ok l s hs2)]
  intro e
  rw [e] at hlt
  exact lt_irrefl _ hlt

/-- Factors for which the ordinal of `mon_lt` is the identifier of the base: not a product
with a leading numeral, and not a power whose exponent is a numeral greater than one that is
not an integer. -/
def plain_factor (e : Expr) : Bool :=
  !(e.is_mul && (e.get_arg 0).is_numeral.isSome) &&
  !(e.is_power &&
    (match (e.get_arg 1).is_numeral with
     | some k => decide (1 < k) && !k.isInt
     | none => false))

theorem ordinal_plain (rw : poly_rewriter) (hpow : rw.use_power = true) (e : Expr)
    (hn : e.is_numeral = none) (hp : plain_factor e = true) :
    rw.ordinal e = (rw.get_id (get_power_body e).1 : Int) := by
  unfold plain_factor at hp
  simp only [Bool.and_eq_true, Bool.not_eq_true', Bool.and_eq_false_imp] at hp
  obtain ⟨hp1, hp2⟩ := hp
  unfold ordinal
  by_cases hv : is_essentially_var e = true
  · rw [if_pos hv]
    have hnp : e.is_power = false := by
      cases e with
      | num q => rfl
      | var i => rfl
      | app f as => cases f <;> simp [is_essentially_var, Func.is_arith] at hv <;> rfl
    simp [get_power_body, hnp]
  · rw [if_neg hv]
    by_cases hm : e.is_mul = true
    · rw [if_pos hm]
      have h0 := hp1 hm
      have hnp : e.is_power = false := by
        obtain ⟨as, rfl⟩ := is_mul_shape hm
        rfl
      simp [h0, get_power_body, hnp]
    · rw [if_neg hm]
      simp only [hn, Option.isSome_none, Bool.false_eq_true, if_false, hpow, Bool.true_and]
      by_cases hpw : e.is_power = true
      · have h2 := hp2 hpw
        simp only [get_power_body, hpw, Bool.not_true, Bool.false_eq_true, if_false,
          Bool.true_and]
        cases hk : (e.get_arg 1).is_numeral with
        | none => simp
        | some k =>
          rw [hk] at h2
          simp only [Bool.and_eq_false_imp, decide_eq_true_eq, Bool.not_eq_false'] at h2
          simp only
          by_cases hlt : 1 < k
          · simp [hlt, h2 hlt]
          · simp [hlt]
      · simp [get_power_body, hpw]

end poly_rewriter

namespace poly_rewriter

theorem merge_run_head_ge (p : Expr × ℚ) (runs : List (Expr × ℚ))
    (hr : ∀ r ∈ runs, 1 ≤ r.2) :
    ∃ k rs, merge_run p runs = (p.1, k) :: rs ∧ p.2 ≤ k := by
  cases runs with
  | nil => exact ⟨p.2, [], rfl, le_refl _⟩
  | cons r rs =>
    simp only [merge_run]
    split
    · have := hr r (List.mem_cons_self _ _)
      exact ⟨_, _, rfl, by linarith⟩
    · exact ⟨p.2, r :: rs, rfl, le_refl _⟩

/-- The first factor emitted for a list that starts with a term that is not a numeral is not
a numeral. -/
theorem emitted_head_not_numeral (a0 : Expr) (rest : List Expr) (h0 : a0.is_numeral = none)
    (x : Expr) (xs : List Expr) (h : (power_runs (a0 :: rest)).map emit_run = x :: xs) :
    x.is_numeral = none := by
  obtain ⟨k, rs, hm, hk⟩ := merge_run_head_ge (get_power_body a0) (power_runs rest)
    (fun r hr => (power_runs_ok rest r hr).2.1)
  simp only [power_runs, hm, List.map_cons, List.cons.injEq] at h
  rw [← h.1]
  unfold emit_run
  split
  · rename_i h1
    simp only at h1
    have hge := get_power_body_snd_ge a0
    have h2 : (get_power_body a0).2 = 1 := le_antisymm (by rw [← h1]; exact hk) hge
    rw [get_power_body_one a0 h2]
    exact h0
  · rfl

/-- With `use_power` on, the product of at least two factors none of which is a numeral is
a power or the product of the emitted runs. -/
theorem mk_mul_app_nonnum_runs (rw : poly_rewriter) (hpow : rw.use_power = true)
    (l : List Expr) (hlen : 2 ≤ l.length) (hnn : ∀ a ∈ l, a.is_numeral = none) :
    (∃ b k, rw.mk_mul_app l = mk_power b k) ∨
      rw.mk_mul_app l = .app .mul ((power_runs l).map emit_run) := by
  match l, hlen, hnn with
  | a0 :: a1 :: tl, _, hnn =>
    have hfold : fold_powers (get_power_body a0).1 (get_power_body a0).2 (a1 :: tl) =
        (power_runs (a0 :: a1 :: tl)).map emit_run := by
      rw [fold_powers_runs]
      rfl
    have hsingle := fold_powers_single (a1 :: tl) (get_power_body a0).1 (get_power_body a0).2
    have hhead := emitted_head_not_numeral a0 (a1 :: tl) (hnn a0 (List.mem_cons_self _ _))
    have hne := power_runs_map_ne_nil a0 (a1 :: tl)
    rw [hfold] at hsingle
    unfold mk_mul_app
    rw [mk_mul_app_aux]
    simp only [hpow, if_true, hfold]
    generalize (power_runs (a0 :: a1 :: tl)).map emit_run = F at hsingle hhead hne ⊢
    match F, hsingle, hhead, hne with
    | [], _, _, hne => exact absurd rfl hne
    | [x], hsingle, _, _ =>
      obtain ⟨k2, hx, _, hk⟩ := hsingle x rfl
      have hge := get_power_body_snd_ge a0
      have hk2 := hk (by simp)
      left
      refine ⟨(get_power_body a0).1, k2, ?_⟩
      simp only [hx, push_power]
      rw [if_neg (by intro e; rw [e] at hk2; linarith)]
    | x :: y :: rest, _, hhead, _ =>
      right
      simp only [hhead x (y :: rest) rfl]

/-- With `use_power` on, when a coefficient other than one times a term is a product, its
factors are the coefficient and the term, and the base of the term is not the coefficient. -/
theorem mk_mul_app_num_children (rw : poly_rewriter) (hpow : rw.use_power = true) (c : ℚ)
    (arg : Expr) (children : List Expr) (hc : c ≠ 1)
    (h : rw.mk_mul_app_num c arg = .app .mul children) :
    children = [.num c, emit_run (get_power_body arg)] ∧ (get_power_body arg).1 ≠ .num c := by
  by_cases hz : is_zero arg = true
  · have : rw.mk_mul_app_num c arg = arg := by
      unfold mk_mul_app_num
      rw [mk_mul_app_num_aux]
      simp [hc, hz]
    rw [this, is_zero_spec hz] at h
    cases h
  · have hz2 : is_zero arg = false := by simpa using hz
    rw [mk_mul_app_num_unfold rw c arg hc hz2, fold_powers_pair] at h
    simp only [hpow, if_true] at h
    by_cases hb : (get_power_body arg).1 = .num c
    · rw [if_pos hb] at h
      simp only [push_power] at h
      have hge := get_power_body_snd_ge arg
      rw [if_neg (by intro e; linarith)] at h
      simp [mk_power] at h
    · rw [if_neg hb] at h
      simp only [Expr.app.injEq, true_and] at h
      exact ⟨h.symm, hb⟩

/-- The shapes of a product that `mk_nflat_mul_core` returns with `BR_DONE` when `use_power`
is on: a product among the arguments, a coefficient times a term, or the emitted runs of the
sorted factors. -/
theorem nflat_done_mul_children (rw : poly_rewriter) (hpow : rw.use_power = true)
    (args children : List Expr)
    (h : rw.mk_nflat_mul_core args = (.BR_DONE, some (.app .mul children))) :
    (.app .mul children ∈ args) ∨
      (∃ c arg, children = [.num c, emit_run (get_power_body arg)] ∧
        (get_power_body arg).1 ≠ .num c) ∨
      children = (power_runs (mul_sorted_args rw args)).map emit_run := by
  unfold mk_nflat_mul_core at h
  dsimp only at h
  have hnc := mul_scan_loop_num_coeffs args mul_scan_init
  have hv := mul_scan_loop_var args mul_scan_init
  simp only [mul_scan_init, zero_add] at hnc hv
  generalize mul_scan_loop args { c := 1, num_coeffs := 0, num_add := 0, var := none } = st
    at h hnc hv
  generalize rw.normalize st.c = c at h
  have hlen := filter_length_add (fun a => a.is_numeral.isSome) args
  rw [← hnc] at hlen
  obtain ⟨_, h⟩ := ite_failed_eq_of (by simp) h
  split at h
  · simp [mk_numeral] at h
  split at h
  · simp [mk_numeral] at h
  split at h
  · by_cases hc1 : c = 1
    · rw [if_pos hc1] at h
      left
      simp only [Prod.mk.injEq, Option.some.injEq, true_and] at h
      split at hv
      · rw [hv] at h
        simp at h
      · rw [hv] at h
        cases hl : (args.filter (fun a => !a.is_numeral.isSome)).getLast? with
        | none => rw [hl] at h; simp at h
        | some v =>
          rw [hl] at h
          simp only [Option.getD_some] at h
          rw [← h]
          exact (List.mem_filter.mp (List.mem_of_getLast?_eq_some hl)).1
    rw [if_neg hc1] at h
    split at h
    · split at h <;> simp at h
    split at h
    · obtain ⟨_, h⟩ := ite_failed_eq_of (by simp) h
      simp only [Prod.mk.injEq, Option.some.injEq, true_and] at h
      exact Or.inr (Or.inl ⟨c, _, mk_mul_app_num_children rw hpow c _ children hc1 h⟩)
    · simp at h
  split at h
  · simp at h
  split at h
  · obtain ⟨_, h⟩ := ite_failed_eq_of (by simp) h
    simp only [Prod.mk.injEq, Option.some.injEq, true_and] at h
    have hL : (if (!mul_ordered rw none args) = true then
        rw.std_sort rw.mon_lt (args.filter (fun arg => !arg.is_numeral.isSome))
        else args.filter (fun arg => !arg.is_numeral.isSome)) = mul_sorted_args rw args := rfl
    rw [hL] at h
    have hperm := mul_sorted_args_perm rw args
    have hmem : ∀ a ∈ mul_sorted_args rw args, a.is_numeral = none := by
      intro a ha
      have := (List.mem_filter.mp (hperm.mem_iff.mp ha)).2
      simpa using this
    have hlen2 : 2 ≤ (mul_sorted_args rw args).length := by
      rw [hperm.length_eq]
      omega
    by_cases hc : c = 1
    · rw [hc, mk_mul_app_num_one] at h
      rcases mk_mul_app_nonnum_runs rw hpow _ hlen2 hmem with ⟨b, k, hb⟩ | hr
      · rw [hb] at h
        simp [mk_power] at h
      · rw [hr] at h
        simp only [Expr.app.injEq, true_and] at h
        exact Or.inr (Or.inr h.symm)
    · exact Or.inr (Or.inl ⟨c, _, mk_mul_app_num_children rw hpow c _ children hc h⟩)
  · split at h <;> simp at h

end poly_rewriter

namespace poly_rewriter

/-- Claim C19 (as stated, refuted): under the AST order with `use_power` on, the factors
`x`, `y`, `(^ x 2)` are in order and `mk_nflat_mul_core` returns `BR_DONE` with
`(* x y (^ x 2))`, whose first and third child both have the base `x`.  Under the ordinal
order the factors `x`, `(* 2 x)`, `x` have the same ordinal, and the result
`(* x (* 2 x) x)` has the child `x` twice. -/
theorem power_folding_bases_counterexample :
    (example_rw true false false false true true true 10).mk_nflat_mul_core
        [ex_x, ex_y, .app .power [ex_x, .num 2]] =
      (.BR_DONE, some (.app .mul [ex_x, ex_y, .app .power [ex_x, .num 2]])) ∧
    (get_power_body ex_x).1 = (get_power_body (.app .power [ex_x, .num 2])).1 ∧
    (example_rw true false false false true false true 10).mk_nflat_mul_core
        [ex_x, .app .mul [.num 2, ex_x], ex_x] =
      (.BR_DONE, some (.app .mul [ex_x, .app .mul [.num 2, ex_x], ex_x])) := by
  decide!

/-- Claim C19 (amended): power folding leaves no repeated base among adjacent children, and
none at all under the ordinal order for plain factors.  With `use_power` on, if
`mk_nflat_mul_core` returns `BR_DONE` with a mul application, then under either comparator no
two adjacent children of it have the same base, provided that holds for every argument that
is itself a product; and under the ordinal order (`ast_order` off), when no argument is a
product with a leading numeral or a power with a non-integer exponent greater than one, no
two children of it have the same base, provided that holds for every argument that is itself
a product.  The base of `(^ b k)` with integer `k >= 2` is `b` and the base of any other
factor is the factor itself. -/
theorem power_folding_bases (rw : poly_rewriter) (hpow : rw.use_power = true)
    (args children : List Expr)
    (h : rw.mk_nflat_mul_core args = (.BR_DONE, some (.app .mul children))) :
    ((∀ a ∈ args, a.is_mul = true →
        List.Chain' (fun x y => (get_power_body x).1 ≠ (get_power_body y).1) a.get_args) →
      List.Chain' (fun x y => (get_power_body x).1 ≠ (get_power_body y).1) children) ∧
    (rw.m_ast_order = false → (∀ a ∈ args, plain_factor a = true) →
      (∀ a ∈ args, a.is_mul = true →
        List.Pairwise (fun x y => (get_power_body x).1 ≠ (get_power_body y).1) a.get_args) →
      List.Pairwise (fun x y => (get_power_body x).1 ≠ (get_power_body y).1) children) := by
  have hnum : ∀ c : ℚ, (get_power_body (.num c)).1 = .num c := by
    intro c
    simp [get_power_body, Expr.is_power]
  rcases nflat_done_mul_children rw hpow args children h with hmem | ⟨c, arg, hch, hb⟩ | hruns
  · exact ⟨fun hA => hA _ hmem rfl, fun _ _ hB => hB _ hmem rfl⟩
  · have hne : (get_power_body (.num c)).1 ≠ (get_power_body (emit_run (get_power_body arg))).1 := by
      rw [hnum, run_ok_base _ (run_ok_get_power_body arg)]
      exact fun e => hb e.symm
    subst hch
    exact ⟨fun _ => by simp [hne], fun _ _ _ => by simp [hne]⟩
  · subst hruns
    refine ⟨fun _ => emitted_chain _, fun hast hplain _ => ?_⟩
    apply emitted_pairwise rw
    have hperm := mul_sorted_args_perm rw args
    have hmem : ∀ a ∈ mul_sorted_args rw args, a ∈ args ∧ a.is_numeral = none := by
      intro a ha
      have := List.mem_filter.mp (hperm.mem_iff.mp ha)
      exact ⟨this.1, by simpa using this.2⟩
    have hpw := (mul_ordered_pairwise rw _ none (mul_sorted_args_ordered rw args)).2
    rw [filter_not_numeral_self _ (fun a ha => (hmem a ha).2)] at hpw
    refine List.Pairwise.imp_of_mem ?_ hpw
    intro a b ha hb hlt
    have ha2 := ordinal_plain rw hpow a (hmem a ha).2 (hplain a (hmem a ha).1)
    have hb2 := ordinal_plain rw hpow b (hmem b hb).2 (hplain b (hmem b hb).1)
    have hn : ¬ rw.ordinal b < rw.ordinal a := by
      intro hc
      rw [(mon_lt_ordinal rw hast b a).mpr hc] at hlt
      cases hlt
    rw [ha2, hb2] at hn
    exact_mod_cast not_lt.mp hn

/-- Witness for `power_folding_bases`: under the ordinal order the factors `y`, `x`,
`(^ x 2)`, `z`, `y` give `(* (^ x 3) (^ y 2) z)`, whose children have pairwise different
bases. -/
theorem power_folding_bases_witness :
    List.Pairwise (fun x y => (get_power_body x).1 ≠ (get_power_body y).1)
      [.app .power [ex_x, .num 3], .app .power [ex_y, .num 2], ex_z] :=
  (power_folding_bases (example_rw true false false false true false true 10) rfl
    [ex_y, ex_x, .app .power [ex_x, .num 2], ex_z, ex_y]
    [.app .power [ex_x, .num 3], .app .power [ex_y, .num 2], ex_z] (by decide!)).2
    rfl (by decide) (by decide)

end poly_rewriter

namespace poly_rewriter

/-! ## `BR_FAILED` leaves the output parameters alone -/

theorem add_finish_some (rw : poly_rewriter) (result : Expr) :
    (rw.add_finish result).1 ≠ .BR_FAILED := by
  unfold add_finish
  split
  · simp
  · split <;> simp

/-- Function `mk_nflat_mul_core(num_args, args, result)` as a transformer of its output
parameter: the last argument is the content of `result` at the call, the second component of
the value is its content at the return.  Every assignment `result = e` of the source
replaces the content, a return without assignment leaves it. -/
def mk_nflat_mul_core_inout (rw : poly_rewriter) (args : List Expr) (result : Expr) :
    br_status × Expr :=
  if decide (args.length = 2) &&
      (match (args.getD 0 (num 0)).is_numeral with
       | some a => !decide (a = 1) && !decide (a = 0)
       | none => false) &&
      is_essentially_var (args.getD 1 (num 0)) then (.BR_FAILED, result)
  else
    let st := mul_scan_loop args { c := 1, num_coeffs := 0, num_add := 0, var := none }
    let c := rw.normalize st.c
    if st.num_coeffs = args.length then (.BR_DONE, mk_numeral c)
    else if c = 0 then (.BR_DONE, mk_numeral c)
    else if st.num_coeffs = args.length - 1 then
      let var := st.var.getD (num 0)
      if c = 1 then (.BR_DONE, var)
      else if var.is_mul then
        match (if var.get_num_args = 2 then (var.get_arg 0).is_numeral else none) with
        | some c_prime =>
          (.BR_REWRITE1, rw.mk_mul_app_num (rw.normalize (c * c_prime)) (var.get_arg 1))
        | none => (.BR_FAILED, result)
      else if st.num_add = 0 then
        if decide (args.length = 2) && decide (args.getD 1 (num 0) = var) then
          (.BR_FAILED, result)
        else (.BR_DONE, rw.mk_mul_app_num c var)
      else
        (.BR_REWRITE2, mk_add_app (var.get_args.map (fun t => rw.mk_mul_app_num c t)))
    else if decide (1 < st.num_coeffs) ||
        (decide (st.num_coeffs = 1) && !(args.getD 0 (num 0)).is_numeral.isSome) then
      (.BR_REWRITE2,
        rw.mk_mul_app_num c (rw.mk_mul_app (args.filter (fun arg => !arg.is_numeral.isSome))))
    else if !rw.m_som || decide (st.num_add = 0) then
      let new_args := args.filter (fun arg => !arg.is_numeral.isSome)
      let ordered := mul_ordered rw none args
      if ordered && decide (st.num_coeffs = 0) && !rw.use_power then (.BR_FAILED, result)
      else
        let result1 :=
          rw.mk_mul_app (if !ordered then rw.std_sort rw.mon_lt new_args else new_args)
        let result2 := rw.mk_mul_app_num c result1
        (.BR_DONE, result2)
    else
      match som_loop rw (args.map som_row) (args.map (fun a => (som_row a).length))
          (rw.som_budget args.length) (rw.som_budget args.length + 2)
          (args.map (fun _ => 0)) [] with
      | some sum => (.BR_REWRITE2, mk_add_app sum)
      | none => (.BR_FAILED, result)

/-- The tail of `mk_nflat_add_core` after `result = mk_add_app(...)`, on the content of
`result`: `hoist_multiplication(result)` and `hoist_ite(result)` change it in place. -/
def add_finish_inout (rw : poly_rewriter) (result : Expr) : br_status × Expr :=
  match rw.hoist_multiplication result with
  | (true, r) => (.BR_REWRITE_FULL, r)
  | (false, r) =>
    match rw.hoist_ite r with
    | (true, r2) => (.BR_REWRITE_FULL, r2)
    | (false, r2) => (.BR_DONE, r2)

/-- Function `mk_nflat_add_core(num_args, args, result)` as a transformer of its output
parameter. -/
def mk_nflat_add_core_inout (rw : poly_rewriter) (args : List Expr) (result : Expr) :
    br_status × Expr :=
  let st := add_scan_loop rw 0 args
    { c := 0, num_coeffs := 0, visited := [], multiple := [], has_multiple := false,
      prev := none, ordered := true }
  let c := rw.normalize st.c
  if st.has_multiple then
    let coeffs := collect_coeffs st.multiple args []
    let monomials := emit_monomials rw st.multiple coeffs args []
    let new_args :=
      push_coeff c ++ (if rw.m_sort_sums then rw.std_sort rw.mon_lt monomials else monomials)
    add_finish_inout rw (mk_add_app new_args)
  else if st.ordered && !rw.m_hoist_mul && !rw.m_hoist_ite &&
      (decide (st.num_coeffs = 0) ||
        (decide (st.num_coeffs = 1) &&
          (match (args.getD 0 (num 0)).is_numeral with
           | some a => !decide (a = 0)
           | none => false))) then
    (.BR_FAILED, result)
  else
    let monomials := args.filter (fun arg => !arg.is_numeral.isSome)
    let new_args :=
      push_coeff c ++ (if !st.ordered then rw.std_sort rw.mon_lt monomials else monomials)
    add_finish_inout rw (mk_add_app new_args)

/-- Function `cancel_monomials(lhs, rhs, move, lhs_result, rhs_result)` as a transformer of
its two output parameters. -/
def cancel_monomials_inout (rw : poly_rewriter) (lhs rhs : Expr) (move : Bool)
    (lhs_result rhs_result : Expr) : br_status × Expr × Expr :=
  let lhs_monomials := get_monomials lhs
  let rhs_monomials := get_monomials rhs
  let st1 := cancel_scan_lhs lhs_monomials
    { c := 0, num_coeffs := 0, visited := [], multiple := [], has_multiple := false }
  if move && decide (st1.num_coeffs = 0) && rhs.is_numeral.isSome then
    (.BR_FAILED, lhs_result, rhs_result)
  else
    let st := cancel_scan_rhs rhs_monomials st1
    let c := rw.normalize st.c
    if !st.has_multiple && decide (st.num_coeffs ≤ 1) &&
        (if move then rhs.is_numeral.isSome
         else decide (st.num_coeffs = 0) || rhs.is_numeral.isSome) then
      (.BR_FAILED, lhs_result, rhs_result)
    else
      let coeffs :=
        cancel_coeffs_rhs st.multiple rhs_monomials (collect_coeffs st.multiple lhs_monomials [])
      let moved := cancel_emit_rhs rw st.multiple move rhs_monomials
      let new_lhs := cancel_emit_lhs rw st.multiple coeffs lhs_monomials [] ++ moved.1
      let new_rhs := moved.2
      let new_lhs_out :=
        if move && rw.m_sort_sums then rw.std_sort rw.mon_lt new_lhs else new_lhs
      let c_at_rhs := move || new_rhs.isEmpty || !new_lhs.isEmpty
      let c2 := if c_at_rhs then rw.normalize (-c) else c
      let insert_c_lhs := !c_at_rhs && (new_lhs.isEmpty || !decide (c2 = 0))
      let insert_c_rhs := c_at_rhs && (new_rhs.isEmpty || !decide (c2 = 0))
      (.BR_DONE,
        mk_add_app ((if insert_c_lhs then [mk_numeral c2] else []) ++ new_lhs_out),
        mk_add_app ((if insert_c_rhs then [mk_numeral c2] else []) ++ new_rhs))

/-- The value model of `mk_nflat_mul_core` records exactly the assignments to `result`. -/
theorem mk_nflat_mul_core_inout_eq (rw : poly_rewriter) (args : List Expr) (r0 : Expr) :
    rw.mk_nflat_mul_core_inout args r0 =
      ((rw.mk_nflat_mul_core args).1, (rw.mk_nflat_mul_core args).2.getD r0) := by
  unfold mk_nflat_mul_core_inout mk_nflat_mul_core
  dsimp only
  generalize mul_scan_loop args { c := 1, num_coeffs := 0, num_add := 0, var := none } = st
  generalize rw.normalize st.c = c
  generalize som_loop rw (args.map som_row) (args.map (fun a => (som_row a).length))
    (rw.som_budget args.length) (rw.som_budget args.length + 2) (args.map (fun _ => 0)) [] = sl
  generalize (if (st.var.getD (num 0)).get_num_args = 2 then
    ((st.var.getD (num 0)).get_arg 0).is_numeral else none) = d
  generalize (args.getD 0 (num 0)).is_numeral = d0
  have key : ∀ (b : Prop) [Decidable b] (x y : br_status × Option Expr) (u v : br_status × Expr),
      u = (x.1, x.2.getD r0) → v = (y.1, y.2.getD r0) →
      (if b then u else v) = ((if b then x else y).1, (if b then x else y).2.getD r0) := by
    intro b _ x y u v hu hv
    split <;> assumption
  cases d0 <;> cases d <;> cases sl <;> simp only [] <;>
    repeat (first | rfl | apply key)

theorem add_finish_inout_eq (rw : poly_rewriter) (result r0 : Expr) :
    rw.add_finish_inout result =
      ((rw.add_finish result).1, (rw.add_finish result).2.getD r0) := by
  unfold add_finish_inout add_finish
  generalize rw.hoist_multiplication result = h1
  obtain ⟨b, r⟩ := h1
  cases b
  · simp only []
    generalize rw.hoist_ite r = h2
    obtain ⟨b2, r2⟩ := h2
    cases b2 <;> rfl
  · rfl

theorem mk_nflat_add_core_inout_eq (rw : poly_rewriter) (args : List Expr) (r0 : Expr) :
    rw.mk_nflat_add_core_inout args r0 =
      ((rw.mk_nflat_add_core args).1, (rw.mk_nflat_add_core args).2.getD r0) := by
  unfold mk_nflat_add_core_inout mk_nflat_add_core
  dsimp only
  generalize add_scan_loop rw 0 args
    { c := 0, num_coeffs := 0, visited := [], multiple := [], has_multiple := false,
      prev := none, ordered := true } = st
  generalize (args.getD 0 (num 0)).is_numeral = d0
  cases d0 <;> simp only [] <;> split_ifs <;>
    first | rfl | exact add_finish_inout_eq rw _ r0

theorem cancel_monomials_inout_eq (rw : poly_rewriter) (lhs rhs : Expr) (move : Bool)
    (l0 r0 : Expr) :
    rw.cancel_monomials_inout lhs rhs move l0 r0 =
      ((rw.cancel_monomials lhs rhs move).1,
        (rw.cancel_monomials lhs rhs move).2.getD (l0, r0)) := by
  unfold cancel_monomials_inout cancel_monomials
  dsimp only
  split_ifs <;> rfl

/-- In the value model a write is recorded exactly when the status is not `BR_FAILED`. -/
theorem nflat_mul_written_iff (rw : poly_rewriter) (args : List Expr) :
    (rw.mk_nflat_mul_core args).2 = none ↔ (rw.mk_nflat_mul_core args).1 = .BR_FAILED := by
  unfold mk_nflat_mul_core
  dsimp only
  repeat' split
  all_goals simp

theorem add_finish_written (rw : poly_rewriter) (result : Expr) :
    (rw.add_finish result).2 ≠ none := by
  unfold add_finish
  split
  · simp
  · split <;> simp

theorem nflat_add_written_iff (rw : poly_rewriter) (args : List Expr) :
    (rw.mk_nflat_add_core args).2 = none ↔ (rw.mk_nflat_add_core args).1 = .BR_FAILED := by
  unfold mk_nflat_add_core
  dsimp only
  have hf := add_finish_some rw
  have hw := add_finish_written rw
  repeat' split
  all_goals first
    | exact ⟨fun h => absurd h (hw _), fun h => absurd h (hf _)⟩
    | simp

theorem cancel_written_iff (rw : poly_rewriter) (lhs rhs : Expr) (move : Bool) :
    (rw.cancel_monomials lhs rhs move).2 = none ↔
      (rw.cancel_monomials lhs rhs move).1 = .BR_FAILED := by
  unfold cancel_monomials
  dsimp only
  repeat' split
  all_goals simp

theorem getD_of_status {α : Type} (s : br_status) (o : Option α)
    (h : o = none ↔ s = .BR_FAILED) (a b : α) :
    (s = .BR_FAILED → o.getD a = a) ∧ (s ≠ .BR_FAILED → o.getD a = o.getD b) := by
  cases o with
  | none => exact ⟨fun _ => rfl, fun hs => absurd (h.1 rfl) hs⟩
  | some x => exact ⟨fun hs => by simpa using h.2 hs, fun _ => rfl⟩

/-- Claim C28: no partial writes on `BR_FAILED`.  For every input and every content of the
output parameters at the call, whenever `mk_nflat_mul_core`, `mk_nflat_add_core` or
`cancel_monomials` returns `BR_FAILED`, the output parameters `result` (respectively
`lhs_result` and `rhs_result`) hold at the return exactly the values they had before the
call; with any other status their content at the return does not depend on the content at
the call, and the status never does. -/
theorem failed_writes_nothing (rw : poly_rewriter) (args : List Expr) (lhs rhs : Expr)
    (move : Bool) (r0 l0 : Expr) :
    ((rw.mk_nflat_mul_core_inout args r0).1 = .BR_FAILED →
        (rw.mk_nflat_mul_core_inout args r0).2 = r0) ∧
      ((rw.mk_nflat_add_core_inout args r0).1 = .BR_FAILED →
        (rw.mk_nflat_add_core_inout args r0).2 = r0) ∧
      ((rw.cancel_monomials_inout lhs rhs move l0 r0).1 = .BR_FAILED →
        (rw.cancel_monomials_inout lhs rhs move l0 r0).2 = (l0, r0)) ∧
      (∀ r1 l1 : Expr,
        (rw.mk_nflat_mul_core_inout args r1).1 = (rw.mk_nflat_mul_core_inout args r0).1 ∧
        (rw.mk_nflat_add_core_inout args r1).1 = (rw.mk_nflat_add_core_inout args r0).1 ∧
        (rw.cancel_monomials_inout lhs rhs move l1 r1).1 =
          (rw.cancel_monomials_inout lhs rhs move l0 r0).1 ∧
        ((rw.mk_nflat_mul_core_inout args r0).1 ≠ .BR_FAILED →
          (rw.mk_nflat_mul_core_inout args r1).2 = (rw.mk_nflat_mul_core_inout args r0).2) ∧
        ((rw.mk_nflat_add_core_inout args r0).1 ≠ .BR_FAILED →
          (rw.mk_nflat_add_core_inout args r1).2 = (rw.mk_nflat_add_core_inout args r0).2) ∧
        ((rw.cancel_monomials_inout lhs rhs move l0 r0).1 ≠ .BR_FAILED →
          (rw.cancel_monomials_inout lhs rhs move l1 r1).2 =
            (rw.cancel_monomials_inout lhs rhs move l0 r0).2)) := by
  simp only [mk_nflat_mul_core_inout_eq, mk_nflat_add_core_inout_eq, cancel_monomials_inout_eq]
  refine ⟨?_, ?_, ?_, ?_⟩
  · exact (getD_of_status _ _ (nflat_mul_written_iff rw args) r0 r0).1
  · exact (getD_of_status _ _ (nflat_add_written_iff rw args) r0 r0).1
  · exact (getD_of_status _ _ (cancel_written_iff rw lhs rhs move) (l0, r0) (l0, r0)).1
  · intro r1 l1
    refine ⟨trivial, trivial, trivial, ?_, ?_, ?_⟩
    · exact (getD_of_status _ _ (nflat_mul_written_iff rw args) r1 r0).2
    · exact (getD_of_status _ _ (nflat_add_written_iff rw args) r1 r0).2
    · exact (getD_of_status _ _ (cancel_written_iff rw lhs rhs move) (l1, r1) (l0, r0)).2

/-- Witness for `failed_writes_nothing`: `mk_nflat_mul_core(2, x)` returns `BR_FAILED` and
leaves in `result` the term `y` that it held at the call. -/
theorem failed_writes_nothing_witness :
    ((example_rw true false false false true true false 10).mk_nflat_mul_core_inout
      [.num 2, ex_x] ex_y).2 = ex_y :=
  (failed_writes_nothing (example_rw true false false false true true false 10)
    [.num 2, ex_x] ex_x ex_x false ex_y ex_y).1 (by decide!)

end poly_rewriter

namespace poly_rewriter

/-! ## `mk_uminus` and `mk_sub` -/

/-- Function `mk_uminus(arg, result)`: the status and the value written to `result`. -/
def mk_uminus (rw : poly_rewriter) (arg : Expr) : br_status × Option Expr :=
  match arg.is_numeral with
  | some a => (.BR_DONE, some (mk_numeral (rw.normalize (-a))))
  | none => (.BR_REWRITE1, some (rw.mk_mul_app_num (-1) arg))

/-- Function `mk_sub(num_args, args, result)`: the status and the value written to `result`.
The source asserts `num_args > 0`; on the empty list the missing `args[0]` reads as the
numeral zero. -/
def mk_sub (rw : poly_rewriter) (args : List Expr) : br_status × Option Expr :=
  if args.length = 1 then (.BR_DONE, some (args.getD 0 (num 0)))
  else
    (.BR_REWRITE2,
      some (mk_add_app (args.getD 0 (num 0) ::
        (args.tail.filter (fun a => !is_zero a)).map
          (fun a => rw.mk_mul_app [mk_numeral (-1), a]))))

/-- With `use_power` on, a coefficient other than one times a term that is not zero and whose
base is not the coefficient is the application `(* c arg)`. -/
theorem mk_mul_app_num_eq_of_base (rw : poly_rewriter) (c : ℚ) (arg : Expr) (hc : c ≠ 1)
    (hz : is_zero arg = false) (hb : (get_power_body arg).1 ≠ .num c) (hw : arg.wf = true) :
    rw.mk_mul_app_num c arg = .app .mul [num c, arg] := by
  rw [mk_mul_app_num_unfold rw c arg hc hz, fold_powers_pair]
  simp only [hb, if_false, push_power_get_power_body arg hw]
  split <;> rfl

/-- With `use_power` on, a coefficient other than one times a power of that coefficient is
one power. -/
theorem mk_mul_app_num_power (rw : poly_rewriter) (hpow : rw.use_power = true) (c k : ℚ)
    (hc : c ≠ 1) (hi : k.isInt = true) (hk : 1 < k) :
    rw.mk_mul_app_num c (mk_power (.num c) k) = mk_power (.num c) (1 + k) := by
  have hz : is_zero (mk_power (.num c) k) = false := rfl
  rw [mk_mul_app_num_unfold rw c _ hc hz, fold_powers_pair, get_power_body_mk_power _ _ hi hk]
  simp only [hpow, if_true, push_power]
  rw [if_neg (by intro e; linarith)]

/-- Claim C30 (as stated, refuted): with `use_power` on, `mk_uminus` of the term `(^ -1 2)`,
which is not a numeral, returns `BR_REWRITE1` with `(^ -1 3)`, not with `(* -1 (^ -1 2))`. -/
theorem mk_uminus_shape_counterexample :
    (Expr.app .power [.num (-1), .num 2]).is_numeral = none ∧
      (example_rw true false false false true true true 10).mk_uminus
          (.app .power [.num (-1), .num 2]) =
        (.BR_REWRITE1, some (.app .power [.num (-1), .num 3])) ∧
      (Expr.app .power [.num (-1), .num 3]) ≠
        .app .mul [.num (-1), .app .power [.num (-1), .num 2]] := by
  decide!

/-- Claim C30 (amended): `mk_uminus` of a numeral `a` returns `BR_DONE` with the numeral
`normalize(-a)`; of a term `t` that is not a numeral it returns `BR_REWRITE1` with
`mk_mul_app(-1, t)`, which is `(* -1 t)` when `use_power` is off, and also when `use_power`
is on and `t` (respecting the arity contracts) is not a power `(^ -1 k)` with an integer
`k >= 2`; for such a power the result is `(^ -1 (1 + k))`. -/
theorem mk_uminus_shape (rw : poly_rewriter) (t : Expr) (hn : t.is_numeral = none) :
    (∀ a : ℚ, rw.mk_uminus (.num a) = (.BR_DONE, some (.num (rw.normalize (-a))))) ∧
      rw.mk_uminus t = (.BR_REWRITE1, some (rw.mk_mul_app_num (-1) t)) ∧
      (rw.use_power = false → rw.mk_mul_app_num (-1) t = .app .mul [.num (-1), t]) ∧
      (t.wf = true → (get_power_body t).1 ≠ .num (-1) →
        rw.mk_mul_app_num (-1) t = .app .mul [.num (-1), t]) ∧
      (rw.use_power = true → ∀ k : ℚ, k.isInt = true → 1 < k → t = mk_power (.num (-1)) k →
        rw.mk_mul_app_num (-1) t = mk_power (.num (-1)) (1 + k)) := by
  have hz : is_zero t = false := is_zero_of_not_numeral hn
  refine ⟨fun a => rfl, ?_, ?_, ?_, ?_⟩
  · unfold mk_uminus
    rw [hn]
  · intro hpow
    exact mk_mul_app_num_off rw hpow (-1) t (by norm_num) hn
  · intro hw hb
    exact mk_mul_app_num_eq_of_base rw (-1) t (by norm_num) hz hb hw
  · intro hpow k hi hk ht
    rw [ht]
    exact mk_mul_app_num_power rw hpow (-1) k (by norm_num) hi hk

/-- Witness for `mk_uminus_shape`: `mk_uminus` of `x` returns `BR_REWRITE1` with
`mk_mul_app(-1, x)`. -/
theorem mk_uminus_shape_witness :
    (example_rw true false false false true true true 10).mk_uminus ex_x =
      (.BR_REWRITE1,
        some ((example_rw true false false false true true true 10).mk_mul_app_num (-1) ex_x)) :=
  (mk_uminus_shape (example_rw true false false false true true true 10) ex_x rfl).2.1

end poly_rewriter

namespace poly_rewriter

theorem is_zero_iff (a : Expr) : is_zero a = true ↔ a = .num 0 := by
  constructor
  · exact is_zero_spec
  · intro h
    rw [h]
    simp [is_zero, Expr.is_numeral]

theorem mk_mul_app_pair_off (rw : poly_rewriter) (hpow : rw.use_power = false) (x y : Expr) :
    rw.mk_mul_app [x, y] = .app .mul [x, y] :=
  mk_mul_app_aux_off_pair rw hpow _ x y

theorem eval_sum_filter_nonzero (σ : Assignment) (l : List Expr) :
    eval_sum σ (l.filter (fun a => !decide (a = .num 0))) = eval_sum σ l := by
  induction l with
  | nil => rfl
  | cons a rest ih =>
    rw [List.filter_cons]
    by_cases h : a = .num 0
    · simp [h, eval_sum_cons, eval_num, ih]
    · simp [h, eval_sum_cons, ih]

theorem eval_sum_map_neg (σ : Assignment) (l : List Expr) :
    eval_sum σ (l.map (fun a => Expr.app .mul [.num (-1), a])) = - eval_sum σ l := by
  induction l with
  | nil => simp [eval_sum_nil]
  | cons a rest ih =>
    simp only [List.map_cons, eval_sum_cons, ih, eval_mul, eval_prod_cons, eval_prod_nil,
      eval_num]
    ring

/-- Claim C29: `mk_sub` builds a sum of negated operands.  `mk_sub([a])` returns `a` with
`BR_DONE`; for every list of `n >= 2` operands `a0, ..., an` (`use_power` off) it returns
`BR_REWRITE2` with result `mk_add_app` of `a0` followed, in order, by `(* -1 ai)` for each
`i >= 1` whose `ai` is not the numeral 0; the value of the result equals `a0` minus the sum
of the other operands. -/
theorem mk_sub_negates (rw : poly_rewriter) (hpow : rw.use_power = false) (σ : Assignment)
    (a0 : Expr) (rest : List Expr) (hn : 1 ≤ rest.length) :
    rw.mk_sub [a0] = (.BR_DONE, some a0) ∧
      rw.mk_sub (a0 :: rest) =
        (.BR_REWRITE2,
          some (mk_add_app (a0 ::
            (rest.filter (fun a => !decide (a = .num 0))).map
              (fun a => .app .mul [.num (-1), a])))) ∧
      eval σ (mk_add_app (a0 ::
            (rest.filter (fun a => !decide (a = .num 0))).map
              (fun a => .app .mul [.num (-1), a]))) = eval σ a0 - eval_sum σ rest := by
  refine ⟨rfl, ?_, ?_⟩
  · unfold mk_sub
    have hl : ¬ (a0 :: rest).length = 1 := by
      simp only [List.length_cons]
      omega
    rw [if_neg hl]
    have hf : (fun a => !is_zero a) = (fun a => !decide (a = Expr.num 0)) := by
      funext a
      by_cases h : a = .num 0
      · simp [h, (is_zero_iff (.num 0)).mpr rfl]
      · have : is_zero a = false := by
          cases hz : is_zero a with
          | false => rfl
          | true => exact absurd ((is_zero_iff a).mp hz) h
        simp [h, this]
    have hm : (fun a => rw.mk_mul_app [mk_numeral (-1), a]) =
        (fun a => Expr.app .mul [.num (-1), a]) := by
      funext a
      exact mk_mul_app_pair_off rw hpow _ a
    simp only [List.getD_cons_zero, List.tail_cons, hf, hm]
  · rw [eval_mk_add_app, eval_sum_cons, eval_sum_map_neg, eval_sum_filter_nonzero]
    ring

/-- Witness for `mk_sub_negates`: `(- x y z)` becomes `(+ x (* -1 y) (* -1 z))`, and
`(- x 0)` becomes `x`. -/
theorem mk_sub_negates_witness :
    (example_rw true false false false true true false 10).mk_sub [ex_x, ex_y, ex_z] =
        (.BR_REWRITE2,
          some (.app .add [ex_x, .app .mul [.num (-1), ex_y], .app .mul [.num (-1), ex_z]])) ∧
      (example_rw true false false false true true false 10).mk_sub [ex_x, .num 0] =
        (.BR_REWRITE2, some ex_x) :=
  ⟨(mk_sub_negates (example_rw true false false false true true false 10) rfl ex_assignment
      ex_x [ex_y, ex_z] (by decide)).2.1,
    (mk_sub_negates (example_rw true false false false true true false 10) rfl ex_assignment
      ex_x [.num 0] (by decide)).2.1⟩

end poly_rewriter

namespace poly_rewriter

/-! ## Products of numerals -/

theorem filterMap_numeral_zero (l : List Expr) (h : Expr.num 0 ∈ l) :
    (l.filterMap Expr.is_numeral).prod = 0 := by
  apply List.prod_eq_zero
  exact List.mem_filterMap.mpr ⟨.num 0, h, rfl⟩

/-- Claim C24: zero annihilates a product.  For every list `args` of factors one of which is
the numeral 0 (and a sort whose `normalize` keeps 0), `mk_nflat_mul_core` returns `BR_DONE`
with result the numeral 0; and when every factor is a numeral it returns `BR_DONE` with the
numeral that is their (normalized) product. -/
theorem zero_annihilates (rw : poly_rewriter) (args : List Expr) :
    (Expr.num 0 ∈ args → rw.normalize 0 = 0 →
        rw.mk_nflat_mul_core args = (.BR_DONE, some (.num 0))) ∧
      ((∀ a ∈ args, a.is_numeral.isSome = true) →
        rw.mk_nflat_mul_core args =
          (.BR_DONE, some (.num (rw.normalize (args.filterMap Expr.is_numeral).prod)))) := by
  have hc := mul_scan_loop_c_prod args mul_scan_init
  have hnc := mul_scan_loop_num_coeffs args mul_scan_init
  simp only [mul_scan_init, zero_add, one_mul] at hc hnc
  constructor
  · intro h0 hn0
    unfold mk_nflat_mul_core
    refine (if_neg ?_).trans ?_
    · intro hg
      simp only [Bool.and_eq_true, decide_eq_true_eq] at hg
      obtain ⟨⟨hl, hm⟩, hv⟩ := hg
      obtain ⟨a0, a1, rfl⟩ := List.length_eq_two.mp hl
      simp only [List.mem_cons, List.mem_singleton, List.not_mem_nil, or_false] at h0
      rcases h0 with h | h
      · subst h
        simp [Expr.is_numeral] at hm
      · subst h
        simp [is_essentially_var] at hv
    · simp only [hc, filterMap_numeral_zero args h0, hn0]
      split <;> rfl
  · intro hall
    unfold mk_nflat_mul_core
    refine (if_neg ?_).trans ?_
    · intro hg
      simp only [Bool.and_eq_true, decide_eq_true_eq] at hg
      obtain ⟨⟨hl, _⟩, hv⟩ := hg
      obtain ⟨a0, a1, rfl⟩ := List.length_eq_two.mp hl
      have h1 := hall a1 (by simp)
      cases a1 with
      | num q => simp [is_essentially_var] at hv
      | var i => simp [Expr.is_numeral] at h1
      | app f as => simp [Expr.is_numeral] at h1
    · have hlen : (args.filter (fun a => a.is_numeral.isSome)).length = args.length := by
        rw [List.filter_eq_self.mpr hall]
      simp only [hc, hnc, hlen, if_true, mk_numeral]

/-- Witness for `zero_annihilates`: `(* x 0 y)` is 0, and `(* 2 3)` is 6. -/
theorem zero_annihilates_witness :
    (example_rw true false false false true true false 10).mk_nflat_mul_core
        [ex_x, .num 0, ex_y] = (.BR_DONE, some (.num 0)) ∧
      (example_rw true false false false true true false 10).mk_nflat_mul_core
        [.num 2, .num 3] =
        (.BR_DONE, some (.num ((example_rw true false false false true true false 10).normalize
          ([Expr.num 2, .num 3].filterMap Expr.is_numeral).prod))) :=
  ⟨(zero_annihilates (example_rw true false false false true true false 10)
      [ex_x, .num 0, ex_y]).1 (by decide) rfl,
    (zero_annihilates (example_rw true false false false true true false 10)
      [.num 2, .num 3]).2 (by decide)⟩

end poly_rewriter

namespace poly_rewriter

/-! ## Shapes of the products built by `mk_nflat_mul_core` -/

theorem merge_run_one_mem (p : Expr × ℚ) (runs : List (Expr × ℚ)) (hp : 1 ≤ p.2)
    (hr : ∀ r ∈ runs, 1 ≤ r.2) :
    ∀ r ∈ merge_run p runs, r.2 = 1 → r = p ∨ r ∈ runs := by
  cases runs with
  | nil => intro r h _; simp only [merge_run, List.mem_singleton] at h; exact Or.inl h
  | cons r0 rs =>
    intro r h h1
    simp only [merge_run] at h
    split at h
    · rcases List.mem_cons.mp h with h | h
      · have h0 := hr r0 (List.mem_cons_self _ _)
        rw [h] at h1
        simp only at h1
        linarith
      · exact Or.inr (List.mem_cons_of_mem _ h)
    · rcases List.mem_cons.mp h with h | h
      · exact Or.inl h
      · exact Or.inr h

theorem power_runs_one_mem (l : List Expr) : ∀ r ∈ power_runs l, r.2 = 1 → r.1 ∈ l := by
  induction l with
  | nil => intro r h; simp [power_runs] at h
  | cons a rest ih =>
    intro r h h1
    rcases merge_run_one_mem (get_power_body a) (power_runs rest) (get_power_body_snd_ge a)
        (fun r hr => (power_runs_ok rest r hr).2.1) r h h1 with h2 | h2
    · rw [h2] at h1 ⊢
      rw [get_power_body_one a h1]
      exact List.mem_cons_self _ _
    · exact List.mem_cons_of_mem _ (ih r h2 h1)

/-- An emitted factor is one of the factors or a power. -/
theorem emitted_mem (l : List Expr) :
    ∀ x ∈ (power_runs l).map emit_run, x ∈ l ∨ ∃ b k, x = mk_power b k := by
  intro x hx
  obtain ⟨r, hr, rfl⟩ := List.mem_map.mp hx
  unfold emit_run
  split
  · rename_i h1
    exact Or.inl (power_runs_one_mem l r hr h1)
  · exact Or.inr ⟨_, _, rfl⟩

theorem emit_get_power_body (x : Expr) :
    emit_run (get_power_body x) = x ∨ ∃ b k, emit_run (get_power_body x) = mk_power b k := by
  unfold emit_run
  split
  · rename_i h1
    rw [get_power_body_one x h1]
    exact Or.inl rfl
  · exact Or.inr ⟨_, _, rfl⟩

/-- When a coefficient times a term is a product, either the coefficient is one and the term
is that product, or the product has two factors: the coefficient, and the term or a power. -/
theorem mk_mul_app_num_mul_cases (rw : poly_rewriter) (c : ℚ) (x : Expr)
    (children : List Expr) (h : rw.mk_mul_app_num c x = .app .mul children) :
    (c = 1 ∧ x = .app .mul children) ∨
      (c ≠ 1 ∧ ∃ y, children = [.num c, y] ∧ (y = x ∨ ∃ b k, y = mk_power b k)) := by
  by_cases hc : c = 1
  · rw [hc, mk_mul_app_num_one] at h
    exact Or.inl ⟨hc, h⟩
  · right
    refine ⟨hc, ?_⟩
    cases hpow : rw.use_power with
    | true =>
      obtain ⟨h1, _⟩ := mk_mul_app_num_children rw hpow c x children hc h
      exact ⟨_, h1, emit_get_power_body x⟩
    | false =>
      by_cases hz : is_zero x = true
      · have : rw.mk_mul_app_num c x = x := by
          unfold mk_mul_app_num
          rw [mk_mul_app_num_aux]
          simp [hc, hz]
        rw [this, is_zero_spec hz] at h
        cases h
      · have hz2 : is_zero x = false := by simpa using hz
        rw [mk_mul_app_num_unfold rw c x hc hz2] at h
        simp only [hpow, Bool.false_eq_true, if_false, Expr.app.injEq, true_and] at h
        exact ⟨x, h.symm, Or.inl rfl⟩

/-- The product of at least two factors none of which is a numeral is a power or a product
whose factors are among the given ones or powers. -/
theorem mk_mul_app_nonnum_forms (rw : poly_rewriter) (l : List Expr) (hlen : 2 ≤ l.length)
    (hnn : ∀ a ∈ l, a.is_numeral = none) :
    (∃ b k, rw.mk_mul_app l = mk_power b k) ∨
      ∃ g, rw.mk_mul_app l = .app .mul g ∧ ∀ x ∈ g, x ∈ l ∨ ∃ b k, x = mk_power b k := by
  cases hpow : rw.use_power with
  | true =>
    rcases mk_mul_app_nonnum_runs rw hpow l hlen hnn with h | h
    · exact Or.inl h
    · exact Or.inr ⟨_, h, emitted_mem l⟩
  | false =>
    exact Or.inr ⟨l, mk_mul_app_off_nonnum rw hpow l hlen hnn, fun x hx => Or.inl hx⟩

/-- The shapes of a product that `mk_nflat_mul_core` returns with `BR_DONE`: the single
factor that is not a numeral, when the numerals multiply to one; a coefficient times the
single factor that is not a numeral; or a coefficient times the product of the sorted
factors. -/
theorem nflat_done_mul_shape (rw : poly_rewriter) (args children : List Expr)
    (h : rw.mk_nflat_mul_core args = (.BR_DONE, some (.app .mul children))) :
    (.app .mul children ∈ args) ∨
      (∃ c v, c ≠ 0 ∧ c ≠ 1 ∧ v ∈ args ∧ v.is_numeral = none ∧ v.is_mul = false ∧
        rw.mk_mul_app_num c v = .app .mul children) ∨
      (∃ c, c ≠ 0 ∧ (∀ a ∈ mul_sorted_args rw args, a ∈ args ∧ a.is_numeral = none) ∧
        2 ≤ (mul_sorted_args rw args).length ∧
        rw.mk_mul_app_num c (rw.mk_mul_app (mul_sorted_args rw args)) = .app .mul children) := by
  unfold mk_nflat_mul_core at h
  dsimp only at h
  have hnc := mul_scan_loop_num_coeffs args mul_scan_init
  have hv := mul_scan_loop_var args mul_scan_init
  simp only [mul_scan_init, zero_add] at hnc hv
  generalize mul_scan_loop args { c := 1, num_coeffs := 0, num_add := 0, var := none } = st
    at h hnc hv
  generalize rw.normalize st.c = c at h
  have hlen := filter_length_add (fun a => a.is_numeral.isSome) args
  rw [← hnc] at hlen
  obtain ⟨_, h⟩ := ite_failed_eq_of (by simp) h
  split at h
  · simp [mk_numeral] at h
  by_cases hc0 : c = 0
  · rw [if_pos hc0] at h
    simp [mk_numeral] at h
  rw [if_neg hc0] at h
  have hvar : ∀ v, st.var.getD (num 0) = v → v.is_numeral = none → v ∈ args := by
    intro v hv1 hv2
    split at hv
    · rw [hv] at hv1
      simp only [Option.getD_none] at hv1
      rw [← hv1] at hv2
      simp [Expr.is_numeral] at hv2
    · rw [hv] at hv1
      cases hl : (args.filter (fun a => !a.is_numeral.isSome)).getLast? with
      | none => rw [hl] at hv1; simp only [Option.getD_none] at hv1; rw [← hv1] at hv2
                simp [Expr.is_numeral] at hv2
      | some w =>
        rw [hl] at hv1
        simp only [Option.getD_some] at hv1
        rw [← hv1]
        exact (List.mem_filter.mp (List.mem_of_getLast?_eq_some hl)).1
  split at h
  · by_cases hc1 : c = 1
    · rw [if_pos hc1] at h
      left
      simp only [Prod.mk.injEq, Option.some.injEq, true_and] at h
      rw [← h]
      exact hvar _ rfl (by rw [h]; rfl)
    rw [if_neg hc1] at h
    by_cases hm : (st.var.getD (num 0)).is_mul = true
    · rw [if_pos hm] at h
      split at h <;> simp at h
    rw [if_neg hm] at h
    split at h
    · obtain ⟨_, h⟩ := ite_failed_eq_of (by simp) h
      simp only [Prod.mk.injEq, Option.some.injEq, true_and] at h
      have hvn : (st.var.getD (num 0)).is_numeral = none := by
        split at hv
        · exfalso
          rename_i hnil
          have : (args.filter (fun a => !a.is_numeral.isSome)).length = 0 := by rw [hnil]; rfl
          omega
        · rw [hv]
          cases hl : (args.filter (fun a => !a.is_numeral.isSome)).getLast? with
          | none => rename_i hne; exact absurd (List.getLast?_eq_none_iff.mp hl) hne
          | some w =>
            simp only [Option.getD_some]
            have := (List.mem_filter.mp (List.mem_of_getLast?_eq_some hl)).2
            simpa using this
      exact Or.inr (Or.inl ⟨c, _, hc0, hc1, hvar _ rfl hvn, hvn, by simpa using hm, h⟩)
    · simp at h
  split at h
  · simp at h
  split at h
  · obtain ⟨_, h⟩ := ite_failed_eq_of (by simp) h
    simp only [Prod.mk.injEq, Option.some.injEq, true_and] at h
    have hL : (if (!mul_ordered rw none args) = true then
        rw.std_sort rw.mon_lt (args.filter (fun arg => !arg.is_numeral.isSome))
        else args.filter (fun arg => !arg.is_numeral.isSome)) = mul_sorted_args rw args := rfl
    rw [hL] at h
    have hperm := mul_sorted_args_perm rw args
    have hmem : ∀ a ∈ mul_sorted_args rw args, a ∈ args ∧ a.is_numeral = none := by
      intro a ha
      have := List.mem_filter.mp (hperm.mem_iff.mp ha)
      exact ⟨this.1, by simpa using this.2⟩
    have hlen2 : 2 ≤ (mul_sorted_args rw args).length := by
      rw [hperm.length_eq]
      omega
    exact Or.inr (Or.inr ⟨c, hc0, hmem, hlen2, h⟩)
  · split at h <;> simp at h

theorem ite_eq_cases {α : Type} {c : Prop} [Decidable c] {a x r : α}
    (h : (if c then a else x) = r) : (c ∧ a = r) ∨ (¬ c ∧ x = r) := by
  split at h
  · exact Or.inl ⟨by assumption, h⟩
  · exact Or.inr ⟨by assumption, h⟩

/-- The argument lists on which `mk_nflat_mul_core` returns `BR_FAILED`: no numeral behind
the first position, or numerals around a single product. -/
theorem nflat_failed_shape (rw : poly_rewriter) (args : List Expr)
    (h : rw.mk_nflat_mul_core args = (.BR_FAILED, none)) :
    (∀ a ∈ args.tail, a.is_numeral = none) ∨
      ∃ v, args.filter (fun a => !a.is_numeral.isSome) = [v] ∧ v.is_mul = true ∧
        is_mul_coeff v = none := by
  unfold mk_nflat_mul_core at h
  dsimp only at h
  have hnc := mul_scan_loop_num_coeffs args mul_scan_init
  have hv := mul_scan_loop_var args mul_scan_init
  simp only [mul_scan_init, zero_add] at hnc hv
  generalize mul_scan_loop args { c := 1, num_coeffs := 0, num_add := 0, var := none } = st
    at h hnc hv
  generalize rw.normalize st.c = c at h
  have hlen := filter_length_add (fun a => a.is_numeral.isSome) args
  rw [← hnc] at hlen
  have htail : ∀ (a0 : Expr) (tl : List Expr), args = a0 :: tl →
      (st.num_coeffs = 0 ∨ (st.num_coeffs = 1 ∧ a0.is_numeral.isSome = true)) →
      ∀ a ∈ tl, a.is_numeral = none := by
    intro a0 tl he hor a ha
    subst he
    rw [List.filter_cons] at hnc
    have hcount : (tl.filter (fun a => a.is_numeral.isSome)).length = 0 := by
      rcases hor with h0 | ⟨h1, h2⟩
      · rw [h0] at hnc
        split at hnc
        · simp at hnc
        · exact hnc.symm
      · rw [h1, if_pos h2] at hnc
        simp only [List.length_cons] at hnc
        omega
    cases hn : a.is_numeral with
    | none => rfl
    | some q =>
      have : a ∈ tl.filter (fun a => a.is_numeral.isSome) :=
        List.mem_filter.mpr ⟨ha, by simp [hn]⟩
      have := List.length_pos_of_mem this
      omega
  rcases ite_eq_cases h with ⟨hg, _⟩ | ⟨_, h2⟩
  · left
    simp only [Bool.and_eq_true, decide_eq_true_eq] at hg
    obtain ⟨⟨hl, _⟩, hvv⟩ := hg
    obtain ⟨a0, a1, rfl⟩ := List.length_eq_two.mp hl
    intro a ha
    simp only [List.tail_cons, List.mem_singleton] at ha
    subst ha
    cases a with
    | num q => simp [is_essentially_var] at hvv
    | var i => rfl
    | app f as => rfl
  clear h
  rename' h2 => h
  split at h
  · simp at h
  split at h
  · simp at h
  split at h
  · rename_i hnc1
    have hone : (args.filter (fun a => !a.is_numeral.isSome)).length = 1 := by omega
    obtain ⟨v, hve⟩ := List.length_eq_one.mp hone
    have hvar : st.var.getD (num 0) = v := by
      rw [hv, hve]
      simp
    rw [hvar] at h
    split at h
    · simp at h
    split at h
    · rename_i hm
      right
      refine ⟨v, hve, hm, ?_⟩
      unfold is_mul_coeff
      split
      · rfl
      · rename_i hcond
        simp only [Bool.or_eq_true, Bool.not_eq_true', bne_iff_ne, ne_eq, not_or,
          Bool.not_eq_false, not_not] at hcond
        rw [if_pos hcond.2] at h
        cases hnum : (v.get_arg 0).is_numeral with
        | none => rfl
        | some q => rw [hnum] at h; simp at h
    split at h
    · left
      split at h
      · rename_i hcond
        simp only [Bool.and_eq_true, decide_eq_true_eq] at hcond
        obtain ⟨a0, a1, rfl⟩ := List.length_eq_two.mp hcond.1
        simp only [List.getD_cons_succ, List.getD_cons_zero] at hcond
        intro a ha
        simp only [List.tail_cons, List.mem_singleton] at ha
        subst ha
        rw [hcond.2]
        have : v ∈ List.filter (fun a => !a.is_numeral.isSome) [a0, a] := by rw [hve]; simp
        simpa using (List.mem_filter.mp this).2
      · simp at h
    · simp at h
  split at h
  · simp at h
  rename_i hrw
  simp only [Bool.or_eq_true, decide_eq_true_eq, Bool.and_eq_true, Bool.not_eq_true',
    not_or, not_and] at hrw
  split at h
  · left
    split at h
    · rename_i hcond
      simp only [Bool.and_eq_true, decide_eq_true_eq] at hcond
      cases args with
      | nil => simp
      | cons a0 tl => exact htail a0 tl rfl (Or.inl hcond.1.2)
    · simp at h
  · left
    cases args with
    | nil => simp
    | cons a0 tl =>
      apply htail a0 tl rfl
      by_cases h0 : st.num_coeffs = 0
      · exact Or.inl h0
      · right
        have h1 : st.num_coeffs = 1 := by omega
        refine ⟨h1, ?_⟩
        have := hrw.2 h1
        simp only [List.getD_cons_zero] at this
        cases hq : a0.is_numeral with
        | none => rw [hq] at this; simp at this
        | some q => rfl

end poly_rewriter

namespace poly_rewriter

theorem merge_run_tail_mem (p : Expr × ℚ) (runs : List (Expr × ℚ)) :
    ∀ r ∈ (merge_run p runs).tail, r ∈ runs := by
  cases runs with
  | nil => intro r h; simp [merge_run] at h
  | cons r0 rs =>
    intro r h
    simp only [merge_run] at h
    split at h
    · exact List.mem_cons_of_mem _ h
    · exact h

/-- With `use_power` on, `mk_mul_app` in terms of the emitted runs. -/
theorem mk_mul_app_runs_cases (rw : poly_rewriter) (hpow : rw.use_power = true)
    (args : List Expr) (hn : 2 ≤ args.length) :
    (∀ x, (power_runs args).map emit_run = [x] → rw.mk_mul_app args = x) ∧
      (∀ x y rest, (power_runs args).map emit_run = x :: y :: rest →
        (x.is_numeral = none ∨ rest = []) → rw.mk_mul_app args = .app .mul (x :: y :: rest)) ∧
      (∀ a y z rest, (power_runs args).map emit_run = .num a :: y :: z :: rest →
        rw.mk_mul_app args = rw.mk_mul_app_num a (rw.mk_mul_app (y :: z :: rest))) := by
  match args, hn with
  | a0 :: a1 :: tl, _ =>
    have hfold : fold_powers (get_power_body a0).1 (get_power_body a0).2 (a1 :: tl) =
        (power_runs (a0 :: a1 :: tl)).map emit_run := by
      rw [fold_powers_runs]
      rfl
    have hlen := power_runs_length (a0 :: a1 :: tl)
    refine ⟨?_, ?_, ?_⟩
    · intro x hx
      unfold mk_mul_app
      rw [mk_mul_app_aux]
      simp only [hpow, if_true, hfold, hx]
    · intro x y rest hx hor
      unfold mk_mul_app
      rw [mk_mul_app_aux]
      simp only [hpow, if_true, hfold, hx]
      rcases hor with h | h
      · rw [h]
      · subst h
        cases x.is_numeral <;> simp
    · intro a y z rest hx
      have hl : (y :: z :: rest).length ≤ tl.length + 1 := by
        have : ((power_runs (a0 :: a1 :: tl)).map emit_run).length =
            (Expr.num a :: y :: z :: rest).length := by rw [hx]
        simp only [List.length_map, List.length_cons] at this hlen ⊢
        omega
      have hlong : 2 < (Expr.num a :: y :: z :: rest).length := by
        simp only [List.length_cons]
        omega
      unfold mk_mul_app
      rw [mk_mul_app_aux]
      simp only [hpow, if_true, hfold, hx, Expr.is_numeral, if_pos hlong]
      unfold mk_mul_app_num
      rw [mk_mul_app_aux_fuel rw (a0 :: a1 :: tl).length ((y :: z :: rest).length + 1)
        (y :: z :: rest) (by simp only [List.length_cons] at hl ⊢; omega) (by omega)]
      exact mk_mul_app_num_aux_fuel rw tl.length 1 a _

/-- With `use_power` off, `mk_mul_app` on a numeral followed by at least two factors. -/
theorem mk_mul_app_off_num_long (rw : poly_rewriter) (hpow : rw.use_power = false) (a : ℚ)
    (a1 a2 : Expr) (tl : List Expr) :
    rw.mk_mul_app (.num a :: a1 :: a2 :: tl) =
      rw.mk_mul_app_num a (rw.mk_mul_app (a1 :: a2 :: tl)) := by
  unfold mk_mul_app
  rw [mk_mul_app_aux]
  have hlong : 2 < (Expr.num a :: a1 :: a2 :: tl).length := by
    simp only [List.length_cons]
    omega
  simp only [hpow, Bool.false_eq_true, if_false, Expr.is_numeral, if_pos hlong]
  unfold mk_mul_app_num
  rw [mk_mul_app_aux_fuel rw (Expr.num a :: a1 :: a2 :: tl).length
    ((a1 :: a2 :: tl).length + 1) (a1 :: a2 :: tl)
    (by simp only [List.length_cons]; omega) (by omega)]
  exact mk_mul_app_num_aux_fuel rw (tl.length + 1) 1 a _

/-- A coefficient times the product of at least two factors that are neither numerals nor
products, when it is a product, is flat, or it is the coefficient and a flat product. -/
theorem mk_mul_app_num_flat (rw : poly_rewriter) (c : ℚ) (l children : List Expr)
    (hlen : 2 ≤ l.length) (hnn : ∀ a ∈ l, a.is_numeral = none)
    (hnm : ∀ a ∈ l, a.is_mul = false)
    (h : rw.mk_mul_app_num c (rw.mk_mul_app l) = .app .mul children) :
    (∀ x ∈ children, x.is_mul = false) ∨
      ∃ g, children = [.num c, .app .mul g] ∧ ∀ x ∈ g, x.is_mul = false := by
  have hg : ∀ g : List Expr, (∀ x ∈ g, x ∈ l ∨ ∃ b k, x = mk_power b k) →
      ∀ x ∈ g, x.is_mul = false := by
    intro g hgm x hx
    rcases hgm x hx with hx2 | ⟨b, k, rfl⟩
    · exact hnm x hx2
    · rfl
  rcases mk_mul_app_num_mul_cases rw c _ children h with ⟨_, h1⟩ | ⟨_, y, hy, hyx⟩
  · rcases mk_mul_app_nonnum_forms rw l hlen hnn with ⟨b, k, hb⟩ | ⟨g, hgl, hgm⟩
    · rw [hb] at h1
      simp [mk_power] at h1
    · rw [hgl] at h1
      simp only [Expr.app.injEq, true_and] at h1
      subst h1
      exact Or.inl (hg g hgm)
  · rcases hyx with rfl | ⟨b, k, rfl⟩
    · rcases mk_mul_app_nonnum_forms rw l hlen hnn with ⟨b, k, hb⟩ | ⟨g, hgl, hgm⟩
      · left
        rw [hy, hb]
        intro x hx
        simp only [List.mem_cons, List.mem_singleton, List.not_mem_nil, or_false] at hx
        rcases hx with rfl | rfl <;> rfl
      · right
        exact ⟨g, by rw [hy, hgl], hg g hgm⟩
    · left
      rw [hy]
      intro x hx
      simp only [List.mem_cons, List.mem_singleton, List.not_mem_nil, or_false] at hx
      rcases hx with rfl | rfl <;> rfl

/-- The product `mk_mul_app` builds from factors that are not products, with no numeral
behind the first position, is flat, or it is a numeral and a flat product. -/
theorem mk_mul_app_flat_forms (rw : poly_rewriter) (l children : List Expr)
    (hnm : ∀ a ∈ l, a.is_mul = false) (htl : ∀ a ∈ l.tail, a.is_numeral = none)
    (h : rw.mk_mul_app l = .app .mul children) :
    (∀ x ∈ children, x.is_mul = false) ∨
      ∃ c g, children = [.num c, .app .mul g] ∧ ∀ x ∈ g, x.is_mul = false := by
  match l, hnm, htl, h with
  | [], _, _, h => simp [mk_mul_app, mk_mul_app_aux, mk_numeral] at h
  | [a], hnm, _, h =>
    have h1 : rw.mk_mul_app [a] = a := by simp [mk_mul_app, mk_mul_app_aux]
    rw [h1] at h
    have := hnm a (by simp)
    rw [h] at this
    simp [Expr.is_mul] at this
  | a0 :: a1 :: tl, hnm, htl, h =>
    simp only [List.tail_cons] at htl
    cases h0 : a0.is_numeral with
    | none =>
      have hnn : ∀ a ∈ a0 :: a1 :: tl, a.is_numeral = none := by
        intro a ha
        rcases List.mem_cons.mp ha with rfl | ha
        · exact h0
        · exact htl a ha
      have h1 : rw.mk_mul_app_num 1 (rw.mk_mul_app (a0 :: a1 :: tl)) = .app .mul children := by
        rw [mk_mul_app_num_one]
        exact h
      rcases mk_mul_app_num_flat rw 1 _ children (by simp) hnn hnm h1 with hl | ⟨g, hg1, hg2⟩
      · exact Or.inl hl
      · exact Or.inr ⟨1, g, hg1, hg2⟩
    | some a =>
      have ha0 := is_numeral_eq_some h0
      subst ha0
      have hnm1 : ∀ x ∈ a1 :: tl, x.is_mul = false :=
        fun x hx => hnm x (List.mem_cons_of_mem _ hx)
      cases hpow : rw.use_power with
      | false =>
        cases tl with
        | nil =>
          rw [mk_mul_app_pair_off rw hpow] at h
          simp only [Expr.app.injEq, true_and] at h
          subst h
          left
          intro x hx
          exact hnm x hx
        | cons a2 tl2 =>
          rw [mk_mul_app_off_num_long rw hpow] at h
          rcases mk_mul_app_num_flat rw a _ children (by simp) htl hnm1 h with hl | ⟨g, hg1, hg2⟩
          · exact Or.inl hl
          · exact Or.inr ⟨a, g, hg1, hg2⟩
      | true =>
        obtain ⟨c1, c2, c3⟩ := mk_mul_app_runs_cases rw hpow (.num a :: a1 :: tl) (by simp)
        have hrest : ∀ x ∈ ((power_runs (.num a :: a1 :: tl)).map emit_run).tail,
            x ∈ a1 :: tl ∨ ∃ b k, x = mk_power b k := by
          intro x hx
          rw [← List.map_tail] at hx
          obtain ⟨r, hr, rfl⟩ := List.mem_map.mp hx
          have hr2 := merge_run_tail_mem _ _ r hr
          exact emitted_mem (a1 :: tl) _ (List.mem_map.mpr ⟨r, hr2, rfl⟩)
        have hhead : ∀ x ∈ ((power_runs (.num a :: a1 :: tl)).map emit_run).head?,
            x.is_mul = false := by
          intro x hx
          obtain ⟨k, rs, hm⟩ := merge_run_head (get_power_body (.num a)) (power_runs (a1 :: tl))
          rw [show power_runs (Expr.num a :: a1 :: tl) =
            merge_run (get_power_body (.num a)) (power_runs (a1 :: tl)) from rfl, hm] at hx
          simp only [List.map_cons, List.head?_cons, Option.mem_def, Option.some.injEq] at hx
          rw [← hx]
          have hb : (get_power_body (Expr.num a)).1 = .num a := by
            simp [get_power_body, Expr.is_power]
          unfold emit_run
          simp only [hb]
          split <;> rfl
        generalize hF : (power_runs (.num a :: a1 :: tl)).map emit_run = F at c1 c2 c3 hrest hhead
        match F, hF with
        | [], hF => exact absurd hF (power_runs_map_ne_nil _ _)
        | [x], _ =>
          rw [c1 x rfl] at h
          have := hhead x (by simp)
          rw [h] at this
          simp [Expr.is_mul] at this
        | [x, y], _ =>
          rw [c2 x y [] rfl (Or.inr rfl)] at h
          simp only [Expr.app.injEq, true_and] at h
          subst h
          left
          intro z hz
          rcases List.mem_cons.mp hz with rfl | hz
          · exact hhead _ (by simp)
          · rcases hrest z (by simpa using hz) with hz2 | ⟨b, k, rfl⟩
            · exact hnm1 z hz2
            · rfl
        | x :: y :: z :: rest, _ =>
          have hnn2 : ∀ w ∈ y :: z :: rest, w.is_numeral = none := by
            intro w hw
            rcases hrest w (by simpa using hw) with hw2 | ⟨b, k, rfl⟩
            · exact htl w hw2
            · rfl
          have hnm2 : ∀ w ∈ y :: z :: rest, w.is_mul = false := by
            intro w hw
            rcases hrest w (by simpa using hw) with hw2 | ⟨b, k, rfl⟩
            · exact hnm1 w hw2
            · rfl
          cases hx : x.is_numeral with
          | none =>
            rw [c2 x y (z :: rest) rfl (Or.inl hx)] at h
            simp only [Expr.app.injEq, true_and] at h
            subst h
            left
            intro w hw
            rcases List.mem_cons.mp hw with rfl | hw
            · exact hhead _ (by simp)
            · exact hnm2 w hw
          | some q =>
            have hxq := is_numeral_eq_some hx
            subst hxq
            rw [c3 q y z rest rfl] at h
            rcases mk_mul_app_num_flat rw q _ children (by simp) hnn2 hnm2 h with
              hl | ⟨g, hg1, hg2⟩
            · exact Or.inl hl
            · exact Or.inr ⟨q, g, hg1, hg2⟩

end poly_rewriter

namespace poly_rewriter

theorem nflat_mul_failed_none (rw : poly_rewriter) (args : List Expr)
    (h : (rw.mk_nflat_mul_core args).1 = .BR_FAILED) :
    rw.mk_nflat_mul_core args = (.BR_FAILED, none) := by
  revert h
  unfold mk_nflat_mul_core
  dsimp only
  repeat' split
  all_goals simp

/-- Claim C23 (as stated, refuted): with `som` off (no blow-up abort), `mk_nflat_mul_core` on
`2`, `3`, `(* x y)` returns `BR_FAILED`, although two of the factors are numerals; and on
`(* x y)`, `2` it returns `BR_FAILED` although the numeral is at index 1. -/
theorem failed_product_numerals_counterexample :
    (example_rw false false false false true true false 10).m_som = false ∧
      ((example_rw false false false false true true false 10).mk_nflat_mul_core
        [.num 2, .num 3, .app .mul [ex_x, ex_y]]).1 = .BR_FAILED ∧
      ((example_rw false false false false true true false 10).mk_nflat_mul_core
        [.app .mul [ex_x, ex_y], .num 2]).1 = .BR_FAILED := by
  decide!

/-- Claim C23 (amended): a product left standing has at most one numeral, unless it is
numerals around one product.  For every list `args` of factors, if `mk_nflat_mul_core`
returns `BR_FAILED` (by the blow-up abort or otherwise), then no element of `args` behind
index 0 is a numeral, or exactly one element `v` of `args` is not a numeral and `v` is a
product that is not of the form `(* c t)` with a numeral `c`. -/
theorem failed_product_numerals (rw : poly_rewriter) (args : List Expr)
    (h : (rw.mk_nflat_mul_core args).1 = .BR_FAILED) :
    (∀ a ∈ args.tail, a.is_numeral = none) ∨
      ∃ v, args.filter (fun a => !a.is_numeral.isSome) = [v] ∧ v.is_mul = true ∧
        is_mul_coeff v = none :=
  nflat_failed_shape rw args (nflat_mul_failed_none rw args h)

/-- Witness for `failed_product_numerals`: `mk_nflat_mul_core(2, x)` returns `BR_FAILED`;
the only numeral is at index 0. -/
theorem failed_product_numerals_witness :
    (∀ a ∈ [Expr.num 2, ex_x].tail, a.is_numeral = none) ∨
      ∃ v, [Expr.num 2, ex_x].filter (fun a => !a.is_numeral.isSome) = [v] ∧ v.is_mul = true ∧
        is_mul_coeff v = none :=
  failed_product_numerals (example_rw false false false false true true false 10)
    [.num 2, ex_x] (by decide!)

/-- Coefficient shape of the children of a product: no child behind the first is a numeral,
and a first child that is a numeral is neither 0 nor 1. -/
def coeff_shape (children : List Expr) : Bool :=
  children.tail.all (fun a => !a.is_numeral.isSome) &&
    (match (children.getD 0 (.app .mul [])).is_numeral with
     | some c => !decide (c = 0) && !decide (c = 1)
     | none => true)

theorem coeff_shape_pair (c : ℚ) (y : Expr) (h0 : c ≠ 0) (h1 : c ≠ 1)
    (hy : y.is_numeral = none) : coeff_shape [.num c, y] = true := by
  have hc : (Expr.num c).is_numeral = some c := rfl
  simp [coeff_shape, hc, h0, h1, hy]

theorem coeff_shape_nonnum (g : List Expr) (h : ∀ x ∈ g, x.is_numeral = none) :
    coeff_shape g = true := by
  cases g with
  | nil => simp [coeff_shape, Expr.is_numeral]
  | cons a rest =>
    have ha := h a (List.mem_cons_self _ _)
    simp only [coeff_shape, List.tail_cons, List.getD_cons_zero, ha, Bool.and_true,
      List.all_eq_true, Bool.not_eq_true']
    intro x hx
    rw [h x (List.mem_cons_of_mem _ hx)]
    rfl

/-- Claim C22: coefficient shape of products.  For every list `args` of factors in which
every factor that is itself a product has the coefficient shape, if `mk_nflat_mul_core`
returns `BR_DONE` with a mul application, then no child of it behind the first is a numeral,
and if the first child is a numeral `c` then `c` is neither 0 nor 1. -/
theorem product_coefficient_shape (rw : poly_rewriter) (args children : List Expr)
    (hargs : ∀ a ∈ args, a.is_mul = true → coeff_shape a.get_args = true)
    (h : rw.mk_nflat_mul_core args = (.BR_DONE, some (.app .mul children))) :
    coeff_shape children = true := by
  have hpair : ∀ (c : ℚ) (x : Expr), c ≠ 0 → x.is_numeral = none →
      rw.mk_mul_app_num c x = .app .mul children →
      (c = 1 ∧ x = .app .mul children) ∨ coeff_shape children = true := by
    intro c x hc0 hx hm
    rcases mk_mul_app_num_mul_cases rw c x children hm with h1 | ⟨hc1, y, hy, hyx⟩
    · exact Or.inl h1
    · right
      rw [hy]
      apply coeff_shape_pair c y hc0 hc1
      rcases hyx with rfl | ⟨b, k, rfl⟩
      · exact hx
      · rfl
  rcases nflat_done_mul_shape rw args children h with hmem | ⟨c, v, hc0, hc1, _, hvn, _, hm⟩ |
    ⟨c, hc0, hmem, hlen, hm⟩
  · exact hargs _ hmem rfl
  · rcases hpair c v hc0 hvn hm with ⟨h1, _⟩ | hs
    · exact absurd h1 hc1
    · exact hs
  · rcases mk_mul_app_nonnum_forms rw _ hlen (fun a ha => (hmem a ha).2) with
      ⟨b, k, hb⟩ | ⟨g, hg, hgm⟩
    · rw [hb] at hm
      rcases hpair c (mk_power b k) hc0 rfl hm with ⟨_, h2⟩ | hs
      · simp [mk_power] at h2
      · exact hs
    · rw [hg] at hm
      rcases hpair c (.app .mul g) hc0 rfl hm with ⟨_, h2⟩ | hs
      · simp only [Expr.app.injEq, true_and] at h2
        subst h2
        apply coeff_shape_nonnum
        intro x hx
        rcases hgm x hx with hx2 | ⟨b, k, rfl⟩
        · exact (hmem x hx2).2
        · rfl
      · exact hs

/-- Witness for `product_coefficient_shape`: `(* y 2 x 3)` becomes `(* 6 (* x y))`. -/
theorem product_coefficient_shape_witness :
    coeff_shape [.num 6, .app .mul [ex_x, ex_y]] = true :=
  product_coefficient_shape (example_rw false false false false true true false 10)
    [.num 6, ex_y, ex_x] [.num 6, .app .mul [ex_x, ex_y]] (by decide) (by decide!)

end poly_rewriter

namespace poly_rewriter

/-- A product that `mk_nflat_mul_core` returns with `BR_DONE` for factors none of which is a
product is flat, or it is a coefficient and a flat product. -/
theorem nflat_done_flat (rw : poly_rewriter) (args children : List Expr)
    (hnm : ∀ a ∈ args, a.is_mul = false)
    (h : rw.mk_nflat_mul_core args = (.BR_DONE, some (.app .mul children))) :
    (∀ ch ∈ children, ch.is_mul = false) ∨
      ∃ c g, children = [.num c, .app .mul g] ∧ ∀ x ∈ g, x.is_mul = false := by
  rcases nflat_done_mul_shape rw args children h with hmem | ⟨c, v, _, hc1, _, _, hvm, hm⟩ |
    ⟨c, _, hmem, hlen, hm⟩
  · have := hnm _ hmem
    simp [Expr.is_mul] at this
  · rcases mk_mul_app_num_mul_cases rw c v children hm with ⟨h1, _⟩ | ⟨_, y, hy, hyx⟩
    · exact absurd h1 hc1
    · left
      rw [hy]
      intro x hx
      simp only [List.mem_cons, List.mem_singleton, List.not_mem_nil, or_false] at hx
      rcases hx with rfl | rfl
      · rfl
      · rcases hyx with rfl | ⟨b, k, rfl⟩
        · exact hvm
        · rfl
  · rcases mk_mul_app_num_flat rw c _ children hlen (fun a ha => (hmem a ha).2)
        (fun a ha => hnm a (hmem a ha).1) hm with hl | ⟨g, hg1, hg2⟩
    · exact Or.inl hl
    · exact Or.inr ⟨c, g, hg1, hg2⟩

/-- Claim C21 (as stated, refuted): `mk_flat_mul_core` on `2`, `x`, `y` returns `BR_DONE`
with `(* 2 (* x y))`, whose second child is a product; the single node `(* 2 x y)` is not
built. -/
theorem flat_mul_nesting_counterexample :
    (example_rw true false false false true true false 10).mk_flat_mul_core
        [.num 2, ex_x, ex_y] =
      (.BR_DONE, some (.app .mul [.num 2, .app .mul [ex_x, ex_y]])) ∧
    (Expr.app .mul [ex_x, ex_y]).is_mul = true := by
  decide!

/-- Claim C21 (amended): after flattening a product is nested at most once, under its
coefficient.  For every list `args` of factors in which every factor that is itself a
product is already of one of the two forms below, if `mk_flat_mul_core` returns `BR_DONE`
with a mul application, then either no child of that application is itself a mul, or the
application is `(* c p)` with a numeral `c` and a product `p` none of whose children is a mul
(a product with coefficient `c` and factors `x`, `y`, `z` is `(* c (* x y z))`). -/
theorem flat_mul_nesting (rw : poly_rewriter) (args children : List Expr)
    (hargs : ∀ a ∈ args, a.is_mul = true →
      a.get_args.all (fun ch => !ch.is_mul) = true ∨
        ∃ c g, a = .app .mul [.num c, .app .mul g] ∧ ∀ x ∈ g, x.is_mul = false)
    (h : rw.mk_flat_mul_core args = (.BR_DONE, some (.app .mul children))) :
    (∀ ch ∈ children, ch.is_mul = false) ∨
      ∃ c g, children = [.num c, .app .mul g] ∧ ∀ x ∈ g, x.is_mul = false := by
  rcases mk_flat_mul_core_cases rw args with ⟨heq, hor⟩ | heq
  · rw [heq] at h
    rcases hor with hnm | ⟨c, bs, rfl, hbs⟩
    · exact nflat_done_flat rw args children hnm h
    · rcases nflat_done_mul_shape rw _ children h with hmem | ⟨c2, v, _, _, hv, hvn, hvm, _⟩ |
        ⟨c2, _, _, hlen, _⟩
      · left
        rcases hargs _ hmem rfl with this | ⟨c3, g, hcg, _⟩
        · simp only [Expr.get_args, List.all_eq_true, Bool.not_eq_true'] at this
          exact this
        · exfalso
          simp only [List.mem_cons, List.mem_singleton, List.not_mem_nil, or_false] at hmem
          rcases hmem with hm | hm
          · cases hm
          · simp only [Expr.app.injEq, true_and] at hm hcg
            rw [← hm, hcg] at hbs
            simp [Expr.is_numeral] at hbs
      · simp only [List.mem_cons, List.mem_singleton, List.not_mem_nil, or_false] at hv
        rcases hv with rfl | rfl
        · simp [Expr.is_numeral] at hvn
        · simp [Expr.is_mul] at hvm
      · have hperm := (mul_sorted_args_perm rw [num c, .app .mul bs]).length_eq
        rw [hperm] at hlen
        simp [List.filter_cons, Expr.is_numeral] at hlen
  · rw [heq] at h
    have hfl := flatten_mul_no_mul args
    cases hr : rw.mk_nflat_mul_core (flatten_mul args) with
    | mk s o =>
      rw [hr] at h
      by_cases hs : s = .BR_FAILED
      · subst hs
        simp only [Prod.mk.injEq, Option.some.injEq, true_and] at h
        have hnone := nflat_mul_failed_none rw (flatten_mul args) (by rw [hr])
        rcases nflat_failed_shape rw _ hnone with htl | ⟨v, hv, hvm, _⟩
        · exact mk_mul_app_flat_forms rw _ children hfl htl h
        · have hin : v ∈ (flatten_mul args).filter (fun a => !a.is_numeral.isSome) := by
            rw [hv]
            simp
          have := hfl v (List.mem_filter.mp hin).1
          rw [hvm] at this
          cases this
      · have h2 : (s, o) = (br_status.BR_DONE, some (Expr.app .mul children)) := by
          cases s <;> first | exact absurd rfl hs | exact h
        rw [← hr] at h2
        exact nflat_done_flat rw _ children hfl h2

/-- Witness for `flat_mul_nesting`: the factors `(* 2 (* x y))` and `z` give
`(* 2 (* x y z))`. -/
theorem flat_mul_nesting_witness :
    (∀ ch ∈ [Expr.num 2, .app .mul [ex_x, ex_y, ex_z]], ch.is_mul = false) ∨
      ∃ c g, [Expr.num 2, .app .mul [ex_x, ex_y, ex_z]] = [.num c, .app .mul g] ∧
        ∀ x ∈ g, x.is_mul = false :=
  flat_mul_nesting (example_rw true false false false true true false 10)
    [.app .mul [.num 2, .app .mul [ex_x, ex_y]], ex_z] [.num 2, .app .mul [ex_x, ex_y, ex_z]]
    (fun a ha _ => by
      simp only [List.mem_cons, List.mem_singleton, List.not_mem_nil, or_false] at ha
      rcases ha with rfl | rfl
      · exact Or.inr ⟨2, [ex_x, ex_y], rfl, by decide⟩
      · exact Or.inl rfl)
    (by decide!)

end poly_rewriter

namespace poly_rewriter

/-! ## Like terms -/

end poly_rewriter

/-- An example of a `normalize` hook for a modular sort: reduction modulo `N` of an integer;
other rationals are left as they are. -/
def normalize_mod (N : ℕ) (q : ℚ) : ℚ :=
  if q.isInt then ((q.num % (N : ℤ) : ℤ) : ℚ) else q

theorem normalize_mod_idem (N : ℕ) (q : ℚ) :
    normalize_mod N (normalize_mod N q) = normalize_mod N q := by
  unfold normalize_mod
  by_cases hq : q.isInt = true
  · have hi : ((q.num % (N : ℤ) : ℤ) : ℚ).isInt = true := by simp [Rat.isInt]
    simp only [hq, if_true, hi, Rat.intCast_num]
    rw [Int.emod_emod_of_dvd _ (dvd_refl _)]
  · simp [hq]

/-- An example rewriter for a modular sort: `example_rw` with flattening on, hoisting off,
the AST order, `use_power` off and reduction modulo `N` as `normalize`. -/
def example_mod_rw (N : ℕ) (sort_sums : Bool) : poly_rewriter :=
  { example_rw true false false false sort_sums true false 10 with normalize := normalize_mod N }

namespace poly_rewriter

/-! ## Coefficients and order of the output of `cancel_monomials` -/

theorem cancel_emit_rhs_kept (rw : poly_rewriter) (multiple : List Expr) (move : Bool)
    (l : List Expr) :
    ∀ m ∈ (cancel_emit_rhs rw multiple move l).2, m ∈ l ∧ m.is_numeral = none := by
  induction l with
  | nil => intro m h; simp [cancel_emit_rhs] at h
  | cons arg rest ih =>
    intro m h
    have lift : m ∈ (cancel_emit_rhs rw multiple move rest).2 →
        m ∈ arg :: rest ∧ m.is_numeral = none :=
      fun hm => ⟨List.mem_cons_of_mem _ (ih m hm).1, (ih m hm).2⟩
    simp only [cancel_emit_rhs] at h
    split at h
    · exact lift h
    · rename_i hn
      split at h
      · split at h
        · split at h
          · split at h <;> exact lift h
          · exact lift h
        · simp only [List.mem_cons] at h
          rcases h with rfl | h
          · refine ⟨List.mem_cons_self _ _, ?_⟩
            cases hq : m.is_numeral with
            | none => rfl
            | some q => simp [hq] at hn
          · exact lift h
      · exact lift h

theorem cancel_emit_rhs_moved (rw : poly_rewriter) (multiple : List Expr) (move : Bool)
    (l : List Expr) :
    ∀ m ∈ (cancel_emit_rhs rw multiple move l).1,
      ∃ arg ∈ l, m = (get_power_product_coeff arg).1 ∨
        m = rw.mk_mul_app
          [mk_numeral (-(get_power_product_coeff arg).2), (get_power_product_coeff arg).1] := by
  induction l with
  | nil => intro m h; simp [cancel_emit_rhs] at h
  | cons arg rest ih =>
    intro m h
    have lift : m ∈ (cancel_emit_rhs rw multiple move rest).1 →
        ∃ a ∈ arg :: rest, m = (get_power_product_coeff a).1 ∨
          m = rw.mk_mul_app
            [mk_numeral (-(get_power_product_coeff a).2), (get_power_product_coeff a).1] := by
      intro hm
      obtain ⟨a, ha, hor⟩ := ih m hm
      exact ⟨a, List.mem_cons_of_mem _ ha, hor⟩
    simp only [cancel_emit_rhs] at h
    split at h
    · exact lift h
    · split at h
      · split at h
        · split at h
          · split at h
            · simp only [List.mem_cons] at h
              rcases h with rfl | h
              · exact ⟨arg, List.mem_cons_self _ _, Or.inl rfl⟩
              · exact lift h
            · simp only [List.mem_cons] at h
              rcases h with rfl | h
              · exact ⟨arg, List.mem_cons_self _ _, Or.inr rfl⟩
              · exact lift h
          · exact lift h
        · exact lift h
      · exact lift h

theorem cancel_emit_lhs_mem (rw : poly_rewriter) (multiple : List Expr)
    (coeffs : List (Expr × ℚ)) (l : List Expr) :
    ∀ (visited : List Expr), ∀ m ∈ cancel_emit_lhs rw multiple coeffs l visited,
      m ∈ l ∨ ∃ pp ∈ multiple, m = rw.mk_mul_app_num (coeffs_find pp coeffs) pp := by
  induction l with
  | nil => intro visited m h; simp [cancel_emit_lhs] at h
  | cons arg rest ih =>
    intro visited m h
    have lift : ∀ V, m ∈ cancel_emit_lhs rw multiple coeffs rest V →
        m ∈ arg :: rest ∨ ∃ pp ∈ multiple, m = rw.mk_mul_app_num (coeffs_find pp coeffs) pp :=
      fun V hm => (ih V m hm).imp (List.mem_cons_of_mem _) id
    simp only [cancel_emit_lhs] at h
    split at h
    · exact lift _ h
    · split at h
      · simp only [List.mem_cons] at h
        rcases h with rfl | h
        · exact Or.inl (List.mem_cons_self _ _)
        · exact lift _ h
      · rename_i hmult
        split at h
        · split at h
          · simp only [List.mem_cons] at h
            rcases h with rfl | h
            · exact Or.inr ⟨_, not_not.mp hmult, rfl⟩
            · exact lift _ h
          · exact lift _ h
        · exact lift _ h

/-- The part of the output of `cancel_monomials` that is normalized: the constant, and only
that.  For an idempotent `normalize` (reduction modulo `N` is one), if `cancel_monomials`
returns `BR_DONE`, then the constant inserted into `lhs_result` or `rhs_result` is a fixed
point of `normalize`; every other summand of `rhs_result` is a summand of `rhs`, unchanged;
and every other summand of `lhs_result` is a summand of `lhs`, unchanged, or
`mk_mul_app(a, pp)` with `a` the merged coefficient as the subtraction left it, or a moved
monomial `pp` or `(* -a pp)` with `-a` as the negation left it. -/
theorem cancel_coefficients_normalized (rw : poly_rewriter)
    (hidem : ∀ q, rw.normalize (rw.normalize q) = rw.normalize q) (lhs rhs : Expr)
    (move : Bool) (l2 r2 : Expr)
    (h : rw.cancel_monomials lhs rhs move = (.BR_DONE, some (l2, r2))) :
    rw.normalize (cancel_c_out rw lhs rhs move) = cancel_c_out rw lhs rhs move ∧
      (∃ pre : List Expr, (pre = [] ∨ pre = [.num (cancel_c_out rw lhs rhs move)]) ∧
        l2 = mk_add_app (pre ++ cancel_lhs_out rw lhs rhs move)) ∧
      (∃ pre : List Expr, (pre = [] ∨ pre = [.num (cancel_c_out rw lhs rhs move)]) ∧
        r2 = mk_add_app (pre ++ cancel_new_rhs rw lhs rhs move)) ∧
      (∀ m ∈ cancel_new_rhs rw lhs rhs move, m ∈ get_monomials rhs ∧ m.is_numeral = none) ∧
      (∀ m ∈ cancel_lhs_out rw lhs rhs move,
        m ∈ get_monomials lhs ∨
          (∃ pp, m = rw.mk_mul_app_num
            (coeff_total pp (get_monomials lhs) - coeff_total pp (get_monomials rhs)) pp) ∨
          ∃ arg ∈ get_monomials rhs, m = (get_power_product_coeff arg).1 ∨
            m = rw.mk_mul_app
              [.num (-(get_power_product_coeff arg).2), (get_power_product_coeff arg).1]) := by
  obtain ⟨hl, hr⟩ := cancel_monomials_done rw lhs rhs move l2 r2 h
  refine ⟨?_, ?_, ?_, ?_, ?_⟩
  · unfold cancel_c_out cancel_c
    split
    · exact hidem _
    · exact hidem _
  · refine ⟨_, ?_, hl⟩
    split
    · exact Or.inr rfl
    · exact Or.inl rfl
  · refine ⟨_, ?_, hr⟩
    split
    · exact Or.inr rfl
    · exact Or.inl rfl
  · exact cancel_emit_rhs_kept rw _ move _
  · intro m hm
    have hm2 : m ∈ cancel_new_lhs rw lhs rhs move := by
      unfold cancel_lhs_out at hm
      split at hm
      · exact (rw.std_sort_perm _ _).mem_iff.mp hm
      · exact hm
    unfold cancel_new_lhs at hm2
    rcases List.mem_append.mp hm2 with hm3 | hm3
    · rcases cancel_emit_lhs_mem rw _ _ _ [] m hm3 with h1 | ⟨pp, hpp, h1⟩
      · exact Or.inl h1
      · right
        left
        refine ⟨pp, ?_⟩
        rw [h1]
        congr 1
        exact cancel_coeffs_find lhs rhs pp hpp
    · exact Or.inr (Or.inr (cancel_emit_rhs_moved rw _ move _ m hm3))

/-- Example for `cancel_coefficients_normalized`: modulo 8, `y + 3 = x + 5` becomes
`y = 2 + x`; the constant 2 is a fixed point. -/
theorem cancel_coefficients_normalized_example :
    (example_mod_rw 8 true).normalize
        (cancel_c_out (example_mod_rw 8 true) (.app .add [ex_y, .num 3])
          (.app .add [ex_x, .num 5]) false) =
      cancel_c_out (example_mod_rw 8 true) (.app .add [ex_y, .num 3])
        (.app .add [ex_x, .num 5]) false :=
  (cancel_coefficients_normalized (example_mod_rw 8 true) (normalize_mod_idem 8)
    (.app .add [ex_y, .num 3]) (.app .add [ex_x, .num 5]) false ex_y
    (.app .add [.num 2, ex_x]) (by decide!)).1

/-- Claim C27 (as stated, refuted): with `sort_sums` on and `move` off, `cancel_monomials` on
`(+ y x) = (+ z 1)` returns `BR_DONE` with `lhs_result = (+ y x)`, in which `y` stands
before `x` although `x` is smaller than `y` under the comparator; and with `move` on,
`0 = (* -1 (+ y x))` gives `lhs_result = (+ y x)` too, the single moved monomial, whose own
summands are not sorted. -/
theorem cancel_sorts_output_counterexample :
    (example_rw true false false false true true false 10).cancel_monomials
        (.app .add [ex_y, ex_x]) (.app .add [ex_z, .num 1]) false =
      (.BR_DONE, some (.app .add [ex_y, ex_x], .app .add [.num 1, ex_z])) ∧
    (example_rw true false false false true true false 10).mon_lt ex_x ex_y = true ∧
    (example_rw true false false false true true false 10).cancel_monomials
        (.num 0) (.app .mul [.num (-1), .app .add [ex_y, ex_x]]) true =
      (.BR_DONE, some (.app .add [ex_y, ex_x], .num 0)) := by
  decide!

/-- Claim C27 (amended): `cancel_monomials` sorts the monomials it emits when it moves.  With
`sort_sums` on and `move` on, for every `lhs` and `rhs`, if `cancel_monomials` returns
`BR_DONE` then `rhs_result` is a numeral and `lhs_result` is `mk_add_app` of a buffer of
monomials that is in non-decreasing order under the active monomial comparator: the summands
of `lhs_result` are in that order unless the buffer holds a single monomial that is itself a
sum (which is returned as it is), and they are the buffer itself when it holds at least two
monomials.  With `move` off nothing is sorted: the summands keep the order in which the loops
emitted them. -/
theorem cancel_sorts_output (rw : poly_rewriter) (hs : rw.m_sort_sums = true)
    (lhs rhs l2 r2 : Expr)
    (h : rw.cancel_monomials lhs rhs true = (.BR_DONE, some (l2, r2))) :
    l2 = mk_add_app (cancel_lhs_out rw lhs rhs true) ∧
      List.Pairwise (fun a b => rw.mon_lt b a = false) (cancel_lhs_out rw lhs rhs true) ∧
      ((∀ m, cancel_lhs_out rw lhs rhs true = [m] → m.is_add = false) →
        List.Pairwise (fun a b => rw.mon_lt b a = false) (get_monomials l2)) ∧
      (2 ≤ (cancel_lhs_out rw lhs rhs true).length →
        get_monomials l2 = cancel_lhs_out rw lhs rhs true) ∧
      r2 = .num (cancel_c_out rw lhs rhs true) ∧
      cancel_lhs_out rw lhs rhs false = cancel_new_lhs rw lhs rhs false := by
  obtain ⟨hl, hr⟩ := cancel_monomials_done rw lhs rhs true l2 r2 h
  have hat : cancel_c_at_rhs rw lhs rhs true = true := by simp [cancel_c_at_rhs]
  have hrhs : cancel_new_rhs rw lhs rhs true = [] := cancel_emit_rhs_move rw _ _
  have hl2 : l2 = mk_add_app (cancel_lhs_out rw lhs rhs true) := by
    rw [hl]
    simp [hat]
  have hsorted : List.Pairwise (fun a b => rw.mon_lt b a = false)
      (cancel_lhs_out rw lhs rhs true) := by
    unfold cancel_lhs_out
    simp only [hs, Bool.and_self, if_true]
    exact rw.std_sort_sorted _ _ rw.mon_lt_strict_weak
  refine ⟨hl2, hsorted, ?_, ?_, ?_, ?_⟩
  · intro hsingle
    rw [hl2]
    generalize cancel_lhs_out rw lhs rhs true = buf at hsorted hsingle
    match buf, hsorted, hsingle with
    | [], _, _ => simp [mk_add_app, mk_numeral, get_monomials, Expr.is_add]
    | [m], _, hsingle =>
      have := hsingle m rfl
      simp [mk_add_app, get_monomials, this]
    | a :: b :: rest, hsorted, _ =>
      simpa [mk_add_app, get_monomials, Expr.is_add, Expr.get_args] using hsorted
  · intro hlen
    rw [hl2]
    generalize cancel_lhs_out rw lhs rhs true = buf at hlen
    match buf, hlen with
    | a :: b :: rest, _ => simp [mk_add_app, get_monomials, Expr.is_add, Expr.get_args]
  · rw [hr, hrhs]
    simp [hat, mk_add_app, mk_numeral]
  · unfold cancel_lhs_out
    simp

/-- Witness for `cancel_sorts_output`: with `move` on, `(+ y x) = (+ z 1)` becomes
`(+ x y (* -1 z)) = 1`. -/
theorem cancel_sorts_output_witness :
    Expr.app .add [ex_x, ex_y, .app .mul [.num (-1), ex_z]] =
      mk_add_app (cancel_lhs_out (example_rw true false false false true true false 10)
        (.app .add [ex_y, ex_x]) (.app .add [ex_z, .num 1]) true) :=
  (cancel_sorts_output (example_rw true false false false true true false 10) rfl
    (.app .add [ex_y, ex_x]) (.app .add [ex_z, .num 1])
    (.app .add [ex_x, ex_y, .app .mul [.num (-1), ex_z]]) (.num 1) (by decide!)).1

end poly_rewriter

/-- Parameter set read by `updt_params`: the `poly_rewriter_params` module (`flat`, `som`,
`hoist_mul`, `hoist_ite`, `som_blowup`) and `arith_ineq_lhs` of `arith_rewriter_params`. -/
structure params_ref where
  flat : Bool
  som : Bool
  hoist_mul : Bool
  hoist_ite : Bool
  som_blowup : Nat
  arith_ineq_lhs : Bool

namespace poly_rewriter

/-- Method `updt_params(_p)`: the assignments in source order, each one reading the fields
written before it. -/
def updt_params (rw : poly_rewriter) (p : params_ref) : poly_rewriter :=
  let rw1 := { rw with m_flat := p.flat }
  let rw2 := { rw1 with m_som := p.som }
  let rw3 := { rw2 with m_hoist_mul := p.hoist_mul }
  let rw4 := { rw3 with m_hoist_ite := p.hoist_ite }
  let rw5 := { rw4 with m_som_blowup := p.som_blowup }
  let rw6 := if !rw5.m_flat then { rw5 with m_som := false } else rw5
  let rw7 := if rw6.m_som then { rw6 with m_hoist_mul := false } else rw6
  { rw7 with m_ast_order := !p.arith_ineq_lhs }

/-- Claim C33: after `updt_params` with any parameter set, `som` is on only if `flat` is on,
`hoist_mul` is off whenever `som` is on, and the AST order is selected exactly when
`arith_ineq_lhs` is false. -/
theorem updt_params_dependencies (rw : poly_rewriter) (p : params_ref) :
    ((rw.updt_params p).m_som = true → (rw.updt_params p).m_flat = true) ∧
    ((rw.updt_params p).m_som = true → (rw.updt_params p).m_hoist_mul = false) ∧
    ((rw.updt_params p).m_ast_order = true ↔ p.arith_ineq_lhs = false) := by
  cases p with
  | mk flat som hoist_mul hoist_ite som_blowup arith_ineq_lhs =>
    cases flat <;> cases som <;> cases arith_ineq_lhs <;> simp [updt_params]

end poly_rewriter

namespace rational

/-- Modelled from the spec: `floor(r)` of a rational, the greatest integer not above `r`. -/
def floor (r : ℚ) : ℚ := (Int.floor r : ℚ)

/-- Modelled from the spec: `ceil(r)` of a rational, the least integer not below `r`. -/
def ceil (r : ℚ) : ℚ := (Int.ceil r : ℚ)

end rational

namespace lp

/-- Struct `numeric_pair<T>` at `T = mpq`: the pair `(x, y)`. -/
structure numeric_pair where
  x : ℚ
  y : ℚ
  deriving DecidableEq

namespace numeric_pair

/-- Operator `numeric_pair::operator<(const T&)`. -/
def lt_T (p : numeric_pair) (a : ℚ) : Bool :=
  decide (p.x < a) || (decide (p.x = a) && decide (p.y < 0))

/-- Operator `numeric_pair::operator>(const T&)`. -/
def gt_T (p : numeric_pair) (a : ℚ) : Bool :=
  decide (p.x > a) || (decide (p.x = a) && decide (p.y > 0))

/-- Operator `numeric_pair::operator==(const T&)`. -/
def eq_T (p : numeric_pair) (a : ℚ) : Bool :=
  decide (a = p.x) && decide (p.y = 0)

/-- Operator `numeric_pair::operator<=(const T&)`. -/
def le_T (p : numeric_pair) (a : ℚ) : Bool := p.lt_T a || p.eq_T a

/-- Operator `numeric_pair::operator>=(const T&)`. -/
def ge_T (p : numeric_pair) (a : ℚ) : Bool := p.gt_T a || p.eq_T a

/-- Operator `numeric_pair::operator<(const numeric_pair&)`. -/
def lt (p a : numeric_pair) : Bool :=
  decide (p.x < a.x) || (decide (p.x = a.x) && decide (p.y < a.y))

/-- Operator `numeric_pair::operator>(const numeric_pair&)`. -/
def gt (p a : numeric_pair) : Bool :=
  decide (p.x > a.x) || (decide (p.x = a.x) && decide (p.y > a.y))

/-- Operator `numeric_pair::operator==(const numeric_pair&)`. -/
def eq (p a : numeric_pair) : Bool :=
  decide (a.x = p.x) && decide (a.y = p.y)

/-- Operator `numeric_pair::operator<=(const numeric_pair&)`. -/
def le (p a : numeric_pair) : Bool := p.lt a || p.eq a

/-- Operator `numeric_pair::operator>=(const numeric_pair&)`. -/
def ge (p a : numeric_pair) : Bool := p.gt a || a.eq p

/-- Unary `numeric_pair::operator-()`. -/
def neg (p : numeric_pair) : numeric_pair := ⟨-p.x, -p.y⟩

/-- Method `numeric_pair::is_int()`. -/
def is_int (p : numeric_pair) : Bool := p.x.isInt && decide (p.y = 0)

end numeric_pair

/-- Function `floor(const numeric_pair<T>&)`. -/
def floor (r : numeric_pair) : ℚ :=
  if r.x.isInt then
    if 0 ≤ r.y then r.x else r.x - 1
  else rational.floor r.x

/-- Function `ceil(const numeric_pair<T>&)`. -/
def ceil (r : numeric_pair) : ℚ :=
  if r.x.isInt then
    if r.y ≤ 0 then r.x else r.x + 1
  else rational.ceil r.x

theorem isInt_iff (q : ℚ) : q.isInt = true ↔ ∃ n : ℤ, q = (n : ℚ) := by
  constructor
  · intro h
    exact ⟨q.num, (Rat.eq_num_of_isInt h)⟩
  · rintro ⟨n, rfl⟩
    simp [Rat.isInt]

theorem isInt_neg (q : ℚ) : (-q).isInt = q.isInt := by
  simp [Rat.isInt]

theorem rational_ceil_neg (q : ℚ) : rational.ceil q = - rational.floor (-q) := by
  simp [rational.floor, rational.ceil, Int.floor_neg]

theorem isInt_false_floor_lt (q : ℚ) (h : q.isInt = false) : rational.floor q < q := by
  have h1 : ((Int.floor q : ℤ) : ℚ) ≤ q := Int.floor_le q
  rcases lt_or_eq_of_le h1 with h2 | h2
  · exact h2
  · exfalso
    have : q.isInt = true := (isInt_iff q).2 ⟨Int.floor q, h2.symm⟩
    rw [h] at this
    exact Bool.noConfusion this

theorem isInt_false_ceil (q : ℚ) (h : q.isInt = false) :
    rational.ceil q = rational.floor q + 1 := by
  have h1 := isInt_false_floor_lt q h
  unfold rational.floor at h1
  unfold rational.ceil rational.floor
  have : Int.ceil q = Int.floor q + 1 := by
    rw [Int.ceil_eq_iff]
    constructor
    · push_cast
      linarith
    · push_cast
      exact (Int.lt_floor_add_one q).le
  rw [this]
  push_cast
  rfl

/-- Claim C34: the order on pairs is lexicographic, `is_int` holds exactly for an integer
first component with zero second component, `floor` follows the three cases, and `ceil` is
the mirror image of `floor`. -/
theorem numeric_pair_lexicographic (a b r : numeric_pair) :
    (a.lt b = true ↔ a.x < b.x ∨ (a.x = b.x ∧ a.y < b.y)) ∧
    (r.is_int = true ↔ (∃ n : ℤ, r.x = (n : ℚ)) ∧ r.y = 0) ∧
    ((∃ n : ℤ, r.x = (n : ℚ)) → 0 ≤ r.y → floor r = r.x) ∧
    ((∃ n : ℤ, r.x = (n : ℚ)) → r.y < 0 → floor r = r.x - 1) ∧
    ((¬ ∃ n : ℤ, r.x = (n : ℚ)) → floor r = ((Int.floor r.x : ℤ) : ℚ)) ∧
    ceil r = - floor r.neg := by
  refine ⟨?_, ?_, ?_, ?_, ?_, ?_⟩
  · simp [numeric_pair.lt]
  · simp [numeric_pair.is_int, isInt_iff]
  · intro hx hy
    simp [floor, (isInt_iff r.x).2 hx, hy]
  · intro hx hy
    simp [floor, (isInt_iff r.x).2 hx, not_le.2 hy]
  · intro hx
    have : r.x.isInt = false := by
      cases h : r.x.isInt
      · rfl
      · exact absurd ((isInt_iff r.x).1 h) hx
    simp [floor, this, rational.floor]
  · unfold ceil floor numeric_pair.neg
    simp only [isInt_neg]
    cases h : r.x.isInt
    · simp [rational_ceil_neg]
    · by_cases hy : r.y ≤ 0
      · simp [hy]
      · simp [hy]
        ring

end lp

namespace lp

theorem floor_cases (r : numeric_pair) :
    (r.x.isInt = true ∧ 0 ≤ r.y ∧ floor r = r.x ∧ ceil r = (if r.y = 0 then r.x else r.x + 1)) ∨
    (r.x.isInt = true ∧ r.y < 0 ∧ floor r = r.x - 1 ∧ ceil r = r.x) ∨
    (r.x.isInt = false ∧ floor r = rational.floor r.x ∧ ceil r = rational.floor r.x + 1 ∧
      rational.floor r.x < r.x ∧ r.x < rational.floor r.x + 1) := by
  cases h : r.x.isInt
  · right; right
    refine ⟨rfl, by simp [floor, h], by simp [ceil, h, isInt_false_ceil], isInt_false_floor_lt _ h, ?_⟩
    exact Int.lt_floor_add_one r.x
  · by_cases hy : 0 ≤ r.y
    · left
      refine ⟨rfl, hy, by simp [floor, h, hy], ?_⟩
      by_cases h0 : r.y = 0
      · simp [ceil, h, h0]
      · have : ¬ r.y ≤ 0 := fun hle => h0 (le_antisymm hle hy)
        simp [ceil, h, h0, this]
    · right; left
      have hy1 : r.y < 0 := not_le.1 hy
      exact ⟨rfl, hy1, by simp [floor, h, hy], by simp [ceil, h, hy1.le]⟩

theorem floor_isInt (r : numeric_pair) : (floor r).isInt = true := by
  unfold floor
  split
  · rename_i h
    obtain ⟨n, hn⟩ := (isInt_iff _).1 h
    split
    · exact h
    · rw [hn]
      exact (isInt_iff _).2 ⟨n - 1, by push_cast; rfl⟩
  · exact (isInt_iff _).2 ⟨_, rfl⟩

theorem ceil_isInt (r : numeric_pair) : (ceil r).isInt = true := by
  unfold ceil
  split
  · rename_i h
    obtain ⟨n, hn⟩ := (isInt_iff _).1 h
    split
    · exact h
    · rw [hn]
      exact (isInt_iff _).2 ⟨n + 1, by push_cast; rfl⟩
  · exact (isInt_iff _).2 ⟨_, rfl⟩

theorem int_lt_add_one (m n : ℤ) (h : (m : ℚ) < (n : ℚ) + 1) : (m : ℚ) ≤ n := by
  have : m < n + 1 := by exact_mod_cast h
  exact_mod_cast Int.lt_add_one_iff.1 this

theorem int_sub_one_lt (m n : ℤ) (h : (n : ℚ) - 1 < (m : ℚ)) : (n : ℚ) ≤ m := by
  have : n - 1 < m := by exact_mod_cast h
  exact_mod_cast Int.sub_one_lt_iff.1 this

/-- Claim C37: `floor r` and `ceil r` are integers, `floor r` is the greatest integer `n`
with `(n, 0) <= r` and `ceil r` the least integer `n` with `(n, 0) >= r`, they coincide
exactly when `r.is_int()`, and otherwise `ceil r = floor r + 1`. -/
theorem floor_ceil_bracket (r : numeric_pair) :
    (floor r).isInt = true ∧ (ceil r).isInt = true ∧
    (numeric_pair.mk (floor r) 0).le r = true ∧
    (∀ n : ℤ, (numeric_pair.mk (n : ℚ) 0).le r = true → (n : ℚ) ≤ floor r) ∧
    (numeric_pair.mk (ceil r) 0).ge r = true ∧
    (∀ n : ℤ, (numeric_pair.mk (n : ℚ) 0).ge r = true → ceil r ≤ (n : ℚ)) ∧
    (floor r = ceil r ↔ r.is_int = true) ∧
    (r.is_int = false → ceil r = floor r + 1) := by
  refine ⟨floor_isInt r, ceil_isInt r, ?_⟩
  rcases floor_cases r with ⟨hx, hy, hf, hc⟩ | ⟨hx, hy, hf, hc⟩ | ⟨hx, hf, hc, hlo, hhi⟩
  · obtain ⟨k, hk⟩ := (isInt_iff _).1 hx
    rw [hf, hc]
    refine ⟨?_, ?_, ?_, ?_, ?_, ?_⟩
    · simp [numeric_pair.le, numeric_pair.lt, numeric_pair.eq]
      rcases lt_or_eq_of_le hy with h | h
      · exact Or.inl h
      · exact Or.inr (by first | exact h | exact h.symm)
    · intro n hn
      simp [numeric_pair.le, numeric_pair.lt, numeric_pair.eq] at hn
      rcases hn with (h | h) | h
      · exact h.le
      · first | exact h.1.le | exact h.1.ge
      · first | exact h.1.le | exact h.1.ge
    · by_cases h0 : r.y = 0
      · simp [numeric_pair.ge, numeric_pair.gt, numeric_pair.eq, h0]
      · simp [numeric_pair.ge, numeric_pair.gt, numeric_pair.eq, h0]
    · intro n hn
      simp [numeric_pair.ge, numeric_pair.gt, numeric_pair.eq] at hn
      by_cases h0 : r.y = 0
      · simp only [h0, if_true]
        rcases hn with (h | h) | h
        · exact h.le
        · first | exact h.1.le | exact h.1.ge
        · first | exact h.1.le | exact h.1.ge
      · simp only [h0, if_false]
        rcases hn with (h | h) | h
        · rw [hk] at h ⊢
          have : k < n := by exact_mod_cast h
          exact_mod_cast this
        · exact absurd h.2 (not_lt.2 hy)
        · first | exact absurd h.2 h0 | exact absurd h.2.symm h0
    · by_cases h0 : r.y = 0
      · simp [numeric_pair.is_int, hx, h0]
      · simp [numeric_pair.is_int, hx, h0]
    · intro hi
      have h0 : r.y ≠ 0 := by
        intro h0
        simp [numeric_pair.is_int, hx, h0] at hi
      simp [h0]
  · obtain ⟨k, hk⟩ := (isInt_iff _).1 hx
    rw [hf, hc]
    have h0 : r.y ≠ 0 := hy.ne
    refine ⟨?_, ?_, ?_, ?_, ?_, ?_⟩
    · simp [numeric_pair.le, numeric_pair.lt, numeric_pair.eq]
    · intro n hn
      simp [numeric_pair.le, numeric_pair.lt, numeric_pair.eq] at hn
      rcases hn with (h | h) | h
      · rw [hk] at h ⊢
        have : n < k := by exact_mod_cast h
        have : n ≤ k - 1 := by omega
        exact_mod_cast this
      · exact absurd h.2 (not_lt.2 hy.le)
      · first | exact absurd h.2 h0 | exact absurd h.2.symm h0 | exact absurd h.2 h0.symm
    · simp [numeric_pair.ge, numeric_pair.gt, numeric_pair.eq, hy]
    · intro n hn
      simp [numeric_pair.ge, numeric_pair.gt, numeric_pair.eq] at hn
      rcases hn with (h | h) | h
      · exact h.le
      · first | exact h.1.le | exact h.1.ge
      · first | exact h.1.le | exact h.1.ge
    · simp [numeric_pair.is_int, hx, h0]
    · intro _
      ring
  · rw [hf, hc]
    have hi : r.is_int = false := by simp [numeric_pair.is_int, hx]
    refine ⟨?_, ?_, ?_, ?_, ?_, ?_⟩
    · simp [numeric_pair.le, numeric_pair.lt, numeric_pair.eq]
      exact Or.inl (Or.inl hlo)
    · intro n hn
      simp [numeric_pair.le, numeric_pair.lt, numeric_pair.eq] at hn
      have hnx : (n : ℚ) ≤ r.x := by
        rcases hn with (h | h) | h
        · exact h.le
        · first | exact h.1.le | exact h.1.ge
        · first | exact h.1.le | exact h.1.ge
      exact int_lt_add_one n _ (lt_of_le_of_lt hnx hhi)
    · simp [numeric_pair.ge, numeric_pair.gt, numeric_pair.eq]
      exact Or.inl (Or.inl hhi)
    · intro n hn
      simp [numeric_pair.ge, numeric_pair.gt, numeric_pair.eq] at hn
      have hnx : r.x ≤ (n : ℚ) := by
        rcases hn with (h | h) | h
        · exact h.le
        · first | exact h.1.le | exact h.1.ge
        · first | exact h.1.le | exact h.1.ge
      have := int_sub_one_lt n (Int.floor r.x + 1) (by push_cast; unfold rational.floor at hlo; linarith)
      unfold rational.floor
      exact_mod_cast this
    · rw [hi]
      simp
    · intro _
      rfl

end lp

namespace poly_rewriter

mutual
/-- Left-to-right sequence of the leaves of a term that are not products: a product
contributes the leaves of its arguments at every depth, any other term is its own leaf. -/
def mul_leaves : Expr → List Expr
  | .num q => [.num q]
  | .var i => [.var i]
  | .app f as => if f = .mul then mul_leaves_list as else [.app f as]
/-- Leaves of a list of terms, in order. -/
def mul_leaves_list : List Expr → List Expr
  | [] => []
  | a :: as => mul_leaves a ++ mul_leaves_list as
end

theorem mul_leaves_list_append (as bs : List Expr) :
    mul_leaves_list (as ++ bs) = mul_leaves_list as ++ mul_leaves_list bs := by
  induction as with
  | nil => simp [mul_leaves_list]
  | cons a as ih => simp [mul_leaves_list, ih]

theorem mul_leaves_not_mul (e : Expr) (h : e.is_mul = false) : mul_leaves e = [e] := by
  cases e with
  | num q => simp [mul_leaves]
  | var i => simp [mul_leaves]
  | app f as =>
    have : f ≠ .mul := by
      intro e
      subst e
      simp [Expr.is_mul] at h
    simp [mul_leaves, this]

/-- With enough iterations the `todo` loop of `mk_flat_mul_core` runs until the stack is
empty and emits the leaves of the stacked terms in order. -/
theorem flatten_todo_leaves (fuel : Nat) :
    ∀ todo : List Expr, Expr.size_list todo ≤ fuel →
      flatten_todo fuel todo = mul_leaves_list todo := by
  induction fuel with
  | zero =>
    intro todo hs
    cases todo with
    | nil => simp [flatten_todo, mul_leaves_list]
    | cons a l =>
      have := size_pos a
      simp only [Expr.size_list] at hs
      omega
  | succ fuel ih =>
    intro todo hs
    cases todo with
    | nil => simp [flatten_todo, mul_leaves_list]
    | cons curr rest =>
      simp only [flatten_todo]
      simp only [Expr.size_list] at hs
      split
      · rename_i hm
        obtain ⟨as, rfl⟩ := is_mul_shape hm
        rw [ih _ (by
          rw [Expr.get_args, size_list_append]
          simp only [Expr.size] at hs
          omega)]
        rw [Expr.get_args, mul_leaves_list_append]
        simp [mul_leaves_list, mul_leaves]
      · rename_i hm
        rw [ih rest (by have := size_pos curr; omega)]
        simp only [mul_leaves_list]
        rw [mul_leaves_not_mul curr (by simpa using hm)]
        rfl

theorem flatten_mul_leaves (args : List Expr) : flatten_mul args = mul_leaves_list args := by
  induction args with
  | nil => simp [flatten_mul, mul_leaves_list]
  | cons arg rest ih =>
    simp only [flatten_mul, mul_leaves_list]
    split
    · rw [flatten_todo_leaves _ [arg] (by simp [Expr.size_list]; omega), ih]
      simp [mul_leaves_list]
    · rename_i hm
      rw [ih, mul_leaves_not_mul arg (by simpa using hm)]
      rfl

end poly_rewriter

namespace poly_rewriter

/-- The guard of the flattening branch of `mk_flat_mul_core` holds for well-formed arguments
that contain a product and are not a numeral followed by a product without leading
numeral. -/
theorem flat_mul_guard (args : List Expr) (hwf : Expr.wf_list args = true)
    (hmul : ∃ a ∈ args, a.is_mul = true)
    (hshape : ¬ ∃ c b bs, args = [.num c, .app .mul (b :: bs)] ∧ b.is_numeral = none) :
    ((decide (args.length ≠ 2) || !(args.getD 0 (num 0)).is_numeral.isSome ||
        ((args.getD 1 (num 0)).is_mul &&
          ((args.getD 1 (num 0)).get_arg 0).is_numeral.isSome)) &&
      args.any Expr.is_mul) = true := by
  have hany : args.any Expr.is_mul = true := by
    obtain ⟨a, ha, hm⟩ := hmul
    exact List.any_eq_true.2 ⟨a, ha, hm⟩
  rw [hany, Bool.and_true]
  by_cases hlen : args.length = 2
  · obtain ⟨a0, a1, rfl⟩ := List.length_eq_two.1 hlen
    cases h0 : a0.is_numeral with
    | none => simp [h0]
    | some c =>
      have ha0 : a0 = .num c := by
        cases a0 <;> simp [Expr.is_numeral] at h0
        rw [h0]
      subst ha0
      obtain ⟨a, ha, hm⟩ := hmul
      have ha1 : a1.is_mul = true := by
        rcases List.mem_cons.1 ha with rfl | ha
        · simp [Expr.is_mul] at hm
        · rcases List.mem_cons.1 ha with rfl | ha
          · exact hm
          · cases ha
      obtain ⟨bs, rfl⟩ := is_mul_shape ha1
      have hw1 : (Expr.app .mul bs).wf = true := by
        simp only [Expr.wf_list, Bool.and_eq_true] at hwf
        exact hwf.2.1
      obtain ⟨b, tl, rfl⟩ := wf_mul_cons hw1
      cases hb : b.is_numeral with
      | none => exact absurd ⟨c, b, tl, rfl, hb⟩ hshape
      | some q => simp [Expr.is_mul, Expr.get_arg, Expr.get_args, hb]
  · simp [hlen]

/-- Claim C35: product flattening terminates and keeps leaf order.  For well-formed
arguments, at least two, that contain a product and are not a numeral followed by a product
without leading numeral: the `todo` loop started on an argument reaches the empty stack within
any bound of at least the size of the argument and emits the leaves of the argument; the
flattened list is the left-to-right sequence of the leaves of the arguments that are not
products; `mk_flat_mul_core` passes that list to the non-flat core, returns `BR_DONE` with
`mk_mul_app` of the list when the core returns `BR_FAILED` and the result of the core
otherwise; and it does not return `BR_FAILED`. -/
theorem flat_mul_leaf_order (rw : poly_rewriter) (args : List Expr)
    (hwf : Expr.wf_list args = true) (hn : 2 ≤ args.length)
    (hmul : ∃ a ∈ args, a.is_mul = true)
    (hshape : ¬ ∃ c b bs, args = [.num c, .app .mul (b :: bs)] ∧ b.is_numeral = none) :
    (∀ a ∈ args, ∀ fuel, a.size ≤ fuel → flatten_todo fuel [a] = mul_leaves a) ∧
    flatten_mul args = mul_leaves_list args ∧
    (∀ x ∈ mul_leaves_list args, x.is_mul = false) ∧
    ((rw.mk_nflat_mul_core (mul_leaves_list args)).1 = .BR_FAILED →
      rw.mk_flat_mul_core args = (.BR_DONE, some (rw.mk_mul_app (mul_leaves_list args)))) ∧
    ((rw.mk_nflat_mul_core (mul_leaves_list args)).1 ≠ .BR_FAILED →
      rw.mk_flat_mul_core args = rw.mk_nflat_mul_core (mul_leaves_list args)) ∧
    (rw.mk_flat_mul_core args).1 ≠ .BR_FAILED := by
  have hg := flat_mul_guard args hwf hmul hshape
  have hfl := flatten_mul_leaves args
  have hcore : rw.mk_flat_mul_core args =
      if (rw.mk_nflat_mul_core (mul_leaves_list args)).1 = .BR_FAILED then
        (.BR_DONE, some (rw.mk_mul_app (mul_leaves_list args)))
      else rw.mk_nflat_mul_core (mul_leaves_list args) := by
    unfold mk_flat_mul_core
    rw [if_pos hg, hfl]
    generalize rw.mk_nflat_mul_core (mul_leaves_list args) = r
    obtain ⟨s, o⟩ := r
    cases s <;> simp
  refine ⟨?_, hfl, ?_, ?_, ?_, ?_⟩
  · intro a _ fuel hf
    have := flatten_todo_leaves fuel [a] (by simpa [Expr.size_list] using hf)
    simpa [mul_leaves_list] using this
  · rw [← hfl]
    exact flatten_mul_no_mul args
  · intro h
    rw [hcore, if_pos h]
  · intro h
    rw [hcore, if_neg h]
  · rw [hcore]
    split
    · simp
    · rename_i h
      exact h

/-- Witness for `flat_mul_leaf_order`: the factors `(* x (* 2 y))` and `z`. -/
theorem flat_mul_leaf_order_witness :
    flatten_mul [.app .mul [ex_x, .app .mul [.num 2, ex_y]], ex_z] = [ex_x, .num 2, ex_y, ex_z] :=
  (flat_mul_leaf_order (example_rw true false false false true true false 10)
    [.app .mul [ex_x, .app .mul [.num 2, ex_y]], ex_z] (by decide) (by decide)
    ⟨_, List.mem_cons_self _ _, rfl⟩
    (by rintro ⟨c, b, bs, h, _⟩; cases h)).2.1.trans (by decide)

end poly_rewriter

namespace poly_rewriter

/-- With `use_power` on, a coefficient other than one times a term whose power body is
that coefficient is folded into one power. -/
theorem mk_mul_app_num_fold (rw : poly_rewriter) (hpow : rw.use_power = true) (c : ℚ)
    (arg : Expr) (hc : c ≠ 1) (hz : is_zero arg = false)
    (hb : (get_power_body arg).1 = .num c) :
    rw.mk_mul_app_num c arg = mk_power (.num c) (1 + (get_power_body arg).2) := by
  rw [mk_mul_app_num_unfold rw c arg hc hz, fold_powers_pair]
  simp only [hpow, if_true, hb, push_power]
  have hk := get_power_body_snd_ge arg
  rw [if_neg (by intro e; linarith)]

/-- Claim C31 (as stated, refuted): with `use_power` on, `mk_mul_app(2, (^ 2 3))`, where the
coefficient is not one and the argument is not the numeral zero, is the power `(^ 2 4)` and
not the application `(* 2 (^ 2 3))`. -/
theorem small_arity_constructors_counterexample :
    (2 : ℚ) ≠ 1 ∧ Expr.app .power [.num 2, .num 3] ≠ .num 0 ∧
      (example_rw true false false false true true true 10).mk_mul_app_num 2
          (.app .power [.num 2, .num 3]) = .app .power [.num 2, .num 4] ∧
      (example_rw true false false false true true true 10).mk_mul_app_num 2
          (.app .power [.num 2, .num 3]) ≠ .app .mul [.num 2, .app .power [.num 2, .num 3]] := by
  decide!

/-- Claim C31 (amended): `mk_add_app([])` is the numeral 0 and `mk_add_app([t])` is `t`;
`mk_mul_app([])` is the numeral 1 and `mk_mul_app([t])` is `t`; `mk_mul_app(c, arg)` is `arg`
when `c = 1` or `arg` is the numeral 0, and otherwise the application `(* c arg)` when
`use_power` is off or the power body of the well-formed `arg` is not the numeral `c`, and the
power `(^ c (1 + k))` when `use_power` is on and `arg` is `c` (`k = 1`) or `(^ c k)`; and
with `use_power` off `mk_mul_app` of more than two factors whose first is a numeral `c`
equals `mk_mul_app(c, mk_mul_app(rest))`. -/
theorem small_arity_constructors (rw : poly_rewriter) (t arg : Expr) (c : ℚ) :
    mk_add_app [] = .num 0 ∧ mk_add_app [t] = t ∧
    rw.mk_mul_app [] = .num 1 ∧ rw.mk_mul_app [t] = t ∧
    (c = 1 ∨ arg = .num 0 → rw.mk_mul_app_num c arg = arg) ∧
    (c ≠ 1 → arg ≠ .num 0 → rw.use_power = false →
      rw.mk_mul_app_num c arg = .app .mul [.num c, arg]) ∧
    (c ≠ 1 → arg ≠ .num 0 → arg.wf = true → (get_power_body arg).1 ≠ .num c →
      rw.mk_mul_app_num c arg = .app .mul [.num c, arg]) ∧
    (c ≠ 1 → arg ≠ .num 0 → rw.use_power = true → (get_power_body arg).1 = .num c →
      rw.mk_mul_app_num c arg = .app .power [.num c, .num (1 + (get_power_body arg).2)]) ∧
    (rw.use_power = false → ∀ a1 a2 tl,
      rw.mk_mul_app (.num c :: a1 :: a2 :: tl) =
        rw.mk_mul_app_num c (rw.mk_mul_app (a1 :: a2 :: tl))) := by
  have hz : arg ≠ .num 0 → is_zero arg = false := by
    intro h
    cases hq : is_zero arg
    · rfl
    · exact absurd (is_zero_spec hq) h
  refine ⟨rfl, rfl, rfl, rfl, ?_, ?_, ?_, ?_, ?_⟩
  · rintro (h | h)
    · rw [h, mk_mul_app_num_one]
    · unfold mk_mul_app_num
      rw [mk_mul_app_num_aux, h]
      by_cases hc : c = 1
      · rw [if_pos hc]
      · rw [if_neg hc, if_pos (by decide!)]
  · intro hc ha hpow
    exact mk_mul_app_num_aux_off rw hpow 1 c arg hc (hz ha)
  · intro hc ha hw hb
    exact mk_mul_app_num_eq_of_base rw c arg hc (hz ha) hb hw
  · intro hc ha hpow hb
    exact mk_mul_app_num_fold rw hpow c arg hc (hz ha) hb
  · intro hpow a1 a2 tl
    exact mk_mul_app_off_num_long rw hpow c a1 a2 tl

end poly_rewriter

namespace poly_rewriter

theorem is_power_shape {e : Expr} (h : e.is_power = true) : ∃ as, e = .app .power as := by
  cases e with
  | num q => simp [Expr.is_power] at h
  | var i => simp [Expr.is_power] at h
  | app f as => cases f <;> simp [Expr.is_power] at h; exact ⟨as, rfl⟩

/-- Claim C32 (as stated, refuted): the product `(* 2 x y)` has three arguments, so it is
not of the form `(* c pp)`, and it is neither a numeral nor a power; its ordinal is the node
identifier of its second argument `x` and not its own node identifier. -/
theorem ordinal_cases_counterexample :
    (example_rw true false false false true false true 10).ordinal
        (.app .mul [.num 2, ex_x, ex_y]) =
      ((example_rw true false false false true false true 10).get_id ex_x : Int) ∧
    (example_rw true false false false true false true 10).ordinal
        (.app .mul [.num 2, ex_x, ex_y]) ≠
      ((example_rw true false false false true false true 10).get_id
        (.app .mul [.num 2, ex_x, ex_y]) : Int) := by
  decide!

/-- Claim C32 (amended): the ordinal of a term is -1 if the term is a numeral; the node
identifier of the second argument if the term is a product whose first argument is a
numeral, for `(* c pp)` and for every longer product `(* c pp ...)`; the node identifier of
`b` if the term is `(^ b k)` with numeral `k > 1` and `use_power` on; and the term's own node
identifier in every other case, among them variables, applications outside the arithmetic
family and products without a leading numeral. -/
theorem ordinal_cases (rw : poly_rewriter) (e : Expr) :
    (∀ q, e = .num q → rw.ordinal e = -1) ∧
    (∀ c pp rest, e = .app .mul (.num c :: pp :: rest) → rw.ordinal e = (rw.get_id pp : Int)) ∧
    (∀ b k, e = .app .power [b, .num k] → 1 < k → rw.use_power = true →
      rw.ordinal e = (rw.get_id b : Int)) ∧
    (e.wf = true → e.is_numeral = none → (∀ c rest, e ≠ .app .mul (.num c :: rest)) →
      (rw.use_power = false ∨ ∀ b k, 1 < k → e ≠ .app .power [b, .num k]) →
      rw.ordinal e = (rw.get_id e : Int)) ∧
    (∀ i, e = .var i → rw.ordinal e = (rw.get_id e : Int)) ∧
    (∀ f as, e = .app f as → f.is_arith = false → rw.ordinal e = (rw.get_id e : Int)) ∧
    (∀ a rest, e = .app .mul (a :: rest) → a.is_numeral = none →
      rw.ordinal e = (rw.get_id e : Int)) := by
  refine ⟨?_, ?_, ?_, ?_, ?_, ?_, ?_⟩
  · rintro q rfl
    simp [ordinal, is_essentially_var, Expr.is_mul, Expr.is_numeral]
  · rintro c pp rest rfl
    simp [ordinal, is_essentially_var, Func.is_arith, Expr.is_mul, Expr.is_numeral, Expr.get_arg,
      Expr.get_args]
  · rintro b k rfl hk hpow
    simp [ordinal, is_essentially_var, Func.is_arith, Expr.is_mul, Expr.is_numeral, Expr.get_arg,
      Expr.get_args, Expr.is_power, hpow, hk]
  · intro hwf hnum hmul hpw
    unfold ordinal
    split
    · rfl
    · split
      · rename_i hm
        obtain ⟨as, rfl⟩ := is_mul_shape hm
        split
        · rename_i h0
          exfalso
          cases as with
          | nil => simp [Expr.wf] at hwf
          | cons a rest =>
            cases a with
            | num c => exact hmul c rest rfl
            | var i => simp [Expr.get_arg, Expr.get_args, Expr.is_numeral] at h0
            | app f as => simp [Expr.get_arg, Expr.get_args, Expr.is_numeral] at h0
        · rfl
      · split
        · rename_i h
          rw [hnum] at h
          cases h
        · split
          · rename_i hc
            exfalso
            simp only [Bool.and_eq_true] at hc
            obtain ⟨⟨hp, hpw2⟩, hk⟩ := hc
            rcases hpw with hoff | hne
            · rw [hoff] at hp
              cases hp
            · obtain ⟨as, rfl⟩ := is_power_shape hpw2
              simp only [Expr.wf, Bool.and_eq_true, decide_eq_true_eq] at hwf
              obtain ⟨b, x, rfl⟩ := List.length_eq_two.1 hwf.1
              cases x with
              | num k =>
                simp only [Expr.get_arg, Expr.get_args, List.getD_cons_succ, List.getD_cons_zero,
                  Expr.is_numeral, decide_eq_true_eq] at hk
                exact hne b k hk rfl
              | var i => simp [Expr.get_arg, Expr.get_args, Expr.is_numeral] at hk
              | app f as => simp [Expr.get_arg, Expr.get_args, Expr.is_numeral] at hk
          · rfl
  · rintro i rfl
    simp [ordinal, is_essentially_var]
  · rintro f as rfl hf
    simp [ordinal, is_essentially_var, hf]
  · rintro a rest rfl ha
    simp [ordinal, is_essentially_var, Func.is_arith, Expr.is_mul, Expr.get_arg,
      Expr.get_args, ha]

end poly_rewriter

mutual
/-- Modelled from the spec: test `is_ground(n)`, no variable occurs in the term. -/
def is_ground : Expr → Bool
  | .num _ => true
  | .var _ => false
  | .app _ as => is_ground_list as
/-- No variable occurs in any term of the list. -/
def is_ground_list : List Expr → Bool
  | [] => true
  | a :: as => is_ground a && is_ground_list as
end

/-- Modelled from the spec: test `is_minus_one(n)`, the numeral -1. -/
def is_minus_one (e : Expr) : Bool :=
  match e.is_numeral with
  | some v => decide (v = -1)
  | none => false

namespace poly_rewriter

/-- Modelled from the spec: entry point `mk_add(num_args, args, result)` of the normalizer.
A single argument is returned as it is; otherwise the sum core selected by `flat` runs and
`mk_add_app` builds the sum when the core returns `BR_FAILED`. -/
def mk_add (rw : poly_rewriter) (args : List Expr) : Expr :=
  match args with
  | [a] => a
  | _ =>
    match (if rw.m_flat then rw.mk_flat_add_core args else rw.mk_nflat_add_core args) with
    | (_, some r) => r
    | (_, none) => mk_add_app args

/-- Function `is_times_minus_one(n, r)`: the argument `r` of `(* -1 r)`, if `n` is one. -/
def is_times_minus_one (n : Expr) : Option Expr :=
  if n.is_mul && n.get_num_args == 2 && is_minus_one (n.get_arg 0) then some (n.get_arg 1)
  else none

/-- The `while (!stop)` loop of `is_var_plus_ground` with its state `curr`, `args`, `v` and
`inv`; `none` is the early `return false`.  The first argument bounds the number of
iterations. -/
def is_var_plus_ground_loop :
    Nat → Expr → List Expr → Option Expr → Bool → Option (List Expr × Option Expr × Bool)
  | 0, _, _, _, _ => none
  | fuel + 1, curr, args, v, inv =>
    let arg := if curr.is_add then curr.get_arg 0 else curr
    let next := if curr.is_add then curr.get_arg 1 else curr
    let stop := !curr.is_add
    if is_ground arg then
      if stop then some (args ++ [arg], v, inv)
      else is_var_plus_ground_loop fuel next (args ++ [arg]) v inv
    else if arg.is_var then
      if v.isSome then none
      else if stop then some (args, some arg, inv)
      else is_var_plus_ground_loop fuel next args (some arg) inv
    else
      match is_times_minus_one arg with
      | some neg_arg =>
        if neg_arg.is_var then
          if v.isSome then none
          else if stop then some (args, some neg_arg, true)
          else is_var_plus_ground_loop fuel next args (some neg_arg) true
        else none
      | none => none

/-- Function `is_var_plus_ground(n, inv, v, t)`: `none` when it returns false, otherwise the
values `(inv, v, t)` of the output parameters. -/
def is_var_plus_ground (rw : poly_rewriter) (n : Expr) : Option (Bool × Expr × Expr) :=
  if !n.is_add || is_ground n then none
  else
    match is_var_plus_ground_loop (n.size + 1) n [] none false with
    | some (args, some v, inv) => some (inv, v, rw.mk_add args)
    | _ => none

theorem size_getD_le (as : List Expr) (i : Nat) (h : i < as.length) :
    (as.getD i (num 0)).size ≤ Expr.size_list as := by
  induction as generalizing i with
  | nil => simp at h
  | cons a as ih =>
    cases i with
    | zero => simp [Expr.size_list]
    | succ i =>
      have := ih i (by simpa using h)
      simp only [List.getD_cons_succ, Expr.size_list]
      omega

/-- The bound on the iterations of the loop of `is_var_plus_ground` is immaterial once it
exceeds the size of `curr`: the loop runs until `stop` or an early return. -/
theorem is_var_plus_ground_loop_fuel (f : Nat) :
    ∀ (g : Nat) (curr : Expr) (args : List Expr) (v : Option Expr) (inv : Bool),
      (if curr.is_add then curr.size + 1 else 1) ≤ f →
      (if curr.is_add then curr.size + 1 else 1) ≤ g →
      is_var_plus_ground_loop f curr args v inv = is_var_plus_ground_loop g curr args v inv := by
  induction f with
  | zero =>
    intro g curr args v inv hf _
    split at hf <;> omega
  | succ f ih =>
    intro g curr args v inv hf hg
    cases g with
    | zero => split at hg <;> omega
    | succ g =>
      have hbound : curr.is_add = true → ∀ n : Nat, curr.size + 1 ≤ n + 1 →
          (if (curr.get_arg 1).is_add then (curr.get_arg 1).size + 1 else 1) ≤ n := by
        intro hadd n hn
        obtain ⟨as, rfl⟩ := is_add_shape hadd
        simp only [Expr.size] at hn
        by_cases hi : 1 < as.length
        · have := size_getD_le as 1 hi
          simp only [Expr.get_arg, Expr.get_args]
          split <;> omega
        · have h0 : (Expr.app .add as).get_arg 1 = num 0 := by
            simp only [Expr.get_arg, Expr.get_args]
            exact List.getD_eq_default _ _ (by omega)
          rw [h0]
          simp only [Expr.is_add, Bool.false_eq_true, if_false]
          omega
      have hnext : curr.is_add = true →
          ∀ (a : List Expr) (w : Option Expr) (i : Bool),
            is_var_plus_ground_loop f (curr.get_arg 1) a w i =
              is_var_plus_ground_loop g (curr.get_arg 1) a w i := by
        intro hadd a w i
        rw [hadd] at hf hg
        simp only [if_true] at hf hg
        exact ih g _ a w i (hbound hadd f hf) (hbound hadd g hg)
      simp only [is_var_plus_ground_loop]
      cases hadd : curr.is_add
      · simp
      · simp only [if_true, hnext hadd]

/-- Claim C36 (refuted on the code): on the sum `(+ v0 x y)` of the variable `v0` and the
ground terms `x` and `y`, `is_var_plus_ground` returns true with `inv` false, `v = v0` and
`t = x`; the loop reads only the first two arguments of the sum, so the summand `y` is lost
and the value of the sum, `6` where every atom is `2`, is not `value(v) + value(t) = 4`. -/
theorem is_var_plus_ground_drops_summand :
    (example_rw true false false false true true false 10).is_var_plus_ground
        (.app .add [.var 0, ex_x, ex_y]) = some (false, .var 0, ex_x) ∧
      is_ground ex_x = true ∧
      eval ex_assignment (.app .add [.var 0, ex_x, ex_y]) = 6 ∧
      eval ex_assignment (.var 0) + eval ex_assignment ex_x = 4 := by
  decide!

end poly_rewriter

namespace poly_rewriter

/-- The state `(m1, m2, k)` of `merge_muls(x, y)` when its loop ends, where the assertions
`k > 0`, `m1.size() >= k` and `m2.size() >= k` are made. -/
def merge_muls_final (x y : Expr) : List Expr × List Expr × Nat :=
  merge_loop (List.range (TO_BUFFER Expr.is_mul x).length)
    (TO_BUFFER Expr.is_mul x, TO_BUFFER Expr.is_mul y, 0)

/-- Calls `merge_muls(adds[j], adds[k])` made by the inner loop of `hoist_multiplication`
over the factors `muls` of summand `k`: the pairs of arguments, in order. -/
def hoist_mul_inner_calls (k : Nat) : List Expr → hoist_state → List (Expr × Expr)
  | [], _ => []
  | e :: muls, st =>
    if e.is_numeral.isSome then hoist_mul_inner_calls k muls st
    else
      match map_find st.mul_map e with
      | some j =>
        if st.valid.getD j false && decide (j ≠ k) then
          [(st.adds.getD j (num 0), st.adds.getD k (num 0))]
        else hoist_mul_inner_calls k muls { st with mul_map := map_insert st.mul_map e k }
      | none => hoist_mul_inner_calls k muls { st with mul_map := map_insert st.mul_map e k }

/-- Calls of `merge_muls` made by the outer loop of `hoist_multiplication`. -/
def hoist_mul_outer_calls (rw : poly_rewriter) : List Nat → hoist_state → List (Expr × Expr)
  | [], _ => []
  | k :: ks, st =>
    hoist_mul_inner_calls k (TO_BUFFER Expr.is_mul (st.adds.getD k (num 0))) st ++
      hoist_mul_outer_calls rw ks
        (hoist_mul_inner rw k (TO_BUFFER Expr.is_mul (st.adds.getD k (num 0))) st)

/-- Calls of `merge_muls` made by a run of `hoist_multiplication(som)`. -/
def hoist_multiplication_calls (rw : poly_rewriter) (som : Expr) : List (Expr × Expr) :=
  if !rw.m_hoist_mul then []
  else
    hoist_mul_outer_calls rw (List.range (TO_BUFFER Expr.is_add som).length)
      { adds := TO_BUFFER Expr.is_add som,
        valid := List.replicate (TO_BUFFER Expr.is_add som).length true,
        mul_map := [], change := false }

/-- A pair of summands with a common factor that is not a numeral. -/
def share_factor (p : Expr × Expr) : Prop :=
  ∃ e, e.is_numeral = none ∧ e ∈ TO_BUFFER Expr.is_mul p.1 ∧ e ∈ TO_BUFFER Expr.is_mul p.2

theorem hoist_mul_inner_calls_share (k : Nat) (muls : List Expr) :
    ∀ st : hoist_state,
      (∀ e ∈ muls, e ∈ TO_BUFFER Expr.is_mul (st.adds.getD k (num 0))) →
      (∀ e j, map_find st.mul_map e = some j → st.valid.getD j false = true → j ≠ k →
        e ∈ TO_BUFFER Expr.is_mul (st.adds.getD j (num 0))) →
      ∀ p ∈ hoist_mul_inner_calls k muls st, share_factor p := by
  induction muls with
  | nil => intro st _ _ p hp; simp [hoist_mul_inner_calls] at hp
  | cons e muls ih =>
    intro st h3 h4 p hp
    have hek := h3 e (List.mem_cons_self _ _)
    have h3r : ∀ x ∈ muls, x ∈ TO_BUFFER Expr.is_mul (st.adds.getD k (num 0)) :=
      fun x hx => h3 x (List.mem_cons_of_mem _ hx)
    simp only [hoist_mul_inner_calls] at hp
    by_cases hn : e.is_numeral.isSome = true
    · rw [if_pos hn] at hp
      exact ih st h3r h4 p hp
    · rw [if_neg hn] at hp
      have hen : e.is_numeral = none := by
        cases h : e.is_numeral with
        | none => rfl
        | some q => rw [h] at hn; simp at hn
      have hins : ∀ e2 j, map_find (map_insert st.mul_map e k) e2 = some j →
          st.valid.getD j false = true → j ≠ k →
          e2 ∈ TO_BUFFER Expr.is_mul (st.adds.getD j (num 0)) := by
        intro e2 j hf hv hjk
        rw [map_find_insert] at hf
        split at hf
        · simp only [Option.some.injEq] at hf
          exact absurd hf.symm hjk
        · exact h4 e2 j hf hv hjk
      cases hf : map_find st.mul_map e with
      | none =>
        rw [hf] at hp
        exact ih { st with mul_map := map_insert st.mul_map e k } h3r hins p hp
      | some j =>
        rw [hf] at hp
        simp only at hp
        split at hp
        · rename_i hcond
          simp only [Bool.and_eq_true, decide_eq_true_eq] at hcond
          obtain ⟨hvj, hjk⟩ := hcond
          rw [List.mem_singleton] at hp
          subst hp
          exact ⟨e, hen, h4 e j hf hvj hjk, hek⟩
        · exact ih { st with mul_map := map_insert st.mul_map e k } h3r hins p hp

end poly_rewriter

namespace poly_rewriter

/-- The product returned by `merge_muls(x, y)` is built from the state reached when the loop
ends. -/
theorem merge_muls_eq_final (rw : poly_rewriter) (x y : Expr) :
    rw.merge_muls x y =
      rw.mk_mul_app ((merge_muls_final x y).1.take (merge_muls_final x y).2.2 ++
        [mk_add_app [rw.mk_mul_app ((merge_muls_final x y).1.drop (merge_muls_final x y).2.2),
          rw.mk_mul_app ((merge_muls_final x y).2.1.drop (merge_muls_final x y).2.2)]]) := by
  unfold merge_muls merge_muls_final
  rfl

end poly_rewriter

namespace poly_rewriter

/-- The counter of the loop of `merge_muls` never exceeds the size of either buffer, and the
swaps keep the sizes. -/
theorem merge_loop_le (n : Nat) :
    ∀ (s : Nat) (m1 m2 : List Expr) (k : Nat), k ≤ s → s + n ≤ m1.length → k ≤ m2.length →
      (merge_loop (List.range' s n) (m1, m2, k)).2.2 ≤
          (merge_loop (List.range' s n) (m1, m2, k)).1.length ∧
        (merge_loop (List.range' s n) (m1, m2, k)).2.2 ≤
          (merge_loop (List.range' s n) (m1, m2, k)).2.1.length ∧
        (merge_loop (List.range' s n) (m1, m2, k)).1.length = m1.length ∧
        (merge_loop (List.range' s n) (m1, m2, k)).2.1.length = m2.length := by
  induction n with
  | zero =>
    intro s m1 m2 k hks hlen hk2
    simp only [List.range'_zero, merge_loop]
    refine ⟨by omega, hk2, ?_⟩
    simp
  | succ n ih =>
    intro s m1 m2 k hks hlen hk2
    simp only [List.range'_succ, merge_loop]
    cases hf : find_from m2 (m1.getD s (num 0)) k with
    | none =>
      simp only
      exact ih (s + 1) m1 m2 k (by omega) (by omega) hk2
    | some j =>
      simp only
      obtain ⟨hj1, hj2, _⟩ := find_from_spec m2 _ k j hf
      have := ih (s + 1) (swap_entries m1 s k) (swap_entries m2 j k) (k + 1) (by omega)
        (by rw [swap_entries_length]; omega) (by rw [swap_entries_length]; omega)
      rw [swap_entries_length, swap_entries_length] at this
      exact this

theorem hoist_mul_outer_calls_share (rw : poly_rewriter) (adds0 : List Expr) (N : Nat)
    (ks : List Nat) (hks : ∀ k ∈ ks, k < N) :
    ∀ st : hoist_state, st.adds.length = N → st.valid.length = N →
      hoist_map_ok st → hoist_trace rw adds0 st →
      ∀ p ∈ hoist_mul_outer_calls rw ks st, share_factor p := by
  induction ks with
  | nil => intro st _ _ _ _ p hp; simp [hoist_mul_outer_calls] at hp
  | cons k ks ih =>
    intro st h1 h2 h3 h4 p hp
    simp only [hoist_mul_outer_calls] at hp
    rcases List.mem_append.1 hp with hp | hp
    · exact hoist_mul_inner_calls_share k _ st (fun e he => he)
        (fun e j hf hv _ => (h3 e j hf hv).2.2) p hp
    · obtain ⟨g1, g2, g3, g4⟩ := hoist_mul_inner_trace rw adds0 N k
        (hks k (List.mem_cons_self _ _)) _ st h1 h2 (fun e he => he) h3 h4
      exact ih (fun x hx => hks x (List.mem_cons_of_mem _ hx)) _ g1 g2 g3 g4 p hp

/-- Claim C38: `merge_muls` is only called on summands that share a factor.  At every call
`merge_muls(adds[j], adds[k])` made by a run of `hoist_multiplication`, the flattened factor
lists of the two summands have a common element that is not a numeral, and when the loop of
`merge_muls` ends the number of matched factors is at least 1 and at most the size of either
buffer, the sizes being those of the two factor lists. -/
theorem merge_muls_assertions_hold (rw : poly_rewriter) (som x y : Expr)
    (hcall : (x, y) ∈ rw.hoist_multiplication_calls som) :
    (∃ e, e.is_numeral = none ∧ e ∈ TO_BUFFER Expr.is_mul x ∧ e ∈ TO_BUFFER Expr.is_mul y) ∧
      0 < (merge_muls_final x y).2.2 ∧
      (merge_muls_final x y).2.2 ≤ (merge_muls_final x y).1.length ∧
      (merge_muls_final x y).2.2 ≤ (merge_muls_final x y).2.1.length ∧
      (merge_muls_final x y).1.length = (TO_BUFFER Expr.is_mul x).length ∧
      (merge_muls_final x y).2.1.length = (TO_BUFFER Expr.is_mul y).length := by
  have hshare : share_factor (x, y) := by
    unfold hoist_multiplication_calls at hcall
    split at hcall
    · simp at hcall
    · exact hoist_mul_outer_calls_share rw (TO_BUFFER Expr.is_add som)
        (TO_BUFFER Expr.is_add som).length (List.range (TO_BUFFER Expr.is_add som).length)
        (fun k hk => List.mem_range.mp hk)
        { adds := TO_BUFFER Expr.is_add som,
          valid := List.replicate (TO_BUFFER Expr.is_add som).length true,
          mul_map := [], change := false }
        rfl (by simp) (by intro e j hf; simp [map_find] at hf) ⟨0, rfl, by simp⟩ _ hcall
  obtain ⟨e, hen, hx, hy⟩ := hshare
  simp only at hx hy
  have hpos := merge_loop_pos (TO_BUFFER Expr.is_mul x).length 0 (TO_BUFFER Expr.is_mul x)
    (TO_BUFFER Expr.is_mul y) 0 (by
      obtain ⟨i, hi, hie⟩ := List.getElem_of_mem hx
      refine ⟨i, Nat.zero_le _, by omega, ?_⟩
      rw [List.getD_eq_getElem _ _ hi, hie]
      simpa using hy)
  have hle := merge_loop_le (TO_BUFFER Expr.is_mul x).length 0 (TO_BUFFER Expr.is_mul x)
    (TO_BUFFER Expr.is_mul y) 0 (le_refl _) (by omega) (Nat.zero_le _)
  rw [← List.range_eq_range'] at hpos hle
  exact ⟨⟨e, hen, hx, hy⟩, hpos, hle⟩

/-- Witness for `merge_muls_assertions_hold`: the run on `3*x*y + 3*x*z` calls `merge_muls`
on its two summands, which share the factor `x`. -/
theorem merge_muls_assertions_hold_witness :
    0 < (merge_muls_final (.app .mul [.num 3, ex_x, ex_y]) (.app .mul [.num 3, ex_x, ex_z])).2.2 :=
  (merge_muls_assertions_hold (example_rw true false true false true true false 10)
    (.app .add [.app .mul [.num 3, ex_x, ex_y], .app .mul [.num 3, ex_x, ex_z]])
    (.app .mul [.num 3, ex_x, ex_y]) (.app .mul [.num 3, ex_x, ex_z]) (by decide!)).2.1

end poly_rewriter

/-! ## Tactic combinators (`tactical.cpp`) -/

namespace tactical

/-- Formulas of a goal, as far as the combinators look at them: the constants `true` and
`false`, and other formulas. -/
inductive formula
  | mk_true
  | mk_false
  | atom (n : Nat)
  deriving DecidableEq

/-- Modelled from the spec: a goal carries a set of formulas.  The three feature flags are
fixed when a goal is created and no combinator changes them; they are not part of the
content that is reset and restored. -/
structure goal where
  formulas : List formula
  deriving DecidableEq

namespace goal

/-- Modelled from the spec: `inconsistent()`, the goal contains `false`. -/
def inconsistent (g : goal) : Bool := g.formulas.contains .mk_false

/-- Modelled from the spec: `is_decided_sat()`, the goal is `true` (it has no formula). -/
def is_decided_sat (g : goal) : Bool := g.formulas.isEmpty

/-- Modelled from the spec: `is_decided_unsat()`, the goal contains `false`. -/
def is_decided_unsat (g : goal) : Bool := g.inconsistent

/-- Modelled from the spec: `is_decided()`, decided sat or decided unsat. -/
def is_decided (g : goal) : Bool := g.is_decided_sat || g.is_decided_unsat

/-- Modelled from the spec: `reset_all()`, which empties the goal. -/
def reset_all (_g : goal) : goal := ⟨[]⟩

/-- Modelled from the spec: `copy_from(src)`, which replaces the content of the goal by the
content of `src`. -/
def copy_from (_g src : goal) : goal := ⟨src.formulas⟩

/-- Modelled from the spec: `assert_expr(f)`.  An inconsistent goal stays as it is, `true` is
dropped, `false` makes the goal the inconsistent goal, and any other formula is added. -/
def assert_expr (g : goal) (f : formula) : goal :=
  if g.inconsistent then g
  else
    match f with
    | .mk_true => g
    | .mk_false => ⟨[.mk_false]⟩
    | f => ⟨g.formulas ++ [f]⟩

end goal

/-- Modelled from the spec: `is_decided(r)` on a result buffer, a singleton whose goal is
decided. -/
def is_decided (r : List goal) : Bool :=
  match r with
  | [g] => g.is_decided
  | _ => false

/-- Modelled from the spec: `is_decided_sat(r)` on a result buffer. -/
def is_decided_sat (r : List goal) : Bool :=
  match r with
  | [g] => g.is_decided_sat
  | _ => false

/-- Modelled from the spec: `is_decided_unsat(r)` on a result buffer. -/
def is_decided_unsat (r : List goal) : Bool :=
  match r with
  | [g] => g.is_decided_unsat
  | _ => false

/-- Kinds of exceptions told apart by the handlers of `or_else`, most specific first. -/
inductive exception
  | tactic_exception
  | rewriter_exception
  | z3_error
  | z3_exception
  | std_exception
  | unclassified
  deriving DecidableEq

/-- The handlers of `or_else` that do not rethrow: those for `tactic_exception` and
`rewriter_exception`. -/
def exception.is_caught : exception → Bool
  | .tactic_exception => true
  | .rewriter_exception => true
  | _ => false

/-- Outcome of a call `t->operator()(in, result)`: the content of the goal `in` and of the
buffer `result` when the call ends, and the exception that ended it, if any. -/
structure run where
  in_goal : goal
  result : List goal
  raised : Option exception
  deriving DecidableEq

/-- A tactic, `tactic::operator()(in, result)`, as a function of the content of `in` and of
`result` at the call. -/
abbrev tactic := goal → List goal → run

/-- Modelled from the spec: the tactic `skip`, which pushes its input goal on the result
buffer. -/
def mk_skip_tactic : tactic := fun g result => ⟨g, result ++ [g], none⟩

/-- The `for` loop of `or_else_tactical::operator()` over the tactics still to try; `orig` is
the copy of the input goal taken at entry. -/
def or_else_loop (orig : goal) : List tactic → goal → List goal → run
  | [], g, result => ⟨g, result, none⟩
  | [t], g, result => t g result
  | t :: t2 :: ts, g, result =>
    match (t g result).raised with
    | none => t g result
    | some ex =>
      if ex.is_caught then
        or_else_loop orig (t2 :: ts) (((t g result).in_goal.reset_all).copy_from orig) []
      else t g result

/-- Method `or_else_tactical::operator()(in, result)`. -/
def or_else_tactical (ts : List tactic) : tactic :=
  fun g result => or_else_loop g ts g result

/-- Function `skip_if_failed(t)`. -/
def skip_if_failed (t : tactic) : tactic := or_else_tactical [t, mk_skip_tactic]

/-- State of the loop of `and_then` over the subgoals: the buffer `result`, whether the
function has returned from inside the loop, and the exception that ended it, if any. -/
structure and_then_state where
  result : List goal
  returned : Bool
  raised : Option exception

/-- The `for` loop of `and_then_tactical::operator()` over the subgoals `r1[i]`. -/
def and_then_loop (t2 : tactic) : List goal → List goal → and_then_state
  | [], result => ⟨result, false, none⟩
  | g :: r1, result =>
    match (t2 g []).raised with
    | some ex => ⟨result, true, some ex⟩
    | none =>
      if is_decided (t2 g []).result then
        if is_decided_sat (t2 g []).result then
          ⟨[(t2 g []).result.getD 0 ⟨[]⟩], true, none⟩
        else and_then_loop t2 r1 result
      else and_then_loop t2 r1 (result ++ (t2 g []).result)

/-- Outcome of `and_then_tactical::operator()(in, result)`: the content of the buffer
`result` at the return and the exception that ended the call, if any.  The content of `in`
at the return is not part of the outcome: goals are values here, whereas in the code a
subgoal that is the input goal object itself is changed in place by the second tactic. -/
structure and_then_run where
  result : List goal
  raised : Option exception

/-- Method `and_then_tactical::operator()(in, result)`. -/
def and_then_tactical (t1 t2 : tactic) (g : goal) (result : List goal) : and_then_run :=
  match (t1 g []).raised with
  | some ex => ⟨result, some ex⟩
  | none =>
    match (t1 g []).result with
    | [g1] =>
      if g1.is_decided then ⟨result ++ [g1], none⟩
      else ⟨(t2 g1 result).result, (t2 g1 result).raised⟩
    | r1 =>
      if (and_then_loop t2 r1 result).returned then
        ⟨(and_then_loop t2 r1 result).result, (and_then_loop t2 r1 result).raised⟩
      else if (and_then_loop t2 r1 result).result.isEmpty then
        ⟨[((t1 g []).in_goal.reset_all).assert_expr .mk_false], none⟩
      else ⟨(and_then_loop t2 r1 result).result, none⟩

theorem copy_from_reset_all (g orig : goal) : (g.reset_all).copy_from orig = orig := by
  cases orig
  rfl

theorem or_else_loop_first (orig : goal) (t : tactic) (post : List tactic) :
    ∀ (pre : List tactic) (result : List goal),
      (∀ i (h : i < pre.length), ∃ ex,
        (pre.get ⟨i, h⟩ orig (if i = 0 then result else [])).raised = some ex ∧
          ex.is_caught = true) →
      (post = [] ∨ ∀ ex, (t orig (if pre.length = 0 then result else [])).raised = some ex →
        ex.is_caught = false) →
      or_else_loop orig (pre ++ t :: post) orig result =
        t orig (if pre.length = 0 then result else []) := by
  intro pre
  induction pre with
  | nil =>
    intro result _ ht
    simp only [List.nil_append, List.length_nil, if_true] at ht ⊢
    cases post with
    | nil => rfl
    | cons t2 ts =>
      simp only [or_else_loop]
      rcases ht with ht | ht
      · cases ht
      · cases hr : (t orig result).raised with
        | none => rfl
        | some ex =>
          have := ht ex (by simpa using hr)
          simp [this]
  | cons p pre ih =>
    intro result hpre ht
    obtain ⟨ex, hex, hc⟩ := hpre 0 (by simp)
    simp only [List.get_eq_getElem, List.getElem_cons_zero, if_true] at hex
    have hne : pre ++ t :: post ≠ [] := by simp
    obtain ⟨t2, ts, hts⟩ : ∃ t2 ts, pre ++ t :: post = t2 :: ts := by
      cases h : pre ++ t :: post with
      | nil => exact absurd h hne
      | cons a b => exact ⟨a, b, rfl⟩
    rw [List.cons_append, hts]
    simp only [or_else_loop, hex, hc, if_true, copy_from_reset_all]
    rw [← hts]
    have := ih [] (by
      intro i h
      obtain ⟨ex2, h2, hc2⟩ := hpre (i + 1) (by simpa using h)
      refine ⟨ex2, ?_, hc2⟩
      simp only [List.get_eq_getElem, List.getElem_cons_succ, Nat.add_one_ne_zero,
        if_false] at h2
      simpa using h2) (by
      rcases ht with ht | ht
      · exact Or.inl ht
      · right
        intro ex2 h2
        apply ht ex2
        simpa using h2)
    rw [this]
    simp only [List.length_cons, Nat.add_one_ne_zero, if_false]
    split <;> rfl

/-- Claim C39: `or_else` tries the alternatives on the original goal.  When every tactic
before `t` raises a `tactic_exception` or a `rewriter_exception` on the input goal (the first
with the buffer of the caller, the others with the emptied buffer), and `t` is the last
tactic or does not raise one of these two, the outcome of `or_else` is the outcome of `t` run
on the input goal: its result when it returns, and its exception, which reaches the caller,
when `t` is the last tactic or the exception is of another kind. -/
theorem or_else_first_success (pre : List tactic) (t : tactic) (post : List tactic)
    (g : goal) (result : List goal)
    (hpre : ∀ i (h : i < pre.length), ∃ ex,
      (pre.get ⟨i, h⟩ g (if i = 0 then result else [])).raised = some ex ∧
        ex.is_caught = true)
    (ht : post = [] ∨ ∀ ex, (t g (if pre.length = 0 then result else [])).raised = some ex →
      ex.is_caught = false) :
    or_else_tactical (pre ++ t :: post) g result = t g (if pre.length = 0 then result else []) :=
  or_else_loop_first g t post pre result hpre ht

end tactical

namespace tactical

/-- A tactic that changes its input goal, pushes a goal and then raises a
`tactic_exception`. -/
def ex_failing_tactic : tactic :=
  fun g result => ⟨g.assert_expr (.atom 1), result ++ [g], some .tactic_exception⟩

/-- Witness for `or_else_first_success`: `skip_if_failed` of a tactic that fails after
changing the goal and the buffer returns the original goal as the only result. -/
theorem or_else_first_success_witness :
    skip_if_failed ex_failing_tactic ⟨[.atom 0]⟩ [] = ⟨⟨[.atom 0]⟩, [⟨[.atom 0]⟩], none⟩ :=
  or_else_first_success [ex_failing_tactic] mk_skip_tactic [] ⟨[.atom 0]⟩ []
    (fun i h => ⟨.tactic_exception, by
      have hi : i = 0 := by simpa using h
      subst hi
      rfl, rfl⟩)
    (Or.inl rfl)

end tactical

namespace tactical

/-- In-order concatenation of the results of `t2` on the subgoals it leaves undecided. -/
def undecided_results (t2 : tactic) : List goal → List goal
  | [] => []
  | g :: r1 =>
    (if is_decided (t2 g []).result then [] else (t2 g []).result) ++ undecided_results t2 r1

theorem is_decided_sat_decided (r : List goal) (h : is_decided_sat r = true) :
    is_decided r = true ∧ ∃ x, r = [x] ∧ x.is_decided_sat = true := by
  match r, h with
  | [x], h =>
    simp only [is_decided_sat] at h
    exact ⟨by simp [is_decided, goal.is_decided, h], x, rfl, h⟩

theorem is_decided_unsat_decided (r : List goal) (h : is_decided_unsat r = true) :
    is_decided r = true ∧ is_decided_sat r = false := by
  match r, h with
  | [x], h =>
    simp only [is_decided_unsat, goal.is_decided_unsat, goal.inconsistent] at h
    refine ⟨by
      simp only [is_decided, goal.is_decided, goal.is_decided_unsat, goal.inconsistent, h,
        Bool.or_true], ?_⟩
    simp only [is_decided_sat, goal.is_decided_sat]
    cases hx : x.formulas with
    | nil => rw [hx] at h; simp at h
    | cons a l => rfl

/-- The loop of `and_then` when `t2` raises no exception and decides no subgoal sat: it ends
without returning and has appended the undecided results. -/
theorem and_then_loop_no_sat (t2 : tactic) (r1 : List goal) :
    ∀ result : List goal,
      (∀ g ∈ r1, (t2 g []).raised = none) →
      (∀ g ∈ r1, is_decided_sat (t2 g []).result = false) →
      and_then_loop t2 r1 result = ⟨result ++ undecided_results t2 r1, false, none⟩ := by
  induction r1 with
  | nil => intro result _ _; simp [and_then_loop, undecided_results]
  | cons g r1 ih =>
    intro result hr hs
    have hrg := hr g (List.mem_cons_self _ _)
    have hsg := hs g (List.mem_cons_self _ _)
    have hr2 : ∀ x ∈ r1, (t2 x []).raised = none := fun x hx => hr x (List.mem_cons_of_mem _ hx)
    have hs2 : ∀ x ∈ r1, is_decided_sat (t2 x []).result = false :=
      fun x hx => hs x (List.mem_cons_of_mem _ hx)
    simp only [and_then_loop, hrg, hsg, undecided_results]
    by_cases hd : is_decided (t2 g []).result = true
    · simp only [hd, if_true, Bool.false_eq_true, if_false]
      rw [ih result hr2 hs2]
      simp
    · simp only [hd, if_false, Bool.false_eq_true]
      rw [ih _ hr2 hs2]
      simp

/-- The loop of `and_then` returns at the first subgoal that `t2` decides sat. -/
theorem and_then_loop_sat (t2 : tactic) (gi : goal) (post : List goal) (pre : List goal) :
    ∀ result : List goal,
      (∀ g ∈ pre, (t2 g []).raised = none) → (t2 gi []).raised = none →
      (∀ g ∈ pre, is_decided_sat (t2 g []).result = false) →
      is_decided_sat (t2 gi []).result = true →
      and_then_loop t2 (pre ++ gi :: post) result = ⟨(t2 gi []).result, true, none⟩ := by
  induction pre with
  | nil =>
    intro result _ hri _ hsi
    obtain ⟨hd, x, hx, _⟩ := is_decided_sat_decided _ hsi
    simp only [List.nil_append, and_then_loop, hri, hd, hsi, if_true]
    rw [hx]
    rfl
  | cons g pre ih =>
    intro result hr hri hs hsi
    have hrg := hr g (List.mem_cons_self _ _)
    have hsg := hs g (List.mem_cons_self _ _)
    have hr2 : ∀ x ∈ pre, (t2 x []).raised = none := fun x hx => hr x (List.mem_cons_of_mem _ hx)
    have hs2 : ∀ x ∈ pre, is_decided_sat (t2 x []).result = false :=
      fun x hx => hs x (List.mem_cons_of_mem _ hx)
    simp only [List.cons_append, and_then_loop, hrg, hsg]
    by_cases hd : is_decided (t2 g []).result = true
    · simp only [hd, if_true, Bool.false_eq_true, if_false]
      exact ih result hr2 hri hs2 hsi
    · simp only [hd, if_false, Bool.false_eq_true]
      exact ih _ hr2 hri hs2 hsi

theorem undecided_results_all_decided (t2 : tactic) (r1 : List goal)
    (h : ∀ g ∈ r1, is_decided (t2 g []).result = true) : undecided_results t2 r1 = [] := by
  induction r1 with
  | nil => rfl
  | cons g r1 ih =>
    simp only [undecided_results, h g (List.mem_cons_self _ _), if_true, List.nil_append]
    exact ih (fun x hx => h x (List.mem_cons_of_mem _ hx))

theorem undecided_results_ne_nil (t2 : tactic) (r1 : List goal)
    (h : ∃ g ∈ r1, is_decided (t2 g []).result = false ∧ (t2 g []).result ≠ []) :
    undecided_results t2 r1 ≠ [] := by
  induction r1 with
  | nil => obtain ⟨g, hg, _⟩ := h; cases hg
  | cons g r1 ih =>
    obtain ⟨x, hx, hd, hne⟩ := h
    simp only [undecided_results]
    rcases List.mem_cons.1 hx with rfl | hx
    · simp [hd, hne]
    · have := ih ⟨x, hx, hd, hne⟩
      simp [this]

end tactical

namespace tactical

theorem and_then_single (t1 t2 : tactic) (g g1 : goal) (result : List goal)
    (h1 : (t1 g []).raised = none) (hr : (t1 g []).result = [g1]) :
    and_then_tactical t1 t2 g result =
      if g1.is_decided then ⟨result ++ [g1], none⟩
      else ⟨(t2 g1 result).result, (t2 g1 result).raised⟩ := by
  unfold and_then_tactical
  simp only [h1, hr]

theorem and_then_several (t1 t2 : tactic) (g : goal) (result : List goal)
    (h1 : (t1 g []).raised = none) (hr : (t1 g []).result.length ≠ 1) :
    and_then_tactical t1 t2 g result =
      if (and_then_loop t2 (t1 g []).result result).returned then
        ⟨(and_then_loop t2 (t1 g []).result result).result,
          (and_then_loop t2 (t1 g []).result result).raised⟩
      else if (and_then_loop t2 (t1 g []).result result).result.isEmpty then
        ⟨[((t1 g []).in_goal.reset_all).assert_expr .mk_false], none⟩
      else ⟨(and_then_loop t2 (t1 g []).result result).result, none⟩ := by
  unfold and_then_tactical
  simp only [h1]
  split
  · rename_i g1 heq
    rw [heq] at hr
    simp at hr
  · rfl

theorem first_sat_split (t2 : tactic) (r1 : List goal)
    (h : ∃ gi ∈ r1, is_decided_sat (t2 gi []).result = true) :
    ∃ pre gi post, r1 = pre ++ gi :: post ∧
      (∀ p ∈ pre, is_decided_sat (t2 p []).result = false) ∧
      is_decided_sat (t2 gi []).result = true := by
  induction r1 with
  | nil => obtain ⟨gi, hgi, _⟩ := h; cases hgi
  | cons a r1 ih =>
    by_cases ha : is_decided_sat (t2 a []).result = true
    · exact ⟨[], a, r1, rfl, by simp, ha⟩
    · obtain ⟨gi, hgi, hs⟩ := h
      rcases List.mem_cons.1 hgi with rfl | hgi
      · exact absurd hs ha
      · obtain ⟨pre, x, post, h1, h2, h3⟩ := ih ⟨gi, hgi, hs⟩
        refine ⟨a :: pre, x, post, by rw [h1]; rfl, ?_, h3⟩
        intro p hp
        rcases List.mem_cons.1 hp with rfl | hp
        · simpa using ha
        · exact h2 p hp

theorem no_sat_of_not_exists (t2 : tactic) (r1 : List goal)
    (h : ¬ ∃ gi ∈ r1, is_decided_sat (t2 gi []).result = true) :
    ∀ gi ∈ r1, is_decided_sat (t2 gi []).result = false := by
  intro gi hgi
  cases hs : is_decided_sat (t2 gi []).result
  · rfl
  · exact absurd ⟨gi, hgi, hs⟩ h

/-- Claim C40: `and_then` never returns an empty result.  When `t1` returns on the input and
`t2` returns at least one goal on every input, `and_then(t1, t2)` returns at least one goal.
When `t1` yields a single decided goal the result is exactly that goal, whatever the second
tactic is.  When `t1` yields several subgoals: if `t2` decides a subgoal sat, and none before
it, the result is the single goal of that decision; if `t2` decides every subgoal unsat, the
result is the input goal reset to contain `false`; and if `t2` decides no subgoal sat and
leaves one undecided, the result is the in-order concatenation of the undecided results. -/
theorem and_then_never_empty (t1 t2 : tactic) (g : goal)
    (h1 : (t1 g []).raised = none)
    (h2 : ∀ x, (t2 x []).raised = none ∧ (t2 x []).result ≠ []) :
    (and_then_tactical t1 t2 g []).raised = none ∧
    (and_then_tactical t1 t2 g []).result ≠ [] ∧
    (∀ g1, (t1 g []).result = [g1] → g1.is_decided = true →
      ∀ t2' : tactic, (and_then_tactical t1 t2' g []).result = [g1]) ∧
    (2 ≤ (t1 g []).result.length →
      (∀ pre gi post, (t1 g []).result = pre ++ gi :: post →
        (∀ p ∈ pre, is_decided_sat (t2 p []).result = false) →
        is_decided_sat (t2 gi []).result = true →
        (and_then_tactical t1 t2 g []).result = (t2 gi []).result ∧
          ∃ x, (t2 gi []).result = [x] ∧ x.is_decided_sat = true) ∧
      ((∀ gi ∈ (t1 g []).result, is_decided_unsat (t2 gi []).result = true) →
        (and_then_tactical t1 t2 g []).result =
            [((t1 g []).in_goal.reset_all).assert_expr .mk_false] ∧
          (((t1 g []).in_goal.reset_all).assert_expr .mk_false).formulas = [.mk_false]) ∧
      ((∀ gi ∈ (t1 g []).result, is_decided_sat (t2 gi []).result = false) →
        (∃ gi ∈ (t1 g []).result, is_decided (t2 gi []).result = false) →
        (and_then_tactical t1 t2 g []).result = undecided_results t2 (t1 g []).result)) := by
  have hloop : (∀ gi ∈ (t1 g []).result, is_decided_sat (t2 gi []).result = false) →
      and_then_loop t2 (t1 g []).result [] =
        ⟨undecided_results t2 (t1 g []).result, false, none⟩ := by
    intro hs
    rw [and_then_loop_no_sat t2 _ [] (fun x _ => (h2 x).1) hs]
    simp
  refine ⟨?_, ?_, ?_, ?_⟩
  · by_cases hlen : (t1 g []).result.length = 1
    · obtain ⟨g1, hg1⟩ := List.length_eq_one.1 hlen
      rw [and_then_single t1 t2 g g1 [] h1 hg1]
      split
      · rfl
      · exact (h2 g1).1
    · rw [and_then_several t1 t2 g [] h1 hlen]
      by_cases hsat : ∃ gi ∈ (t1 g []).result, is_decided_sat (t2 gi []).result = true
      · obtain ⟨pre, gi, post, hsplit, hpre, hgi⟩ := first_sat_split t2 _ hsat
        rw [hsplit, and_then_loop_sat t2 gi post pre [] (fun x _ => (h2 x).1) (h2 gi).1 hpre hgi]
        rfl
      · rw [hloop (no_sat_of_not_exists t2 _ hsat)]
        simp only [Bool.false_eq_true, if_false]
        split <;> rfl
  · by_cases hlen : (t1 g []).result.length = 1
    · obtain ⟨g1, hg1⟩ := List.length_eq_one.1 hlen
      rw [and_then_single t1 t2 g g1 [] h1 hg1]
      split
      · simp
      · exact (h2 g1).2
    · rw [and_then_several t1 t2 g [] h1 hlen]
      by_cases hsat : ∃ gi ∈ (t1 g []).result, is_decided_sat (t2 gi []).result = true
      · obtain ⟨pre, gi, post, hsplit, hpre, hgi⟩ := first_sat_split t2 _ hsat
        rw [hsplit, and_then_loop_sat t2 gi post pre [] (fun x _ => (h2 x).1) (h2 gi).1 hpre hgi]
        exact (h2 gi).2
      · rw [hloop (no_sat_of_not_exists t2 _ hsat)]
        simp only [Bool.false_eq_true, if_false]
        split
        · simp
        · rename_i hne
          intro he
          simp only at he
          rw [he] at hne
          exact hne rfl
  · intro g1 hg1 hd t2'
    rw [and_then_single t1 t2' g g1 [] h1 hg1, if_pos hd]
    rfl
  · intro hlen2
    have hlen : (t1 g []).result.length ≠ 1 := by omega
    refine ⟨?_, ?_, ?_⟩
    · intro pre gi post hsplit hpre hgi
      refine ⟨?_, (is_decided_sat_decided _ hgi).2⟩
      rw [and_then_several t1 t2 g [] h1 hlen, hsplit,
        and_then_loop_sat t2 gi post pre [] (fun x _ => (h2 x).1) (h2 gi).1 hpre hgi]
      rfl
    · intro hall
      refine ⟨?_, rfl⟩
      have hs : ∀ gi ∈ (t1 g []).result, is_decided_sat (t2 gi []).result = false :=
        fun gi hgi => (is_decided_unsat_decided _ (hall gi hgi)).2
      have hd : ∀ gi ∈ (t1 g []).result, is_decided (t2 gi []).result = true :=
        fun gi hgi => (is_decided_unsat_decided _ (hall gi hgi)).1
      rw [and_then_several t1 t2 g [] h1 hlen, hloop hs,
        undecided_results_all_decided t2 _ hd]
      rfl
    · intro hs hund
      obtain ⟨gi, hgi, hd⟩ := hund
      have hne := undecided_results_ne_nil t2 _ ⟨gi, hgi, hd, (h2 gi).2⟩
      rw [and_then_several t1 t2 g [] h1 hlen, hloop hs]
      simp only [Bool.false_eq_true, if_false]
      rw [if_neg (by simpa using hne)]

end tactical

namespace tactical

/-- A tactic that splits every goal into two subgoals. -/
def ex_split_tactic : tactic :=
  fun g result => ⟨g, result ++ [⟨[.atom 0]⟩, ⟨[.atom 1]⟩], none⟩

/-- Witness for `and_then_never_empty`: a split followed by `skip`. -/
theorem and_then_never_empty_witness :
    (and_then_tactical ex_split_tactic mk_skip_tactic ⟨[]⟩ []).result ≠ [] :=
  (and_then_never_empty ex_split_tactic mk_skip_tactic ⟨[]⟩ rfl
    (fun x => ⟨rfl, List.cons_ne_nil x []⟩)).2.1

end tactical

namespace poly_rewriter

/-- Witness for `updt_params_dependencies`: with `arith_ineq_lhs` true the AST order is not
selected. -/
theorem updt_params_dependencies_witness :
    ((example_rw true false false false true true false 10).updt_params
        ⟨false, true, true, false, 10, true⟩).m_ast_order ≠ true :=
  fun h => Bool.noConfusion
    ((updt_params_dependencies (example_rw true false false false true true false 10)
      ⟨false, true, true, false, 10, true⟩).2.2.1 h)

/-- Witness for `small_arity_constructors`: `mk_mul_app(2, x)` is `(* 2 x)` with `use_power`
on. -/
theorem small_arity_constructors_witness :
    (example_rw true false false false true true true 10).mk_mul_app_num 2 ex_x =
      .app .mul [.num 2, ex_x] :=
  (small_arity_constructors (example_rw true false false false true true true 10) ex_x ex_x
    2).2.2.2.2.2.2.1 (by decide!) (by decide) (by decide) (by decide)

/-- Witness for `ordinal_cases`: the ordinal of `(* 2 x)` is the node identifier of `x`. -/
theorem ordinal_cases_witness :
    (example_rw true false false false true false true 10).ordinal (.app .mul [.num 2, ex_x]) =
      ((example_rw true false false false true false true 10).get_id ex_x : Int) :=
  (ordinal_cases (example_rw true false false false true false true 10)
    (.app .mul [.num 2, ex_x])).2.1 2 ex_x [] rfl

end poly_rewriter

namespace lp

/-- Witness for `numeric_pair_lexicographic`: the pair `(1, 1/2)`. -/
theorem numeric_pair_lexicographic_witness :
    ceil ⟨1, 1 / 2⟩ = - floor (numeric_pair.neg ⟨1, 1 / 2⟩) :=
  (numeric_pair_lexicographic ⟨0, 0⟩ ⟨0, 1⟩ ⟨1, 1 / 2⟩).2.2.2.2.2

/-- Witness for `floor_ceil_bracket`: the pair `(1, 1/2)` is not an integer and its ceiling
is its floor plus one. -/
theorem floor_ceil_bracket_witness :
    ceil ⟨1, 1 / 2⟩ = floor ⟨1, 1 / 2⟩ + 1 :=
  (floor_ceil_bracket ⟨1, 1 / 2⟩).2.2.2.2.2.2.2 (by decide!)

end lp
